import Mathlib

/-!
# libpall: circular linked list engine (`src/src/cll.c`, `src/src/cll.h`)

A shallow embedding of the CLL engine and of the three containers built on it: the queue
(`fifo.c`), the stack (`lifo.c`) and the hash table of lists (`hmbt_cll.c`).

* Pointers to `struct cll_elem` are natural numbers, `0` is `NULL`.
* The heap of list nodes is a partial map from addresses to node records; reading or
  writing through a pointer that is `NULL` or not allocated yields `none` (undefined
  behaviour in C), so every operation returns an `Option`.
* `mm_alloc` is declared in `mm.h` and its body is not part of the sources: the address it
  hands back is an argument of the insert functions (`0` when the allocation fails).
* Payloads (`void *data`) are values of an arbitrary type `α`; they stand for non-null
  payload references, `none` stands for a `NULL` result.
* Loops that walk the ring take a fuel argument; `none` is returned when it runs out.
* `_count` and the statistics counters are natural numbers.
* The `destroy` callback is traced: every payload handed to it is appended to
  `destroyed`.
* A file descriptor (`pall_fd_t`) is a byte stream that `write`, `read` and the codec
  callbacks pass on; `errno` is not represented.
* A queue or a stack holds the list handler its member points to. An HMBT-CLL holds its
  array of list handlers, each with its own heap of nodes; an address that `mm_alloc`
  hands back is free in every one of them.
-/

namespace Pall

/-! ## Configuration flags (`cll.h`) -/

def CONFIG_SEARCH_FORWARD : Nat := 0x01
def CONFIG_SEARCH_BACKWARD : Nat := 0x02
def CONFIG_SEARCH_AUTO : Nat := 0x04
def CONFIG_SEARCH_LRU : Nat := 0x08
def CONFIG_INSERT_SORTED : Nat := 0x10
def CONFIG_INSERT_NEXT : Nat := 0x20
def CONFIG_INSERT_PREV : Nat := 0x40
def CONFIG_INSERT_TAIL : Nat := 0x80
def CONFIG_INSERT_HEAD : Nat := 0x100

/-- The negation `~CONFIG_SEARCH_BACKWARD` as a 32-bit mask. -/
def NOT_CONFIG_SEARCH_BACKWARD : Nat := 0xFFFFFFFD

/-! ## Data model -/

/-- A list node: `struct cll_elem`. -/
structure cll_elem (α : Type) where
  data : α
  next : Nat
  prev : Nat

/-- Statistical counters: `struct cll_stat`. -/
structure cll_stat where
  insert : Nat := 0
  insert_err : Nat := 0
  del : Nat := 0
  del_nf : Nat := 0
  search : Nat := 0
  search_nf : Nat := 0
  serialize : Nat := 0
  serialize_err : Nat := 0
  unserialize : Nat := 0
  unserialize_err : Nat := 0
  stat : Nat := 0
  count : Nat := 0
  pope : Nat := 0
  pope_nf : Nat := 0
  poph : Nat := 0
  poph_nf : Nat := 0
  collapse : Nat := 0
  iterate : Nat := 0
  rewind : Nat := 0
  set_config : Nat := 0
  get_config : Nat := 0
  elem_count_cur : Nat := 0
  elem_count_max : Nat := 0
deriving DecidableEq, Repr

/-- The heap of list nodes. -/
abbrev Heap (α : Type) := Nat → Option (cll_elem α)

/-- The functions the `insert` member of a handler can point to. -/
inductive insert_fn where
  | cll_insert
  | cll_insert_head
  | cll_insert_tail
  | cll_insert_sorted
deriving DecidableEq, Repr

/-- The functions the `search` member of a handler can point to. -/
inductive search_fn where
  | cll_search
  | cll_search_nop
deriving DecidableEq, Repr

/-- A byte stream standing for a file descriptor: `rd` is what remains to be read,
`wr` is what has been written, `room` is the number of bytes that can still be
written before `write` starts to fail. -/
structure pall_fd_t where
  rd : List Nat
  wr : List Nat
  room : Nat
deriving DecidableEq, Repr

/-- The list handler: `struct cll_handler`, together with the heap of its nodes and the
trace of the `destroy` callback. The members `del`, `serialize`, ... always point to
the one function of that name and are not represented. -/
structure cll_handler (α : Type) where
  mem : Heap α
  cll : Nat
  cll_head : Nat
  _iterate_start : Nat
  _iterate_cur : Nat
  _iterate_reverse : Int
  _stat : cll_stat
  _config_flags : Nat
  _count : Nat
  compare : Option (α → α → Int)
  ser_data : Option (pall_fd_t → α → pall_fd_t × Int)
  unser_data : Option (pall_fd_t → pall_fd_t × Option α)
  insert : insert_fn
  search : search_fn
  destroyed : List α

variable {α : Type}

/-! ## Memory primitives -/

/-- Read `p->next`. -/
def ld_next (m : Heap α) (p : Nat) : Option Nat := (m p).map (fun e => e.next)

/-- Read `p->prev`. -/
def ld_prev (m : Heap α) (p : Nat) : Option Nat := (m p).map (fun e => e.prev)

/-- Read `p->data`. -/
def ld_data (m : Heap α) (p : Nat) : Option α := (m p).map (fun e => e.data)

/-- The heap after `p->next = q`. -/
def wnext (m : Heap α) (p q : Nat) : Heap α :=
  fun a => if a = p then (m a).map (fun e => { e with next := q }) else m a

/-- The heap after `p->prev = q`. -/
def wprev (m : Heap α) (p q : Nat) : Heap α :=
  fun a => if a = p then (m a).map (fun e => { e with prev := q }) else m a

/-- Perform `p->next = q`; fails when `p` is not an allocated node. -/
def st_next (m : Heap α) (p q : Nat) : Option (Heap α) :=
  if (m p).isSome then some (wnext m p q) else none

/-- Perform `p->prev = q`; fails when `p` is not an allocated node. -/
def st_prev (m : Heap α) (p q : Nat) : Option (Heap α) :=
  if (m p).isSome then some (wprev m p q) else none

/-- The heap after a successful `n = mm_alloc(...)` followed by `n->data = data`; the link
fields of the fresh node are not initialised yet (they hold `0`). -/
def mm_new (m : Heap α) (n : Nat) (data : α) : Heap α :=
  fun a => if a = n then some ⟨data, 0, 0⟩ else m a

/-- The heap after `mm_free(p)`. -/
def mm_free (m : Heap α) (p : Nat) : Heap α :=
  fun a => if a = p then none else m a

/-- Sequencing of steps that may fail: the rest `f` runs on the value of `x`. -/
@[noinline] def obind {β γ : Type} (x : Option β) (f : β → Option γ) : Option γ :=
  match x with
  | none => none
  | some a => f a

/-! ## Statistics helpers -/

/-- The common tail of the insert functions: `_stat.insert ++; _count ++;` and the update
of the watermark `elem_count_max`. -/
def insert_account (h : cll_handler α) : cll_handler α :=
  let h1 := { h with _stat := { h._stat with insert := h._stat.insert + 1 },
                     _count := h._count + 1 }
  if h1._stat.elem_count_max < h1._count then
    { h1 with _stat := { h1._stat with elem_count_max := h1._count } }
  else h1

/-- The failure path of the insert functions: `_stat.insert_err ++`. -/
def insert_fail (h : cll_handler α) : cll_handler α :=
  { h with _stat := { h._stat with insert_err := h._stat.insert_err + 1 } }

/-! ## Operations (`cll.c`) -/

/-- The first node of a list: `n->next = n; n->prev = n;` on the fresh node `n`. -/
def link_self (m : Heap α) (n : Nat) : Option (Heap α) :=
  obind (st_next m n n) fun m1 => st_prev m1 n n

/-- Link the node `n` right before `pool`:
`n->next = pool; n->prev = pool->prev; pool->prev->next = n; pool->prev = n;` -/
def link_before (m : Heap α) (n pool : Nat) : Option (Heap α) :=
  -- n->next = pool;
  obind (st_next m n pool) fun m1 =>
  -- n->prev = pool->prev;
  obind (ld_prev m1 pool) fun pp =>
  obind (st_prev m1 n pp) fun m2 =>
  -- pool->prev->next = n;
  obind (ld_prev m2 pool) fun pp =>
  obind (st_next m2 pp n) fun m3 =>
  -- pool->prev = n;
  st_prev m3 pool n

/-- Link the node `n` right after `pool`:
`n->next = pool->next; n->prev = pool; pool->next->prev = n; pool->next = n;` -/
def link_after (m : Heap α) (n pool : Nat) : Option (Heap α) :=
  -- n->next = pool->next;
  obind (ld_next m pool) fun pn =>
  obind (st_next m n pn) fun m1 =>
  -- n->prev = pool;
  obind (st_prev m1 n pool) fun m2 =>
  -- pool->next->prev = n;
  obind (ld_next m2 pool) fun pn =>
  obind (st_prev m2 pn n) fun m3 =>
  -- pool->next = n;
  st_next m3 pool n

/-- Take `pool` out of its ring: `pool->prev->next = pool->next; pool->next->prev = pool->prev;` -/
def splice_out (m : Heap α) (pool : Nat) : Option (Heap α) :=
  obind (ld_prev m pool) fun pp =>
  obind (ld_next m pool) fun pn =>
  obind (st_next m pp pn) fun m1 =>
  obind (ld_next m1 pool) fun pn =>
  obind (ld_prev m1 pool) fun pp =>
  st_prev m1 pn pp

/-- `_cll_move_to_head` -/
def _cll_move_to_head (h : cll_handler α) (elem : Nat) : Option (cll_handler α) :=
  let head_ptr := h.cll_head
  if elem ≠ head_ptr then
    -- elem->prev->next = elem->next; elem->next->prev = elem->prev;
    obind (splice_out h.mem elem) fun m2 =>
    -- elem->next = head_ptr; elem->prev = head_ptr->prev;
    -- head_ptr->prev->next = elem; head_ptr->prev = elem;
    obind (link_before m2 elem head_ptr) fun m6 =>
    -- handler->cll_head = elem;
    some { h with mem := m6, cll_head := elem }
  else some h

/-- `_cll_insert_head`; `n` is the result of `mm_alloc`. -/
def _cll_insert_head (h : cll_handler α) (data : α) (n : Nat) :
    Option (cll_handler α × Int) :=
  if n = 0 then some (insert_fail h, -1)
  else
    let m0 := mm_new h.mem n data
    obind
      (if h.cll = 0 then
        obind (link_self m0 n) fun m2 =>
        some { h with mem := m2, cll := n, cll_head := n }
      else
        obind (link_before m0 n h.cll_head) fun m4 =>
        some { h with mem := m4, cll_head := n })
      fun h1 => some (insert_account h1, 0)

/-- `_cll_insert_tail` -/
def _cll_insert_tail (h : cll_handler α) (data : α) (n : Nat) :
    Option (cll_handler α × Int) :=
  obind (_cll_insert_head h data n) fun r =>
  if r.2 < 0 then some (r.1, -1)
  else
    -- handler->cll_head = handler->cll_head->next;
    obind (ld_next r.1.mem r.1.cll_head) fun hn =>
    some ({ r.1 with cll_head := hn }, 0)

/-- The backward loop of `_cll_insert_sorted`:
`do pool = pool->prev; while (pool != cll_head->prev && compare(pool->data, data) > 0)`. -/
def _cll_insert_sorted_back (cmp : α → α → Int) (m : Heap α) (head : Nat) (data : α) :
    Nat → Nat → Option Nat
  | 0, _ => none
  | fuel + 1, pool =>
    obind (ld_prev m pool) fun pool1 =>
    obind (ld_prev m head) fun hp =>
    if pool1 ≠ hp then
      obind (ld_data m pool1) fun d =>
      if cmp d data > 0 then _cll_insert_sorted_back cmp m head data fuel pool1
      else some pool1
    else some pool1

/-- The forward loop of `_cll_insert_sorted`:
`do pool = pool->next; while (pool != cll_head && compare(pool->data, data) < 0)`. -/
def _cll_insert_sorted_fwd (cmp : α → α → Int) (m : Heap α) (head : Nat) (data : α) :
    Nat → Nat → Option Nat
  | 0, _ => none
  | fuel + 1, pool =>
    obind (ld_next m pool) fun pool1 =>
    if pool1 ≠ head then
      obind (ld_data m pool1) fun d =>
      if cmp d data < 0 then _cll_insert_sorted_fwd cmp m head data fuel pool1
      else some pool1
    else some pool1

/-- `_cll_insert_sorted` -/
def _cll_insert_sorted (fuel : Nat) (h : cll_handler α) (data : α) (n : Nat) :
    Option (cll_handler α × Int) :=
  let pool := h.cll
  if n = 0 then some (insert_fail h, -1)
  else
    let m0 := mm_new h.mem n data
    obind
      (if pool = 0 then
        obind (link_self m0 n) fun m2 =>
        some { h with mem := m2, cll_head := n, cll := n }
      else
        obind h.compare fun cmp =>
        obind (ld_data m0 pool) fun pd =>
        if cmp pd data > 0 then
          obind (_cll_insert_sorted_back cmp m0 h.cll_head data fuel pool) fun pool =>
          obind (link_after m0 n pool) fun m4 =>
          -- if (n->next == handler->cll_head) handler->cll_head = n;
          obind (ld_next m4 n) fun nn =>
          some { h with mem := m4, cll_head := if nn = h.cll_head then n else h.cll_head,
                        cll := n }
        else
          obind (_cll_insert_sorted_fwd cmp m0 h.cll_head data fuel pool) fun pool =>
          obind (link_before m0 n pool) fun m4 =>
          some { h with mem := m4, cll := n })
      fun h1 => some (insert_account h1, 0)

/-- `_cll_insert` -/
def _cll_insert (h : cll_handler α) (data : α) (n : Nat) :
    Option (cll_handler α × Int) :=
  let pool := h.cll
  if n = 0 then some (insert_fail h, -1)
  else
    let m0 := mm_new h.mem n data
    obind
      (if pool = 0 then
        obind (link_self m0 n) fun m2 =>
        some { h with mem := m2, cll_head := n, cll := n }
      else if h._config_flags &&& CONFIG_INSERT_NEXT ≠ 0 then
        obind (link_after m0 n pool) fun m4 =>
        some { h with mem := m4, cll := n }
      else
        obind (link_before m0 n pool) fun m4 =>
        some { h with mem := m4, cll := n })
      fun h1 => some (insert_account h1, 0)

/-- The walk of `_cll_unlink`: the `for (;;)` loop, together with what follows it. -/
def _cll_unlink_loop (data : α) (start : Nat) :
    Nat → cll_handler α → Nat → Option (cll_handler α × Option α)
  | 0, _, _ => none
  | fuel + 1, h, pool =>
    obind h.compare fun cmp =>
    obind (ld_data h.mem pool) fun d =>
    if cmp data d = 0 then
      obind (ld_next h.mem pool) fun pn =>
      if pool = pn then
        -- elem_data = pool->data; mm_free(pool); everything is reset to NULL
        let h1 := { h with mem := mm_free h.mem pool, cll := 0, cll_head := 0,
                           _iterate_cur := 0, _iterate_start := 0 }
        some ({ h1 with _count := h1._count - 1 }, some d)
      else
        -- if (handler->cll_head == pool) handler->cll_head = pool->next;
        let h1 := if h.cll_head = pool then { h with cll_head := pn } else h
        let ptr := pool
        -- pool->prev->next = pool->next; pool->next->prev = pool->prev;
        obind (splice_out h1.mem pool) fun m2 =>
        -- handler->cll = pool->next;
        obind (ld_next m2 pool) fun pn =>
        let h2 := { h1 with mem := m2, cll := pn }
        -- if (handler->cll_head == pool) handler->cll_head = pool->next;
        let h3 := if h2.cll_head = pool then { h2 with cll_head := pn } else h2
        -- if (ptr == handler->_iterate_cur) handler->_iterate_cur = ptr->next;
        obind (if ptr = h3._iterate_cur then
                 obind (ld_next h3.mem ptr) fun x => some { h3 with _iterate_cur := x }
               else some h3) fun h4 =>
        -- if (ptr == handler->_iterate_start) handler->_iterate_start = ptr->next;
        obind (if ptr = h4._iterate_start then
                 obind (ld_next h4.mem ptr) fun x => some { h4 with _iterate_start := x }
               else some h4) fun h5 =>
        -- elem_data = ptr->data; mm_free(ptr);
        obind (ld_data h5.mem ptr) fun elem_data =>
        let h6 := { h5 with mem := mm_free h5.mem ptr }
        some ({ h6 with _count := h6._count - 1 }, some elem_data)
    else
      -- pool = (flags & CONFIG_SEARCH_BACKWARD) ? pool->prev : pool->next;
      obind (if h._config_flags &&& CONFIG_SEARCH_BACKWARD ≠ 0 then ld_prev h.mem pool
             else ld_next h.mem pool) fun pool1 =>
      if pool1 = start then some (h, none)
      else _cll_unlink_loop data start fuel h pool1

/-- The choice of the starting node that `_cll_unlink` and `_cll_search` share: the head
under `CONFIG_SEARCH_LRU`, else the cursor, with `CONFIG_SEARCH_BACKWARD` set or cleared
first under `CONFIG_SEARCH_AUTO`. -/
def search_start (h : cll_handler α) (data : α) : Option (cll_handler α × Nat) :=
  let pool := h.cll
  if h._config_flags &&& CONFIG_SEARCH_LRU ≠ 0 then some (h, h.cll_head)
  else if h._config_flags &&& CONFIG_SEARCH_AUTO ≠ 0 then
    obind h.compare fun cmp =>
    obind (ld_data h.mem pool) fun pd =>
    if cmp pd data > 0 then
      some ({ h with _config_flags := h._config_flags ||| CONFIG_SEARCH_BACKWARD }, pool)
    else
      some ({ h with _config_flags := h._config_flags &&& NOT_CONFIG_SEARCH_BACKWARD }, pool)
  else some (h, pool)

/-- `_cll_unlink` -/
def _cll_unlink (fuel : Nat) (h : cll_handler α) (data : α) :
    Option (cll_handler α × Option α) :=
  if h.cll = 0 then some (h, none)
  else
    obind (search_start h data) fun r =>
    _cll_unlink_loop data r.2 fuel r.1 r.2

/-- `_cll_delete` -/
def _cll_delete (fuel : Nat) (h : cll_handler α) (data : α) :
    Option (cll_handler α × Int) :=
  obind (_cll_unlink fuel h data) fun r =>
  match r.2 with
  | some d =>
    -- handler->destroy(d); handler->_stat.del ++;
    some ({ r.1 with destroyed := r.1.destroyed ++ [d],
                     _stat := { r.1._stat with del := r.1._stat.del + 1 } }, 0)
  | none =>
    some ({ r.1 with _stat := { r.1._stat with del_nf := r.1._stat.del_nf + 1 } }, -1)

/-- `_cll_search_nop` -/
def _cll_search_nop (h : cll_handler α) (_data : α) : Option (cll_handler α × Option α) :=
  some (h, none)

/-- The walk of `_cll_search`: the `for (;;)` loop, together with what follows it. -/
def _cll_search_loop (data : α) (start : Nat) :
    Nat → cll_handler α → Nat → Option (cll_handler α × Option α)
  | 0, _, _ => none
  | fuel + 1, h, pool =>
    obind h.compare fun cmp =>
    obind (ld_data h.mem pool) fun d =>
    if cmp data d = 0 then
      obind (if h._config_flags &&& CONFIG_SEARCH_LRU ≠ 0 then _cll_move_to_head h pool
             else some { h with cll := pool }) fun h1 =>
      -- handler->_stat.search ++; return pool->data;
      let h2 := { h1 with _stat := { h1._stat with search := h1._stat.search + 1 } }
      obind (ld_data h2.mem pool) fun r => some (h2, some r)
    else
      obind (if h._config_flags &&& CONFIG_SEARCH_BACKWARD ≠ 0 then ld_prev h.mem pool
             else ld_next h.mem pool) fun pool1 =>
      if pool1 = start then
        -- break; handler->_stat.search_nf ++; return NULL;
        some ({ h with _stat := { h._stat with search_nf := h._stat.search_nf + 1 } }, none)
      else _cll_search_loop data start fuel h pool1

/-- `_cll_search` -/
def _cll_search (fuel : Nat) (h : cll_handler α) (data : α) :
    Option (cll_handler α × Option α) :=
  if h.cll = 0 then
    some ({ h with _stat := { h._stat with search_nf := h._stat.search_nf + 1 } }, none)
  else
    obind (search_start h data) fun r =>
    _cll_search_loop data r.2 fuel r.1 r.2

/-- `_cll_count` -/
def _cll_count (h : cll_handler α) : cll_handler α × Nat :=
  ({ h with _stat := { h._stat with count := h._stat.count + 1 } }, h._count)

/-- `_cll_stat`: the returned pointer designates the `_stat` member of the result. -/
def _cll_stat (h : cll_handler α) : cll_handler α :=
  { h with _stat := { h._stat with elem_count_cur := h._count, stat := h._stat.stat + 1 } }

/-- `_cll_stat_reset` -/
def _cll_stat_reset (h : cll_handler α) : cll_handler α :=
  { h with _stat := {} }

/-- `_cll_pope` -/
def _cll_pope (fuel : Nat) (h : cll_handler α) (data : α) :
    Option (cll_handler α × Option α) :=
  obind (_cll_unlink fuel h data) fun r =>
  match r.2 with
  | some d => some ({ r.1 with _stat := { r.1._stat with pope := r.1._stat.pope + 1 } }, some d)
  | none => some ({ r.1 with _stat := { r.1._stat with pope_nf := r.1._stat.pope_nf + 1 } }, none)

/-- `_cll_poph` -/
def _cll_poph (h : cll_handler α) : Option (cll_handler α × Option α) :=
  if h.cll_head = 0 then
    some ({ h with _stat := { h._stat with poph_nf := h._stat.poph_nf + 1 } }, none)
  else
    obind (ld_next h.mem h.cll_head) fun hn =>
    obind
      (if h.cll_head = hn then
        obind (ld_data h.mem h.cll_head) fun pop_data =>
        some ({ h with mem := mm_free h.mem h.cll_head, cll := 0, cll_head := 0,
                       _iterate_cur := 0, _iterate_start := 0 }, pop_data)
      else
        let ptr := h.cll_head
        -- head->prev->next = head->next; head->next->prev = head->prev;
        obind (splice_out h.mem h.cll_head) fun m2 =>
        -- handler->cll = handler->cll_head->next; handler->cll_head = handler->cll;
        obind (ld_next m2 h.cll_head) fun hn =>
        let h2 := { h with mem := m2, cll := hn, cll_head := hn }
        obind (if ptr = h2._iterate_cur then
                 obind (ld_next h2.mem ptr) fun x => some { h2 with _iterate_cur := x }
               else some h2) fun h3 =>
        obind (if ptr = h3._iterate_start then
                 obind (ld_next h3.mem ptr) fun x => some { h3 with _iterate_start := x }
               else some h3) fun h4 =>
        obind (ld_data h4.mem ptr) fun pop_data =>
        some ({ h4 with mem := mm_free h4.mem ptr }, pop_data))
      fun r =>
        some ({ r.1 with _stat := { r.1._stat with poph := r.1._stat.poph + 1 },
                         _count := r.1._count - 1 }, some r.2)

/-- The `while (pool)` loop of `_cll_collapse`. -/
def _cll_collapse_loop : Nat → cll_handler α → Nat → Option (cll_handler α)
  | 0, _, _ => none
  | fuel + 1, h, pool =>
    if pool = 0 then some h
    else
      obind (ld_next h.mem pool) fun pn =>
      if pool = pn then
        obind (ld_data h.mem pool) fun d =>
        some { h with destroyed := h.destroyed ++ [d], mem := mm_free h.mem pool,
                      cll := 0, cll_head := 0, _iterate_start := 0, _iterate_cur := 0 }
      else
        let ptr := pool
        -- pool->next->prev = pool->prev;
        obind (ld_prev h.mem pool) fun pp =>
        obind (st_prev h.mem pn pp) fun m1 =>
        -- pool->prev->next = pool->next;
        obind (ld_prev m1 pool) fun pp =>
        obind (ld_next m1 pool) fun pn =>
        obind (st_next m1 pp pn) fun m2 =>
        -- handler->cll = pool->next; pool = pool->next;
        obind (ld_next m2 pool) fun pn =>
        -- handler->destroy(ptr->data); mm_free(ptr);
        obind (ld_data m2 ptr) fun d =>
        _cll_collapse_loop fuel
          { h with mem := mm_free m2 ptr, cll := pn, destroyed := h.destroyed ++ [d] } pn

/-- `_cll_collapse` -/
def _cll_collapse (fuel : Nat) (h : cll_handler α) : Option (cll_handler α) :=
  obind (_cll_collapse_loop fuel h h.cll) fun h1 =>
  some { h1 with _stat := { h1._stat with collapse := h1._stat.collapse + 1 }, _count := 0 }

/-- `_cll_iterate` -/
def _cll_iterate (h : cll_handler α) : Option (cll_handler α × Option α) :=
  if h.cll = 0 then
    some ({ h with _stat := { h._stat with iterate := h._stat.iterate + 1 } }, none)
  else if h._iterate_start = 0 then
    obind
      (if h._iterate_reverse ≠ 0 then
        -- _iterate_start = cll_head->prev; _iterate_cur = cll_head->prev->prev;
        obind (ld_prev h.mem h.cll_head) fun hp =>
        obind (ld_prev h.mem hp) fun hpp =>
        some { h with _iterate_start := hp, _iterate_cur := hpp }
      else
        -- _iterate_start = cll_head; _iterate_cur = cll_head->next;
        obind (ld_next h.mem h.cll_head) fun hn =>
        some { h with _iterate_start := h.cll_head, _iterate_cur := hn })
      fun h1 =>
        obind (ld_data h1.mem h1._iterate_start) fun d => some (h1, some d)
  else if h._iterate_cur = h._iterate_start then
    some ({ h with _stat := { h._stat with iterate := h._stat.iterate + 1 } }, none)
  else
    let ptr := h._iterate_cur
    obind (if h._iterate_reverse ≠ 0 then ld_prev h.mem h._iterate_cur
           else ld_next h.mem h._iterate_cur) fun c =>
    let h1 := { h with cll := ptr, _iterate_cur := c }
    obind (ld_data h1.mem ptr) fun d => some (h1, some d)

/-- `_cll_rewind` -/
def _cll_rewind (h : cll_handler α) (to_ : Int) : cll_handler α :=
  { h with _iterate_start := 0, _iterate_cur := 0, _iterate_reverse := to_,
           _stat := { h._stat with rewind := h._stat.rewind + 1 } }

/-- `_cll_set_config`; the 32-bit argument is taken modulo `2^32`. -/
def _cll_set_config (h : cll_handler α) (flags0 : Nat) : cll_handler α × Nat :=
  let flags := flags0 % 4294967296
  let old_flags := flags
  let h1 := { h with _config_flags := flags }
  let h2 :=
    if flags &&& CONFIG_INSERT_TAIL ≠ 0 then { h1 with insert := insert_fn.cll_insert_tail }
    else if flags &&& CONFIG_INSERT_HEAD ≠ 0 then { h1 with insert := insert_fn.cll_insert_head }
    else if flags &&& CONFIG_INSERT_SORTED ≠ 0 then
      { h1 with insert := insert_fn.cll_insert_sorted }
    else { h1 with insert := insert_fn.cll_insert }
  ({ h2 with _stat := { h2._stat with set_config := h2._stat.set_config + 1 } }, old_flags)

/-- `_cll_get_config` -/
def _cll_get_config (h : cll_handler α) : cll_handler α × Nat :=
  ({ h with _stat := { h._stat with get_config := h._stat.get_config + 1 } }, h._config_flags)

/-- `pall_cll_init`; `destroy` tells whether a destroy callback is supplied, `ok` whether
the allocation of the handler succeeds. The result `none` is the `NULL` handler. -/
def pall_cll_init (compare : Option (α → α → Int)) (destroy : Bool)
    (ser_data : Option (pall_fd_t → α → pall_fd_t × Int))
    (unser_data : Option (pall_fd_t → pall_fd_t × Option α)) (ok : Bool) :
    Option (cll_handler α) :=
  if !destroy then none
  else if !ok then none
  else some
    { mem := fun _ => none
      cll := 0
      cll_head := 0
      _iterate_start := 0
      _iterate_cur := 0
      _iterate_reverse := 0
      _stat := {}
      _config_flags := CONFIG_SEARCH_LRU ||| CONFIG_INSERT_HEAD
      _count := 0
      compare := compare
      ser_data := ser_data
      unser_data := unser_data
      insert := insert_fn.cll_insert
      search := if compare.isSome then search_fn.cll_search else search_fn.cll_search_nop
      destroyed := [] }

/-- `pall_cll_insert`: `h->insert(h, data)` -/
def pall_cll_insert (fuel : Nat) (h : cll_handler α) (data : α) (n : Nat) :
    Option (cll_handler α × Int) :=
  match h.insert with
  | insert_fn.cll_insert => _cll_insert h data n
  | insert_fn.cll_insert_head => _cll_insert_head h data n
  | insert_fn.cll_insert_tail => _cll_insert_tail h data n
  | insert_fn.cll_insert_sorted => _cll_insert_sorted fuel h data n

/-- `pall_cll_delete` -/
def pall_cll_delete (fuel : Nat) (h : cll_handler α) (data : α) :
    Option (cll_handler α × Int) :=
  _cll_delete fuel h data

/-- `pall_cll_search`: `h->search(h, data)` -/
def pall_cll_search (fuel : Nat) (h : cll_handler α) (data : α) :
    Option (cll_handler α × Option α) :=
  match h.search with
  | search_fn.cll_search => _cll_search fuel h data
  | search_fn.cll_search_nop => _cll_search_nop h data

/-- `pall_cll_pope` -/
def pall_cll_pope (fuel : Nat) (h : cll_handler α) (data : α) :
    Option (cll_handler α × Option α) :=
  _cll_pope fuel h data

/-- `pall_cll_poph` -/
def pall_cll_poph (h : cll_handler α) : Option (cll_handler α × Option α) :=
  _cll_poph h

/-- `pall_cll_collapse` -/
def pall_cll_collapse (fuel : Nat) (h : cll_handler α) : Option (cll_handler α) :=
  _cll_collapse fuel h

/-- `pall_cll_iterate` -/
def pall_cll_iterate (h : cll_handler α) : Option (cll_handler α × Option α) :=
  _cll_iterate h

/-- `pall_cll_rewind` -/
def pall_cll_rewind (h : cll_handler α) (to_ : Int) : cll_handler α :=
  _cll_rewind h to_

/-- `pall_cll_set_config` -/
def pall_cll_set_config (h : cll_handler α) (flags : Nat) : cll_handler α × Nat :=
  _cll_set_config h flags

/-- `pall_cll_get_config` -/
def pall_cll_get_config (h : cll_handler α) : cll_handler α × Nat :=
  _cll_get_config h

/-- `pall_cll_count` -/
def pall_cll_count (h : cll_handler α) : cll_handler α × Nat :=
  _cll_count h

/-- `pall_cll_stat` -/
def pall_cll_stat (h : cll_handler α) : cll_handler α :=
  _cll_stat h

/-- `pall_cll_stat_reset` -/
def pall_cll_stat_reset (h : cll_handler α) : cll_handler α :=
  _cll_stat_reset h

/-! ## Serialization (`cll.c`, `pall.h`) -/

/-- `pall_write(fd, data, count)`, that is `write`: the bytes that fit are written; the
result is their number. -/
def pall_write (fd : pall_fd_t) (data : List Nat) : pall_fd_t × Int :=
  let k := min data.length fd.room
  ({ fd with wr := fd.wr ++ data.take k, room := fd.room - k }, (k : Int))

/-- `pall_read(fd, data, count)`, that is `read`: the result holds the bytes read, at most
`count` of them. -/
def pall_read (fd : pall_fd_t) (count : Nat) : pall_fd_t × List Nat :=
  ({ fd with rd := fd.rd.drop count }, fd.rd.take count)

/-- The four bytes of `pall_htonl(c)`, in the order of the memory: the 32-bit value `c`,
most significant byte first. -/
def pall_htonl (c : Nat) : List Nat :=
  [c % 4294967296 / 16777216, c / 65536 % 256, c / 256 % 256, c % 256]

/-- The value `ntohl` makes of four bytes read into a 32-bit word. -/
def ntohl (bs : List Nat) : Nat :=
  match bs with
  | [b0, b1, b2, b3] => b0 * 16777216 + b1 * 65536 + b2 * 256 + b3
  | _ => 0

/-- The `for (;;)` loop of `_cll_serialize`, together with what follows it. -/
def _cll_serialize_loop (ser : pall_fd_t → α → pall_fd_t × Int) (start : Nat) :
    Nat → cll_handler α → pall_fd_t → Nat → Option (cll_handler α × pall_fd_t × Int)
  | 0, _, _, _ => none
  | fuel + 1, h, fd, pool =>
    obind (ld_data h.mem pool) fun d =>
    let r := ser fd d
    if r.2 < 0 then
      some ({ h with _stat := { h._stat with serialize_err := h._stat.serialize_err + 1 } },
        r.1, -1)
    else
      obind (ld_next h.mem pool) fun pool1 =>
      if pool1 = start then
        some ({ h with _stat := { h._stat with serialize := h._stat.serialize + 1 } }, r.1, 0)
      else _cll_serialize_loop ser start fuel h r.1 pool1

/-- `_cll_serialize` -/
def _cll_serialize (fuel : Nat) (h : cll_handler α) (fd : pall_fd_t) :
    Option (cll_handler α × pall_fd_t × Int) :=
  match h.ser_data with
  | none =>
    some ({ h with _stat := { h._stat with serialize_err := h._stat.serialize_err + 1 } },
      fd, -1)
  | some ser =>
    let w := pall_write fd (pall_htonl h._count)
    if w.2 ≠ 4 then
      some ({ h with _stat := { h._stat with serialize_err := h._stat.serialize_err + 1 } },
        w.1, -1)
    else if h.cll = 0 then
      some ({ h with _stat := { h._stat with serialize := h._stat.serialize + 1 } }, w.1, 0)
    else _cll_serialize_loop ser h.cll_head fuel h w.1 h.cll_head

/-- The `for (count = ntohl(count); count; count --)` loop of `_cll_unserialize`, together
with what follows it; the `i`-th allocation (counted from `a`) returns the address
`a + i`. -/
def _cll_unserialize_loop (unser : pall_fd_t → pall_fd_t × Option α) (fuel : Nat) :
    Nat → cll_handler α → pall_fd_t → Nat → Option (cll_handler α × pall_fd_t × Int)
  | 0, h, fd, _ =>
    some ({ h with _stat := { h._stat with unserialize := h._stat.unserialize + 1 } }, fd, 0)
  | count + 1, h, fd, a =>
    let r := unser fd
    match r.2 with
    | none =>
      some ({ h with _stat := { h._stat with
                unserialize_err := h._stat.unserialize_err + 1 } }, r.1, -1)
    | some data =>
      -- handler->insert(handler, data)
      obind (match h.insert with
        | insert_fn.cll_insert => _cll_insert h data a
        | insert_fn.cll_insert_head => _cll_insert_head h data a
        | insert_fn.cll_insert_tail => _cll_insert_tail h data a
        | insert_fn.cll_insert_sorted => _cll_insert_sorted fuel h data a) fun ri =>
      if ri.2 < 0 then
        some ({ ri.1 with _stat := { ri.1._stat with
                  unserialize_err := ri.1._stat.unserialize_err + 1 } }, r.1, -1)
      else _cll_unserialize_loop unser fuel count ri.1 r.1 (a + 1)

/-- `_cll_unserialize` -/
def _cll_unserialize (fuel : Nat) (h : cll_handler α) (fd : pall_fd_t) (a : Nat) :
    Option (cll_handler α × pall_fd_t × Int) :=
  match h.unser_data with
  | none =>
    some ({ h with _stat := { h._stat with
              unserialize_err := h._stat.unserialize_err + 1 } }, fd, -1)
  | some unser =>
    let r := pall_read fd 4
    if r.2.length ≠ 4 then
      some ({ h with _stat := { h._stat with
                unserialize_err := h._stat.unserialize_err + 1 } }, r.1, -1)
    else _cll_unserialize_loop unser fuel (ntohl r.2) h r.1 a

/-- `pall_cll_serialize` -/
def pall_cll_serialize (fuel : Nat) (h : cll_handler α) (fd : pall_fd_t) :
    Option (cll_handler α × pall_fd_t × Int) :=
  _cll_serialize fuel h fd

/-- `pall_cll_unserialize` -/
def pall_cll_unserialize (fuel : Nat) (h : cll_handler α) (fd : pall_fd_t) (a : Nat) :
    Option (cll_handler α × pall_fd_t × Int) :=
  _cll_unserialize fuel h fd a

/-! ## Observations -/

/-- The payloads of the `k` nodes met when following `next` from `p`. -/
def walk_next (m : Heap α) : Nat → Nat → List α
  | 0, _ => []
  | k + 1, p =>
    match m p with
    | none => []
    | some e => e.data :: walk_next m k e.next

/-- The head-to-tail payload sequence: the payloads of the `_count` nodes met when following
`next` from `cll_head`. -/
def head_to_tail (h : cll_handler α) : List α :=
  walk_next h.mem h._count h.cll_head

/-- The node reached from `p` after `k` steps, each step being given by `f`. -/
def iter_opt (f : Nat → Option Nat) : Nat → Nat → Option Nat
  | 0, p => some p
  | k + 1, p => obind (f p) fun q => iter_opt f k q

/-- The node reached from `p` after `k` steps along `next`. -/
def iter_next (m : Heap α) (k p : Nat) : Option Nat := iter_opt (ld_next m) k p

/-- The node reached from `p` after `k` steps along `prev`. -/
def iter_prev (m : Heap α) (k p : Nat) : Option Nat := iter_opt (ld_prev m) k p

/-- The payload of the head node. -/
def head_data (h : cll_handler α) : Option α := ld_data h.mem h.cll_head

/-- Insert the payloads `xs` one after the other through `pall_cll_insert`, the `i`-th
allocation (counted from `a`) returning the address `a + i`. -/
def insert_all (fuel : Nat) : cll_handler α → List α → Nat → Option (cll_handler α)
  | h, [], _ => some h
  | h, x :: xs, a =>
    obind (pall_cll_insert fuel h x a) fun r => insert_all fuel r.1 xs (a + 1)

/-- Call `pall_cll_iterate` `k` times and collect the results. -/
def iterate_n : Nat → cll_handler α → Option (cll_handler α × List (Option α))
  | 0, h => some (h, [])
  | k + 1, h =>
    obind (pall_cll_iterate h) fun r =>
    obind (iterate_n k r.1) fun r2 => some (r2.1, r.2 :: r2.2)

/-- The comparison of the example programs: by numeric identifier. -/
def compare_id (a b : Nat) : Int :=
  if a > b then 1 else if a < b then -1 else 0


/-! ## Cyclic lists of addresses -/

/-- The cyclic successor of `a` in `l`. -/
def cnext (l : List Nat) (a : Nat) : Nat := l.nextOr a (l.headD 0)

/-- The cyclic predecessor of `a` in `l`. -/
def cprev (l : List Nat) (a : Nat) : Nat := cnext l.reverse a

/-- The nodes at the addresses `l` are linked into a ring, in this order. -/
def RingOK (m : Heap α) (l : List Nat) : Prop :=
  l.Nodup ∧ ∀ a ∈ l, ld_next m a = some (cnext l a) ∧ ld_prev m a = some (cprev l a)

/-- The node at `a` is allocated. -/
def live (m : Heap α) (a : Nat) : Prop := (m a).isSome = true

/-- The heap holds exactly the nodes `L` (address and payload), linked into a ring in this
order; no other address is allocated and `NULL` is not one of them. -/
structure HeapAbs (m : Heap α) (L : List (Nat × α)) : Prop where
  ring : RingOK m (L.map Prod.fst)
  data : ∀ p ∈ L, ld_data m p.1 = some p.2
  exact : ∀ a, a ∉ L.map Prod.fst → m a = none
  nonnull : 0 ∉ L.map Prod.fst

/-- The abstraction relation: the heap of `h` holds exactly the nodes `L`, linked into a
ring in this order, the first one being the head; the cursor and the iteration bookmarks
designate nodes of the ring, and `_count` is the number of nodes. -/
structure Abs (h : cll_handler α) (L : List (Nat × α)) : Prop where
  heap : HeapAbs h.mem L
  head : h.cll_head = (L.map Prod.fst).headD 0
  cur : (L = [] ∧ h.cll = 0) ∨ h.cll ∈ L.map Prod.fst
  count : h._count = L.length
  marks : (h._iterate_start = 0 ∧ h._iterate_cur = 0) ∨
    (h._iterate_start ∈ L.map Prod.fst ∧ h._iterate_cur ∈ L.map Prod.fst)

/-! ## The ring walk that `_cll_search` and `_cll_unlink` share -/

/-- Walk from `pool` with the step `stp` until a node passes the test `hit` (the result is
that node) or the walk is back at `start` (the result is `none`). -/
def walk_find (stp : Nat → Option Nat) (hit : Nat → Option Bool) (start : Nat) :
    Nat → Nat → Option (Option Nat)
  | 0, _ => none
  | fuel + 1, pool =>
    obind (hit pool) fun b =>
    if b then some (some pool)
    else
      obind (stp pool) fun pool1 =>
      if pool1 = start then some none else walk_find stp hit start fuel pool1

/-- The step of the walk: `pool->prev` under `CONFIG_SEARCH_BACKWARD`, else `pool->next`. -/
def search_step (h : cll_handler α) (pool : Nat) : Option Nat :=
  if h._config_flags &&& CONFIG_SEARCH_BACKWARD ≠ 0 then ld_prev h.mem pool
  else ld_next h.mem pool

/-- The test of the walk: `!compare(data, pool->data)`. -/
def search_test (h : cll_handler α) (data : α) (pool : Nat) : Option Bool :=
  obind h.compare fun cmp =>
  obind (ld_data h.mem pool) fun d => some (decide (cmp data d = 0))

/-- What `_cll_search` does with the node it has found. -/
def search_hit (h : cll_handler α) (pool : Nat) : Option (cll_handler α × Option α) :=
  obind (if h._config_flags &&& CONFIG_SEARCH_LRU ≠ 0 then _cll_move_to_head h pool
         else some { h with cll := pool }) fun h1 =>
  let h2 := { h1 with _stat := { h1._stat with search := h1._stat.search + 1 } }
  obind (ld_data h2.mem pool) fun r => some (h2, some r)

/-- What `_cll_search` does when the walk is back at its start. -/
def search_miss (h : cll_handler α) : cll_handler α × Option α :=
  ({ h with _stat := { h._stat with search_nf := h._stat.search_nf + 1 } }, none)

/-- What `_cll_unlink` does with the node it has found. -/
def unlink_hit (h : cll_handler α) (pool : Nat) : Option (cll_handler α × Option α) :=
  obind (ld_data h.mem pool) fun d =>
  obind (ld_next h.mem pool) fun pn =>
  if pool = pn then
    let h1 := { h with mem := mm_free h.mem pool, cll := 0, cll_head := 0,
                       _iterate_cur := 0, _iterate_start := 0 }
    some ({ h1 with _count := h1._count - 1 }, some d)
  else
    let h1 := if h.cll_head = pool then { h with cll_head := pn } else h
    let ptr := pool
    obind (splice_out h1.mem pool) fun m2 =>
    obind (ld_next m2 pool) fun pn =>
    let h2 := { h1 with mem := m2, cll := pn }
    let h3 := if h2.cll_head = pool then { h2 with cll_head := pn } else h2
    obind (if ptr = h3._iterate_cur then
             obind (ld_next h3.mem ptr) fun x => some { h3 with _iterate_cur := x }
           else some h3) fun h4 =>
    obind (if ptr = h4._iterate_start then
             obind (ld_next h4.mem ptr) fun x => some { h4 with _iterate_start := x }
           else some h4) fun h5 =>
    obind (ld_data h5.mem ptr) fun elem_data =>
    let h6 := { h5 with mem := mm_free h5.mem ptr }
    some ({ h6 with _count := h6._count - 1 }, some elem_data)

/-- The order in which the walk of `_cll_search` and `_cll_unlink` visits the nodes of the
list `pre ++ s :: post` when it starts at `s`. -/
def search_order (h : cll_handler α) (pre : List (Nat × α)) (s : Nat × α)
    (post : List (Nat × α)) : List (Nat × α) :=
  if h._config_flags &&& CONFIG_SEARCH_BACKWARD ≠ 0 then s :: pre.reverse ++ post.reverse
  else s :: post ++ pre

/-- Where `_cll_insert_sorted` puts the new node `new`, with payload `x`, in the list
`pre ++ c :: post` whose cursor is at `c`: going backward from the cursor when the payload
of the cursor is greater than `x`, right after the first node whose payload is not greater
than `x`, or in front of the list when there is none before the head; going forward
otherwise, right before the first node whose payload is not less than `x`, or at the end of
the list when there is none before the tail. -/
def SortedIns (cmp : α → α → Int) (x : α) (pre : List (Nat × α)) (c : Nat × α)
    (post : List (Nat × α)) (new : Nat × α) (L2 : List (Nat × α)) : Prop :=
  (cmp c.2 x > 0 ∧
    ((∃ pre1 q pre2, pre = pre1 ++ q :: pre2 ∧ (∀ p ∈ pre2, cmp p.2 x > 0) ∧
        ¬ cmp q.2 x > 0 ∧ L2 = pre1 ++ q :: new :: pre2 ++ c :: post) ∨
      ((∀ p ∈ pre, cmp p.2 x > 0) ∧ L2 = new :: pre ++ c :: post))) ∨
  (¬ cmp c.2 x > 0 ∧
    ((∃ post1 q post2, post = post1 ++ q :: post2 ∧ (∀ p ∈ post1, cmp p.2 x < 0) ∧
        ¬ cmp q.2 x < 0 ∧ L2 = pre ++ c :: post1 ++ new :: q :: post2) ∨
      ((∀ p ∈ post, cmp p.2 x < 0) ∧ L2 = pre ++ c :: post ++ [new])))

/-! ## Reachable states -/

/-- The states of a handler that the interface can produce: the result of `pall_cll_init`,
then any sequence of calls that return. `mm_alloc` hands back `NULL` or the address of a
block that is not in use; the blocks that a call of `unserialize` allocates are at the
addresses `a`, `a + 1`, and so on, none of which is in use. -/
inductive Reachable : cll_handler α → Prop
  | init (compare : Option (α → α → Int)) (destroy : Bool)
      (ser_data : Option (pall_fd_t → α → pall_fd_t × Int))
      (unser_data : Option (pall_fd_t → pall_fd_t × Option α)) (ok : Bool)
      (h : cll_handler α) :
      pall_cll_init compare destroy ser_data unser_data ok = some h → Reachable h
  | insert (fuel : Nat) (h : cll_handler α) (data : α) (n : Nat) (h2 : cll_handler α)
      (r : Int) : Reachable h → (n = 0 ∨ h.mem n = none) →
      pall_cll_insert fuel h data n = some (h2, r) → Reachable h2
  | delete (fuel : Nat) (h : cll_handler α) (data : α) (h2 : cll_handler α) (r : Int) :
      Reachable h → pall_cll_delete fuel h data = some (h2, r) → Reachable h2
  | search (fuel : Nat) (h : cll_handler α) (data : α) (h2 : cll_handler α) (r : Option α) :
      Reachable h → pall_cll_search fuel h data = some (h2, r) → Reachable h2
  | pope (fuel : Nat) (h : cll_handler α) (data : α) (h2 : cll_handler α) (r : Option α) :
      Reachable h → pall_cll_pope fuel h data = some (h2, r) → Reachable h2
  | poph (h : cll_handler α) (h2 : cll_handler α) (r : Option α) :
      Reachable h → pall_cll_poph h = some (h2, r) → Reachable h2
  | collapse (fuel : Nat) (h : cll_handler α) (h2 : cll_handler α) :
      Reachable h → pall_cll_collapse fuel h = some h2 → Reachable h2
  | iterate (h : cll_handler α) (h2 : cll_handler α) (r : Option α) :
      Reachable h → pall_cll_iterate h = some (h2, r) → Reachable h2
  | rewind (h : cll_handler α) (to_ : Int) : Reachable h → Reachable (pall_cll_rewind h to_)
  | set_config (h : cll_handler α) (flags : Nat) :
      Reachable h → Reachable (pall_cll_set_config h flags).1
  | get_config (h : cll_handler α) : Reachable h → Reachable (pall_cll_get_config h).1
  | count (h : cll_handler α) : Reachable h → Reachable (pall_cll_count h).1
  | stat (h : cll_handler α) : Reachable h → Reachable (pall_cll_stat h)
  | stat_reset (h : cll_handler α) : Reachable h → Reachable (pall_cll_stat_reset h)
  | serialize (fuel : Nat) (h : cll_handler α) (fd : pall_fd_t) (h2 : cll_handler α)
      (fd2 : pall_fd_t) (r : Int) :
      Reachable h → pall_cll_serialize fuel h fd = some (h2, fd2, r) → Reachable h2
  | unserialize (fuel : Nat) (h : cll_handler α) (fd : pall_fd_t) (a : Nat)
      (h2 : cll_handler α) (fd2 : pall_fd_t) (r : Int) :
      Reachable h → (∀ i, h.mem (a + i) = none) →
      pall_cll_unserialize fuel h fd a = some (h2, fd2, r) → Reachable h2

/-! ## Example handlers -/

/-- A fresh handler on natural numbers compared by value, without a codec. -/
def ex_fresh : cll_handler Nat :=
  { mem := fun _ => none
    cll := 0
    cll_head := 0
    _iterate_start := 0
    _iterate_cur := 0
    _iterate_reverse := 0
    _stat := {}
    _config_flags := CONFIG_SEARCH_LRU ||| CONFIG_INSERT_HEAD
    _count := 0
    compare := some compare_id
    ser_data := none
    unser_data := none
    insert := insert_fn.cll_insert
    search := search_fn.cll_search
    destroyed := [] }

/-- The handler of an operation that returns, `h` when it does not. -/
def run1 {β : Type} (h : cll_handler α) (r : Option (cll_handler α × β)) : cll_handler α :=
  match r with
  | some x => x.1
  | none => h

/-- The fresh handler after the insertion of `10`, `20` and `30`, the nodes being allocated
at the addresses `1`, `2` and `3`. -/
def ex_three : cll_handler Nat :=
  let h1 := run1 ex_fresh (pall_cll_insert 0 ex_fresh 10 1)
  let h2 := run1 h1 (pall_cll_insert 0 h1 20 2)
  run1 h2 (pall_cll_insert 0 h2 30 3)

/-- The loop `while ((d = iterate(h))) delete(h, d);`: the result holds the payloads that
`iterate` has returned, in order. -/
def iterate_delete_loop (dfuel : Nat) : Nat → cll_handler α → Option (cll_handler α × List α)
  | 0, _ => none
  | fuel + 1, h =>
    obind (pall_cll_iterate h) fun r =>
    match r.2 with
    | none => some (r.1, [])
    | some d =>
      obind (pall_cll_delete dfuel r.1 d) fun r2 =>
      obind (iterate_delete_loop dfuel fuel r2.1) fun r3 => some (r3.1, d :: r3.2)

/-- The scenario: a fresh handler, `insert(1)`, `insert(2)`, `rewind(0)`, `iterate()`,
`delete(1)`, `iterate()`. The result holds the bookmarks `_iterate_start` and
`_iterate_cur` right before the deletion, what the two `iterate` calls return, and the
head-to-tail sequence at the end. -/
def scenario_delete_start : Option ((Nat × Nat) × List (Option Nat) × List Nat) :=
  obind (pall_cll_init (some compare_id) true none none true) fun h0 =>
  obind (insert_all 0 h0 [1, 2] 1) fun h2 =>
  obind (pall_cll_iterate (pall_cll_rewind h2 0)) fun r1 =>
  obind (pall_cll_delete 2 r1.1 1) fun r2 =>
  obind (pall_cll_iterate r2.1) fun r3 =>
  some ((r1.1._iterate_start, r1.1._iterate_cur), [r1.2, r3.2], head_to_tail r3.1)

/-- The scenario: a fresh handler set to `CONFIG_INSERT_TAIL`, `insert` of `1`, `2`, `3`,
`rewind(0)`, then the loop `while ((d = iterate(h))) delete(h, d);`. The result holds the
payloads the loop has visited, the count and the head-to-tail sequence at the end. -/
def scenario_drain : Option (List Nat × Nat × List Nat) :=
  obind (pall_cll_init (some compare_id) true none none true) fun h0 =>
  obind (insert_all 0 (pall_cll_set_config h0 CONFIG_INSERT_TAIL).1 [1, 2, 3] 1) fun h3 =>
  obind (iterate_delete_loop 3 4 (pall_cll_rewind h3 0)) fun r =>
  some (r.2, (pall_cll_count r.1).2, head_to_tail r.1)

/-- The scenario: a fresh handler, no `set_config` call, `insert` of `10`, `20`, `30`. The
result is the head-to-tail sequence. -/
def scenario_default_insert : Option (List Nat) :=
  obind (pall_cll_init (some compare_id) true none none true) fun h0 =>
  obind (insert_all 0 h0 [10, 20, 30] 1) fun h3 => some (head_to_tail h3)

/-- The callbacks and the function pointers `search` of `h2` are those of `h`. -/
def cb_eq (h h2 : cll_handler α) : Prop :=
  h2.compare = h.compare ∧ h2.search = h.search ∧ h2.ser_data = h.ser_data ∧
    h2.unser_data = h.unser_data

/-- A handler under `CONFIG_INSERT_SORTED` that holds `5, 1, 3, 2`, inserted in this
order. -/
def ex_sorted : cll_handler Nat :=
  let h0 := (pall_cll_set_config ex_fresh CONFIG_INSERT_SORTED).1
  let h1 := run1 h0 (pall_cll_insert 4 h0 5 1)
  let h2 := run1 h1 (pall_cll_insert 4 h1 1 2)
  let h3 := run1 h2 (pall_cll_insert 4 h2 3 3)
  run1 h3 (pall_cll_insert 4 h3 2 4)

/-- The scenario: a fresh handler, `set_config(CONFIG_INSERT_SORTED)`, `insert` of
`5, 1, 3, 2, 4`, `rewind(0)`, then five calls of `iterate`. The result is what they
return. -/
def scenario_sorted : Option (List (Option Nat)) :=
  obind (pall_cll_init (some compare_id) true none none true) fun h0 =>
  obind (insert_all 5 (pall_cll_set_config h0 CONFIG_INSERT_SORTED).1 [5, 1, 3, 2, 4] 1) fun h5 =>
  obind (iterate_n 5 (pall_cll_rewind h5 0)) fun r => some r.2

/-- A codec for the examples: the identifier is written as one cell of the stream. -/
def ex_ser (fd : pall_fd_t) (x : Nat) : pall_fd_t × Int :=
  ({ fd with wr := fd.wr ++ [x] }, 0)

/-- The inverse of `ex_ser`: the next cell of the stream, `NULL` at its end. -/
def ex_unser (fd : pall_fd_t) : pall_fd_t × Option Nat :=
  match fd.rd with
  | [] => (fd, none)
  | b :: r => ({ fd with rd := r }, some b)

/-- The scenario: a fresh handler with the codec, `insert` of `1`, `2`, `3`, `serialize` to
an empty stream, then `unserialize` of what has been written into a second fresh handler.
The result holds the head-to-tail sequences and the counts of the first and of the second
handler. -/
def scenario_round_trip : Option ((List Nat × Nat) × (List Nat × Nat)) :=
  obind (pall_cll_init (some compare_id) true (some ex_ser) (some ex_unser) true) fun h0 =>
  obind (insert_all 0 h0 [1, 2, 3] 1) fun h3 =>
  obind (pall_cll_serialize 3 h3 { rd := [], wr := [], room := 4 }) fun r =>
  obind (pall_cll_unserialize 0 h0 { rd := r.2.1.wr, wr := [], room := 0 } 1) fun r2 =>
  some ((head_to_tail r.1, r.1._count), (head_to_tail r2.1, r2.1._count))

/-- A fresh handler on natural numbers with the codec `ex_ser`, `ex_unser`. -/
def ex_codec_fresh : cll_handler Nat :=
  { ex_fresh with ser_data := some ex_ser, unser_data := some ex_unser }

/-- The handler `ex_codec_fresh` after `insert` of `1`, `2`, `3`. -/
def ex_codec_three : cll_handler Nat :=
  let h1 := run1 ex_codec_fresh (pall_cll_insert 0 ex_codec_fresh 1 1)
  let h2 := run1 h1 (pall_cll_insert 0 h1 2 2)
  run1 h2 (pall_cll_insert 0 h2 3 3)

/-! ## FIFO (`fifo.c`, `fifo.h`) -/

/-- `struct fifo_stat` -/
structure fifo_stat where
  push : Nat := 0
  push_err : Nat := 0
  pop : Nat := 0
  pop_nf : Nat := 0
  serialize : Nat := 0
  serialize_err : Nat := 0
  unserialize : Nat := 0
  unserialize_err : Nat := 0
  stat : Nat := 0
  count : Nat := 0
  collapse : Nat := 0
  iterate : Nat := 0
  rewind : Nat := 0
  elem_count_cur : Nat := 0
  elem_count_max : Nat := 0
deriving DecidableEq, Repr

/-- The queue handler: `struct fifo_handler`, with the list handler `fifo` points to. The
function pointers always point to the one function of their name and are not
represented. -/
structure fifo_handler (α : Type) where
  fifo : cll_handler α
  _stat : fifo_stat
  ser_data : Option (pall_fd_t → α → pall_fd_t × Int)
  unser_data : Option (pall_fd_t → pall_fd_t × Option α)

/-- `_fifo_push`: `handler->fifo->insert(handler->fifo, data)` -/
def _fifo_push (fuel : Nat) (q : fifo_handler α) (data : α) (n : Nat) :
    Option (fifo_handler α × Int) :=
  obind (pall_cll_insert fuel q.fifo data n) fun r => some ({ q with fifo := r.1 }, r.2)

/-- `_fifo_pop`: `handler->fifo->poph(handler->fifo)` -/
def _fifo_pop (q : fifo_handler α) : Option (fifo_handler α × Option α) :=
  obind (_cll_poph q.fifo) fun r => some ({ q with fifo := r.1 }, r.2)

/-- `_fifo_serialize` -/
def _fifo_serialize (fuel : Nat) (q : fifo_handler α) (fd : pall_fd_t) :
    Option (fifo_handler α × pall_fd_t × Int) :=
  obind (_cll_serialize fuel q.fifo fd) fun r => some ({ q with fifo := r.1 }, r.2.1, r.2.2)

/-- `_fifo_unserialize` -/
def _fifo_unserialize (fuel : Nat) (q : fifo_handler α) (fd : pall_fd_t) (a : Nat) :
    Option (fifo_handler α × pall_fd_t × Int) :=
  obind (_cll_unserialize fuel q.fifo fd a) fun r =>
    some ({ q with fifo := r.1 }, r.2.1, r.2.2)

/-- `_fifo_stat`: each member is read from the record that one more call of the list's
`stat` returns; the returned pointer designates the `_stat` member of the result. -/
def _fifo_stat (q : fifo_handler α) : fifo_handler α :=
  let c1 := _cll_stat q.fifo
  let c2 := _cll_stat c1
  let c3 := _cll_stat c2
  let c4 := _cll_stat c3
  let c5 := _cll_stat c4
  let c6 := _cll_stat c5
  let c7 := _cll_stat c6
  let c8 := _cll_stat c7
  let c9 := _cll_stat c8
  let c10 := _cll_stat c9
  let c11 := _cll_stat c10
  let c12 := _cll_stat c11
  let c13 := _cll_stat c12
  let c14 := _cll_stat c13
  { q with
    fifo := c14
    _stat :=
      { push := c1._stat.insert
        push_err := c2._stat.insert_err
        pop := c3._stat.poph
        pop_nf := c4._stat.poph_nf
        serialize := c5._stat.serialize
        serialize_err := c6._stat.serialize_err
        unserialize := c7._stat.unserialize
        unserialize_err := c8._stat.unserialize_err
        count := c9._stat.count
        collapse := c10._stat.collapse
        iterate := c11._stat.iterate
        rewind := c12._stat.rewind
        elem_count_cur := c13._stat.elem_count_cur
        elem_count_max := c14._stat.elem_count_max
        stat := q._stat.stat + 1 } }

/-- `_fifo_stat_reset` -/
def _fifo_stat_reset (q : fifo_handler α) : fifo_handler α :=
  { q with _stat := {} }

/-- `_fifo_count` -/
def _fifo_count (q : fifo_handler α) : fifo_handler α × Nat :=
  ({ q with fifo := (_cll_count q.fifo).1 }, (_cll_count q.fifo).2)

/-- `_fifo_collapse` -/
def _fifo_collapse (fuel : Nat) (q : fifo_handler α) : Option (fifo_handler α) :=
  obind (_cll_collapse fuel q.fifo) fun c => some { q with fifo := c }

/-- `_fifo_iterate` -/
def _fifo_iterate (q : fifo_handler α) : Option (fifo_handler α × Option α) :=
  obind (_cll_iterate q.fifo) fun r => some ({ q with fifo := r.1 }, r.2)

/-- `_fifo_rewind` -/
def _fifo_rewind (q : fifo_handler α) (to_ : Int) : fifo_handler α :=
  { q with fifo := _cll_rewind q.fifo to_ }

/-- `pall_fifo_init`; `destroy` tells whether a destroy callback is supplied, `ok` whether
the allocation of the queue handler succeeds, `ok_cll` whether that of the list handler
does. -/
def pall_fifo_init (destroy : Bool) (ser_data : Option (pall_fd_t → α → pall_fd_t × Int))
    (unser_data : Option (pall_fd_t → pall_fd_t × Option α)) (ok ok_cll : Bool) :
    Option (fifo_handler α) :=
  if !destroy then none
  else if !ok then none
  else
    obind (pall_cll_init none destroy ser_data unser_data ok_cll) fun c =>
    -- handler->fifo->set_config(handler->fifo, CONFIG_INSERT_TAIL);
    some { fifo := (_cll_set_config c CONFIG_INSERT_TAIL).1
           _stat := {}
           ser_data := ser_data
           unser_data := unser_data }

/-- `pall_fifo_push` -/
def pall_fifo_push (fuel : Nat) (q : fifo_handler α) (data : α) (n : Nat) :
    Option (fifo_handler α × Int) :=
  _fifo_push fuel q data n

/-- `pall_fifo_pop` -/
def pall_fifo_pop (q : fifo_handler α) : Option (fifo_handler α × Option α) :=
  _fifo_pop q

/-- `pall_fifo_stat` -/
def pall_fifo_stat (q : fifo_handler α) : fifo_handler α :=
  _fifo_stat q

/-- `pall_fifo_stat_reset` -/
def pall_fifo_stat_reset (q : fifo_handler α) : fifo_handler α :=
  _fifo_stat_reset q

/-- `pall_fifo_count` -/
def pall_fifo_count (q : fifo_handler α) : fifo_handler α × Nat :=
  _fifo_count q

/-- `pall_fifo_collapse` -/
def pall_fifo_collapse (fuel : Nat) (q : fifo_handler α) : Option (fifo_handler α) :=
  _fifo_collapse fuel q

/-- `pall_fifo_iterate` -/
def pall_fifo_iterate (q : fifo_handler α) : Option (fifo_handler α × Option α) :=
  _fifo_iterate q

/-- `pall_fifo_rewind` -/
def pall_fifo_rewind (q : fifo_handler α) (to_ : Int) : fifo_handler α :=
  _fifo_rewind q to_

/-- `pall_fifo_serialize` -/
def pall_fifo_serialize (fuel : Nat) (q : fifo_handler α) (fd : pall_fd_t) :
    Option (fifo_handler α × pall_fd_t × Int) :=
  _fifo_serialize fuel q fd

/-- `pall_fifo_unserialize` -/
def pall_fifo_unserialize (fuel : Nat) (q : fifo_handler α) (fd : pall_fd_t) (a : Nat) :
    Option (fifo_handler α × pall_fd_t × Int) :=
  _fifo_unserialize fuel q fd a

/-- The states of a queue that pushes and pops produce from `pall_fifo_init`, with their
history: `P` holds the payloads whose push has returned `0`, in order, and `k` is the
number of pops that have returned a payload. `mm_alloc` hands back `NULL` or the address of
a block that is not in use. The calls of `count`, `stat` and `stat_reset` are part of it. -/
inductive FifoReach : fifo_handler α → List α → Nat → Prop
  | init (destroy : Bool) (ser_data : Option (pall_fd_t → α → pall_fd_t × Int))
      (unser_data : Option (pall_fd_t → pall_fd_t × Option α)) (ok ok_cll : Bool)
      (q : fifo_handler α) :
      pall_fifo_init destroy ser_data unser_data ok ok_cll = some q → FifoReach q [] 0
  | push (fuel : Nat) (q : fifo_handler α) (P : List α) (k : Nat) (x : α) (n : Nat)
      (q2 : fifo_handler α) (r : Int) : FifoReach q P k → (n = 0 ∨ q.fifo.mem n = none) →
      pall_fifo_push fuel q x n = some (q2, r) →
      FifoReach q2 (if r = 0 then P ++ [x] else P) k
  | pop (q : fifo_handler α) (P : List α) (k : Nat) (q2 : fifo_handler α) (r : Option α) :
      FifoReach q P k → pall_fifo_pop q = some (q2, r) →
      FifoReach q2 P (if r.isSome then k + 1 else k)
  | count (q : fifo_handler α) (P : List α) (k : Nat) :
      FifoReach q P k → FifoReach (pall_fifo_count q).1 P k
  | stat (q : fifo_handler α) (P : List α) (k : Nat) :
      FifoReach q P k → FifoReach (pall_fifo_stat q) P k
  | stat_reset (q : fifo_handler α) (P : List α) (k : Nat) :
      FifoReach q P k → FifoReach (pall_fifo_stat_reset q) P k

/-- The scenario: a fresh queue, `push` of `1`, `2`, `3`, two calls of `pop`, `count`, two
more calls of `pop`, then `stat`. The result holds what the four calls of `pop` return,
the count, and the member `pop_nf` of the record of `stat`. -/
def scenario_fifo : Option (List (Option Nat) × Nat × Nat) :=
  obind (pall_fifo_init true none none true true) fun q0 =>
  obind (pall_fifo_push 0 q0 1 1) fun r1 =>
  obind (pall_fifo_push 0 r1.1 2 2) fun r2 =>
  obind (pall_fifo_push 0 r2.1 3 3) fun r3 =>
  obind (pall_fifo_pop r3.1) fun p1 =>
  obind (pall_fifo_pop p1.1) fun p2 =>
  obind (pall_fifo_pop (pall_fifo_count p2.1).1) fun p3 =>
  obind (pall_fifo_pop p3.1) fun p4 =>
  some ([p1.2, p2.2, p3.2, p4.2], (pall_fifo_count p2.1).2,
    (pall_fifo_stat p4.1)._stat.pop_nf)

/-- The queue after a call that returns, the same queue otherwise. -/
def frun {β : Type} (q : fifo_handler α) (r : Option (fifo_handler α × β)) : fifo_handler α :=
  match r with
  | some x => x.1
  | none => q

/-- A fresh queue on natural numbers, without a codec. -/
def ex_fifo_fresh : fifo_handler Nat :=
  { fifo := (_cll_set_config { ex_fresh with compare := none,
                                             search := search_fn.cll_search_nop }
      CONFIG_INSERT_TAIL).1
    _stat := {}
    ser_data := none
    unser_data := none }

/-- The queue `ex_fifo_fresh` after `push` of `1`, `2`, `3` and one `pop`. -/
def ex_fifo : fifo_handler Nat :=
  let q1 := frun ex_fifo_fresh (pall_fifo_push 0 ex_fifo_fresh 1 1)
  let q2 := frun q1 (pall_fifo_push 0 q1 2 2)
  let q3 := frun q2 (pall_fifo_push 0 q2 3 3)
  frun q3 (pall_fifo_pop q3)

/-! ## LIFO (`lifo.c`, `lifo.h`) -/

/-- `struct lifo_stat` -/
structure lifo_stat where
  push : Nat := 0
  push_err : Nat := 0
  pop : Nat := 0
  pop_nf : Nat := 0
  serialize : Nat := 0
  serialize_err : Nat := 0
  unserialize : Nat := 0
  unserialize_err : Nat := 0
  stat : Nat := 0
  count : Nat := 0
  collapse : Nat := 0
  iterate : Nat := 0
  rewind : Nat := 0
  elem_count_cur : Nat := 0
  elem_count_max : Nat := 0
deriving DecidableEq, Repr

/-- The stack handler: `struct lifo_handler`, with the list handler `lifo` points to. The
function pointers always point to the one function of their name and are not
represented. -/
structure lifo_handler (α : Type) where
  lifo : cll_handler α
  _stat : lifo_stat
  ser_data : Option (pall_fd_t → α → pall_fd_t × Int)
  unser_data : Option (pall_fd_t → pall_fd_t × Option α)

/-- `_lifo_push`: `handler->lifo->insert(handler->lifo, data)` -/
def _lifo_push (fuel : Nat) (s : lifo_handler α) (data : α) (n : Nat) :
    Option (lifo_handler α × Int) :=
  obind (pall_cll_insert fuel s.lifo data n) fun r => some ({ s with lifo := r.1 }, r.2)

/-- `_lifo_pop`: `handler->lifo->poph(handler->lifo)` -/
def _lifo_pop (s : lifo_handler α) : Option (lifo_handler α × Option α) :=
  obind (_cll_poph s.lifo) fun r => some ({ s with lifo := r.1 }, r.2)

/-- `_lifo_serialize` -/
def _lifo_serialize (fuel : Nat) (s : lifo_handler α) (fd : pall_fd_t) :
    Option (lifo_handler α × pall_fd_t × Int) :=
  obind (_cll_serialize fuel s.lifo fd) fun r => some ({ s with lifo := r.1 }, r.2.1, r.2.2)

/-- `_lifo_unserialize` -/
def _lifo_unserialize (fuel : Nat) (s : lifo_handler α) (fd : pall_fd_t) (a : Nat) :
    Option (lifo_handler α × pall_fd_t × Int) :=
  obind (_cll_unserialize fuel s.lifo fd a) fun r =>
    some ({ s with lifo := r.1 }, r.2.1, r.2.2)

/-- `_lifo_stat`: each member is read from the record that one more call of the list's
`stat` returns; the returned pointer designates the `_stat` member of the result. -/
def _lifo_stat (s : lifo_handler α) : lifo_handler α :=
  let c1 := _cll_stat s.lifo
  let c2 := _cll_stat c1
  let c3 := _cll_stat c2
  let c4 := _cll_stat c3
  let c5 := _cll_stat c4
  let c6 := _cll_stat c5
  let c7 := _cll_stat c6
  let c8 := _cll_stat c7
  let c9 := _cll_stat c8
  let c10 := _cll_stat c9
  let c11 := _cll_stat c10
  let c12 := _cll_stat c11
  let c13 := _cll_stat c12
  let c14 := _cll_stat c13
  { s with
    lifo := c14
    _stat :=
      { push := c1._stat.insert
        push_err := c2._stat.insert_err
        pop := c3._stat.poph
        pop_nf := c4._stat.poph_nf
        serialize := c5._stat.serialize
        serialize_err := c6._stat.serialize_err
        unserialize := c7._stat.unserialize
        unserialize_err := c8._stat.unserialize_err
        count := c9._stat.count
        collapse := c10._stat.collapse
        iterate := c11._stat.iterate
        rewind := c12._stat.rewind
        elem_count_cur := c13._stat.elem_count_cur
        elem_count_max := c14._stat.elem_count_max
        stat := s._stat.stat + 1 } }

/-- `_lifo_stat_reset` -/
def _lifo_stat_reset (s : lifo_handler α) : lifo_handler α :=
  { s with _stat := {} }

/-- `_lifo_count` -/
def _lifo_count (s : lifo_handler α) : lifo_handler α × Nat :=
  ({ s with lifo := (_cll_count s.lifo).1 }, (_cll_count s.lifo).2)

/-- `_lifo_collapse` -/
def _lifo_collapse (fuel : Nat) (s : lifo_handler α) : Option (lifo_handler α) :=
  obind (_cll_collapse fuel s.lifo) fun c => some { s with lifo := c }

/-- `_lifo_iterate` -/
def _lifo_iterate (s : lifo_handler α) : Option (lifo_handler α × Option α) :=
  obind (_cll_iterate s.lifo) fun r => some ({ s with lifo := r.1 }, r.2)

/-- `_lifo_rewind` -/
def _lifo_rewind (s : lifo_handler α) (to_ : Int) : lifo_handler α :=
  { s with lifo := _cll_rewind s.lifo to_ }

/-- `pall_lifo_init`; `destroy` tells whether a destroy callback is supplied, `ok` whether
the allocation of the stack handler succeeds, `ok_cll` whether that of the list handler
does. -/
def pall_lifo_init (destroy : Bool) (ser_data : Option (pall_fd_t → α → pall_fd_t × Int))
    (unser_data : Option (pall_fd_t → pall_fd_t × Option α)) (ok ok_cll : Bool) :
    Option (lifo_handler α) :=
  if !destroy then none
  else if !ok then none
  else
    obind (pall_cll_init none destroy ser_data unser_data ok_cll) fun c =>
    -- handler->lifo->set_config(handler->lifo, CONFIG_INSERT_HEAD);
    some { lifo := (_cll_set_config c CONFIG_INSERT_HEAD).1
           _stat := {}
           ser_data := ser_data
           unser_data := unser_data }

/-- `pall_lifo_push` -/
def pall_lifo_push (fuel : Nat) (s : lifo_handler α) (data : α) (n : Nat) :
    Option (lifo_handler α × Int) :=
  _lifo_push fuel s data n

/-- `pall_lifo_pop` -/
def pall_lifo_pop (s : lifo_handler α) : Option (lifo_handler α × Option α) :=
  _lifo_pop s

/-- `pall_lifo_stat` -/
def pall_lifo_stat (s : lifo_handler α) : lifo_handler α :=
  _lifo_stat s

/-- `pall_lifo_stat_reset` -/
def pall_lifo_stat_reset (s : lifo_handler α) : lifo_handler α :=
  _lifo_stat_reset s

/-- `pall_lifo_count` -/
def pall_lifo_count (s : lifo_handler α) : lifo_handler α × Nat :=
  _lifo_count s

/-- `pall_lifo_collapse` -/
def pall_lifo_collapse (fuel : Nat) (s : lifo_handler α) : Option (lifo_handler α) :=
  _lifo_collapse fuel s

/-- `pall_lifo_iterate` -/
def pall_lifo_iterate (s : lifo_handler α) : Option (lifo_handler α × Option α) :=
  _lifo_iterate s

/-- `pall_lifo_rewind` -/
def pall_lifo_rewind (s : lifo_handler α) (to_ : Int) : lifo_handler α :=
  _lifo_rewind s to_

/-- `pall_lifo_serialize` -/
def pall_lifo_serialize (fuel : Nat) (s : lifo_handler α) (fd : pall_fd_t) :
    Option (lifo_handler α × pall_fd_t × Int) :=
  _lifo_serialize fuel s fd

/-- `pall_lifo_unserialize` -/
def pall_lifo_unserialize (fuel : Nat) (s : lifo_handler α) (fd : pall_fd_t) (a : Nat) :
    Option (lifo_handler α × pall_fd_t × Int) :=
  _lifo_unserialize fuel s fd a

/-- What happens to a stack: a push that returns `0`, or a pop that returns a payload. -/
inductive lifo_event (α : Type) where
  | push (x : α)
  | pop

/-- The payloads pushed and not yet popped after the events `evs` (in the order of time),
the most recently pushed one first: a pop takes the most recently pushed one away. -/
def lifo_pending (evs : List (lifo_event α)) : List α :=
  evs.foldl (fun s e => match e with
    | lifo_event.push x => x :: s
    | lifo_event.pop => s.tail) []

/-- The states of a stack that pushes and pops produce from `pall_lifo_init`, with their
history `evs`: the pushes that have returned `0` and the pops that have returned a payload,
in the order of time. `mm_alloc` hands back `NULL` or the address of a block that is not in
use. The calls of `count`, `stat` and `stat_reset` are part of it. -/
inductive LifoReach : lifo_handler α → List (lifo_event α) → Prop
  | init (destroy : Bool) (ser_data : Option (pall_fd_t → α → pall_fd_t × Int))
      (unser_data : Option (pall_fd_t → pall_fd_t × Option α)) (ok ok_cll : Bool)
      (s : lifo_handler α) :
      pall_lifo_init destroy ser_data unser_data ok ok_cll = some s → LifoReach s []
  | push (fuel : Nat) (s : lifo_handler α) (evs : List (lifo_event α)) (x : α) (n : Nat)
      (s2 : lifo_handler α) (r : Int) : LifoReach s evs → (n = 0 ∨ s.lifo.mem n = none) →
      pall_lifo_push fuel s x n = some (s2, r) →
      LifoReach s2 (if r = 0 then evs ++ [lifo_event.push x] else evs)
  | pop (s : lifo_handler α) (evs : List (lifo_event α)) (s2 : lifo_handler α)
      (r : Option α) : LifoReach s evs → pall_lifo_pop s = some (s2, r) →
      LifoReach s2 (if r.isSome then evs ++ [lifo_event.pop] else evs)
  | count (s : lifo_handler α) (evs : List (lifo_event α)) :
      LifoReach s evs → LifoReach (pall_lifo_count s).1 evs
  | stat (s : lifo_handler α) (evs : List (lifo_event α)) :
      LifoReach s evs → LifoReach (pall_lifo_stat s) evs
  | stat_reset (s : lifo_handler α) (evs : List (lifo_event α)) :
      LifoReach s evs → LifoReach (pall_lifo_stat_reset s) evs

/-- The scenario: a fresh stack, `push` of `1`, `2`, `3`, then four calls of `pop`. The
result holds what the calls of `pop` return. -/
def scenario_lifo : Option (List (Option Nat)) :=
  obind (pall_lifo_init true none none true true) fun s0 =>
  obind (pall_lifo_push 0 s0 1 1) fun r1 =>
  obind (pall_lifo_push 0 r1.1 2 2) fun r2 =>
  obind (pall_lifo_push 0 r2.1 3 3) fun r3 =>
  obind (pall_lifo_pop r3.1) fun p1 =>
  obind (pall_lifo_pop p1.1) fun p2 =>
  obind (pall_lifo_pop p2.1) fun p3 =>
  obind (pall_lifo_pop p3.1) fun p4 =>
  some [p1.2, p2.2, p3.2, p4.2]

/-- The stack after a call that returns, the same stack otherwise. -/
def lrun {β : Type} (s : lifo_handler α) (r : Option (lifo_handler α × β)) : lifo_handler α :=
  match r with
  | some x => x.1
  | none => s

/-- A fresh stack on natural numbers, without a codec. -/
def ex_lifo_fresh : lifo_handler Nat :=
  { lifo := (_cll_set_config { ex_fresh with compare := none,
                                             search := search_fn.cll_search_nop }
      CONFIG_INSERT_HEAD).1
    _stat := {}
    ser_data := none
    unser_data := none }

/-- The stack `ex_lifo_fresh` after `push` of `1`, `2`, `3`, one `pop` and `push` of `4`. -/
def ex_lifo : lifo_handler Nat :=
  let s1 := lrun ex_lifo_fresh (pall_lifo_push 0 ex_lifo_fresh 1 1)
  let s2 := lrun s1 (pall_lifo_push 0 s1 2 2)
  let s3 := lrun s2 (pall_lifo_push 0 s2 3 3)
  let s4 := lrun s3 (pall_lifo_pop s3)
  lrun s4 (pall_lifo_push 0 s4 4 4)

/-! ## HMBT-CLL (`hmbt_cll.c`, `hmbt_cll.h`)

The handler holds the list handlers of its buckets, each with the heap of its own nodes.
The member `node_elem_count_avg`, a `float`, is not represented. -/

/-- `HMBT_CLL_DEFAULT_ARR_SIZE` -/
def HMBT_CLL_DEFAULT_ARR_SIZE : Nat := 127

/-- `struct hmbt_cll_stat` -/
structure hmbt_cll_stat where
  insert : Nat := 0
  insert_err : Nat := 0
  del : Nat := 0
  del_nf : Nat := 0
  search : Nat := 0
  search_nf : Nat := 0
  serialize : Nat := 0
  serialize_err : Nat := 0
  unserialize : Nat := 0
  unserialize_err : Nat := 0
  stat : Nat := 0
  count : Nat := 0
  pope : Nat := 0
  pope_nf : Nat := 0
  poph_elem : Nat := 0
  poph_elem_nf : Nat := 0
  poph_index : Nat := 0
  poph_index_nf : Nat := 0
  collapse : Nat := 0
  iterate : Nat := 0
  rewind : Nat := 0
  set_config : Nat := 0
  get_config : Nat := 0
  elem_count_cur : Nat := 0
  elem_count_max : Nat := 0
  node_elem_count_min : Nat := 0
  node_elem_count_max : Nat := 0
  node_elem_count : List Nat := []
deriving DecidableEq, Repr

/-- `struct hmbt_cll_handler`: `array` holds the list handlers the C array points to. The
function pointers always point to the one function of their name and are not
represented. -/
structure hmbt_cll_handler (α : Type) where
  array : List (cll_handler α)
  arr_size : Nat
  _iterate_arr_pos : Nat
  _iterate_reverse : Int
  _stat : hmbt_cll_stat
  compare : Option (α → α → Int)
  hash : α → Nat
  ser_data : Option (pall_fd_t → α → pall_fd_t × Int)
  unser_data : Option (pall_fd_t → pall_fd_t × Option α)

/-- Run `f` on the list handler `handler->array[i]` and store what it leaves; reading past
the end of the array yields `none`. -/
def hmbt_at {β : Type} (H : hmbt_cll_handler α) (i : Nat)
    (f : cll_handler α → Option (cll_handler α × β)) : Option (hmbt_cll_handler α × β) :=
  obind H.array[i]? fun pool =>
  obind (f pool) fun r => some ({ H with array := H.array.set i r.1 }, r.2)

/-- The index `handler->hash(data) % handler->arr_size`, `hash` returning a 32-bit value;
`none` when `arr_size` is `0`. -/
def hmbt_index (H : hmbt_cll_handler α) (data : α) : Option Nat :=
  if H.arr_size = 0 then none else some (H.hash data % 4294967296 % H.arr_size)

/-- The loop `for (i = 0; i < handler->arr_size; i ++) { pool = handler->array[i]; ... }`
of the functions that visit every bucket: `k` turns are left, from the index `i` on; `step`
is the body, run on the list handler of the bucket and on the local variables `s`. -/
def hmbt_for {σ : Type} (step : cll_handler α → σ → Option (cll_handler α × σ)) :
    Nat → Nat → hmbt_cll_handler α → σ → Option (hmbt_cll_handler α × σ)
  | 0, _, H, s => some (H, s)
  | k + 1, i, H, s =>
    obind (hmbt_at H i fun pool => step pool s) fun r => hmbt_for step k (i + 1) r.1 r.2

/-- `_hmbt_cll_insert`; `n` is the result of `mm_alloc`. -/
def _hmbt_cll_insert (fuel : Nat) (H : hmbt_cll_handler α) (data : α) (n : Nat) :
    Option (hmbt_cll_handler α × Int) :=
  obind (hmbt_index H data) fun i =>
  -- pool->insert(pool, data)
  hmbt_at H i fun pool => pall_cll_insert fuel pool data n

/-- `_hmbt_cll_delete` -/
def _hmbt_cll_delete (fuel : Nat) (H : hmbt_cll_handler α) (data : α) :
    Option (hmbt_cll_handler α × Int) :=
  obind (hmbt_index H data) fun i =>
  hmbt_at H i fun pool => _cll_delete fuel pool data

/-- `_hmbt_cll_search` -/
def _hmbt_cll_search (fuel : Nat) (H : hmbt_cll_handler α) (data : α) :
    Option (hmbt_cll_handler α × Option α) :=
  obind (hmbt_index H data) fun i =>
  -- pool->search(pool, data)
  hmbt_at H i fun pool => pall_cll_search fuel pool data

/-- `_hmbt_cll_count`: `count += pool->count(pool)` for every bucket. The sum is not
reduced modulo `2^32`, as `_count` is not. -/
def _hmbt_cll_count (H : hmbt_cll_handler α) : Option (hmbt_cll_handler α × Nat) :=
  obind (hmbt_for (fun pool count => some ((_cll_count pool).1, count + (_cll_count pool).2))
    H.arr_size 0 H 0) fun r =>
  some ({ r.1 with _stat := { r.1._stat with count := r.1._stat.count + 1 } }, r.2)

/-- `_hmbt_cll_pope` -/
def _hmbt_cll_pope (fuel : Nat) (H : hmbt_cll_handler α) (data : α) :
    Option (hmbt_cll_handler α × Option α) :=
  obind (hmbt_index H data) fun i =>
  hmbt_at H i fun pool => _cll_pope fuel pool data

/-- `_hmbt_cll_poph_elem` -/
def _hmbt_cll_poph_elem (H : hmbt_cll_handler α) (data : α) :
    Option (hmbt_cll_handler α × Option α) :=
  obind (hmbt_index H data) fun i =>
  obind (hmbt_at H i _cll_poph) fun r =>
  match r.2 with
  | none =>
    some ({ r.1 with _stat := { r.1._stat with
              poph_elem_nf := r.1._stat.poph_elem_nf + 1 } }, none)
  | some d =>
    some ({ r.1 with _stat := { r.1._stat with poph_elem := r.1._stat.poph_elem + 1 } },
      some d)

/-- `_hmbt_cll_poph_index` -/
def _hmbt_cll_poph_index (H : hmbt_cll_handler α) (index : Nat) :
    Option (hmbt_cll_handler α × Option α) :=
  obind (hmbt_at H index _cll_poph) fun r =>
  match r.2 with
  | none =>
    some ({ r.1 with _stat := { r.1._stat with
              poph_index_nf := r.1._stat.poph_index_nf + 1 } }, none)
  | some d =>
    some ({ r.1 with _stat := { r.1._stat with poph_index := r.1._stat.poph_index + 1 } },
      some d)

/-- `_hmbt_cll_collapse`: `pool->collapse(pool)` for every bucket. -/
def _hmbt_cll_collapse (fuel : Nat) (H : hmbt_cll_handler α) : Option (hmbt_cll_handler α) :=
  obind (hmbt_for (fun pool (_ : Unit) => obind (_cll_collapse fuel pool) fun c => some (c, ()))
    H.arr_size 0 H ()) fun r =>
  some { r.1 with _stat := { r.1._stat with collapse := r.1._stat.collapse + 1 } }

/-- The `for (;;)` loop of `_hmbt_cll_iterate`. -/
def _hmbt_cll_iterate_loop : Nat → hmbt_cll_handler α →
    Option (hmbt_cll_handler α × Option α)
  | 0, _ => none
  | fuel + 1, H =>
    obind (hmbt_at H H._iterate_arr_pos _cll_iterate) fun r =>
    match r.2 with
    | some d => some (r.1, some d)
    | none =>
      if r.1._iterate_reverse ≠ 0 then
        if r.1._iterate_arr_pos = 0 then some (r.1, none)
        else _hmbt_cll_iterate_loop fuel
          { r.1 with _iterate_arr_pos := r.1._iterate_arr_pos - 1 }
      else
        -- handler->_iterate_arr_pos ++, a 32-bit value
        let pos := (r.1._iterate_arr_pos + 1) % 4294967296
        if pos ≥ r.1.arr_size then some ({ r.1 with _iterate_arr_pos := pos }, none)
        else _hmbt_cll_iterate_loop fuel { r.1 with _iterate_arr_pos := pos }

/-- `_hmbt_cll_iterate` -/
def _hmbt_cll_iterate (fuel : Nat) (H : hmbt_cll_handler α) :
    Option (hmbt_cll_handler α × Option α) :=
  obind (_hmbt_cll_iterate_loop fuel H) fun r =>
  match r.2 with
  | none => some ({ r.1 with _stat := { r.1._stat with iterate := r.1._stat.iterate + 1 } }, none)
  | some d => some (r.1, some d)

/-- `_hmbt_cll_rewind`: `pool->rewind(pool, to)` for every bucket; `arr_size - 1` is a
32-bit value. -/
def _hmbt_cll_rewind (H : hmbt_cll_handler α) (to_ : Int) : Option (hmbt_cll_handler α) :=
  obind (hmbt_for (fun pool (_ : Unit) => some (_cll_rewind pool to_, ()))
    H.arr_size 0 { H with _iterate_reverse := to_ } ()) fun r =>
  let H2 :=
    if to_ ≠ 0 then
      { r.1 with _iterate_arr_pos := (r.1.arr_size + 4294967296 - 1) % 4294967296 }
    else { r.1 with _iterate_arr_pos := 0 }
  some { H2 with _stat := { H2._stat with rewind := H2._stat.rewind + 1 } }

/-- `_hmbt_cll_set_config`: `pool->set_config(pool, flags)` for every bucket; the 32-bit
argument is taken modulo `2^32`. -/
def _hmbt_cll_set_config (H : hmbt_cll_handler α) (flags0 : Nat) :
    Option (hmbt_cll_handler α × Nat) :=
  let flags := flags0 % 4294967296
  let old_flags := flags
  obind (hmbt_for (fun pool (_ : Unit) => some ((_cll_set_config pool flags).1, ()))
    H.arr_size 0 H ()) fun r =>
  some ({ r.1 with _stat := { r.1._stat with set_config := r.1._stat.set_config + 1 } },
    old_flags)

/-- `_hmbt_cll_get_config` -/
def _hmbt_cll_get_config (H : hmbt_cll_handler α) : Option (hmbt_cll_handler α × Nat) :=
  let H1 := { H with _stat := { H._stat with get_config := H._stat.get_config + 1 } }
  hmbt_at H1 0 fun pool => some (_cll_get_config pool)

/-- The `for` loop of `pall_hmbt_cll_init` that fills the array: `k` turns are left. -/
def hmbt_init_array (compare : Option (α → α → Int)) (destroy : Bool)
    (ser_data : Option (pall_fd_t → α → pall_fd_t × Int))
    (unser_data : Option (pall_fd_t → pall_fd_t × Option α)) (ok : Bool) :
    Nat → Option (List (cll_handler α))
  | 0 => some []
  | k + 1 =>
    obind (pall_cll_init compare destroy ser_data unser_data ok) fun c =>
    obind (hmbt_init_array compare destroy ser_data unser_data ok k) fun cs => some (c :: cs)

/-- `pall_hmbt_cll_init`; `hash` is `none` for a `NULL` callback, `destroy` tells whether a
destroy callback is supplied, `array_size` is a 32-bit value, `ok` tells whether the
allocations succeed. The result `none` is the `NULL` handler. -/
def pall_hmbt_cll_init (compare : Option (α → α → Int)) (destroy : Bool)
    (hash : Option (α → Nat)) (ser_data : Option (pall_fd_t → α → pall_fd_t × Int))
    (unser_data : Option (pall_fd_t → pall_fd_t × Option α)) (array_size : Nat)
    (ok : Bool) : Option (hmbt_cll_handler α) :=
  match hash with
  | none => none
  | some hf =>
    if !destroy then none
    else if !ok then none
    else
      let arr_size :=
        if array_size % 4294967296 ≠ 0 then array_size % 4294967296
        else HMBT_CLL_DEFAULT_ARR_SIZE
      obind (hmbt_init_array compare destroy ser_data unser_data ok arr_size) fun arr =>
      some { array := arr
             arr_size := arr_size
             _iterate_arr_pos := 0
             _iterate_reverse := 0
             _stat := {}
             compare := compare
             hash := hf
             ser_data := ser_data
             unser_data := unser_data }

/-- `pall_hmbt_cll_insert` -/
def pall_hmbt_cll_insert (fuel : Nat) (H : hmbt_cll_handler α) (data : α) (n : Nat) :
    Option (hmbt_cll_handler α × Int) :=
  _hmbt_cll_insert fuel H data n

/-- `pall_hmbt_cll_delete` -/
def pall_hmbt_cll_delete (fuel : Nat) (H : hmbt_cll_handler α) (data : α) :
    Option (hmbt_cll_handler α × Int) :=
  _hmbt_cll_delete fuel H data

/-- `pall_hmbt_cll_search` -/
def pall_hmbt_cll_search (fuel : Nat) (H : hmbt_cll_handler α) (data : α) :
    Option (hmbt_cll_handler α × Option α) :=
  _hmbt_cll_search fuel H data

/-- `pall_hmbt_cll_count` -/
def pall_hmbt_cll_count (H : hmbt_cll_handler α) : Option (hmbt_cll_handler α × Nat) :=
  _hmbt_cll_count H

/-- `pall_hmbt_cll_pope` -/
def pall_hmbt_cll_pope (fuel : Nat) (H : hmbt_cll_handler α) (data : α) :
    Option (hmbt_cll_handler α × Option α) :=
  _hmbt_cll_pope fuel H data

/-- `pall_hmbt_cll_poph_elem` -/
def pall_hmbt_cll_poph_elem (H : hmbt_cll_handler α) (data : α) :
    Option (hmbt_cll_handler α × Option α) :=
  _hmbt_cll_poph_elem H data

/-- `pall_hmbt_cll_poph_index` -/
def pall_hmbt_cll_poph_index (H : hmbt_cll_handler α) (index : Nat) :
    Option (hmbt_cll_handler α × Option α) :=
  _hmbt_cll_poph_index H index

/-- `pall_hmbt_cll_collapse` -/
def pall_hmbt_cll_collapse (fuel : Nat) (H : hmbt_cll_handler α) :
    Option (hmbt_cll_handler α) :=
  _hmbt_cll_collapse fuel H

/-- `pall_hmbt_cll_iterate` -/
def pall_hmbt_cll_iterate (fuel : Nat) (H : hmbt_cll_handler α) :
    Option (hmbt_cll_handler α × Option α) :=
  _hmbt_cll_iterate fuel H

/-- `pall_hmbt_cll_rewind` -/
def pall_hmbt_cll_rewind (H : hmbt_cll_handler α) (to_ : Int) : Option (hmbt_cll_handler α) :=
  _hmbt_cll_rewind H to_

/-- `pall_hmbt_cll_set_config` -/
def pall_hmbt_cll_set_config (H : hmbt_cll_handler α) (flags : Nat) :
    Option (hmbt_cll_handler α × Nat) :=
  _hmbt_cll_set_config H flags

/-- `pall_hmbt_cll_get_config` -/
def pall_hmbt_cll_get_config (H : hmbt_cll_handler α) : Option (hmbt_cll_handler α × Nat) :=
  _hmbt_cll_get_config H

/-! ## HMBT-CLL: statistics and unserialization (`hmbt_cll.c`) -/

/-- `~0UL`, the largest `unsigned long`, of 64 bits. -/
def ULONG_MAX : Nat := 18446744073709551615

/-- The body of the loop of `_hmbt_cll_stat` for the bucket `i`: every counter is read from
the record that one more call of `pool->stat(pool)` returns, `node_elem_count[i]` is what
`pool->count(pool)` returns, and the two `if`s that follow compare `node_elem_count[i]`
with `node_elem_count_min` and with `node_elem_count_max`. `st` is `handler->_stat`. -/
def hmbt_stat_step (i : Nat) (pool : cll_handler α) (st : hmbt_cll_stat) :
    cll_handler α × hmbt_cll_stat :=
  let p1 := _cll_stat pool
  let p2 := _cll_stat p1
  let p3 := _cll_stat p2
  let p4 := _cll_stat p3
  let p5 := _cll_stat p4
  let p6 := _cll_stat p5
  let p7 := _cll_stat p6
  let p8 := _cll_stat p7
  let p9 := _cll_stat p8
  let p10 := _cll_stat p9
  let c := _cll_count p10
  let cnt := st.node_elem_count.set i c.2
  (c.1,
    { st with
      insert := st.insert + p1._stat.insert
      insert_err := st.insert_err + p2._stat.insert_err
      del := st.del + p3._stat.del
      del_nf := st.del_nf + p4._stat.del_nf
      search := st.search + p5._stat.search
      search_nf := st.search_nf + p6._stat.search_nf
      pope := st.pope + p7._stat.pope
      pope_nf := st.pope_nf + p8._stat.pope_nf
      elem_count_cur := st.elem_count_cur + p9._stat.elem_count_cur
      elem_count_max := st.elem_count_max + p10._stat.elem_count_max
      node_elem_count := cnt
      node_elem_count_min :=
        if cnt.getD i 0 < st.node_elem_count_min then cnt.getD i 0
        else st.node_elem_count_min
      node_elem_count_max :=
        if cnt.getD i 0 > st.node_elem_count_max then cnt.getD i 0
        else st.node_elem_count_max })

/-- `_hmbt_cll_stat`: the record `handler->_stat` and the index `i` are the local state of
the loop over the buckets; the `memset` leaves `arr_size` zeros in `node_elem_count`. The
returned pointer designates the `_stat` member of the result. -/
def _hmbt_cll_stat (H : hmbt_cll_handler α) : Option (hmbt_cll_handler α) :=
  let st0 := { H._stat with
    insert := 0
    insert_err := 0
    del := 0
    del_nf := 0
    search := 0
    search_nf := 0
    pope := 0
    pope_nf := 0
    elem_count_cur := 0
    elem_count_max := 0
    node_elem_count_min := ULONG_MAX
    node_elem_count_max := 0
    node_elem_count := List.replicate H.arr_size 0 }
  obind (hmbt_for
    (fun pool (s : hmbt_cll_stat × Nat) =>
      some ((hmbt_stat_step s.2 pool s.1).1, ((hmbt_stat_step s.2 pool s.1).2, s.2 + 1)))
    H.arr_size 0 H (st0, 0)) fun r =>
  some { r.1 with _stat := { r.2.1 with stat := r.2.1.stat + 1 } }

/-- `_hmbt_cll_stat_reset`: the record is zeroed, `node_elem_count` keeps its place and
holds `arr_size` zeros, and `pool->stat_reset(pool)` is called for every bucket. -/
def _hmbt_cll_stat_reset (H : hmbt_cll_handler α) : Option (hmbt_cll_handler α) :=
  obind (hmbt_for (fun pool (_ : Unit) => some (_cll_stat_reset pool, ()))
    H.arr_size 0 { H with _stat := { node_elem_count := List.replicate H.arr_size 0 } } ())
    fun r => some r.1

/-- The four bytes of a 32-bit word in the memory of a little-endian host. -/
def le_bytes (c : Nat) : List Nat :=
  [c % 256, c / 256 % 256, c / 65536 % 256, c / 16777216 % 256]

/-- The 32-bit word that four bytes in the memory of a little-endian host hold. -/
def le_word (bs : List Nat) : Nat :=
  match bs with
  | [b0, b1, b2, b3] => b0 + b1 * 256 + b2 * 65536 + b3 * 16777216
  | _ => 0

/-- The word `old` after `read` has stored the bytes `bs`, at most four, at its address:
the first bytes of the word are overwritten. -/
def read_into_word (old : Nat) (bs : List Nat) : Nat :=
  le_word (bs ++ (le_bytes old).drop bs.length)

/-- The loop `for (i = 0; i < handler->arr_size; i ++)` of `_hmbt_cll_unserialize`,
together with what follows it: `k` turns are left, from the index `i` on. The nodes of the
bucket `i` are allocated from the address `a + i * 2^32` on. -/
def _hmbt_cll_unserialize_loop (fuel : Nat) :
    Nat → Nat → hmbt_cll_handler α → pall_fd_t → Nat →
      Option (hmbt_cll_handler α × pall_fd_t × Int)
  | 0, _, H, fd, _ =>
    some ({ H with _stat := { H._stat with unserialize := H._stat.unserialize + 1 } }, fd, 0)
  | k + 1, i, H, fd, a =>
    obind H.array[i]? fun pool =>
    -- pool->unserialize(pool, fd)
    obind (_cll_unserialize fuel pool fd (a + i * 4294967296)) fun r =>
    let H1 := { H with array := H.array.set i r.1 }
    if r.2.2 < 0 then
      some ({ H1 with _stat := { H1._stat with
                unserialize_err := H1._stat.unserialize_err + 1 } }, r.2.1, -1)
    else _hmbt_cll_unserialize_loop fuel k (i + 1) H1 r.2.1 a

/-- `_hmbt_cll_unserialize`: `pall_read(fd, &handler->arr_size, 4)` stores what it reads
in the member `arr_size` itself, which `ntohl` then converts. -/
def _hmbt_cll_unserialize (fuel : Nat) (H : hmbt_cll_handler α) (fd : pall_fd_t) (a : Nat) :
    Option (hmbt_cll_handler α × pall_fd_t × Int) :=
  match H.unser_data with
  | none =>
    some ({ H with _stat := { H._stat with
              unserialize_err := H._stat.unserialize_err + 1 } }, fd, -1)
  | some _ =>
    let r := pall_read fd 4
    let H1 := { H with arr_size := read_into_word H.arr_size r.2 }
    if r.2.length ≠ 4 then
      some ({ H1 with _stat := { H1._stat with
                unserialize_err := H1._stat.unserialize_err + 1 } }, r.1, -1)
    else
      -- handler->arr_size = ntohl(handler->arr_size);
      let H2 := { H1 with arr_size := ntohl r.2 }
      _hmbt_cll_unserialize_loop fuel H2.arr_size 0 H2 r.1 a

/-- `pall_hmbt_cll_stat` -/
def pall_hmbt_cll_stat (H : hmbt_cll_handler α) : Option (hmbt_cll_handler α) :=
  _hmbt_cll_stat H

/-- `pall_hmbt_cll_stat_reset` -/
def pall_hmbt_cll_stat_reset (H : hmbt_cll_handler α) : Option (hmbt_cll_handler α) :=
  _hmbt_cll_stat_reset H

/-- `pall_hmbt_cll_unserialize` -/
def pall_hmbt_cll_unserialize (fuel : Nat) (H : hmbt_cll_handler α) (fd : pall_fd_t)
    (a : Nat) : Option (hmbt_cll_handler α × pall_fd_t × Int) :=
  _hmbt_cll_unserialize fuel H fd a

/-! ## Reachable states of an HMBT-CLL -/

/-- The states of an HMBT-CLL handler that the interface can produce: the result of
`pall_hmbt_cll_init`, then any sequence of calls of insert, search, delete, pope,
poph_elem, poph_index, collapse, rewind, iterate, set_config, get_config, count, stat and
stat_reset that return. `mm_alloc` hands back `NULL` or the address of a block that is not in use. -/
inductive HReach : hmbt_cll_handler α → Prop
  | init (compare : Option (α → α → Int)) (destroy : Bool) (hash : Option (α → Nat))
      (ser_data : Option (pall_fd_t → α → pall_fd_t × Int))
      (unser_data : Option (pall_fd_t → pall_fd_t × Option α)) (array_size : Nat)
      (ok : Bool) (H : hmbt_cll_handler α) :
      pall_hmbt_cll_init compare destroy hash ser_data unser_data array_size ok = some H →
      HReach H
  | insert (fuel : Nat) (H : hmbt_cll_handler α) (data : α) (n : Nat)
      (H2 : hmbt_cll_handler α) (r : Int) : HReach H →
      (n = 0 ∨ ∀ b ∈ H.array, b.mem n = none) →
      pall_hmbt_cll_insert fuel H data n = some (H2, r) → HReach H2
  | search (fuel : Nat) (H : hmbt_cll_handler α) (data : α) (H2 : hmbt_cll_handler α)
      (r : Option α) : HReach H → pall_hmbt_cll_search fuel H data = some (H2, r) → HReach H2
  | delete (fuel : Nat) (H : hmbt_cll_handler α) (data : α) (H2 : hmbt_cll_handler α)
      (r : Int) : HReach H → pall_hmbt_cll_delete fuel H data = some (H2, r) → HReach H2
  | pope (fuel : Nat) (H : hmbt_cll_handler α) (data : α) (H2 : hmbt_cll_handler α)
      (r : Option α) : HReach H → pall_hmbt_cll_pope fuel H data = some (H2, r) → HReach H2
  | poph_elem (H : hmbt_cll_handler α) (data : α) (H2 : hmbt_cll_handler α) (r : Option α) :
      HReach H → pall_hmbt_cll_poph_elem H data = some (H2, r) → HReach H2
  | poph_index (H : hmbt_cll_handler α) (index : Nat) (H2 : hmbt_cll_handler α)
      (r : Option α) : HReach H → pall_hmbt_cll_poph_index H index = some (H2, r) → HReach H2
  | collapse (fuel : Nat) (H H2 : hmbt_cll_handler α) :
      HReach H → pall_hmbt_cll_collapse fuel H = some H2 → HReach H2
  | rewind (H : hmbt_cll_handler α) (to_ : Int) (H2 : hmbt_cll_handler α) :
      HReach H → pall_hmbt_cll_rewind H to_ = some H2 → HReach H2
  | iterate (fuel : Nat) (H H2 : hmbt_cll_handler α) (r : Option α) :
      HReach H → pall_hmbt_cll_iterate fuel H = some (H2, r) → HReach H2
  | set_config (H : hmbt_cll_handler α) (flags : Nat) (H2 : hmbt_cll_handler α) (r : Nat) :
      HReach H → pall_hmbt_cll_set_config H flags = some (H2, r) → HReach H2
  | get_config (H H2 : hmbt_cll_handler α) (r : Nat) :
      HReach H → pall_hmbt_cll_get_config H = some (H2, r) → HReach H2
  | count (H H2 : hmbt_cll_handler α) (r : Nat) :
      HReach H → pall_hmbt_cll_count H = some (H2, r) → HReach H2
  | stat (H H2 : hmbt_cll_handler α) :
      HReach H → pall_hmbt_cll_stat H = some H2 → HReach H2
  | stat_reset (H H2 : hmbt_cll_handler α) :
      HReach H → pall_hmbt_cll_stat_reset H = some H2 → HReach H2

/-- The bucket `b` at the index `i` of `H` is in order: it is a reachable list, it has the
compare callback of `H`, and each of its payloads hashes to `i`. -/
def BucketOK (H : hmbt_cll_handler α) (i : Nat) (b : cll_handler α) : Prop :=
  Reachable b ∧ b.compare = H.compare ∧
    ∀ p ∈ head_to_tail b, H.hash p % 4294967296 % H.arr_size = i

/-- The invariant of the HMBT-CLL: the array holds `arr_size` buckets, `arr_size` is a
positive 32-bit value, and every bucket is in order. -/
def HInv (H : hmbt_cll_handler α) : Prop :=
  H.array.length = H.arr_size ∧ 0 < H.arr_size ∧ H.arr_size < 4294967296 ∧
    ∀ i b, H.array[i]? = some b → BucketOK H i b

/-- Call `pall_hmbt_cll_iterate` `k` times and collect the results; `fuel` bounds the turns
of the loop of each call. -/
def hmbt_iterate_n (fuel : Nat) : Nat → hmbt_cll_handler α →
    Option (hmbt_cll_handler α × List (Option α))
  | 0, H => some (H, [])
  | k + 1, H =>
    obind (pall_hmbt_cll_iterate fuel H) fun r =>
    obind (hmbt_iterate_n fuel k r.1) fun r2 => some (r2.1, r.2 :: r2.2)

/-- The payloads of an HMBT-CLL, bucket after bucket, each bucket from head to tail. -/
def hmbt_forward (H : hmbt_cll_handler α) : List α :=
  H.array.flatMap head_to_tail

/-- The handler after a call that returns, the same handler otherwise. -/
def hrun {β : Type} (H : hmbt_cll_handler α) (r : Option (hmbt_cll_handler α × β)) :
    hmbt_cll_handler α :=
  match r with
  | some x => x.1
  | none => H

/-- A fresh HMBT-CLL of `11` buckets on natural numbers compared by value, the hash of a
number being the number itself. -/
def ex_hmbt_fresh : hmbt_cll_handler Nat :=
  { array := List.replicate 11 ex_fresh
    arr_size := 11
    _iterate_arr_pos := 0
    _iterate_reverse := 0
    _stat := {}
    compare := some compare_id
    hash := fun x => x
    ser_data := none
    unser_data := none }

/-- The handler `ex_hmbt_fresh` after the insertion of `0`, `11`, `22` and `3`, the nodes
being allocated at the addresses `1`, `2`, `3` and `4`. -/
def ex_hmbt : hmbt_cll_handler Nat :=
  let H1 := hrun ex_hmbt_fresh (pall_hmbt_cll_insert 0 ex_hmbt_fresh 0 1)
  let H2 := hrun H1 (pall_hmbt_cll_insert 1 H1 11 2)
  let H3 := hrun H2 (pall_hmbt_cll_insert 2 H2 22 3)
  hrun H3 (pall_hmbt_cll_insert 0 H3 3 4)

/-- The scenario: `pall_hmbt_cll_init` with `11` buckets and the identifier as hash,
`insert` of `0`, `11`, `22`, `3`, then `count`, `rewind(0)` and five calls of `iterate`.
The result holds the head-to-tail sequence of every bucket, what `count` returns and what
the calls of `iterate` return. -/
def scenario_hmbt : Option (List (List Nat) × Nat × List (Option Nat)) :=
  obind (pall_hmbt_cll_init (some compare_id) true (some fun x => x) none none 11 true)
    fun H0 =>
  obind (pall_hmbt_cll_insert 0 H0 0 1) fun r1 =>
  obind (pall_hmbt_cll_insert 1 r1.1 11 2) fun r2 =>
  obind (pall_hmbt_cll_insert 2 r2.1 22 3) fun r3 =>
  obind (pall_hmbt_cll_insert 0 r3.1 3 4) fun r4 =>
  obind (pall_hmbt_cll_count r4.1) fun r5 =>
  obind (pall_hmbt_cll_rewind r5.1 0) fun H6 =>
  obind (hmbt_iterate_n 11 5 H6) fun r7 =>
  some (r4.1.array.map head_to_tail, r5.2, r7.2)

/-- The scenario of `scenario_hmbt` with `rewind(1)` in place of `rewind(0)`: what the five
calls of `iterate` return. -/
def scenario_hmbt_reverse : Option (List (Option Nat)) :=
  obind (pall_hmbt_cll_rewind ex_hmbt 1) fun H6 =>
  obind (hmbt_iterate_n 11 5 H6) fun r7 => some r7.2

/-- The scenario: a fresh list handler, `get_config()`, `set_config(CONFIG_INSERT_TAIL)`,
`get_config()`. The result holds the three values returned. -/
def scenario_set_config : Option (Nat × Nat × Nat) :=
  obind (pall_cll_init (some compare_id) true none none true) fun h0 =>
  let r1 := pall_cll_get_config h0
  let r2 := pall_cll_set_config r1.1 CONFIG_INSERT_TAIL
  let r3 := pall_cll_get_config r2.1
  some (r1.2, r2.2, r3.2)

/-- The scenario of `scenario_set_config` on a fresh HMBT-CLL of `11` buckets. -/
def scenario_hmbt_set_config : Option (Nat × Nat × Nat) :=
  obind (pall_hmbt_cll_init (some compare_id) true (some fun x => x) none none 11 true)
    fun H0 =>
  obind (pall_hmbt_cll_get_config H0) fun r1 =>
  obind (pall_hmbt_cll_set_config r1.1 CONFIG_INSERT_TAIL) fun r2 =>
  obind (pall_hmbt_cll_get_config r2.1) fun r3 =>
  some (r1.2, r2.2, r3.2)

/-- A compare callback that never returns `0`. -/
def compare_never (_ _ : Nat) : Int := 1

/-- The scenario: an HMBT-CLL of `11` buckets whose compare callback is `compare_never`,
`insert(5)`, `search(5)`. The result holds what the two calls return. -/
def scenario_hmbt_never : Option (Int × Option Nat) :=
  obind (pall_hmbt_cll_init (some compare_never) true (some fun x => x) none none 11 true)
    fun H0 =>
  obind (pall_hmbt_cll_insert 0 H0 5 1) fun r1 =>
  obind (pall_hmbt_cll_search 1 r1.1 5) fun r2 =>
  some (r1.2, r2.2)

/-- The scenario: a fresh queue, `push(1)`, a `push(2)` whose allocation fails, two calls
of `pop`, `stat_reset()`, `stat()`. The result holds the members `push`, `push_err`, `pop`,
`pop_nf` and `elem_count_max` of the record that `stat` returns. -/
def scenario_fifo_stat_reset : Option (Nat × Nat × Nat × Nat × Nat) :=
  obind (pall_fifo_init true none none true true) fun q0 =>
  obind (pall_fifo_push 0 q0 1 1) fun r1 =>
  obind (pall_fifo_push 0 r1.1 2 0) fun r2 =>
  obind (pall_fifo_pop r2.1) fun p1 =>
  obind (pall_fifo_pop p1.1) fun p2 =>
  let st := (pall_fifo_stat (pall_fifo_stat_reset p2.1))._stat
  some (st.push, st.push_err, st.pop, st.pop_nf, st.elem_count_max)

/-- The scenario of `scenario_fifo_stat_reset` on a stack. -/
def scenario_lifo_stat_reset : Option (Nat × Nat × Nat × Nat × Nat) :=
  obind (pall_lifo_init true none none true true) fun s0 =>
  obind (pall_lifo_push 0 s0 1 1) fun r1 =>
  obind (pall_lifo_push 0 r1.1 2 0) fun r2 =>
  obind (pall_lifo_pop r2.1) fun p1 =>
  obind (pall_lifo_pop p1.1) fun p2 =>
  let st := (pall_lifo_stat (pall_lifo_stat_reset p2.1))._stat
  some (st.push, st.push_err, st.pop, st.pop_nf, st.elem_count_max)

/-- The scenario: a fresh list handler, `insert(1)`, `stat_reset()`, `stat()`. The result
holds the members `elem_count_cur` and `elem_count_max` of the record that `stat`
returns. -/
def scenario_watermark : Option (Nat × Nat) :=
  obind (pall_cll_init (some compare_id) true none none true) fun h0 =>
  obind (pall_cll_insert 0 h0 1 1) fun r1 =>
  let st := (pall_cll_stat (pall_cll_stat_reset r1.1))._stat
  some (st.elem_count_cur, st.elem_count_max)

/-- The scenario: a list handler initialised without a compare callback, `insert(1)`,
`search(1)`. The result holds what `search` returns, the counters `search` and `search_nf`
afterwards, and whether the whole statistics record is the one from before the call. -/
def scenario_search_nop : Option (Option Nat × Nat × Nat × Bool) :=
  obind (pall_cll_init (none : Option (Nat → Nat → Int)) true none none true) fun h0 =>
  obind (pall_cll_insert 0 h0 1 1) fun r1 =>
  obind (pall_cll_search 1 r1.1 1) fun r2 =>
  some (r2.2, r2.1._stat.search, r2.1._stat.search_nf, decide (r2.1._stat = r1.1._stat))

/-- The payloads that up to `k` successive calls of the callback `unser` return, the calls
stopping at the first `NULL`, and the descriptor that the last call leaves. -/
def unser_take (unser : pall_fd_t → pall_fd_t × Option α) :
    Nat → pall_fd_t → List α × pall_fd_t
  | 0, fd => ([], fd)
  | k + 1, fd =>
    match (unser fd).2 with
    | none => ([], (unser fd).1)
    | some y => (y :: (unser_take unser k (unser fd).1).1, (unser_take unser k (unser fd).1).2)

/-- The scenario: `unserialize` on the fresh handler `ex_codec_fresh` of a stream that
announces three payloads and holds two, `7` and `8`. The result holds what `unserialize`
returns, the head-to-tail sequence, the count, and the counters `unserialize` and
`unserialize_err` afterwards. -/
def scenario_unserialize_abort : Option (Int × List Nat × Nat × Nat × Nat) :=
  obind (pall_cll_unserialize 3 ex_codec_fresh { rd := [0, 0, 0, 3, 7, 8], wr := [], room := 0 } 1)
    fun r =>
  some (r.2.2, head_to_tail r.1, r.1._count, r.1._stat.unserialize,
    r.1._stat.unserialize_err)

/-- The scenario: an HMBT-CLL of `11` buckets with the identifier as hash, `insert(0)`,
`delete(0)`, `insert(1)`, with `count` after each of the three calls, then `stat`. The
result holds the three counts and the members `elem_count_cur` and `elem_count_max` of
the record that `stat` returns. -/
def scenario_hmbt_watermark : Option (List Nat × Nat × Nat) :=
  obind (pall_hmbt_cll_init (some compare_id) true (some fun x => x) none none 11 true)
    fun H0 =>
  obind (pall_hmbt_cll_insert 0 H0 0 1) fun r1 =>
  obind (pall_hmbt_cll_count r1.1) fun c1 =>
  obind (pall_hmbt_cll_delete 1 c1.1 0) fun r2 =>
  obind (pall_hmbt_cll_count r2.1) fun c2 =>
  obind (pall_hmbt_cll_insert 0 c2.1 1 2) fun r3 =>
  obind (pall_hmbt_cll_count r3.1) fun c3 =>
  obind (pall_hmbt_cll_stat c3.1) fun H4 =>
  some ([c1.2, c2.2, c3.2], H4._stat.elem_count_cur, H4._stat.elem_count_max)

/-- The scenario of the spec's example: the handler `ex_hmbt`, then `stat`. The result
holds the members `node_elem_count`, `elem_count_cur`, `node_elem_count_min` and
`node_elem_count_max` of the record. -/
def scenario_hmbt_stat : Option (List Nat × Nat × Nat × Nat) :=
  obind (pall_hmbt_cll_stat ex_hmbt) fun H1 =>
  some (H1._stat.node_elem_count, H1._stat.elem_count_cur, H1._stat.node_elem_count_min,
    H1._stat.node_elem_count_max)

/-- A fresh HMBT-CLL of `2` buckets with the codec `ex_ser`, `ex_unser`. -/
def ex_hmbt_codec : hmbt_cll_handler Nat :=
  { array := List.replicate 2 ex_codec_fresh
    arr_size := 2
    _iterate_arr_pos := 0
    _iterate_reverse := 0
    _stat := {}
    compare := some compare_id
    hash := fun x => x
    ser_data := some ex_ser
    unser_data := some ex_unser }

/-- The scenario: `unserialize` on the handler `ex_hmbt_codec`, of `2` buckets, of the
stream `rd`, then `insert(5)`. The result holds what `unserialize` returns and the member
`arr_size` afterwards, `none` when the call runs into undefined behaviour, and whether the
`insert` that follows is defined. -/
def scenario_hmbt_unserialize (rd : List Nat) : Option (Int × Nat) × Bool :=
  let r := pall_hmbt_cll_unserialize 0 ex_hmbt_codec { rd := rd, wr := [], room := 0 } 1
  (r.map fun x => (x.2.2, x.1.arr_size),
    match r with
    | none => false
    | some x => (pall_hmbt_cll_insert 0 x.1 5 9).isSome)

/-- The configuration of `h2` is that of `h`: the flag word and the function pointer
`insert`. -/
def cfg_eq (h h2 : cll_handler α) : Prop :=
  h2._config_flags = h._config_flags ∧ h2.insert = h.insert

/-- The configuration of `h2` is that of `h`, but for the bit `CONFIG_SEARCH_BACKWARD`,
which a search under `CONFIG_SEARCH_AUTO` without `CONFIG_SEARCH_LRU` may have set or
cleared. -/
def cfg_auto (h h2 : cll_handler α) : Prop :=
  h2.insert = h.insert ∧
    (h2._config_flags = h._config_flags ∨
      (h._config_flags &&& CONFIG_SEARCH_AUTO ≠ 0 ∧ ¬ h._config_flags &&& CONFIG_SEARCH_LRU ≠ 0 ∧
        (h2._config_flags = h._config_flags ||| CONFIG_SEARCH_BACKWARD ∨
          h2._config_flags = h._config_flags &&& NOT_CONFIG_SEARCH_BACKWARD)))

/-- The bucket `b` follows the flag word `g`: its flag word is a 32-bit value that differs
from `g` at most by the bit `CONFIG_SEARCH_BACKWARD`, and is `g` itself when `g` has
`CONFIG_SEARCH_AUTO` clear or `CONFIG_SEARCH_LRU` set. -/
def FlagsOK (g : Nat) (b : cll_handler α) : Prop :=
  b._config_flags < 4294967296 ∧
    b._config_flags &&& NOT_CONFIG_SEARCH_BACKWARD = g &&& NOT_CONFIG_SEARCH_BACKWARD ∧
    ((g &&& CONFIG_SEARCH_AUTO = 0 ∨ g &&& CONFIG_SEARCH_LRU ≠ 0) → b._config_flags = g)

/-- The scenario: an HMBT-CLL of `11` buckets with the identifier as hash,
`set_config(CONFIG_SEARCH_AUTO)`, `insert(11)`, `search(0)`, then `get_config`. The result
holds the flag word of every bucket after the search and what `get_config` returns. -/
def scenario_hmbt_auto : Option (List Nat × Nat) :=
  obind (pall_hmbt_cll_init (some compare_id) true (some fun x => x) none none 11 true)
    fun H0 =>
  obind (pall_hmbt_cll_set_config H0 CONFIG_SEARCH_AUTO) fun r1 =>
  obind (pall_hmbt_cll_insert 0 r1.1 11 1) fun r2 =>
  obind (pall_hmbt_cll_search 1 r2.1 0) fun r3 =>
  obind (pall_hmbt_cll_get_config r3.1) fun r4 =>
  some (r3.1.array.map fun b => b._config_flags, r4.2)

/-- The handler `ex_hmbt_fresh` after `set_config(CONFIG_SEARCH_AUTO)`, `insert(11)`, the
node being allocated at the address `1`, and `search(0)`. -/
def ex_hmbt_auto : hmbt_cll_handler Nat :=
  let H1 := hrun ex_hmbt_fresh (pall_hmbt_cll_set_config ex_hmbt_fresh CONFIG_SEARCH_AUTO)
  let H2 := hrun H1 (pall_hmbt_cll_insert 0 H1 11 1)
  hrun H2 (pall_hmbt_cll_search 1 H2 0)

/-- The states of a list kept under sorted insertion: `set_config` has been called on an
empty list whose compare callback is `cmp`, with a flag word that holds
`CONFIG_INSERT_SORTED` and none of `CONFIG_INSERT_TAIL`, `CONFIG_INSERT_HEAD` and
`CONFIG_SEARCH_LRU`; then any sequence of calls of insert, search, delete, pope, poph,
rewind and iterate that return. `mm_alloc` hands back `NULL` or the address of a block
that is not in use. -/
inductive SortedReach (cmp : α → α → Int) : cll_handler α → Prop
  | start (h : cll_handler α) (flags : Nat) :
      Reachable h → h._count = 0 → h.compare = some cmp →
      flags % 4294967296 &&& CONFIG_INSERT_SORTED ≠ 0 →
      flags % 4294967296 &&& CONFIG_INSERT_TAIL = 0 →
      flags % 4294967296 &&& CONFIG_INSERT_HEAD = 0 →
      flags % 4294967296 &&& CONFIG_SEARCH_LRU = 0 →
      SortedReach cmp (pall_cll_set_config h flags).1
  | insert (fuel : Nat) (h : cll_handler α) (data : α) (n : Nat) (h2 : cll_handler α)
      (r : Int) : SortedReach cmp h → (n = 0 ∨ h.mem n = none) →
      pall_cll_insert fuel h data n = some (h2, r) → SortedReach cmp h2
  | search (fuel : Nat) (h : cll_handler α) (data : α) (h2 : cll_handler α) (r : Option α) :
      SortedReach cmp h → pall_cll_search fuel h data = some (h2, r) → SortedReach cmp h2
  | delete (fuel : Nat) (h : cll_handler α) (data : α) (h2 : cll_handler α) (r : Int) :
      SortedReach cmp h → pall_cll_delete fuel h data = some (h2, r) → SortedReach cmp h2
  | pope (fuel : Nat) (h : cll_handler α) (data : α) (h2 : cll_handler α) (r : Option α) :
      SortedReach cmp h → pall_cll_pope fuel h data = some (h2, r) → SortedReach cmp h2
  | poph (h : cll_handler α) (h2 : cll_handler α) (r : Option α) :
      SortedReach cmp h → pall_cll_poph h = some (h2, r) → SortedReach cmp h2
  | rewind (h : cll_handler α) (to_ : Int) :
      SortedReach cmp h → SortedReach cmp (pall_cll_rewind h to_)
  | iterate (h : cll_handler α) (h2 : cll_handler α) (r : Option α) :
      SortedReach cmp h → pall_cll_iterate h = some (h2, r) → SortedReach cmp h2

/-- The scenario: a fresh handler, `set_config(CONFIG_INSERT_SORTED | CONFIG_SEARCH_LRU)`,
`insert` of `1`, `2`, `3`, then `search(3)`. The result holds the head-to-tail sequence
before the search, what the search returns, and the head-to-tail sequence after it. -/
def scenario_sorted_lru : Option (List Nat × Option Nat × List Nat) :=
  obind (pall_cll_init (some compare_id) true none none true) fun h0 =>
  obind (insert_all 3
    (pall_cll_set_config h0 (CONFIG_INSERT_SORTED ||| CONFIG_SEARCH_LRU)).1 [1, 2, 3] 1)
    fun h3 =>
  obind (pall_cll_search 3 h3 3) fun r =>
  some (head_to_tail h3, r.2, head_to_tail r.1)

/-- The scenario: a fresh handler, `set_config(CONFIG_INSERT_SORTED | CONFIG_INSERT_TAIL)`,
then `insert` of `2` and `1`. The result is the head-to-tail sequence. -/
def scenario_sorted_tail : Option (List Nat) :=
  obind (pall_cll_init (some compare_id) true none none true) fun h0 =>
  obind (insert_all 3
    (pall_cll_set_config h0 (CONFIG_INSERT_SORTED ||| CONFIG_INSERT_TAIL)).1 [2, 1] 1)
    fun h2 =>
  some (head_to_tail h2)

/-- The handler `ex_sorted` after `search(3)`, `delete(1)` and `poph()`. -/
def ex_sorted_used : cll_handler Nat :=
  let h1 := run1 ex_sorted (pall_cll_search 4 ex_sorted 3)
  let h2 := run1 h1 (pall_cll_delete 4 h1 1)
  run1 h2 (pall_cll_poph h2)

/-- The payload of the node that the cursor `cll` designates. -/
def cursor_data (h : cll_handler α) : Option α := ld_data h.mem h.cll

/-- The scenario: a fresh handler, `insert` of `1`, `2`, `3`; then `insert(4)` on this
state, and `insert(4)` on the state that `rewind(0)` and three calls of `iterate` leave.
The result holds, for each of the two, what `insert` returns and the head-to-tail
sequence it leaves. -/
def scenario_iterate_then_insert : Option ((Int × List Nat) × (Int × List Nat)) :=
  obind (pall_cll_init (some compare_id) true none none true) fun h0 =>
  obind (insert_all 0 h0 [1, 2, 3] 1) fun s =>
  obind (iterate_n 3 (pall_cll_rewind s 0)) fun it =>
  obind (pall_cll_insert 0 s 4 4) fun r1 =>
  obind (pall_cll_insert 0 it.1 4 4) fun r2 =>
  some ((r1.2, head_to_tail r1.1), (r2.2, head_to_tail r2.1))

/-- The scenario: a fresh handler, `set_config(flags)`, `insert(1)`, `insert(2)`. The
result holds what the second `insert` returns, the head-to-tail sequence and the payload
of the node that the cursor designates. -/
def scenario_insert_cursor (flags : Nat) : Option (Int × List Nat × Option Nat) :=
  obind (pall_cll_init (some compare_id) true none none true) fun h0 =>
  obind (pall_cll_insert 1 (pall_cll_set_config h0 flags).1 1 1) fun r1 =>
  obind (pall_cll_insert 1 r1.1 2 2) fun r2 =>
  some (r2.2, head_to_tail r2.1, cursor_data r2.1)

/-- The scenario: a fresh handler, no `set_config` call (`CONFIG_SEARCH_LRU` is set),
`insert` of `1`, `2`, `3`, then `search(2)`. The result holds what `search` returns, the
head-to-tail sequence, the payload of the head and the payload of the node that the
cursor designates. -/
def scenario_lru_cursor : Option (Option Nat × List Nat × Option Nat × Option Nat) :=
  obind (pall_cll_init (some compare_id) true none none true) fun h0 =>
  obind (insert_all 0 h0 [1, 2, 3] 1) fun s =>
  obind (pall_cll_search 3 s 2) fun r =>
  some (r.2, head_to_tail r.1, head_data r.1, cursor_data r.1)

/-- The scenario: a fresh handler set to `CONFIG_INSERT_TAIL`, `insert` of `1`, `2`, `3`,
`4`, `rewind(1)`, `k` calls of `iterate`, the deletion of the payload `d`, then four
calls of `iterate`. The result holds what the first `k` calls return, the payload of the
node that `_iterate_cur` designates right before the deletion, what `delete` returns,
and what the four calls return. -/
def scenario_reverse_delete (k d : Nat) :
    Option (List (Option Nat) × Option Nat × Int × List (Option Nat)) :=
  obind (pall_cll_init (some compare_id) true none none true) fun h0 =>
  obind (insert_all 0 (pall_cll_set_config h0 CONFIG_INSERT_TAIL).1 [1, 2, 3, 4] 1) fun s =>
  obind (iterate_n k (pall_cll_rewind s 1)) fun it =>
  obind (pall_cll_delete 4 it.1 d) fun r =>
  obind (iterate_n 4 r.1) fun it2 =>
  some (it.2, ld_data it.1.mem it.1._iterate_cur, r.2, it2.2)

/-- The scenario: a fresh handler set to `CONFIG_INSERT_TAIL`, `insert` of `1`, `2`, `3`,
`rewind(1)`, two calls of `iterate`, `poph()`, then three calls of `iterate`. The result
holds what the first two calls return, the payload of the node that `_iterate_cur`
designates right before `poph`, what `poph` returns, and what the three calls return. -/
def scenario_reverse_poph :
    Option (List (Option Nat) × Option Nat × Option Nat × List (Option Nat)) :=
  obind (pall_cll_init (some compare_id) true none none true) fun h0 =>
  obind (insert_all 0 (pall_cll_set_config h0 CONFIG_INSERT_TAIL).1 [1, 2, 3] 1) fun s =>
  obind (iterate_n 2 (pall_cll_rewind s 1)) fun it =>
  obind (pall_cll_poph it.1) fun r =>
  obind (iterate_n 3 r.1) fun it2 =>
  some (it.2, ld_data it.1.mem it.1._iterate_cur, r.2, it2.2)

/-- The scenario of a forward iteration: as `scenario_reverse_delete`, after
`rewind(0)`. -/
def scenario_forward_delete (k d : Nat) :
    Option (List (Option Nat) × Option Nat × Int × List (Option Nat)) :=
  obind (pall_cll_init (some compare_id) true none none true) fun h0 =>
  obind (insert_all 0 (pall_cll_set_config h0 CONFIG_INSERT_TAIL).1 [1, 2, 3, 4] 1) fun s =>
  obind (iterate_n k (pall_cll_rewind s 0)) fun it =>
  obind (pall_cll_delete 4 it.1 d) fun r =>
  obind (iterate_n 4 r.1) fun it2 =>
  some (it.2, ld_data it.1.mem it.1._iterate_cur, r.2, it2.2)

/-- The scenario: the handler `ex_hmbt`, `rewind(0)`, five calls of `iterate`, then one
more. The result holds what the five calls return, the members `_iterate_arr_pos` and
`arr_size` after them, and whether the bucket `array[_iterate_arr_pos]` that the sixth
call reads exists. -/
def scenario_hmbt_iterate_past_end :
    Option (List (Option Nat) × Nat × Nat × Bool × Bool) :=
  obind (pall_hmbt_cll_rewind ex_hmbt 0) fun H1 =>
  obind (hmbt_iterate_n 11 5 H1) fun r =>
  some (r.2, r.1._iterate_arr_pos, r.1.arr_size, (r.1.array[r.1._iterate_arr_pos]?).isSome,
    (pall_hmbt_cll_iterate 11 r.1).isSome)

/-- The scenario in reverse: the handler `ex_hmbt`, `rewind(1)`, five calls of `iterate`,
then one more. The result holds what the five calls return, the member
`_iterate_arr_pos` after them, and what the sixth call returns. -/
def scenario_hmbt_iterate_reverse_end :
    Option (List (Option Nat) × Nat × Option (Option Nat)) :=
  obind (pall_hmbt_cll_rewind ex_hmbt 1) fun H1 =>
  obind (hmbt_iterate_n 11 5 H1) fun r =>
  some (r.2, r.1._iterate_arr_pos, (pall_hmbt_cll_iterate 11 r.1).map Prod.snd)

/-- Call `pall_lifo_pop` `k` times and collect the results. -/
def lifo_pop_n : Nat → lifo_handler α → Option (lifo_handler α × List (Option α))
  | 0, s => some (s, [])
  | k + 1, s =>
    obind (pall_lifo_pop s) fun r =>
    obind (lifo_pop_n k r.1) fun r2 => some (r2.1, r.2 :: r2.2)

/-- Call `pall_fifo_pop` `k` times and collect the results. -/
def fifo_pop_n : Nat → fifo_handler α → Option (fifo_handler α × List (Option α))
  | 0, q => some (q, [])
  | k + 1, q =>
    obind (pall_fifo_pop q) fun r =>
    obind (fifo_pop_n k r.1) fun r2 => some (r2.1, r.2 :: r2.2)

/-- The scenario: a fresh stack with the codec, `push` of `1`, `2`, `3`, `serialize` to an
empty stream, `unserialize` of what has been written into a second fresh stack, then
three calls of `pop` on each of the two. The result holds the stream, the list of what
the two calls return and of the counts of the two stacks, and what the calls of `pop`
return on the first and on the second. -/
def scenario_lifo_round_trip :
    Option (List Nat × List Int × List (Option Nat) × List (Option Nat)) :=
  obind (pall_lifo_init true (some ex_ser) (some ex_unser) true true) fun s0 =>
  obind (pall_lifo_push 0 s0 1 1) fun r1 =>
  obind (pall_lifo_push 0 r1.1 2 2) fun r2 =>
  obind (pall_lifo_push 0 r2.1 3 3) fun r3 =>
  obind (pall_lifo_serialize 3 r3.1 { rd := [], wr := [], room := 4 }) fun w =>
  obind (pall_lifo_unserialize 3 s0 { rd := w.2.1.wr, wr := [], room := 0 } 1) fun u =>
  obind (lifo_pop_n 3 w.1) fun p1 =>
  obind (lifo_pop_n 3 u.1) fun p2 =>
  some (w.2.1.wr, [w.2.2, u.2.2, (pall_lifo_count w.1).2, (pall_lifo_count u.1).2],
    p1.2, p2.2)

/-- The scenario of `scenario_lifo_round_trip` on a queue. -/
def scenario_fifo_round_trip :
    Option (List Nat × List Int × List (Option Nat) × List (Option Nat)) :=
  obind (pall_fifo_init true (some ex_ser) (some ex_unser) true true) fun s0 =>
  obind (pall_fifo_push 0 s0 1 1) fun r1 =>
  obind (pall_fifo_push 0 r1.1 2 2) fun r2 =>
  obind (pall_fifo_push 0 r2.1 3 3) fun r3 =>
  obind (pall_fifo_serialize 3 r3.1 { rd := [], wr := [], room := 4 }) fun w =>
  obind (pall_fifo_unserialize 3 s0 { rd := w.2.1.wr, wr := [], room := 0 } 1) fun u =>
  obind (fifo_pop_n 3 w.1) fun p1 =>
  obind (fifo_pop_n 3 u.1) fun p2 =>
  some (w.2.1.wr, [w.2.2, u.2.2, (pall_fifo_count w.1).2, (pall_fifo_count u.1).2],
    p1.2, p2.2)

/-- The handler `ex_three` after `rewind(0)` and two calls of `iterate`. -/
def ex_three_iter : cll_handler Nat :=
  let h1 := run1 (pall_cll_rewind ex_three 0) (pall_cll_iterate (pall_cll_rewind ex_three 0))
  run1 h1 (pall_cll_iterate h1)

/-! ## BST (`bst.c`, `bst.h`)

The tree that `tsearch`, `tfind`, `tdelete` and `twalk` of `<search.h>` maintain is not
part of the sources. It is represented by the payloads of its nodes in the order in which
`twalk` visits them (`postorder` and `leaf`), that is in increasing order of the keys under
a compare callback that orders them. -/

/-- `struct bst_stat` -/
structure bst_stat where
  insert : Nat := 0
  insert_err : Nat := 0
  del : Nat := 0
  del_nf : Nat := 0
  search : Nat := 0
  search_nf : Nat := 0
  serialize : Nat := 0
  serialize_err : Nat := 0
  unserialize : Nat := 0
  unserialize_err : Nat := 0
  stat : Nat := 0
  count : Nat := 0
  pope : Nat := 0
  collapse : Nat := 0
  iterate : Nat := 0
  rewind : Nat := 0
  elem_count_cur : Nat := 0
  elem_count_max : Nat := 0
deriving DecidableEq, Repr

/-- `struct bst_handler`: `root` holds the payloads of the nodes of the tree in the order
of `twalk`; `destroyed` is the log of the payloads handed to `destroy`. The function
pointers always point to the one function of their name and are not represented. -/
structure bst_handler (α : Type) where
  root : List α
  _iterate_forward : fifo_handler α
  _iterate_backward : lifo_handler α
  _iterate_reverse : Int
  _count : Nat
  _stat : bst_stat
  compare : Option (α → α → Int)
  ser_data : Option (pall_fd_t → α → pall_fd_t × Int)
  unser_data : Option (pall_fd_t → pall_fd_t × Option α)
  destroyed : List α

/-- `tfind(key, &root, compar)`: the payload of the node that compares equal to `key`,
`compar` being called as `compar(key, node)`; `NULL` when there is none. On a non-empty
tree the call of a `NULL` callback is not defined. -/
def tfind (cmp : Option (α → α → Int)) (key : α) : List α → Option (Option α)
  | [] => some none
  | y :: l =>
    obind cmp fun c =>
    if c key y = 0 then some (some y)
    else if c key y < 0 then some none
    else tfind cmp key l

/-- `tsearch(key, &root, compar)`: as `tfind`, but a key that is not found is added to the
tree at its place in the order. The result holds the payload of the node found, if any,
and the tree. -/
def tsearch (cmp : Option (α → α → Int)) (key : α) : List α → Option (Option α × List α)
  | [] => some (none, [key])
  | y :: l =>
    obind cmp fun c =>
    if c key y = 0 then some (some y, y :: l)
    else if c key y < 0 then some (none, key :: y :: l)
    else obind (tsearch cmp key l) fun r => some (r.1, y :: r.2)

/-- `tdelete(key, &root, compar)`: the tree without the node that compares equal to
`key`. -/
def tdelete (cmp : Option (α → α → Int)) (key : α) : List α → Option (List α)
  | [] => some []
  | y :: l =>
    obind cmp fun c =>
    if c key y = 0 then some l
    else if c key y < 0 then some (y :: l)
    else obind (tdelete cmp key l) fun r => some (y :: r)

/-- `_bst_insert`; `ok` tells whether `mm_alloc` returns a node, `ok_node` whether
`tsearch` can allocate the node it adds to the tree. When `tsearch` returns a node that is
not the new one, the new one is freed and the payload is not stored. -/
def _bst_insert (H : bst_handler α) (data : α) (ok ok_node : Bool) :
    Option (bst_handler α × Int) :=
  if !ok then
    some ({ H with _stat := { H._stat with insert_err := H._stat.insert_err + 1 } }, -1)
  else
    -- val = tsearch(n, &handler->root, &_bst_compare)
    obind (tsearch H.compare data H.root) fun r =>
    if r.1.isNone && !ok_node then
      some ({ H with _stat := { H._stat with insert_err := H._stat.insert_err + 1 } }, -1)
    else
      -- else if (*(struct bst_node **) val != n) mm_free(n);
      let H1 := { H with root := r.2 }
      let H2 := { H1 with _stat := { H1._stat with insert := H1._stat.insert + 1 },
                          _count := H1._count + 1 }
      let H3 :=
        if H2._stat.elem_count_max < H2._count then
          { H2 with _stat := { H2._stat with elem_count_max := H2._count } }
        else H2
      some (H3, 0)

/-- `_bst_delete` -/
def _bst_delete (H : bst_handler α) (data : α) : Option (bst_handler α × Int) :=
  obind (tfind H.compare data H.root) fun val =>
  match val with
  | none => some ({ H with _stat := { H._stat with del_nf := H._stat.del_nf + 1 } }, -1)
  | some d =>
    obind (tdelete H.compare data H.root) fun t =>
    let H1 := { H with root := t, destroyed := H.destroyed ++ [d],
                       _stat := { H._stat with del := H._stat.del + 1 } }
    -- if (!-- handler->_count) handler->root = NULL;
    let H2 := { H1 with _count := H1._count - 1 }
    some (if H2._count = 0 then { H2 with root := [] } else H2, 0)

/-- `_bst_count` -/
def _bst_count (H : bst_handler α) : bst_handler α × Nat :=
  ({ H with _stat := { H._stat with count := H._stat.count + 1 } }, H._count)

/-- The loop `while (handler->_iterate_forward->pop(handler->_iterate_forward)) ;` -/
def fifo_drain : Nat → fifo_handler α → Option (fifo_handler α)
  | 0, _ => none
  | fuel + 1, q =>
    obind (_fifo_pop q) fun r =>
    match r.2 with
    | none => some r.1
    | some _ => fifo_drain fuel r.1

/-- The loop `while (handler->_iterate_backward->pop(handler->_iterate_backward)) ;` -/
def lifo_drain : Nat → lifo_handler α → Option (lifo_handler α)
  | 0, _ => none
  | fuel + 1, s =>
    obind (_lifo_pop s) fun r =>
    match r.2 with
    | none => some r.1
    | some _ => lifo_drain fuel r.1

/-- `twalk(handler->root, &_bst_action_rewind_forward)`: every payload is pushed on the
queue, in the order of the walk; the nodes of the queue are allocated at the addresses
`a`, `a + 1`, and so on. A push that fails makes the `assert` fail. -/
def twalk_forward : List α → fifo_handler α → Nat → Option (fifo_handler α)
  | [], q, _ => some q
  | x :: l, q, a =>
    obind (_fifo_push 0 q x a) fun r =>
    if r.2 ≠ 0 then none else twalk_forward l r.1 (a + 1)

/-- `twalk(handler->root, &_bst_action_rewind_backward)`: every payload is pushed on the
stack, in the order of the walk. -/
def twalk_backward : List α → lifo_handler α → Nat → Option (lifo_handler α)
  | [], s, _ => some s
  | x :: l, s, a =>
    obind (_lifo_push 0 s x a) fun r =>
    if r.2 ≠ 0 then none else twalk_backward l r.1 (a + 1)

/-- `_bst_rewind`; the nodes that the walk pushes are allocated from the address `a`
on. -/
def _bst_rewind (H : bst_handler α) (to_ : Int) (a : Nat) : Option (bst_handler α) :=
  let H1 := { H with _iterate_reverse := to_ }
  obind (fifo_drain (H1._iterate_forward.fifo._count + 1) H1._iterate_forward) fun q =>
  obind (lifo_drain (H1._iterate_backward.lifo._count + 1) H1._iterate_backward) fun s =>
  let H2 := { H1 with _iterate_forward := q, _iterate_backward := s }
  obind
    (if to_ ≠ 0 then
      obind (twalk_backward H2.root H2._iterate_backward a) fun s2 =>
      some { H2 with _iterate_backward := s2 }
    else
      obind (twalk_forward H2.root H2._iterate_forward a) fun q2 =>
      some { H2 with _iterate_forward := q2 }) fun H3 =>
  some { H3 with _stat := { H3._stat with rewind := H3._stat.rewind + 1 } }

/-- `_bst_iterate` -/
def _bst_iterate (H : bst_handler α) : Option (bst_handler α × Option α) :=
  obind
    (if H._iterate_reverse ≠ 0 then
      obind (_lifo_pop H._iterate_backward) fun r =>
      some ({ H with _iterate_backward := r.1 }, r.2)
    else
      obind (_fifo_pop H._iterate_forward) fun r =>
      some ({ H with _iterate_forward := r.1 }, r.2)) fun x =>
  match x.2 with
  | none => some ({ x.1 with _stat := { x.1._stat with iterate := x.1._stat.iterate + 1 } }, none)
  | some d => some (x.1, some d)

/-- `pall_bst_init`; `destroy` tells whether a destroy callback is supplied, `ok` whether
the allocations succeed. The result `none` is the `NULL` handler. -/
def pall_bst_init (compare : Option (α → α → Int)) (destroy : Bool)
    (ser_data : Option (pall_fd_t → α → pall_fd_t × Int))
    (unser_data : Option (pall_fd_t → pall_fd_t × Option α)) (ok : Bool) :
    Option (bst_handler α) :=
  if !destroy then none
  else if !ok then none
  else
    obind (pall_fifo_init destroy none none ok ok) fun q =>
    obind (pall_lifo_init destroy none none ok ok) fun s =>
    some { root := []
           _iterate_forward := q
           _iterate_backward := s
           _iterate_reverse := 0
           _count := 0
           _stat := {}
           compare := compare
           ser_data := ser_data
           unser_data := unser_data
           destroyed := [] }

/-- `pall_bst_insert` -/
def pall_bst_insert (H : bst_handler α) (data : α) (ok ok_node : Bool) :
    Option (bst_handler α × Int) :=
  _bst_insert H data ok ok_node

/-- `pall_bst_delete` -/
def pall_bst_delete (H : bst_handler α) (data : α) : Option (bst_handler α × Int) :=
  _bst_delete H data

/-- `pall_bst_count` -/
def pall_bst_count (H : bst_handler α) : bst_handler α × Nat :=
  _bst_count H

/-- `pall_bst_iterate` -/
def pall_bst_iterate (H : bst_handler α) : Option (bst_handler α × Option α) :=
  _bst_iterate H

/-- `pall_bst_rewind` -/
def pall_bst_rewind (H : bst_handler α) (to_ : Int) (a : Nat) : Option (bst_handler α) :=
  _bst_rewind H to_ a

/-- Call `pall_bst_iterate` `k` times and collect the results. -/
def bst_iterate_n : Nat → bst_handler α → Option (bst_handler α × List (Option α))
  | 0, H => some (H, [])
  | k + 1, H =>
    obind (pall_bst_iterate H) fun r =>
    obind (bst_iterate_n k r.1) fun r2 => some (r2.1, r.2 :: r2.2)

/-- A comparison by key, the key of a number being its tens: `50` and `51` compare
equal. -/
def compare_tens (a b : Nat) : Int := compare_id (a / 10) (b / 10)

/-- The scenario: a fresh tree compared by `cmp`, `insert(x)`, `insert(y)`, `count()`,
`rewind(to)` and three calls of `iterate`. The result holds what the two calls of `insert`
return, what `count` returns, and what the calls of `iterate` return. -/
def scenario_bst (cmp : Nat → Nat → Int) (x y : Nat) (to_ : Int) :
    Option ((Int × Int) × Nat × List (Option Nat)) :=
  obind (pall_bst_init (some cmp) true none none true) fun H0 =>
  obind (pall_bst_insert H0 x true true) fun r1 =>
  obind (pall_bst_insert r1.1 y true true) fun r2 =>
  obind (pall_bst_rewind (pall_bst_count r2.1).1 to_ 1) fun H3 =>
  obind (bst_iterate_n 3 H3) fun it =>
  some ((r1.2, r2.2), (pall_bst_count r2.1).2, it.2)

/-- The scenario: as `scenario_bst` with `insert(50)`, `insert(51)`, then `delete(50)`,
`count()`, `rewind(0)` and two calls of `iterate`. The result holds what `delete` and
`count` return and what the calls of `iterate` return. -/
def scenario_bst_delete : Option (Int × Nat × List (Option Nat)) :=
  obind (pall_bst_init (some compare_tens) true none none true) fun H0 =>
  obind (pall_bst_insert H0 50 true true) fun r1 =>
  obind (pall_bst_insert r1.1 51 true true) fun r2 =>
  obind (pall_bst_delete r2.1 50) fun r3 =>
  obind (pall_bst_rewind (pall_bst_count r3.1).1 0 1) fun H4 =>
  obind (bst_iterate_n 2 H4) fun it =>
  some (r3.2, (pall_bst_count r3.1).2, it.2)

/-- The scenario: a fresh handler compared by key, set to
`CONFIG_SEARCH_LRU | flags | CONFIG_INSERT_TAIL`, `insert` of `10`, `20`, `21`, then
`search(20)`. The result holds the head-to-tail sequence before the search, what the
search returns and the head-to-tail sequence after it. -/
def scenario_lru_order (flags : Nat) : Option (List Nat × Option Nat × List Nat) :=
  obind (pall_cll_init (some compare_tens) true none none true) fun h0 =>
  obind (insert_all 0
    (pall_cll_set_config h0 (CONFIG_SEARCH_LRU ||| flags ||| CONFIG_INSERT_TAIL)).1
    [10, 20, 21] 1) fun s =>
  obind (pall_cll_search 3 s 20) fun r =>
  some (head_to_tail s, r.2, head_to_tail r.1)
/-! # Theorems -/

/-! ## Cyclic successor and predecessor -/

theorem nextOr_split (pre post : List Nat) (a b d : Nat) (h : a ∉ pre) :
    (pre ++ a :: b :: post).nextOr a d = b := by
  induction pre with
  | nil => simp [List.nextOr]
  | cons x pre ih =>
    have hx : a ≠ x := fun e => h (by simp [e])
    have hp : a ∉ pre := fun e => h (by simp [e])
    rw [List.cons_append, List.nextOr_cons_of_ne _ _ _ _ hx]
    exact ih hp

theorem cnext_mid (pre post : List Nat) (a b : Nat) (h : a ∉ pre) :
    cnext (pre ++ a :: b :: post) a = b := nextOr_split pre post a b _ h

theorem cnext_last (l : List Nat) (a : Nat) (h : a ∉ l) :
    cnext (l ++ [a]) a = (l ++ [a]).headD 0 := by
  unfold cnext
  exact List.nextOr_concat _ h

theorem cprev_mid (pre post : List Nat) (a b : Nat) (h : b ∉ post) :
    cprev (pre ++ a :: b :: post) b = a := by
  unfold cprev
  have : (pre ++ a :: b :: post).reverse = post.reverse ++ b :: a :: pre.reverse := by simp
  rw [this]
  exact cnext_mid _ _ _ _ (by simpa using h)

theorem cprev_first (l : List Nat) (a : Nat) (h : a ∉ l) :
    cprev (a :: l) a = (l.reverse ++ [a]).headD 0 := by
  unfold cprev
  have : (a :: l).reverse = l.reverse ++ [a] := by simp
  rw [this, cnext_last _ _ (by simpa using h)]

theorem cnext_eq_next (l : List Nat) (a : Nat) (h : a ∈ l) : cnext l a = l.next a h := by
  unfold cnext List.next
  congr 1
  cases l with
  | nil => simp at h
  | cons x l => rfl

theorem cprev_eq_prev (l : List Nat) (hn : l.Nodup) (a : Nat) (h : a ∈ l) :
    cprev l a = l.prev a h := by
  unfold cprev
  rw [cnext_eq_next _ _ (by simpa using h)]
  exact List.next_reverse_eq_prev l hn a h

theorem cnext_rot (l1 l2 : List Nat) (hn : (l1 ++ l2).Nodup) (a : Nat) (h : a ∈ l1 ++ l2) :
    cnext (l2 ++ l1) a = cnext (l1 ++ l2) a := by
  have h2 : a ∈ l2 ++ l1 := by simp at h ⊢; tauto
  rw [cnext_eq_next _ _ h, cnext_eq_next _ _ h2]
  have hr : (l1 ++ l2) ~r (l2 ++ l1) := ⟨l1.length, by simp [List.rotate_append_length_eq]⟩
  exact (List.isRotated_next_eq hr hn h).symm

theorem cprev_rot (l1 l2 : List Nat) (hn : (l1 ++ l2).Nodup) (a : Nat) (h : a ∈ l1 ++ l2) :
    cprev (l2 ++ l1) a = cprev (l1 ++ l2) a := by
  have h2 : a ∈ l2 ++ l1 := by simp at h ⊢; tauto
  have hn2 : (l2 ++ l1).Nodup := by
    rw [List.nodup_append_comm]; exact hn
  rw [cprev_eq_prev _ hn _ h, cprev_eq_prev _ hn2 _ h2]
  have hr : (l1 ++ l2) ~r (l2 ++ l1) := ⟨l1.length, by simp [List.rotate_append_length_eq]⟩
  exact (List.isRotated_prev_eq hr hn h).symm

theorem cnext_mem (l : List Nat) (a : Nat) (h : a ∈ l) : cnext l a ∈ l := by
  rw [cnext_eq_next _ _ h]; exact List.next_mem _ _ h

theorem cprev_mem (l : List Nat) (a : Nat) (h : a ∈ l) : cprev l a ∈ l := by
  have := cnext_mem l.reverse a (by simpa using h)
  simpa [cprev] using this

theorem cprev_cnext (l : List Nat) (hn : l.Nodup) (a : Nat) (h : a ∈ l) :
    cprev l (cnext l a) = a := by
  rw [cprev_eq_prev _ hn _ (cnext_mem l a h)]
  simp only [cnext_eq_next _ _ h]
  exact List.prev_next l hn a h

theorem cnext_cprev (l : List Nat) (hn : l.Nodup) (a : Nat) (h : a ∈ l) :
    cnext l (cprev l a) = a := by
  rw [cnext_eq_next _ _ (cprev_mem l a h)]
  simp only [cprev_eq_prev _ hn _ h]
  exact List.next_prev l hn a h


/-! ### Insertion at the front of a cyclic list -/

theorem cnext_cons_self (n c : Nat) (r : List Nat) : cnext (n :: c :: r) n = c :=
  cnext_mid [] r n c (by simp)

theorem cprev_cons_head (n c : Nat) (r : List Nat) (hn : (n :: c :: r).Nodup) :
    cprev (n :: c :: r) c = n :=
  cprev_mid [] r n c (by
    have := hn.of_cons
    exact (List.nodup_cons.1 this).1)

theorem cprev_cons_self (n c : Nat) (r : List Nat) (hn : (n :: c :: r).Nodup) :
    cprev (n :: c :: r) n = cprev (c :: r) c := by
  have h1 : n ∉ c :: r := (List.nodup_cons.1 hn).1
  have h2 : c ∉ r := (List.nodup_cons.1 hn.of_cons).1
  rw [cprev_first _ _ h1, cprev_first _ _ h2]
  simp

theorem cnext_cons_of_mem (n c : Nat) (r : List Nat) (hn : (n :: c :: r).Nodup) (a : Nat)
    (ha : a ∈ c :: r) :
    cnext (n :: c :: r) a = if cnext (c :: r) a = c then n else cnext (c :: r) a := by
  obtain ⟨l1, l2, hl⟩ := List.append_of_mem ha
  have hnd : (l1 ++ a :: l2).Nodup := hl ▸ hn.of_cons
  have ha1 : a ∉ l1 := by
    intro h
    have := List.disjoint_of_nodup_append hnd h
    simp at this
  rcases l2 with _ | ⟨b, l2⟩
  · have e1 : cnext (c :: r) a = c := by
      rw [hl, cnext_last _ _ ha1, ← hl]; rfl
    have e2 : cnext (n :: c :: r) a = n := by
      rw [hl, ← List.cons_append, cnext_last]
      · rfl
      · intro h
        rcases List.mem_cons.1 h with h | h
        · have := (List.nodup_cons.1 hn).1
          exact this (h ▸ ha)
        · exact ha1 h
    rw [e1, e2]; simp
  · have e1 : cnext (c :: r) a = b := by rw [hl]; exact cnext_mid _ _ _ _ ha1
    have e2 : cnext (n :: c :: r) a = b := by
      rw [hl, ← List.cons_append]
      apply cnext_mid
      intro h
      rcases List.mem_cons.1 h with h | h
      · exact (List.nodup_cons.1 hn).1 (h ▸ ha)
      · exact ha1 h
    have hbc : b ≠ c := by
      intro e
      subst e
      rcases l1 with _ | ⟨x, l1⟩
      · simp at hl
        obtain ⟨h1, h2⟩ := hl
        subst h1
        simp at hnd
      · simp at hl
        obtain ⟨h1, h2⟩ := hl
        subst h1
        simp at hnd
    rw [e1, e2]; simp [hbc]

theorem cprev_cons_of_mem (n c : Nat) (r : List Nat) (hn : (n :: c :: r).Nodup) (a : Nat)
    (ha : a ∈ r) : cprev (n :: c :: r) a = cprev (c :: r) a := by
  obtain ⟨l1, l2, hl⟩ := List.append_of_mem ha
  have hnd : (c :: (l1 ++ a :: l2)).Nodup := hl ▸ hn.of_cons
  have ha2 : a ∉ l2 := by
    have := hnd.of_cons
    rw [List.nodup_append] at this
    have h3 := this.2.1
    exact (List.nodup_cons.1 h3).1
  subst hl
  rcases List.eq_nil_or_concat l1 with h | ⟨l1, x, h⟩
  · subst h
    have e1 : cprev (c :: a :: l2) a = c := cprev_mid [] l2 c a ha2
    have e2 : cprev (n :: c :: a :: l2) a = c := cprev_mid [n] l2 c a ha2
    simp only [List.nil_append]
    rw [e1, e2]
  · subst h
    have e1 : cprev (c :: (l1 ++ [x] ++ a :: l2)) a = x := by
      have := cprev_mid (c :: l1) l2 x a ha2
      simpa using this
    have e2 : cprev (n :: c :: (l1 ++ [x] ++ a :: l2)) a = x := by
      have := cprev_mid (n :: c :: l1) l2 x a ha2
      simpa using this
    simp only [List.concat_eq_append]
    rw [e1, e2]


/-! ## The heap primitives -/

@[simp] theorem obind_some {β γ : Type} (a : β) (f : β → Option γ) : obind (some a) f = f a := rfl

@[simp] theorem obind_none {β γ : Type} (f : β → Option γ) : obind none f = none := rfl

theorem obind_eq_some {β γ : Type} {x : Option β} {f : β → Option γ} {c : γ} :
    obind x f = some c ↔ ∃ a, x = some a ∧ f a = some c := by
  cases x <;> simp

theorem live_of_next {m : Heap α} {a b : Nat} (h : ld_next m a = some b) : live m a := by
  unfold ld_next at h; unfold live
  cases hm : m a <;> simp [hm] at h ⊢

theorem live_of_prev {m : Heap α} {a b : Nat} (h : ld_prev m a = some b) : live m a := by
  unfold ld_prev at h; unfold live
  cases hm : m a <;> simp [hm] at h ⊢

theorem st_next_live {m : Heap α} {p : Nat} (q : Nat) (h : live m p) :
    st_next m p q = some (wnext m p q) := by
  unfold st_next; unfold live at h; simp [h]

theorem st_prev_live {m : Heap α} {p : Nat} (q : Nat) (h : live m p) :
    st_prev m p q = some (wprev m p q) := by
  unfold st_prev; unfold live at h; simp [h]

@[simp] theorem live_wnext (m : Heap α) (p q a : Nat) : live (wnext m p q) a ↔ live m a := by
  unfold live wnext; by_cases h : a = p <;> simp [h]

@[simp] theorem live_wprev (m : Heap α) (p q a : Nat) : live (wprev m p q) a ↔ live m a := by
  unfold live wprev; by_cases h : a = p <;> simp [h]

@[simp] theorem ld_data_wnext (m : Heap α) (p q a : Nat) :
    ld_data (wnext m p q) a = ld_data m a := by
  unfold ld_data wnext; by_cases h : a = p <;> simp [h]
  cases m p <;> rfl

@[simp] theorem ld_data_wprev (m : Heap α) (p q a : Nat) :
    ld_data (wprev m p q) a = ld_data m a := by
  unfold ld_data wprev; by_cases h : a = p <;> simp [h]
  cases m p <;> rfl

@[simp] theorem ld_prev_wnext (m : Heap α) (p q a : Nat) :
    ld_prev (wnext m p q) a = ld_prev m a := by
  unfold ld_prev wnext; by_cases h : a = p <;> simp [h]
  cases m p <;> rfl

@[simp] theorem ld_next_wprev (m : Heap α) (p q a : Nat) :
    ld_next (wprev m p q) a = ld_next m a := by
  unfold ld_next wprev; by_cases h : a = p <;> simp [h]
  cases m p <;> rfl

theorem ld_next_wnext_ne (m : Heap α) {p a : Nat} (q : Nat) (h : a ≠ p) :
    ld_next (wnext m p q) a = ld_next m a := by
  unfold ld_next wnext; simp [h]

theorem ld_next_wnext_eq (m : Heap α) {p : Nat} (q : Nat) (h : live m p) :
    ld_next (wnext m p q) p = some q := by
  unfold live at h
  unfold ld_next wnext
  cases hm : m p <;> simp [hm] at h ⊢

theorem ld_prev_wprev_ne (m : Heap α) {p a : Nat} (q : Nat) (h : a ≠ p) :
    ld_prev (wprev m p q) a = ld_prev m a := by
  unfold ld_prev wprev; simp [h]

theorem ld_prev_wprev_eq (m : Heap α) {p : Nat} (q : Nat) (h : live m p) :
    ld_prev (wprev m p q) p = some q := by
  unfold live at h
  unfold ld_prev wprev
  cases hm : m p <;> simp [hm] at h ⊢

theorem ld_next_wnext (m : Heap α) (p q a : Nat) (h : live m p) :
    ld_next (wnext m p q) a = if a = p then some q else ld_next m a := by
  by_cases e : a = p
  · subst e; simp [ld_next_wnext_eq m q h]
  · simp [e, ld_next_wnext_ne]

theorem ld_prev_wprev (m : Heap α) (p q a : Nat) (h : live m p) :
    ld_prev (wprev m p q) a = if a = p then some q else ld_prev m a := by
  by_cases e : a = p
  · subst e; simp [ld_prev_wprev_eq m q h]
  · simp [e, ld_prev_wprev_ne]

/-! ## Rings -/

theorem RingOK.next {m : Heap α} {l : List Nat} (h : RingOK m l) {a : Nat} (ha : a ∈ l) :
    ld_next m a = some (cnext l a) := (h.2 a ha).1

theorem RingOK.prev {m : Heap α} {l : List Nat} (h : RingOK m l) {a : Nat} (ha : a ∈ l) :
    ld_prev m a = some (cprev l a) := (h.2 a ha).2

theorem RingOK.alive {m : Heap α} {l : List Nat} (h : RingOK m l) {a : Nat} (ha : a ∈ l) :
    live m a := live_of_next (h.next ha)

theorem RingOK.rot {m : Heap α} {l1 l2 : List Nat} (h : RingOK m (l1 ++ l2)) :
    RingOK m (l2 ++ l1) := by
  refine ⟨List.nodup_append_comm.1 h.1, fun a ha => ?_⟩
  have ha1 : a ∈ l1 ++ l2 := by simp at ha ⊢; tauto
  rw [cnext_rot l1 l2 h.1 a ha1, cprev_rot l1 l2 h.1 a ha1]
  exact h.2 a ha1

/-- Linking a node that is not part of the ring right before the first node of the ring. -/
theorem link_before_ring (m : Heap α) (n c : Nat) (r : List Nat) (hr : RingOK m (c :: r))
    (hn : n ∉ c :: r) (hl : live m n) :
    ∃ m1, link_before m n c = some m1 ∧ RingOK m1 (n :: c :: r) ∧
      (∀ a, ld_data m1 a = ld_data m a) ∧ (∀ a, live m1 a ↔ live m a) := by
  have hc : c ∈ c :: r := List.mem_cons_self _ _
  have hp := cprev_mem (c :: r) c hc
  set p := cprev (c :: r) c with hpdef
  have hnp : n ≠ p := fun e => hn (e ▸ hp)
  have hnc : n ≠ c := fun e => hn (e ▸ hc)
  have hnd : (n :: c :: r).Nodup := List.nodup_cons.2 ⟨hn, hr.1⟩
  refine ⟨wprev (wnext (wprev (wnext m n c) n p) p n) c n, ?_, ⟨hnd, ?_⟩, ?_, ?_⟩
  · unfold link_before
    have h1 : ld_prev m c = some p := hr.prev hc
    simp [st_next_live, st_prev_live, hl, hr.alive hc, hr.alive hp, h1,
      ld_prev_wprev_ne _ _ (Ne.symm hnc)]
  · intro a ha
    rcases List.mem_cons.1 ha with e | ha
    · subst e
      constructor
      · rw [cnext_cons_self]
        simp [ld_next_wnext_ne _ _ hnp, ld_next_wnext_eq _ _ hl]
      · rw [cprev_cons_self _ _ _ hnd]
        simp [ld_prev_wprev_ne _ _ hnc, ld_prev_wprev_eq, hl]
    · have han : a ≠ n := fun e => hn (e ▸ ha)
      constructor
      · rw [cnext_cons_of_mem n c r hnd a ha]
        simp only [ld_next_wprev]
        rw [ld_next_wnext _ _ _ _ (by simpa using hr.alive hp)]
        simp only [ld_next_wprev, ld_next_wnext_ne _ _ han, hr.next ha]
        by_cases e : a = p
        · subst e
          simp [hpdef, cnext_cprev _ hr.1 c hc]
        · have : cnext (c :: r) a ≠ c := by
            intro e2
            apply e
            have h3 := cprev_cnext _ hr.1 a ha
            rw [e2] at h3
            exact h3.symm
          simp [e, this]
      · rw [ld_prev_wprev _ _ _ _ (by simpa using hr.alive hc)]
        by_cases e : a = c
        · subst e
          simp [cprev_cons_head _ _ _ hnd]
        · have har : a ∈ r := by
            rcases List.mem_cons.1 ha with h | h
            · exact absurd h e
            · exact h
          simp [e, ld_prev_wprev_ne _ _ han, hr.prev ha, cprev_cons_of_mem _ _ _ hnd a har]
  · intro a; simp
  · intro a; simp


theorem wprev_wnext_comm (m : Heap α) (p q c q2 : Nat) :
    wprev (wnext m p q) c q2 = wnext (wprev m c q2) p q := by
  funext a
  by_cases h1 : a = p <;> by_cases h2 : a = c <;> cases hm : m a <;>
    simp [wprev, wnext, h1, h2, hm] <;> simp_all

theorem cnext_split (pre post : List Nat) (a : Nat) (hn : (pre ++ a :: post).Nodup) :
    cnext (pre ++ a :: post) a = (post ++ pre ++ [a]).headD 0 := by
  have ha : a ∉ pre := by
    intro h
    have := List.disjoint_of_nodup_append hn h
    simp at this
  rcases post with _ | ⟨b, post⟩
  · simpa using cnext_last pre a ha
  · simpa using cnext_mid pre post a b ha

theorem cprev_split (pre post : List Nat) (a : Nat) (hn : (pre ++ a :: post).Nodup) :
    cprev (pre ++ a :: post) a = ((post ++ pre).reverse ++ [a]).headD 0 := by
  unfold cprev
  have e : (pre ++ a :: post).reverse = post.reverse ++ a :: pre.reverse := by simp
  rw [e, cnext_split]
  · simp
  · rw [← e]; exact List.nodup_reverse.2 hn

theorem cnext_ne_self (c : Nat) (r : List Nat) (hr : r ≠ []) (hn : (c :: r).Nodup) :
    cnext (c :: r) c ≠ c := by
  rcases r with _ | ⟨x, r⟩
  · exact absurd rfl hr
  · rw [cnext_cons_self]
    intro e
    subst e
    simp at hn

theorem cprev_ne_self (c : Nat) (r : List Nat) (hr : r ≠ []) (hn : (c :: r).Nodup) :
    cprev (c :: r) c ≠ c := by
  intro e
  have h := cnext_cprev _ hn c (List.mem_cons_self _ _)
  rw [e] at h
  exact cnext_ne_self c r hr hn h

/-- Linking a node that is not part of the ring right after a node of the ring amounts to
linking it right before the successor of that node. -/
theorem link_after_eq (m : Heap α) (n p : Nat) (l : List Nat) (hr : RingOK m l)
    (hp : p ∈ l) (hn : n ∉ l) (hl : live m n) :
    link_after m n p = link_before m n (cnext l p) := by
  have hc := cnext_mem l p hp
  set c := cnext l p with hcdef
  have hnp : n ≠ p := fun e => hn (e ▸ hp)
  have hnc : n ≠ c := fun e => hn (e ▸ hc)
  have h1 : ld_next m p = some c := hr.next hp
  have h2 : ld_prev m c = some p := by
    rw [hr.prev hc, hcdef, cprev_cnext _ hr.1 p hp]
  unfold link_after link_before
  simp [st_next_live, st_prev_live, hl, hr.alive hc, hr.alive hp, h1, h2,
      ld_prev_wprev_ne _ _ (Ne.symm hnc), ld_next_wnext_ne _ _ (Ne.symm hnp),
      wprev_wnext_comm]

/-- Taking the first node out of a ring of at least two nodes. -/
theorem splice_out_ring (m : Heap α) (c : Nat) (r : List Nat) (hr : RingOK m (c :: r))
    (hne : r ≠ []) :
    ∃ m1, splice_out m c = some m1 ∧ RingOK m1 r ∧
      (∀ a, ld_data m1 a = ld_data m a) ∧ (∀ a, live m1 a ↔ live m a) ∧
      ld_next m1 c = ld_next m c ∧ ld_prev m1 c = ld_prev m c := by
  obtain ⟨y, r2, hr2⟩ := List.exists_cons_of_ne_nil hne
  subst hr2
  have hc : c ∈ c :: y :: r2 := List.mem_cons_self _ _
  have hp := cprev_mem (c :: y :: r2) c hc
  have hpc := cprev_ne_self c (y :: r2) hne hr.1
  have hy : y ∈ c :: y :: r2 := by simp
  have hcr : c ∉ y :: r2 := (List.nodup_cons.1 hr.1).1
  have hyc : y ≠ c := fun e => hcr (by simp [e])
  set p := cprev (c :: y :: r2) c with hpdef
  have hlp : live m p := hr.alive hp
  have hly : live m y := hr.alive hy
  have h1 : ld_prev m c = some p := hr.prev hc
  have h2 : ld_next m c = some y := by rw [hr.next hc, cnext_cons_self]
  refine ⟨wprev (wnext m p y) y p, ?_, ⟨hr.1.of_cons, ?_⟩, ?_, ?_, ?_, ?_⟩
  · unfold splice_out
    simp [h1, h2, st_next_live, st_prev_live, hlp, hly, ld_next_wnext_ne _ _ (Ne.symm hpc)]
  · intro a ha
    have hac : a ≠ c := fun e => hcr (e ▸ ha)
    have ha2 : a ∈ c :: y :: r2 := List.mem_cons_of_mem _ ha
    have key := cnext_cons_of_mem c y r2 hr.1 a ha
    constructor
    · simp only [ld_next_wprev]
      rw [ld_next_wnext _ _ _ _ hlp, hr.next ha2]
      by_cases e : a = p
      · have e1 : cnext (c :: y :: r2) a = c := by
          rw [e, hpdef]; exact cnext_cprev _ hr.1 c hc
        rw [e1] at key
        have h3 : cnext (y :: r2) a = y := by
          by_contra hcon
          simp only [hcon, if_false] at key
          exact hcr (key ▸ cnext_mem _ a ha)
        simp only [e, if_true]
        rw [← e, h3]
      · have e1 : cnext (c :: y :: r2) a ≠ c := by
          intro e2
          apply e
          have h3 := cprev_cnext _ hr.1 a ha2
          rw [e2] at h3
          exact h3.symm
        have h3 : ¬ cnext (y :: r2) a = y := by
          intro hcon
          simp only [hcon, if_true] at key
          exact e1 key
        simp only [h3, if_false] at key
        simp [e, key]
    · rw [ld_prev_wprev _ _ _ _ (by simpa using hly)]
      by_cases e : a = y
      · simp only [e, if_true]
        rw [hpdef, cprev_cons_self c y r2 hr.1]
      · have har : a ∈ r2 := by
          rcases List.mem_cons.1 ha with h | h
          · exact absurd h e
          · exact h
        simp [e, hr.prev ha2, cprev_cons_of_mem c y r2 hr.1 a har]
  · intro a; simp
  · intro a; simp
  · simp [ld_next_wnext_ne _ _ (Ne.symm hpc)]
  · simp [ld_prev_wprev_ne _ _ (Ne.symm hyc)]


/-! ## Allocation and release -/

theorem not_live_iff {m : Heap α} {a : Nat} : ¬ live m a ↔ m a = none := by
  unfold live; cases m a <;> simp

@[simp] theorem ld_next_mm_new (m : Heap α) (n : Nat) (x : α) (a : Nat) :
    ld_next (mm_new m n x) a = if a = n then some 0 else ld_next m a := by
  unfold ld_next mm_new; by_cases h : a = n <;> simp [h]

@[simp] theorem ld_prev_mm_new (m : Heap α) (n : Nat) (x : α) (a : Nat) :
    ld_prev (mm_new m n x) a = if a = n then some 0 else ld_prev m a := by
  unfold ld_prev mm_new; by_cases h : a = n <;> simp [h]

@[simp] theorem ld_data_mm_new (m : Heap α) (n : Nat) (x : α) (a : Nat) :
    ld_data (mm_new m n x) a = if a = n then some x else ld_data m a := by
  unfold ld_data mm_new; by_cases h : a = n <;> simp [h]

@[simp] theorem live_mm_new (m : Heap α) (n : Nat) (x : α) (a : Nat) :
    live (mm_new m n x) a ↔ a = n ∨ live m a := by
  unfold live mm_new; by_cases h : a = n <;> simp [h]

@[simp] theorem ld_next_mm_free (m : Heap α) (p a : Nat) :
    ld_next (mm_free m p) a = if a = p then none else ld_next m a := by
  unfold ld_next mm_free; by_cases h : a = p <;> simp [h]

@[simp] theorem ld_prev_mm_free (m : Heap α) (p a : Nat) :
    ld_prev (mm_free m p) a = if a = p then none else ld_prev m a := by
  unfold ld_prev mm_free; by_cases h : a = p <;> simp [h]

@[simp] theorem ld_data_mm_free (m : Heap α) (p a : Nat) :
    ld_data (mm_free m p) a = if a = p then none else ld_data m a := by
  unfold ld_data mm_free; by_cases h : a = p <;> simp [h]

@[simp] theorem live_mm_free (m : Heap α) (p a : Nat) :
    live (mm_free m p) a ↔ a ≠ p ∧ live m a := by
  unfold live mm_free; by_cases h : a = p <;> simp [h]

/-- A ring only depends on the link fields of its nodes. -/
theorem RingOK.frame {m m1 : Heap α} {l : List Nat} (h : RingOK m l)
    (hf : ∀ a ∈ l, ld_next m1 a = ld_next m a ∧ ld_prev m1 a = ld_prev m a) : RingOK m1 l :=
  ⟨h.1, fun a ha => by rw [(hf a ha).1, (hf a ha).2]; exact h.2 a ha⟩

/-! ## Heap abstraction -/

theorem HeapAbs.hrot {m : Heap α} {L1 L2 : List (Nat × α)} (h : HeapAbs m (L1 ++ L2)) :
    HeapAbs m (L2 ++ L1) := by
  refine ⟨?_, ?_, ?_, ?_⟩
  · have := h.ring
    rw [List.map_append] at this ⊢
    exact this.rot
  · intro p hp
    exact h.data p (by simp at hp ⊢; tauto)
  · intro a ha
    exact h.exact a (by simp at ha ⊢; tauto)
  · have := h.nonnull
    simp at this ⊢; tauto

theorem HeapAbs.mem_fst {L : List (Nat × α)} {p : Nat × α} (hp : p ∈ L) :
    p.1 ∈ L.map Prod.fst := List.mem_map_of_mem _ hp

theorem HeapAbs.halive {m : Heap α} {L : List (Nat × α)} (h : HeapAbs m L) {a : Nat}
    (ha : a ∈ L.map Prod.fst) : live m a := h.ring.alive ha

theorem HeapAbs.fresh {m : Heap α} {L : List (Nat × α)} (h : HeapAbs m L) {n : Nat}
    (hn : m n = none) : n ∉ L.map Prod.fst := by
  intro hc
  have := h.halive hc
  unfold live at this
  simp [hn] at this

theorem HeapAbs.nil_iff {m : Heap α} : HeapAbs m ([] : List (Nat × α)) ↔ ∀ a, m a = none := by
  constructor
  · intro h a
    exact h.exact a (by simp)
  · intro h
    exact ⟨⟨List.nodup_nil, by simp⟩, by simp, fun a _ => h a, by simp⟩

/-- The first node of a list. -/
theorem HeapAbs.new_self {m : Heap α} (h : HeapAbs m []) (n : Nat) (x : α) (hn : n ≠ 0) :
    ∃ m1, link_self (mm_new m n x) n = some m1 ∧ HeapAbs m1 [(n, x)] := by
  have hl : live (mm_new m n x) n := by simp
  refine ⟨wprev (wnext (mm_new m n x) n n) n n, ?_, ?_, ?_, ?_, ?_⟩
  · unfold link_self
    simp [st_next_live, st_prev_live, hl]
  · refine ⟨by simp, ?_⟩
    intro a ha
    simp at ha
    subst ha
    constructor
    · simp [ld_next_wnext_eq _ _ hl, cnext, List.nextOr]
    · rw [ld_prev_wprev_eq _ _ (by simpa using hl)]
      simp [cprev, cnext, List.nextOr]
  · intro p hp
    simp at hp
    subst hp
    simp
  · intro a ha
    simp at ha
    have h0 := HeapAbs.nil_iff.1 h a
    apply not_live_iff.1
    simp [ha, not_live_iff.2 h0]
  · simp [hn.symm]

/-- Linking a fresh node right before the node `c` of the ring. -/
theorem HeapAbs.new_before {m : Heap α} (pre post : List (Nat × α)) {c : Nat} {d : α}
    (h : HeapAbs m (pre ++ (c, d) :: post)) (n : Nat) (x : α) (hn : n ≠ 0)
    (hf : m n = none) :
    ∃ m1, link_before (mm_new m n x) n c = some m1 ∧
      HeapAbs m1 (pre ++ (n, x) :: (c, d) :: post) := by
  have hnl := h.fresh hf
  have h1 : RingOK (mm_new m n x) ((pre ++ (c, d) :: post).map Prod.fst) := by
    apply h.ring.frame
    intro a ha
    have : a ≠ n := fun e => hnl (e ▸ ha)
    simp [this]
  have h2 : RingOK (mm_new m n x) (c :: (post.map Prod.fst ++ pre.map Prod.fst)) := by
    have : (pre ++ (c, d) :: post).map Prod.fst = pre.map Prod.fst ++
        (c :: post.map Prod.fst) := by simp
    rw [this] at h1
    simpa using h1.rot
  have hn2 : n ∉ c :: (post.map Prod.fst ++ pre.map Prod.fst) := by
    simp at hnl ⊢; tauto
  obtain ⟨m1, e1, r1, d1, l1⟩ := link_before_ring _ n c _ h2 hn2 (by simp)
  refine ⟨m1, e1, ?_, ?_, ?_, ?_⟩
  · have : n :: c :: (post.map Prod.fst ++ pre.map Prod.fst) =
        (n :: c :: post.map Prod.fst) ++ pre.map Prod.fst := by simp
    rw [this] at r1
    simpa using r1.rot
  · intro p hp
    rw [d1]
    by_cases e : p.1 = n
    · have : p = (n, x) := by
        simp at hp
        rcases hp with hp | hp | hp | hp
        · exact absurd (e ▸ HeapAbs.mem_fst (List.mem_append_left _ hp)) hnl
        · exact hp
        · rw [hp] at e; simp at e; subst e; simp at hnl
        · exact absurd (e ▸ HeapAbs.mem_fst (List.mem_append_right _
            (List.mem_cons_of_mem _ hp))) hnl
      subst this
      simp
    · simp [e]
      apply h.data
      simp at hp ⊢
      rcases hp with hp | hp | hp | hp
      · exact Or.inl hp
      · rw [hp] at e; simp at e
      · exact Or.inr (Or.inl hp)
      · exact Or.inr (Or.inr hp)
  · intro a ha
    apply not_live_iff.1
    rw [l1]
    simp at ha
    have h0 := h.exact a (by simp; tauto)
    simp [not_live_iff.2 h0]
    tauto
  · have := h.nonnull
    simp at this ⊢
    refine ⟨?_, Ne.symm hn, ?_⟩ <;> tauto


theorem nodup_mid {pre post : List Nat} {c : Nat} (h : (pre ++ c :: post).Nodup) :
    c ∉ pre ++ post := by
  intro hc
  rw [List.nodup_append] at h
  obtain ⟨_, h2, h3⟩ := h
  rcases List.mem_append.1 hc with hc | hc
  · exact h3 hc (List.mem_cons_self _ _)
  · exact (List.nodup_cons.1 h2).1 hc

theorem HeapAbs.not_mem_mid {m : Heap α} (pre post : List (Nat × α)) {c : Nat} {d : α}
    (h : HeapAbs m (pre ++ (c, d) :: post)) : c ∉ (pre ++ post).map Prod.fst := by
  have := h.ring.1
  simp only [List.map_append, List.map_cons] at this ⊢
  exact nodup_mid this

theorem HeapAbs.nodup {m : Heap α} {L : List (Nat × α)} (h : HeapAbs m L) :
    (L.map Prod.fst).Nodup := h.ring.1

theorem HeapAbs.hnext {m : Heap α} (pre post : List (Nat × α)) {c : Nat} {d : α}
    (h : HeapAbs m (pre ++ (c, d) :: post)) :
    ld_next m c = some (((post ++ pre).map Prod.fst ++ [c]).headD 0) := by
  have hc : c ∈ (pre ++ (c, d) :: post).map Prod.fst := by simp
  rw [h.ring.next hc]
  have e : (pre ++ (c, d) :: post).map Prod.fst = pre.map Prod.fst ++ c :: post.map Prod.fst := by
    simp
  have hn := h.nodup
  rw [e] at hn ⊢
  rw [cnext_split _ _ _ hn]
  simp

theorem HeapAbs.hprev {m : Heap α} (pre post : List (Nat × α)) {c : Nat} {d : α}
    (h : HeapAbs m (pre ++ (c, d) :: post)) :
    ld_prev m c = some ((((post ++ pre).map Prod.fst).reverse ++ [c]).headD 0) := by
  have hc : c ∈ (pre ++ (c, d) :: post).map Prod.fst := by simp
  rw [h.ring.prev hc]
  have e : (pre ++ (c, d) :: post).map Prod.fst = pre.map Prod.fst ++ c :: post.map Prod.fst := by
    simp
  have hn := h.nodup
  rw [e] at hn ⊢
  rw [cprev_split _ _ _ hn]
  simp

theorem HeapAbs.dat {m : Heap α} (pre post : List (Nat × α)) {c : Nat} {d : α}
    (h : HeapAbs m (pre ++ (c, d) :: post)) : ld_data m c = some d :=
  h.data (c, d) (by simp)

/-- Linking a fresh node right after the node `c` of the ring. -/
theorem HeapAbs.new_after {m : Heap α} (pre post : List (Nat × α)) {c : Nat} {d : α}
    (h : HeapAbs m (pre ++ (c, d) :: post)) (n : Nat) (x : α) (hn : n ≠ 0)
    (hf : m n = none) :
    ∃ m1, link_after (mm_new m n x) n c = some m1 ∧
      HeapAbs m1 (pre ++ (c, d) :: (n, x) :: post) := by
  have hnl := h.fresh hf
  have hc : c ∈ (pre ++ (c, d) :: post).map Prod.fst := by simp
  have h1 : RingOK (mm_new m n x) ((pre ++ (c, d) :: post).map Prod.fst) := by
    apply h.ring.frame
    intro a ha
    have : a ≠ n := fun e => hnl (e ▸ ha)
    simp [this]
  rw [link_after_eq _ n c _ h1 hc hnl (by simp)]
  have hnx : ld_next m c = some (cnext ((pre ++ (c, d) :: post).map Prod.fst) c) :=
    h.ring.next hc
  rw [h.hnext pre post] at hnx
  rw [← Option.some.inj hnx]
  have hrot : HeapAbs m (post ++ pre ++ [(c, d)]) := by
    have : HeapAbs m ((pre ++ [(c, d)]) ++ post) := by simpa using h
    simpa using this.hrot
  rcases hpp : post ++ pre with _ | ⟨⟨c2, d2⟩, R⟩
  · have hpost : post = [] := (List.append_eq_nil.1 hpp).1
    have hpre : pre = [] := (List.append_eq_nil.1 hpp).2
    subst hpost; subst hpre
    simp only [List.nil_append] at h ⊢
    obtain ⟨m1, e1, a1⟩ := HeapAbs.new_before [] [] h n x hn hf
    refine ⟨m1, by simpa using e1, ?_⟩
    have : HeapAbs m1 ([(n, x)] ++ [(c, d)]) := by simpa using a1
    simpa using this.hrot
  · rw [hpp] at hrot
    obtain ⟨m1, e1, a1⟩ := HeapAbs.new_before [] (R ++ [(c, d)])
      (by simpa using hrot) n x hn hf
    refine ⟨m1, by simpa using e1, ?_⟩
    have e2 : ([] : List (Nat × α)) ++ (n, x) :: (c2, d2) :: (R ++ [(c, d)]) =
        ((n, x) :: post) ++ (pre ++ [(c, d)]) := by
      simp only [List.nil_append, List.cons_append, List.cons.injEq, true_and]
      rw [← List.append_assoc, hpp]
      simp
    rw [e2] at a1
    simpa using a1.hrot

/-- Taking the node `c` out of a ring of at least two nodes. -/
theorem HeapAbs.splice {m : Heap α} (pre post : List (Nat × α)) {c : Nat} {d : α}
    (h : HeapAbs m (pre ++ (c, d) :: post)) (hne : pre ++ post ≠ []) :
    ∃ m1, splice_out m c = some m1 ∧ RingOK m1 ((pre ++ post).map Prod.fst) ∧
      (∀ a, ld_data m1 a = ld_data m a) ∧ (∀ a, live m1 a ↔ live m a) ∧
      ld_next m1 c = ld_next m c ∧ ld_prev m1 c = ld_prev m c := by
  have hrot : HeapAbs m ((c, d) :: post ++ pre) := by
    simpa using h.hrot
  have hr := hrot.ring
  simp only [List.map_cons, List.map_append, List.cons_append] at hr
  have hne2 : post.map Prod.fst ++ pre.map Prod.fst ≠ [] := by
    intro e
    apply hne
    simp at e ⊢
    tauto
  obtain ⟨m1, e1, r1, d1, l1, n1, p1⟩ := splice_out_ring m c _ hr hne2
  refine ⟨m1, e1, ?_, d1, l1, n1, p1⟩
  simpa using r1.rot

/-- Unlinking and releasing the node `c` of a ring of at least two nodes. -/
theorem HeapAbs.remove {m : Heap α} (pre post : List (Nat × α)) {c : Nat} {d : α}
    (h : HeapAbs m (pre ++ (c, d) :: post)) (hne : pre ++ post ≠ []) :
    ∃ m1, splice_out m c = some m1 ∧ ld_next m1 c = ld_next m c ∧
      ld_data m1 c = some d ∧ HeapAbs (mm_free m1 c) (pre ++ post) := by
  obtain ⟨m1, e1, r1, d1, l1, n1, p1⟩ := h.splice pre post hne
  have hc : c ∉ (pre ++ post).map Prod.fst := h.not_mem_mid pre post
  refine ⟨m1, e1, n1, by rw [d1]; exact h.dat pre post, ?_, ?_, ?_, ?_⟩
  · apply r1.frame
    intro a ha
    have : a ≠ c := fun e => hc (e ▸ ha)
    simp [this]
  · intro p hp
    have : p.1 ≠ c := fun e => hc (e ▸ HeapAbs.mem_fst hp)
    simp [this, d1]
    apply h.data
    simp at hp ⊢; tauto
  · intro a ha
    apply not_live_iff.1
    simp only [live_mm_free, l1, not_and]
    intro hac
    apply not_live_iff.2
    apply h.exact
    simp at ha ⊢
    refine ⟨?_, fun e => hac e, ?_⟩ <;> tauto
  · have := h.nonnull
    simp at this ⊢; tauto

/-- Releasing the only node of a ring. -/
theorem HeapAbs.remove_last {m : Heap α} {c : Nat} {d : α} (h : HeapAbs m [(c, d)]) :
    HeapAbs (mm_free m c) [] := by
  apply HeapAbs.nil_iff.2
  intro a
  apply not_live_iff.1
  simp only [live_mm_free, not_and]
  intro hac
  apply not_live_iff.2
  apply h.exact
  simpa using hac

/-- Moving the node `c` right before the first node of the ring. -/
theorem HeapAbs.move {m : Heap α} (pre post : List (Nat × α)) {c hd : Nat} {d d0 : α}
    (h : HeapAbs m ((hd, d0) :: pre ++ (c, d) :: post)) :
    ∃ m1 m2, splice_out m c = some m1 ∧ link_before m1 c hd = some m2 ∧
      HeapAbs m2 ((c, d) :: (hd, d0) :: pre ++ post) := by
  have h0 : HeapAbs m (((hd, d0) :: pre) ++ (c, d) :: post) := by simpa using h
  obtain ⟨m1, e1, r1, d1, l1, n1, p1⟩ := h0.splice _ _ (by simp)
  have hc : c ∉ (((hd, d0) :: pre) ++ post).map Prod.fst := h0.not_mem_mid _ _
  have hlc : live m1 c := (l1 c).2 (h0.halive (by simp))
  simp only [List.cons_append, List.map_cons] at r1 hc
  obtain ⟨m2, e2, r2, d2, l2⟩ := link_before_ring m1 c hd _ r1 hc hlc
  refine ⟨m1, m2, e1, e2, ?_, ?_, ?_, ?_⟩
  · simpa using r2
  · intro p hp
    rw [d2, d1]
    apply h.data
    simp at hp ⊢; tauto
  · intro a ha
    apply not_live_iff.1
    rw [l2, l1]
    apply not_live_iff.2
    apply h.exact
    simp at ha ⊢; tauto
  · have := h.nonnull
    simp at this ⊢; tauto


/-! ## The insert functions -/

@[simp] theorem insert_account_mem (h : cll_handler α) : (insert_account h).mem = h.mem := by
  unfold insert_account; simp only []; split <;> rfl

@[simp] theorem insert_account_cll (h : cll_handler α) : (insert_account h).cll = h.cll := by
  unfold insert_account; simp only []; split <;> rfl

@[simp] theorem insert_account_cll_head (h : cll_handler α) :
    (insert_account h).cll_head = h.cll_head := by
  unfold insert_account; simp only []; split <;> rfl

@[simp] theorem insert_account_start (h : cll_handler α) :
    (insert_account h)._iterate_start = h._iterate_start := by
  unfold insert_account; simp only []; split <;> rfl

@[simp] theorem insert_account_cur (h : cll_handler α) :
    (insert_account h)._iterate_cur = h._iterate_cur := by
  unfold insert_account; simp only []; split <;> rfl

@[simp] theorem insert_account_count (h : cll_handler α) :
    (insert_account h)._count = h._count + 1 := by
  unfold insert_account; simp only []; split <;> rfl

theorem split_of_mem_fst {L : List (Nat × α)} {c : Nat} (h : c ∈ L.map Prod.fst) :
    ∃ pre d post, L = pre ++ (c, d) :: post := by
  obtain ⟨⟨c2, d⟩, hp, e⟩ := List.mem_map.1 h
  obtain ⟨pre, post, hl⟩ := List.append_of_mem hp
  simp at e
  subst e
  exact ⟨pre, d, post, hl⟩

theorem Abs.cll_ne_zero {h : cll_handler α} {L : List (Nat × α)} (hA : Abs h L) (hL : L ≠ []) :
    h.cll ≠ 0 := by
  rcases hA.cur with ⟨e, _⟩ | hc
  · exact absurd e hL
  · intro e
    exact hA.heap.nonnull (e ▸ hc)

theorem Abs.cll_zero {h : cll_handler α} (hA : Abs h []) : h.cll = 0 := by
  rcases hA.cur with ⟨_, e⟩ | hc
  · exact e
  · simp at hc

theorem Abs.cll_eq_zero_iff {h : cll_handler α} {L : List (Nat × α)} (hA : Abs h L) :
    h.cll = 0 ↔ L = [] := by
  constructor
  · intro e
    by_contra hL
    exact hA.cll_ne_zero hL e
  · intro e
    subst e
    exact hA.cll_zero

theorem Abs.head_eq_zero_iff {h : cll_handler α} {L : List (Nat × α)} (hA : Abs h L) :
    h.cll_head = 0 ↔ L = [] := by
  rw [hA.head]
  rcases L with _ | ⟨⟨c, d⟩, R⟩
  · simp
  · have := hA.heap.nonnull
    simp at this ⊢
    intro e
    exact this.1 e.symm

/-- The marks stay in the ring when the ring only grows. -/
theorem marks_mono {s c : Nat} {l l2 : List Nat} (hsub : ∀ a ∈ l, a ∈ l2)
    (h : (s = 0 ∧ c = 0) ∨ (s ∈ l ∧ c ∈ l)) : (s = 0 ∧ c = 0) ∨ (s ∈ l2 ∧ c ∈ l2) := by
  rcases h with h | h
  · exact Or.inl h
  · exact Or.inr ⟨hsub _ h.1, hsub _ h.2⟩

/-- `_cll_insert_head` puts the new node in front of the list. -/
theorem _cll_insert_head_spec {h : cll_handler α} {L : List (Nat × α)} (hA : Abs h L)
    (x : α) (n : Nat) (hn : n ≠ 0) (hf : h.mem n = none) :
    ∃ m1, _cll_insert_head h x n =
        some (insert_account { h with mem := m1, cll := if h.cll = 0 then n else h.cll,
                                      cll_head := n }, 0) ∧
      Abs (insert_account { h with mem := m1, cll := if h.cll = 0 then n else h.cll,
                                   cll_head := n }) ((n, x) :: L) := by
  rcases L with _ | ⟨⟨c, d⟩, R⟩
  · have hc := hA.cll_zero
    obtain ⟨m1, e1, a1⟩ := hA.heap.new_self n x hn
    refine ⟨m1, ?_, ?_⟩
    · unfold _cll_insert_head
      simp [hn, hc, e1]
    · refine ⟨by simpa using a1, by simp, by simp [hc], by simp [hA.count], ?_⟩
      simp only [insert_account_start, insert_account_cur]
      exact marks_mono (by simp) hA.marks
  · have hc := hA.cll_ne_zero (by simp)
    have hh : h.cll_head = c := by simpa using hA.head
    obtain ⟨m1, e1, a1⟩ := HeapAbs.new_before [] _ (by simpa using hA.heap) n x hn hf
    refine ⟨m1, ?_, ?_⟩
    · unfold _cll_insert_head
      simp [hn, hc, e1, hh]
    · refine ⟨by simpa using a1, by simp, ?_, by simp [hA.count], ?_⟩
      · right
        simp [hc]
        rcases hA.cur with ⟨e, _⟩ | hcur
        · simp at e
        · simp at hcur; tauto
      · simp only [insert_account_start, insert_account_cur]
        apply marks_mono _ hA.marks
        intro a ha; simp at ha ⊢; tauto


theorem RingOK.next_split {m : Heap α} {pre post : List Nat} {c : Nat}
    (h : RingOK m (pre ++ c :: post)) :
    ld_next m c = some ((post ++ pre ++ [c]).headD 0) := by
  rw [h.next (by simp), cnext_split _ _ _ h.1]

theorem RingOK.prev_split {m : Heap α} {pre post : List Nat} {c : Nat}
    (h : RingOK m (pre ++ c :: post)) :
    ld_prev m c = some (((post ++ pre).reverse ++ [c]).headD 0) := by
  rw [h.prev (by simp), cprev_split _ _ _ h.1]

/-- `_cll_insert_tail` puts the new node at the end of the list. -/
theorem _cll_insert_tail_spec {h : cll_handler α} {L : List (Nat × α)} (hA : Abs h L)
    (x : α) (n : Nat) (hn : n ≠ 0) (hf : h.mem n = none) :
    ∃ m1, _cll_insert_tail h x n =
        some ({ insert_account { h with mem := m1, cll := if h.cll = 0 then n else h.cll,
                                        cll_head := n } with
                cll_head := if h.cll = 0 then n else h.cll_head }, 0) ∧
      Abs { insert_account { h with mem := m1, cll := if h.cll = 0 then n else h.cll,
                                    cll_head := n } with
            cll_head := if h.cll = 0 then n else h.cll_head } (L ++ [(n, x)]) := by
  obtain ⟨m1, e1, a1⟩ := _cll_insert_head_spec hA x n hn hf
  have hnx := HeapAbs.hnext [] _ (by simpa using a1.heap)
  simp only [insert_account_mem, List.append_nil] at hnx
  have hz := hA.cll_eq_zero_iff
  have e2 : ((L.map Prod.fst ++ [n]).headD 0) = if h.cll = 0 then n else h.cll_head := by
    rcases L with _ | ⟨⟨c, d⟩, R⟩
    · simp [hz]
    · simp [hz, hA.head]
  rw [e2] at hnx
  refine ⟨m1, ?_, ?_⟩
  · unfold _cll_insert_tail
    simp [e1, hnx]
  · have hh : HeapAbs m1 ([(n, x)] ++ L) := by simpa using a1.heap
    refine ⟨by simpa using hh.hrot, ?_, ?_, ?_, ?_⟩
    · simp only [List.map_append, List.map_cons, List.map_nil]
      rw [e2]
    · have := a1.cur
      simp at this ⊢
      tauto
    · simpa using a1.count
    · have := a1.marks
      simp at this ⊢
      tauto

/-- `_cll_insert` on an empty list. -/
theorem _cll_insert_spec_nil {h : cll_handler α} (hA : Abs h [])
    (x : α) (n : Nat) (hn : n ≠ 0) :
    ∃ m1, _cll_insert h x n =
        some (insert_account { h with mem := m1, cll_head := n, cll := n }, 0) ∧
      Abs (insert_account { h with mem := m1, cll_head := n, cll := n }) [(n, x)] := by
  have hc := hA.cll_zero
  obtain ⟨m1, e1, a1⟩ := hA.heap.new_self n x hn
  refine ⟨m1, ?_, ?_⟩
  · unfold _cll_insert
    simp [hn, hc, e1]
  · refine ⟨by simpa using a1, by simp, by simp, by simp [hA.count], ?_⟩
    simp only [insert_account_start, insert_account_cur]
    exact marks_mono (by simp) hA.marks

/-- `_cll_insert` under `CONFIG_INSERT_NEXT`: the new node comes right after the cursor. -/
theorem _cll_insert_spec_next {h : cll_handler α} {pre post : List (Nat × α)} {d : α}
    (hA : Abs h (pre ++ (h.cll, d) :: post))
    (x : α) (n : Nat) (hn : n ≠ 0) (hf : h.mem n = none)
    (hfl : h._config_flags &&& CONFIG_INSERT_NEXT ≠ 0) :
    ∃ m1, _cll_insert h x n = some (insert_account { h with mem := m1, cll := n }, 0) ∧
      Abs (insert_account { h with mem := m1, cll := n })
        (pre ++ (h.cll, d) :: (n, x) :: post) := by
  have hc := hA.cll_ne_zero (by simp)
  obtain ⟨m1, e1, a1⟩ := hA.heap.new_after _ _ n x hn hf
  refine ⟨m1, ?_, ?_⟩
  · unfold _cll_insert
    simp [hn, hc, e1, hfl]
  · refine ⟨by simpa using a1, ?_, by simp, by simp [hA.count]; omega, ?_⟩
    · have := hA.head
      rcases pre with _ | ⟨p, pre⟩ <;> simpa using this
    · simp only [insert_account_start, insert_account_cur]
      apply marks_mono _ hA.marks
      intro a ha; simp at ha ⊢; tauto

/-- `_cll_insert` without `CONFIG_INSERT_NEXT`, the cursor being at the head: the new node
comes right before the head in the ring, that is at the end of the list. -/
theorem _cll_insert_spec_prev_head {h : cll_handler α} {post : List (Nat × α)} {d : α}
    (hA : Abs h ((h.cll, d) :: post))
    (x : α) (n : Nat) (hn : n ≠ 0) (hf : h.mem n = none)
    (hfl : ¬ h._config_flags &&& CONFIG_INSERT_NEXT ≠ 0) :
    ∃ m1, _cll_insert h x n = some (insert_account { h with mem := m1, cll := n }, 0) ∧
      Abs (insert_account { h with mem := m1, cll := n }) ((h.cll, d) :: post ++ [(n, x)]) := by
  have hc := hA.cll_ne_zero (by simp)
  obtain ⟨m1, e1, a1⟩ := HeapAbs.new_before [] _ (by simpa using hA.heap) n x hn hf
  refine ⟨m1, ?_, ?_⟩
  · unfold _cll_insert
    simp [hn, hc, e1, hfl]
  · have hh : HeapAbs m1 ([(n, x)] ++ (h.cll, d) :: post) := by simpa using a1
    refine ⟨by simpa using hh.hrot, ?_, by simp, by simp [hA.count], ?_⟩
    · simpa using hA.head
    · simp only [insert_account_start, insert_account_cur]
      apply marks_mono _ hA.marks
      intro a ha; simp at ha ⊢; tauto

/-- `_cll_insert` without `CONFIG_INSERT_NEXT`, the cursor not being at the head: the new
node comes right before the cursor. -/
theorem _cll_insert_spec_prev {h : cll_handler α} {pre post : List (Nat × α)} {d : α}
    {p : Nat × α} (hA : Abs h (p :: pre ++ (h.cll, d) :: post))
    (x : α) (n : Nat) (hn : n ≠ 0) (hf : h.mem n = none)
    (hfl : ¬ h._config_flags &&& CONFIG_INSERT_NEXT ≠ 0) :
    ∃ m1, _cll_insert h x n = some (insert_account { h with mem := m1, cll := n }, 0) ∧
      Abs (insert_account { h with mem := m1, cll := n })
        (p :: pre ++ (n, x) :: (h.cll, d) :: post) := by
  have hc := hA.cll_ne_zero (by simp)
  obtain ⟨m1, e1, a1⟩ := HeapAbs.new_before (p :: pre) _ (by simpa using hA.heap) n x hn hf
  refine ⟨m1, ?_, ?_⟩
  · unfold _cll_insert
    simp [hn, hc, e1, hfl]
  · refine ⟨by simpa using a1, ?_, by simp, by simp [hA.count]; omega, ?_⟩
    · simpa using hA.head
    · simp only [insert_account_start, insert_account_cur]
      apply marks_mono _ hA.marks
      intro a ha; simp at ha ⊢; tauto


/-! ## The walk of search and unlink -/

theorem _cll_search_loop_eq (h : cll_handler α) (data : α) (start : Nat) :
    ∀ (fuel pool : Nat), _cll_search_loop data start fuel h pool =
      obind (walk_find (search_step h) (search_test h data) start fuel pool) fun r =>
        match r with
        | some p => search_hit h p
        | none => some (search_miss h) := by
  intro fuel
  induction fuel with
  | zero => intro pool; simp [_cll_search_loop, walk_find]
  | succ fuel ih =>
    intro pool
    rw [_cll_search_loop, walk_find]
    rcases hc : h.compare with _ | cmp
    · have ht : search_test h data pool = none := by simp [search_test, hc]
      simp [ht]
    · rcases hd : ld_data h.mem pool with _ | d
      · have ht : search_test h data pool = none := by simp [search_test, hc, hd]
        simp [ht]
      · have ht : search_test h data pool = some (decide (cmp data d = 0)) := by
          simp [search_test, hc, hd]
        rw [ht]
        simp only [obind_some]
        by_cases hm : cmp data d = 0
        · simp [hm, search_hit, hc]
        · simp only [hm, if_false, decide_False, Bool.false_eq_true]
          have hst : search_step h pool =
              (if h._config_flags &&& CONFIG_SEARCH_BACKWARD ≠ 0 then ld_prev h.mem pool
               else ld_next h.mem pool) := rfl
          rw [← hst]
          rcases hs : search_step h pool with _ | p1
          · simp
          · simp only [obind_some]
            by_cases hst : p1 = start
            · simp [hst, search_miss, hc]
            · simp only [hst, if_false]
              rw [ih p1]

theorem _cll_unlink_loop_eq (h : cll_handler α) (data : α) (start : Nat) :
    ∀ (fuel pool : Nat), _cll_unlink_loop data start fuel h pool =
      obind (walk_find (search_step h) (search_test h data) start fuel pool) fun r =>
        match r with
        | some p => unlink_hit h p
        | none => some (h, none) := by
  intro fuel
  induction fuel with
  | zero => intro pool; simp [_cll_unlink_loop, walk_find]
  | succ fuel ih =>
    intro pool
    rw [_cll_unlink_loop, walk_find]
    rcases hc : h.compare with _ | cmp
    · have ht : search_test h data pool = none := by simp [search_test, hc]
      simp [ht]
    · rcases hd : ld_data h.mem pool with _ | d
      · have ht : search_test h data pool = none := by simp [search_test, hc, hd]
        simp [ht]
      · have ht : search_test h data pool = some (decide (cmp data d = 0)) := by
          simp [search_test, hc, hd]
        rw [ht]
        simp only [obind_some]
        by_cases hm : cmp data d = 0
        · simp [hm, unlink_hit, hc, hd]
        · simp only [hm, if_false, decide_False, Bool.false_eq_true]
          have hst : search_step h pool =
              (if h._config_flags &&& CONFIG_SEARCH_BACKWARD ≠ 0 then ld_prev h.mem pool
               else ld_next h.mem pool) := rfl
          rw [← hst]
          rcases hs : search_step h pool with _ | p1
          · simp
          · simp only [obind_some]
            by_cases hst : p1 = start
            · simp [hst]
            · simp only [hst, if_false]
              rw [ih p1]

/-- The walk visits the nodes in the order `O` and stops at the first one that passes the
test. -/
theorem walk_find_spec (stp : Nat → Option Nat) (hit : Nat → Option Bool)
    (O : List (Nat × α)) (Q : α → Bool) (hn : (O.map Prod.fst).Nodup)
    (hs : ∀ p ∈ O, stp p.1 = some (cnext (O.map Prod.fst) p.1))
    (hh : ∀ p ∈ O, hit p.1 = some (Q p.2)) :
    ∀ (rem vis : List (Nat × α)) (pool : Nat × α), O = vis ++ pool :: rem →
      ∀ fuel, rem.length < fuel →
        walk_find stp hit ((O.map Prod.fst).headD 0) fuel pool.1 =
          some (((pool :: rem).find? (fun p => Q p.2)).map Prod.fst) := by
  intro rem
  induction rem with
  | nil =>
    intro vis pool hO fuel hf
    obtain ⟨fuel, rfl⟩ : ∃ k, fuel = k + 1 := ⟨fuel - 1, by omega⟩
    have hp : pool ∈ O := by rw [hO]; simp
    unfold walk_find
    rw [hh pool hp]
    by_cases hq : Q pool.2 = true
    · simp [hq]
    · simp only [obind_some, hq, if_false, Bool.false_eq_true]
      rw [hs pool hp]
      have e : cnext (O.map Prod.fst) pool.1 = (O.map Prod.fst).headD 0 := by
        have hn2 := hn
        rw [hO] at hn2 ⊢
        simp only [List.map_append, List.map_cons, List.map_nil] at hn2 ⊢
        rw [cnext_split _ _ _ hn2]
        cases vis <;> simp
      simp [e, hq]
  | cons b rem ih =>
    intro vis pool hO fuel hf
    obtain ⟨fuel, rfl⟩ : ∃ k, fuel = k + 1 := ⟨fuel - 1, by simp at hf; omega⟩
    have hp : pool ∈ O := by rw [hO]; simp
    unfold walk_find
    rw [hh pool hp]
    by_cases hq : Q pool.2 = true
    · simp [hq]
    · simp only [obind_some, hq, if_false, Bool.false_eq_true]
      rw [hs pool hp]
      have hn2 := hn
      rw [hO] at hn2
      simp only [List.map_append, List.map_cons] at hn2
      have e : cnext (O.map Prod.fst) pool.1 = b.1 := by
        rw [hO]
        simp only [List.map_append, List.map_cons]
        rw [cnext_split _ _ _ hn2]
        simp
      have hne : b.1 ≠ (O.map Prod.fst).headD 0 := by
        rw [hO]
        rcases vis with _ | ⟨v, vis⟩
        · simp only [List.map_nil, List.nil_append, List.nodup_cons, List.mem_cons] at hn2
          simp only [List.nil_append, List.map_cons, List.headD_cons]
          intro e2
          exact hn2.1 (Or.inl e2.symm)
        · simp only [List.map_cons, List.cons_append, List.nodup_cons] at hn2
          simp only [List.cons_append, List.map_cons, List.headD_cons]
          intro e2
          apply hn2.1
          rw [← e2]
          simp
      simp only [e, obind_some, hne, if_false]
      have hO2 : O = (vis ++ [pool]) ++ b :: rem := by simp [hO]
      rw [ih (vis ++ [pool]) b hO2 fuel (by simp at hf; omega)]
      simp [hq]

/-- Walking backward through a ring visits the nodes before the starting one in reverse
order, then those after it in reverse order. -/
theorem ring_prev_order {m : Heap α} {pre post : List Nat} {s : Nat}
    (h : RingOK m (pre ++ s :: post)) (a : Nat) (ha : a ∈ pre ++ s :: post) :
    ld_prev m a = some (cnext (s :: pre.reverse ++ post.reverse) a) := by
  rw [h.prev ha]
  unfold cprev
  have e : (pre ++ s :: post).reverse = post.reverse ++ (s :: pre.reverse) := by simp
  rw [e]
  have hn : (post.reverse ++ (s :: pre.reverse)).Nodup := by
    rw [← e]; exact List.nodup_reverse.2 h.1
  have ha2 : a ∈ post.reverse ++ (s :: pre.reverse) := by
    simp at ha ⊢; tauto
  rw [← cnext_rot _ _ hn a ha2]


/-! ## What search and unlink do with the node they find -/

/-- `_cll_move_to_head` moves a node that is not the head in front of the head. -/
theorem _cll_move_to_head_spec {h : cll_handler α} (pre post : List (Nat × α)) {c hd : Nat}
    {d d0 : α} (hA : Abs h ((hd, d0) :: pre ++ (c, d) :: post)) :
    ∃ m2, _cll_move_to_head h c = some { h with mem := m2, cll_head := c } ∧
      Abs { h with mem := m2, cll_head := c } ((c, d) :: (hd, d0) :: pre ++ post) := by
  have hh : h.cll_head = hd := by simpa using hA.head
  have hne : c ≠ hd := by
    have := hA.heap.not_mem_mid ((hd, d0) :: pre) post
    intro e
    apply this
    simp [e]
  obtain ⟨m1, m2, e1, e2, a2⟩ := hA.heap.move pre post
  refine ⟨m2, ?_, a2, by simp, ?_, ?_, ?_⟩
  · unfold _cll_move_to_head
    simp [hh, hne, e1, e2]
  · right
    rcases hA.cur with ⟨e, _⟩ | hc
    · simp at e
    · simp at hc ⊢; tauto
  · simpa using hA.count
  · apply marks_mono _ hA.marks
    intro a ha; simp at ha ⊢; tauto

/-- `_cll_move_to_head` leaves the list alone when the node is the head. -/
theorem _cll_move_to_head_head {h : cll_handler α} : _cll_move_to_head h h.cll_head = some h := by
  unfold _cll_move_to_head
  simp

/-- The node that `_cll_unlink` has found is taken out of the ring and released; the head,
the cursor and the iteration bookmarks move to its successor where they designated it. -/
theorem unlink_hit_spec {h : cll_handler α} (pre post : List (Nat × α)) {c : Nat} {d : α}
    (hA : Abs h (pre ++ (c, d) :: post)) (hne : pre ++ post ≠ []) :
    ∃ m1 x, x ∈ (pre ++ post).map Prod.fst ∧ ld_next h.mem c = some x ∧
      unlink_hit h c = some
        ({ h with mem := m1, cll := x,
                  cll_head := if h.cll_head = c then x else h.cll_head,
                  _iterate_cur := if c = h._iterate_cur then x else h._iterate_cur,
                  _iterate_start := if c = h._iterate_start then x else h._iterate_start,
                  _count := h._count - 1 }, some d) ∧
      Abs ({ h with mem := m1, cll := x,
                    cll_head := if h.cll_head = c then x else h.cll_head,
                    _iterate_cur := if c = h._iterate_cur then x else h._iterate_cur,
                    _iterate_start := if c = h._iterate_start then x else h._iterate_start,
                    _count := h._count - 1 }) (pre ++ post) := by
  obtain ⟨m1, e1, n1, d1, a1⟩ := hA.heap.remove pre post hne
  have hnx := hA.heap.hnext pre post
  set x := ((post ++ pre).map Prod.fst ++ [c]).headD 0 with hx
  have hcm : c ∉ (pre ++ post).map Prod.fst := hA.heap.not_mem_mid pre post
  have hxm : x ∈ (pre ++ post).map Prod.fst := by
    rw [hx]
    rcases hpp : post ++ pre with _ | ⟨q, R⟩
    · simp at hpp
      exact absurd (by simp [hpp]) hne
    · have : q ∈ post ++ pre := by rw [hpp]; simp
      simp at this ⊢
      rcases this with h1 | h1
      · right; exact ⟨q.2, h1⟩
      · left; exact ⟨q.2, h1⟩
  have hxc : c ≠ x := fun e => hcm (e ▸ hxm)
  refine ⟨mm_free m1 c, x, hxm, hnx, ?_, a1, ?_, Or.inr hxm, ?_, ?_⟩
  · unfold unlink_hit
    rw [hA.heap.dat pre post, hnx]
    simp only [obind_some, hxc, if_false]
    have n2 : ld_next m1 c = some x := by rw [n1, hnx]
    by_cases hh : h.cll_head = c <;> by_cases h1 : h._iterate_cur = c <;>
      by_cases h2 : h._iterate_start = c <;>
      simp [hh, h1, h2, e1, n2, d1, hxc, Ne.symm hxc, @eq_comm _ c h._iterate_cur,
        @eq_comm _ c h._iterate_start]
  · simp only
    have hhd := hA.head
    rcases pre with _ | ⟨p, pre⟩
    · simp at hhd
      simp [hhd]
      rw [hx]
      rcases post with _ | ⟨q, post⟩
      · simp at hne
      · simp
    · simp at hhd
      have : p.1 ≠ c := by
        intro e
        apply hcm
        simp [← e]
      simp [hhd, this]
  · simp [hA.count]
  · simp only
    rcases hA.marks with ⟨e1, e2⟩ | ⟨e1, e2⟩
    · left
      have hc0 : c ≠ 0 := by
        intro e
        apply hA.heap.nonnull
        simp [← e]
      simp [e1, e2, hc0]
    · right
      have key : ∀ a, a ∈ (pre ++ (c, d) :: post).map Prod.fst →
          (if c = a then x else a) ∈ (pre ++ post).map Prod.fst := by
        intro a ha
        by_cases e : c = a
        · simp only [e, if_true]; exact hxm
        · simp only [e, if_false]
          simp at ha ⊢
          rcases ha with h1 | h1 | h1
          · exact Or.inl h1
          · exact absurd h1.symm e
          · exact Or.inr h1
      exact ⟨key _ e1, key _ e2⟩

/-- The node that `_cll_unlink` has found is the only one: the list becomes empty. -/
theorem unlink_hit_last {h : cll_handler α} {c : Nat} {d : α} (hA : Abs h [(c, d)]) :
    unlink_hit h c = some
        ({ h with mem := mm_free h.mem c, cll := 0, cll_head := 0, _iterate_cur := 0,
                  _iterate_start := 0, _count := h._count - 1 }, some d) ∧
      Abs ({ h with mem := mm_free h.mem c, cll := 0, cll_head := 0, _iterate_cur := 0,
                    _iterate_start := 0, _count := h._count - 1 }) [] := by
  have hnx := hA.heap.hnext [] []
  have hd := hA.heap.dat [] []
  simp at hnx
  constructor
  · unfold unlink_hit
    simp [hnx, hd]
  · exact ⟨hA.heap.remove_last, by simp, by simp, by simp [hA.count], by simp⟩


/-! ## Search -/

theorem search_order_perm (h : cll_handler α) (pre : List (Nat × α)) (s : Nat × α)
    (post : List (Nat × α)) : (search_order h pre s post).Perm (pre ++ s :: post) := by
  unfold search_order
  split
  · have h1 : (s :: pre.reverse ++ post.reverse).Perm (s :: pre ++ post) :=
      List.Perm.cons _ (List.Perm.append (List.reverse_perm _) (List.reverse_perm _))
    exact h1.trans (by simpa using (@List.perm_middle _ s pre post).symm)
  · have h1 : (s :: post ++ pre).Perm (s :: pre ++ post) :=
      List.Perm.cons _ List.perm_append_comm
    exact h1.trans (by simpa using (@List.perm_middle _ s pre post).symm)

/-- The walk returns the first node, in the order of the visit, whose payload compares equal
to the key. -/
theorem walk_spec {h : cll_handler α} (pre post : List (Nat × α)) (s : Nat × α)
    (hA : HeapAbs h.mem (pre ++ s :: post)) {cmp : α → α → Int} (hc : h.compare = some cmp)
    (data : α) (fuel : Nat) (hf : (pre ++ s :: post).length ≤ fuel) :
    walk_find (search_step h) (search_test h data) s.1 fuel s.1 =
      some (((search_order h pre s post).find? (fun p => decide (cmp data p.2 = 0))).map
        Prod.fst) := by
  have hperm := search_order_perm h pre s post
  have hmem : ∀ p, p ∈ search_order h pre s post ↔ p ∈ pre ++ s :: post := fun p => hperm.mem_iff
  have hh : ∀ p ∈ search_order h pre s post,
      search_test h data p.1 = some (decide (cmp data p.2 = 0)) := by
    intro p hp
    unfold search_test
    rw [hc, hA.data p ((hmem p).1 hp)]
    rfl
  have hr0 := hA.ring
  simp only [List.map_append, List.map_cons] at hr0
  have hlen : (pre ++ s :: post).length = post.length + pre.length + 1 := by simp; omega
  by_cases hb : h._config_flags &&& CONFIG_SEARCH_BACKWARD ≠ 0
  · have ho : search_order h pre s post = s :: pre.reverse ++ post.reverse := by
      simp [search_order, hb]
    have hn : ((search_order h pre s post).map Prod.fst).Nodup := (hperm.map _).nodup_iff.2 hA.ring.1
    have hs : ∀ p ∈ search_order h pre s post,
        search_step h p.1 = some (cnext ((search_order h pre s post).map Prod.fst) p.1) := by
      intro p hp
      have : search_step h p.1 = ld_prev h.mem p.1 := by simp [search_step, hb]
      rw [this, ring_prev_order hr0 p.1 (by
        have := (hmem p).1 hp
        have := List.mem_map_of_mem Prod.fst this
        simpa using this)]
      rw [ho]
      simp
    have := walk_find_spec (search_step h) (search_test h data) (search_order h pre s post)
      (fun d => decide (cmp data d = 0)) hn hs hh (pre.reverse ++ post.reverse) [] s
      (by rw [ho]; simp) fuel (by simp; omega)
    rw [ho] at this ⊢
    simpa using this
  · have ho : search_order h pre s post = s :: post ++ pre := by
      simp [search_order, hb]
    have hr1 : RingOK h.mem ((s :: post ++ pre).map Prod.fst) := by
      have := hr0.rot
      simpa using this
    have hs : ∀ p ∈ search_order h pre s post,
        search_step h p.1 = some (cnext ((search_order h pre s post).map Prod.fst) p.1) := by
      intro p hp
      have : search_step h p.1 = ld_next h.mem p.1 := by simp [search_step, hb]
      rw [this, ho]
      rw [ho] at hp
      exact hr1.next (List.mem_map_of_mem _ hp)
    have := walk_find_spec (search_step h) (search_test h data) (search_order h pre s post)
      (fun d => decide (cmp data d = 0)) (by rw [ho]; exact hr1.1) hs hh (post ++ pre) [] s
      (by rw [ho]; simp) fuel (by simp; omega)
    rw [ho] at this ⊢
    simpa using this


theorem lru_or_back (f : Nat) :
    (f ||| CONFIG_SEARCH_BACKWARD) &&& CONFIG_SEARCH_LRU = f &&& CONFIG_SEARCH_LRU := by
  unfold CONFIG_SEARCH_BACKWARD CONFIG_SEARCH_LRU
  rw [Nat.and_distrib_right]
  have : (2 : Nat) &&& 8 = 0 := rfl
  rw [this, Nat.or_zero]

theorem lru_and_notback (f : Nat) :
    (f &&& NOT_CONFIG_SEARCH_BACKWARD) &&& CONFIG_SEARCH_LRU = f &&& CONFIG_SEARCH_LRU := by
  unfold NOT_CONFIG_SEARCH_BACKWARD CONFIG_SEARCH_LRU
  rw [Nat.and_assoc]
  rfl

/-- The abstraction only looks at the heap, the head, the cursor, the bookmarks and the
count. -/
theorem abs_congr {h h2 : cll_handler α} {L : List (Nat × α)} (hA : Abs h L)
    (e1 : h2.mem = h.mem) (e2 : h2.cll_head = h.cll_head) (e3 : h2.cll = h.cll)
    (e4 : h2._count = h._count) (e5 : h2._iterate_start = h._iterate_start)
    (e6 : h2._iterate_cur = h._iterate_cur) : Abs h2 L :=
  ⟨e1 ▸ hA.heap, e2 ▸ hA.head, e3 ▸ hA.cur, e4 ▸ hA.count, by rw [e5, e6]; exact hA.marks⟩

theorem abs_data {h : cll_handler α} {L : List (Nat × α)} (hA : Abs h L) {q : Nat} {dq : α}
    (hq : (q, dq) ∈ L) : ld_data h.mem q = some dq := hA.heap.data (q, dq) hq

/-- The start of the walk. -/
theorem search_start_spec {h : cll_handler α} {L : List (Nat × α)} (hA : Abs h L)
    (hL : L ≠ []) {cmp : α → α → Int} (hc : h.compare = some cmp) (data : α) :
    ∃ f1 s, search_start h data = some ({ h with _config_flags := f1 }, s) ∧
      s ∈ L.map Prod.fst ∧ f1 &&& CONFIG_SEARCH_LRU = h._config_flags &&& CONFIG_SEARCH_LRU ∧
      (h._config_flags &&& CONFIG_SEARCH_LRU ≠ 0 → s = h.cll_head ∧ f1 = h._config_flags) ∧
      (¬ h._config_flags &&& CONFIG_SEARCH_LRU ≠ 0 → s = h.cll) := by
  have hcur : h.cll ∈ L.map Prod.fst := by
    rcases hA.cur with ⟨e, _⟩ | hcur
    · exact absurd e hL
    · exact hcur
  have hhead : h.cll_head ∈ L.map Prod.fst := by
    rw [hA.head]
    rcases L with _ | ⟨p, L⟩
    · exact absurd rfl hL
    · simp
  obtain ⟨pre, d, post, hsplit⟩ := split_of_mem_fst hcur
  have hd : ld_data h.mem h.cll = some d := abs_data hA (by rw [hsplit]; simp)
  unfold search_start
  by_cases h1 : h._config_flags &&& CONFIG_SEARCH_LRU ≠ 0
  · exact ⟨h._config_flags, h.cll_head, by simp [h1], hhead, rfl, fun _ => ⟨rfl, rfl⟩,
      fun h2 => absurd h1 h2⟩
  · by_cases h2 : h._config_flags &&& CONFIG_SEARCH_AUTO ≠ 0
    · by_cases h3 : cmp d data > 0
      · exact ⟨_, h.cll, by simp [h1, h2, hc, hd, h3], hcur, lru_or_back _,
          fun h4 => absurd h4 h1, fun _ => rfl⟩
      · exact ⟨_, h.cll, by simp [h1, h2, hc, hd, h3], hcur, lru_and_notback _,
          fun h4 => absurd h4 h1, fun _ => rfl⟩
    · exact ⟨h._config_flags, h.cll, by simp [h1, h2], hcur, rfl, fun h4 => absurd h4 h1,
        fun _ => rfl⟩

/-- The outcome of the walk of `_cll_search` and `_cll_unlink` on a non-empty list: either
no payload compares equal to the key, or the walk stops at a node whose payload does. -/
theorem walk_outcome {h : cll_handler α} {L : List (Nat × α)} (hA : HeapAbs h.mem L)
    {cmp : α → α → Int} (hc : h.compare = some cmp) (data : α) (s : Nat)
    (hs : s ∈ L.map Prod.fst) (fuel : Nat) (hf : L.length ≤ fuel) :
    ((∀ p ∈ L, cmp data p.2 ≠ 0) ∧
        walk_find (search_step h) (search_test h data) s fuel s = some none) ∨
      (∃ q dq, (q, dq) ∈ L ∧ cmp data dq = 0 ∧
        walk_find (search_step h) (search_test h data) s fuel s = some (some q)) := by
  obtain ⟨pre, d, post, hsplit⟩ := split_of_mem_fst hs
  subst hsplit
  have hw := walk_spec pre post (s, d) hA hc data fuel hf
  simp only at hw
  rw [hw]
  have hperm := search_order_perm h pre (s, d) post
  rcases hfind : (search_order h pre (s, d) post).find? (fun p => decide (cmp data p.2 = 0)) with
    _ | ⟨q, dq⟩
  · left
    refine ⟨?_, by rw [hfind]; rfl⟩
    intro p hp
    have := List.find?_eq_none.1 hfind p (hperm.mem_iff.2 hp)
    simpa using this
  · right
    refine ⟨q, dq, hperm.mem_iff.1 (List.mem_of_find?_eq_some hfind), ?_, by rw [hfind]; rfl⟩
    have := List.find?_some hfind
    simpa using this


/-- `_cll_search`: either no payload compares equal to the key and the walk ends on a miss,
or the walk ends on a node whose payload compares equal to the key. The handler `h1` on
which the walk runs is `h` with `CONFIG_SEARCH_BACKWARD` possibly changed. -/
theorem _cll_search_spec {h : cll_handler α} {L : List (Nat × α)} (hA : Abs h L)
    {cmp : α → α → Int} (hc : h.compare = some cmp) (data : α) (fuel : Nat)
    (hf : L.length ≤ fuel) :
    ∃ f1, f1 &&& CONFIG_SEARCH_LRU = h._config_flags &&& CONFIG_SEARCH_LRU ∧
      (((∀ p ∈ L, cmp data p.2 ≠ 0) ∧
          _cll_search fuel h data = some (search_miss { h with _config_flags := f1 })) ∨
        (∃ q dq, (q, dq) ∈ L ∧ cmp data dq = 0 ∧
          _cll_search fuel h data = search_hit { h with _config_flags := f1 } q)) := by
  by_cases hL : L = []
  · subst hL
    refine ⟨h._config_flags, rfl, Or.inl ⟨by simp, ?_⟩⟩
    unfold _cll_search
    simp [hA.cll_zero, search_miss]
  · obtain ⟨f1, s, e1, hs, hf1, _, _⟩ := search_start_spec hA hL hc data
    refine ⟨f1, hf1, ?_⟩
    have hz : h.cll ≠ 0 := hA.cll_ne_zero hL
    have hA1 : HeapAbs ({ h with _config_flags := f1 } : cll_handler α).mem L := hA.heap
    have hc1 : ({ h with _config_flags := f1 } : cll_handler α).compare = some cmp := hc
    have key : _cll_search fuel h data =
        _cll_search_loop data s fuel { h with _config_flags := f1 } s := by
      unfold _cll_search
      simp [hz, e1]
    rw [key, _cll_search_loop_eq]
    rcases walk_outcome hA1 hc1 data s hs fuel hf with ⟨h1, h2⟩ | ⟨q, dq, h1, h2, h3⟩
    · left
      exact ⟨h1, by rw [h2]; rfl⟩
    · right
      exact ⟨q, dq, h1, h2, by rw [h3]; rfl⟩

/-- `_cll_unlink`: either no payload compares equal to the key and nothing but
`CONFIG_SEARCH_BACKWARD` changes, or the walk ends on a node whose payload compares equal
to the key. -/
theorem _cll_unlink_spec {h : cll_handler α} {L : List (Nat × α)} (hA : Abs h L)
    {cmp : α → α → Int} (hc : h.compare = some cmp) (data : α) (fuel : Nat)
    (hf : L.length ≤ fuel) :
    ∃ f1, f1 &&& CONFIG_SEARCH_LRU = h._config_flags &&& CONFIG_SEARCH_LRU ∧
      (((∀ p ∈ L, cmp data p.2 ≠ 0) ∧
          _cll_unlink fuel h data = some ({ h with _config_flags := f1 }, none)) ∨
        (∃ q dq, (q, dq) ∈ L ∧ cmp data dq = 0 ∧
          _cll_unlink fuel h data = unlink_hit { h with _config_flags := f1 } q)) := by
  by_cases hL : L = []
  · subst hL
    refine ⟨h._config_flags, rfl, Or.inl ⟨by simp, ?_⟩⟩
    unfold _cll_unlink
    rw [if_pos hA.cll_zero]
  · obtain ⟨f1, s, e1, hs, hf1, _, _⟩ := search_start_spec hA hL hc data
    refine ⟨f1, hf1, ?_⟩
    have hz : h.cll ≠ 0 := hA.cll_ne_zero hL
    have hA1 : HeapAbs ({ h with _config_flags := f1 } : cll_handler α).mem L := hA.heap
    have hc1 : ({ h with _config_flags := f1 } : cll_handler α).compare = some cmp := hc
    have key : _cll_unlink fuel h data =
        _cll_unlink_loop data s fuel { h with _config_flags := f1 } s := by
      unfold _cll_unlink
      simp [hz, e1]
    rw [key, _cll_unlink_loop_eq]
    rcases walk_outcome hA1 hc1 data s hs fuel hf with ⟨h1, h2⟩ | ⟨q, dq, h1, h2, h3⟩
    · left
      exact ⟨h1, by rw [h2]; rfl⟩
    · right
      exact ⟨q, dq, h1, h2, by rw [h3]; rfl⟩

/-- A hit of `_cll_search` under `CONFIG_SEARCH_LRU`: the node moves to the head. -/
theorem search_hit_lru {h : cll_handler α} (pre post : List (Nat × α)) {q : Nat} {dq : α}
    (hA : Abs h (pre ++ (q, dq) :: post))
    (hl : h._config_flags &&& CONFIG_SEARCH_LRU ≠ 0) :
    ∃ m2, search_hit h q = some
        ({ h with mem := m2, cll_head := q,
                  _stat := { h._stat with search := h._stat.search + 1 } }, some dq) ∧
      Abs ({ h with mem := m2, cll_head := q,
                    _stat := { h._stat with search := h._stat.search + 1 } })
        ((q, dq) :: pre ++ post) := by
  rcases pre with _ | ⟨⟨hd, d0⟩, pre⟩
  · have hh : h.cll_head = q := by simpa using hA.head
    have hd := @abs_data _ _ _ hA q dq (by simp)
    refine ⟨h.mem, ?_, ?_⟩
    · have hd2 : ld_data h.mem h.cll_head = some dq := by rw [hh]; exact hd
      unfold search_hit
      simp [hl, ← hh, _cll_move_to_head_head, hd2]
    · exact abs_congr hA rfl hh.symm rfl rfl rfl rfl
  · obtain ⟨m2, e2, a2⟩ := _cll_move_to_head_spec pre post hA
    have hd := @abs_data _ _ _ a2 q dq (by simp)
    have hd2 : ld_data m2 q = some dq := hd
    refine ⟨m2, ?_, ?_⟩
    · unfold search_hit
      simp [hl, e2, hd2]
    · exact abs_congr a2 rfl rfl rfl rfl rfl rfl

/-- A hit of `_cll_search` without `CONFIG_SEARCH_LRU`: the cursor moves to the node. -/
theorem search_hit_cur {h : cll_handler α} {L : List (Nat × α)} {q : Nat} {dq : α}
    (hA : Abs h L) (hq : (q, dq) ∈ L)
    (hl : ¬ h._config_flags &&& CONFIG_SEARCH_LRU ≠ 0) :
    search_hit h q = some
        ({ h with cll := q,
                  _stat := { h._stat with search := h._stat.search + 1 } }, some dq) ∧
      Abs ({ h with cll := q,
                    _stat := { h._stat with search := h._stat.search + 1 } }) L := by
  have hd := abs_data hA hq
  constructor
  · unfold search_hit
    simp [hl, hd]
  · exact ⟨hA.heap, hA.head, Or.inr (List.mem_map_of_mem Prod.fst hq), hA.count, hA.marks⟩


/-! ## Pop from the head -/

/-- `_cll_poph` on an empty list. -/
theorem _cll_poph_nil {h : cll_handler α} (hA : Abs h []) :
    _cll_poph h =
      some ({ h with _stat := { h._stat with poph_nf := h._stat.poph_nf + 1 } }, none) := by
  unfold _cll_poph
  simp [hA.head_eq_zero_iff.2 rfl]

/-- `_cll_poph` on a list of one node. -/
theorem _cll_poph_one {h : cll_handler α} {c : Nat} {d : α} (hA : Abs h [(c, d)]) :
    _cll_poph h = some
        ({ h with mem := mm_free h.mem c, cll := 0, cll_head := 0, _iterate_cur := 0,
                  _iterate_start := 0,
                  _stat := { h._stat with poph := h._stat.poph + 1 },
                  _count := h._count - 1 }, some d) ∧
      Abs ({ h with mem := mm_free h.mem c, cll := 0, cll_head := 0, _iterate_cur := 0,
                    _iterate_start := 0,
                    _stat := { h._stat with poph := h._stat.poph + 1 },
                    _count := h._count - 1 }) [] := by
  have hh : h.cll_head = c := by simpa using hA.head
  have hz : h.cll_head ≠ 0 := fun e => by simpa using hA.head_eq_zero_iff.1 e
  have hnx := hA.heap.hnext [] []
  have hd := hA.heap.dat [] []
  simp at hnx
  constructor
  · unfold _cll_poph
    rw [hh] at hz ⊢
    simp [hz, hnx, hd]
  · exact ⟨hA.heap.remove_last, by simp, by simp, by simp [hA.count], by simp⟩

/-- `_cll_poph` on a list of at least two nodes. -/
theorem _cll_poph_cons {h : cll_handler α} {c x : Nat} {d dx : α} {R : List (Nat × α)}
    (hA : Abs h ((c, d) :: (x, dx) :: R)) :
    ∃ m1, _cll_poph h = some
        ({ h with mem := m1, cll := x, cll_head := x,
                  _iterate_cur := if c = h._iterate_cur then x else h._iterate_cur,
                  _iterate_start := if c = h._iterate_start then x else h._iterate_start,
                  _stat := { h._stat with poph := h._stat.poph + 1 },
                  _count := h._count - 1 }, some d) ∧
      Abs ({ h with mem := m1, cll := x, cll_head := x,
                    _iterate_cur := if c = h._iterate_cur then x else h._iterate_cur,
                    _iterate_start := if c = h._iterate_start then x else h._iterate_start,
                    _stat := { h._stat with poph := h._stat.poph + 1 },
                    _count := h._count - 1 }) ((x, dx) :: R) := by
  have hh : h.cll_head = c := by simpa using hA.head
  have hz : h.cll_head ≠ 0 := fun e => by simpa using hA.head_eq_zero_iff.1 e
  have hA0 : HeapAbs h.mem ([] ++ (c, d) :: ((x, dx) :: R)) := by simpa using hA.heap
  obtain ⟨m1, e1, n1, d1, a1⟩ := hA0.remove [] _ (by simp)
  have hnx := hA0.hnext [] _
  simp at hnx
  have hcx : c ≠ x := by
    have := hA0.not_mem_mid [] _
    intro e
    apply this
    simp [e]
  have n2 : ld_next m1 c = some x := by rw [n1, hnx]
  refine ⟨mm_free m1 c, ?_, by simpa using a1, by simp, by simp, by simp [hA.count], ?_⟩
  · unfold _cll_poph
    rw [hh] at hz ⊢
    by_cases h1 : h._iterate_cur = c <;> by_cases h2 : h._iterate_start = c <;>
      simp [hz, hnx, hcx, e1, n2, d1, h1, h2, Ne.symm hcx, @eq_comm _ c h._iterate_cur,
        @eq_comm _ c h._iterate_start]
  · simp only
    rcases hA.marks with ⟨e1, e2⟩ | ⟨e1, e2⟩
    · left
      have hc0 : c ≠ 0 := by
        intro e
        apply hA.heap.nonnull
        simp [← e]
      simp [e1, e2, hc0]
    · right
      have key : ∀ a, a ∈ ((c, d) :: (x, dx) :: R).map Prod.fst →
          (if c = a then x else a) ∈ ((x, dx) :: R).map Prod.fst := by
        intro a ha
        by_cases e : c = a
        · simp [e]
        · simp only [e, if_false]
          simp at ha ⊢
          rcases ha with h1 | h1 | h1
          · exact absurd h1.symm e
          · exact Or.inl h1
          · exact Or.inr h1
      exact ⟨key _ e1, key _ e2⟩

/-! ## Rewind and iterate -/

theorem _cll_rewind_abs {h : cll_handler α} {L : List (Nat × α)} (hA : Abs h L) (to_ : Int) :
    Abs (_cll_rewind h to_) L :=
  ⟨hA.heap, hA.head, hA.cur, hA.count, Or.inl ⟨rfl, rfl⟩⟩

theorem abs_head_mem {h : cll_handler α} {L : List (Nat × α)} (hA : Abs h L) (hL : L ≠ []) :
    h.cll_head ∈ L.map Prod.fst := by
  rw [hA.head]
  rcases L with _ | ⟨p, L⟩
  · exact absurd rfl hL
  · simp

theorem ring_next_mem {m : Heap α} {l : List Nat} (h : RingOK m l) {a : Nat} (ha : a ∈ l) :
    ∃ b, ld_next m a = some b ∧ b ∈ l := ⟨_, h.next ha, cnext_mem l a ha⟩

theorem ring_prev_mem {m : Heap α} {l : List Nat} (h : RingOK m l) {a : Nat} (ha : a ∈ l) :
    ∃ b, ld_prev m a = some b ∧ b ∈ l := ⟨_, h.prev ha, cprev_mem l a ha⟩

theorem abs_data_mem {h : cll_handler α} {L : List (Nat × α)} (hA : Abs h L) {a : Nat}
    (ha : a ∈ L.map Prod.fst) : ∃ d, ld_data h.mem a = some d ∧ (a, d) ∈ L := by
  obtain ⟨pre, d, post, hs⟩ := split_of_mem_fst ha
  exact ⟨d, abs_data hA (by rw [hs]; simp), by rw [hs]; simp⟩

/-- `_cll_iterate` returns and keeps the list as it is. -/
theorem _cll_iterate_abs {h : cll_handler α} {L : List (Nat × α)} (hA : Abs h L) :
    ∃ h2 r, _cll_iterate h = some (h2, r) ∧ Abs h2 L := by
  by_cases hL : L = []
  · subst hL
    refine ⟨{ h with _stat := { h._stat with iterate := h._stat.iterate + 1 } }, none, ?_,
        abs_congr hA rfl rfl rfl rfl rfl rfl⟩
    · unfold _cll_iterate
      rw [if_pos hA.cll_zero]
  · have hz := hA.cll_ne_zero hL
    have hhm := abs_head_mem hA hL
    by_cases hs : h._iterate_start = 0
    · by_cases hr : h._iterate_reverse ≠ 0
      · obtain ⟨p, hp, hpm⟩ := ring_prev_mem hA.heap.ring hhm
        obtain ⟨pp, hpp, hppm⟩ := ring_prev_mem hA.heap.ring hpm
        obtain ⟨d, hd, _⟩ := abs_data_mem hA hpm
        refine ⟨{ h with _iterate_start := p, _iterate_cur := pp }, some d, ?_,
          hA.heap, hA.head, hA.cur, hA.count, Or.inr ⟨hpm, hppm⟩⟩
        unfold _cll_iterate
        simp [hz, hs, hr, hp, hpp, hd]
      · obtain ⟨p, hp, hpm⟩ := ring_next_mem hA.heap.ring hhm
        obtain ⟨d, hd, _⟩ := abs_data_mem hA hhm
        refine ⟨{ h with _iterate_start := h.cll_head, _iterate_cur := p }, some d, ?_,
          hA.heap, hA.head, hA.cur, hA.count, Or.inr ⟨hhm, hpm⟩⟩
        unfold _cll_iterate
        simp [hz, hs, hr, hp, hd]
    · have hm : h._iterate_start ∈ L.map Prod.fst ∧ h._iterate_cur ∈ L.map Prod.fst := by
        rcases hA.marks with ⟨e, _⟩ | hm
        · exact absurd e hs
        · exact hm
      by_cases hcs : h._iterate_cur = h._iterate_start
      · refine ⟨{ h with _stat := { h._stat with iterate := h._stat.iterate + 1 } }, none, ?_,
        abs_congr hA rfl rfl rfl rfl rfl rfl⟩
        · unfold _cll_iterate
          rw [if_neg hz, if_neg hs, if_pos hcs]
      · obtain ⟨d, hd, _⟩ := abs_data_mem hA hm.2
        by_cases hr : h._iterate_reverse ≠ 0
        · obtain ⟨p, hp, hpm⟩ := ring_prev_mem hA.heap.ring hm.2
          refine ⟨{ h with cll := h._iterate_cur, _iterate_cur := p }, some d, ?_,
            hA.heap, hA.head, Or.inr hm.2, hA.count, Or.inr ⟨hm.1, hpm⟩⟩
          unfold _cll_iterate
          simp [hz, hs, hr, hp, hd, hcs]
        · obtain ⟨p, hp, hpm⟩ := ring_next_mem hA.heap.ring hm.2
          refine ⟨{ h with cll := h._iterate_cur, _iterate_cur := p }, some d, ?_,
            hA.heap, hA.head, Or.inr hm.2, hA.count, Or.inr ⟨hm.1, hpm⟩⟩
          unfold _cll_iterate
          simp [hz, hs, hr, hp, hd, hcs]


/-! ## Collapse -/

theorem splice_out_eq {m : Heap α} {c p x : Nat} (hp : ld_prev m c = some p)
    (hx : ld_next m c = some x) (hlp : live m p) (hlx : live m x) (hpc : p ≠ c) :
    splice_out m c = some (wprev (wnext m p x) x p) := by
  unfold splice_out
  simp [hp, hx, st_next_live, st_prev_live, hlp, hlx, ld_next_wnext_ne _ _ (Ne.symm hpc)]

/-- The loop of `_cll_collapse` releases the nodes one after the other, starting at the
cursor and following `next`, and hands each payload to `destroy`. -/
theorem _cll_collapse_loop_spec : ∀ (rest : List (Nat × α)) (h : cll_handler α) (c : Nat)
    (d : α), HeapAbs h.mem ((c, d) :: rest) → ∀ fuel, rest.length < fuel →
    ∃ m1, HeapAbs m1 [] ∧ _cll_collapse_loop fuel h c = some
      { h with mem := m1, cll := 0, cll_head := 0, _iterate_start := 0, _iterate_cur := 0,
               destroyed := h.destroyed ++ d :: rest.map Prod.snd } := by
  intro rest
  induction rest with
  | nil =>
    intro h c d hA fuel hf
    obtain ⟨fuel, rfl⟩ : ∃ k, fuel = k + 1 := ⟨fuel - 1, by omega⟩
    have hc0 : c ≠ 0 := by
      intro e
      apply hA.nonnull
      simp [← e]
    have hnx := hA.hnext [] []
    have hd := hA.dat [] []
    simp at hnx
    refine ⟨mm_free h.mem c, hA.remove_last, ?_⟩
    unfold _cll_collapse_loop
    simp [hc0, hnx, hd]
  | cons q R ih =>
    intro h c d hA fuel hf
    obtain ⟨x, dx⟩ := q
    obtain ⟨fuel, rfl⟩ : ∃ k, fuel = k + 1 := ⟨fuel - 1, by simp at hf; omega⟩
    have hc0 : c ≠ 0 := by
      intro e
      apply hA.nonnull
      simp [← e]
    have hA0 : HeapAbs h.mem ([] ++ (c, d) :: ((x, dx) :: R)) := by simpa using hA
    obtain ⟨m1, e1, n1, d1, a1⟩ := hA0.remove [] _ (by simp)
    have hnx := hA0.hnext [] _
    simp at hnx
    have hcm : c ∈ ((c, d) :: (x, dx) :: R).map Prod.fst := by simp
    obtain ⟨p, hp, hpm⟩ := ring_prev_mem hA.ring hcm
    have hpc : p ≠ c := by
      have h1 := hA.ring.prev hcm
      rw [hp] at h1
      have h2 := cprev_ne_self c (((x, dx) :: R).map Prod.fst) (by simp) hA.ring.1
      rw [Option.some.inj h1]
      exact h2
    have hcx : c ≠ x := by
      have := hA0.not_mem_mid [] _
      intro e
      apply this
      simp [e]
    have hlp : live h.mem p := hA.ring.alive hpm
    have hlx : live h.mem x := hA.ring.alive (by simp)
    have e2 := splice_out_eq hp hnx hlp hlx hpc
    rw [e1] at e2
    have e3 : m1 = wnext (wprev h.mem x p) p x := by
      rw [← wprev_wnext_comm]
      exact Option.some.inj e2
    have n2 : ld_next m1 c = some x := by rw [n1, hnx]
    obtain ⟨m3, a3, e4⟩ :=
      ih { h with mem := mm_free m1 c, cll := x, destroyed := h.destroyed ++ [d] } x dx
        (by simpa using a1) fuel (by simp at hf; omega)
    refine ⟨m3, a3, ?_⟩
    unfold _cll_collapse_loop
    simp only [hc0, if_false, hnx, obind_some, hcx, hp]
    rw [st_prev_live _ hlx]
    simp only [obind_some, ld_prev_wprev_ne _ _ hcx, hp, ld_next_wprev, hnx]
    rw [st_next_live _ (by simpa using hlp), ← e3]
    simp only [obind_some, n2, d1]
    rw [e4]
    simp

/-- `_cll_collapse` empties the list and hands every payload to `destroy`, starting at the
cursor and following `next`. -/
theorem _cll_collapse_spec {h : cll_handler α} (pre post : List (Nat × α)) {d : α}
    (hA : Abs h (pre ++ (h.cll, d) :: post)) (fuel : Nat)
    (hf : (pre ++ (h.cll, d) :: post).length ≤ fuel) :
    ∃ m1, HeapAbs m1 [] ∧ _cll_collapse fuel h = some
      { h with mem := m1, cll := 0, cll_head := 0, _iterate_start := 0, _iterate_cur := 0,
               destroyed := h.destroyed ++ (d :: (post ++ pre).map Prod.snd),
               _stat := { h._stat with collapse := h._stat.collapse + 1 }, _count := 0 } := by
  have hrot : HeapAbs h.mem ((h.cll, d) :: (post ++ pre)) := by
    simpa using hA.heap.hrot
  obtain ⟨m1, a1, e1⟩ := _cll_collapse_loop_spec (post ++ pre) h h.cll d hrot fuel
    (by simp at hf ⊢; omega)
  refine ⟨m1, a1, ?_⟩
  unfold _cll_collapse
  rw [e1]
  rfl

/-- `_cll_collapse` on an empty list only counts the call. -/
theorem _cll_collapse_nil {h : cll_handler α} (hA : Abs h []) (fuel : Nat) (hf : 0 < fuel) :
    _cll_collapse fuel h = some
      { h with _stat := { h._stat with collapse := h._stat.collapse + 1 }, _count := 0 } := by
  obtain ⟨fuel, rfl⟩ : ∃ k, fuel = k + 1 := ⟨fuel - 1, by omega⟩
  unfold _cll_collapse _cll_collapse_loop
  simp [hA.cll_zero]

theorem abs_empty {h : cll_handler α} {m1 : Heap α} (a1 : HeapAbs m1 ([] : List (Nat × α)))
    (e1 : h.mem = m1) (e2 : h.cll = 0) (e3 : h.cll_head = 0) (e4 : h._iterate_start = 0)
    (e5 : h._iterate_cur = 0) (e6 : h._count = 0) : Abs h [] :=
  ⟨e1 ▸ a1, by simp [e3], Or.inl ⟨rfl, e2⟩, by simp [e6], Or.inl ⟨e4, e5⟩⟩


/-! ## Sorted insertion -/

theorem split_last_not {β : Type} (P : β → Prop) (l : List β) :
    (∀ p ∈ l, P p) ∨ ∃ l1 q l2, l = l1 ++ q :: l2 ∧ ¬ P q ∧ ∀ p ∈ l2, P p := by
  induction l with
  | nil => left; simp
  | cons a l ih =>
    rcases ih with h | ⟨l1, q, l2, e, hq, h2⟩
    · by_cases ha : P a
      · left
        intro p hp
        rcases List.mem_cons.1 hp with e | e
        · exact e ▸ ha
        · exact h p e
      · right
        exact ⟨[], a, l, rfl, ha, h⟩
    · right
      exact ⟨a :: l1, q, l2, by simp [e], hq, h2⟩

theorem split_first_not {β : Type} (P : β → Prop) (l : List β) :
    (∀ p ∈ l, P p) ∨ ∃ l1 q l2, l = l1 ++ q :: l2 ∧ ¬ P q ∧ ∀ p ∈ l1, P p := by
  induction l with
  | nil => left; simp
  | cons a l ih =>
    by_cases ha : P a
    · rcases ih with h | ⟨l1, q, l2, e, hq, h2⟩
      · left
        intro p hp
        rcases List.mem_cons.1 hp with e | e
        · exact e ▸ ha
        · exact h p e
      · right
        refine ⟨a :: l1, q, l2, by simp [e], hq, ?_⟩
        intro p hp
        rcases List.mem_cons.1 hp with e | e
        · exact e ▸ ha
        · exact h2 p e
    · right
      exact ⟨[], a, l, rfl, ha, by simp⟩

theorem cprev_inj {l : List Nat} (hn : l.Nodup) {a b : Nat} (ha : a ∈ l) (hb : b ∈ l)
    (e : cprev l a = cprev l b) : a = b := by
  have h1 := cnext_cprev l hn a ha
  have h2 := cnext_cprev l hn b hb
  rw [e] at h1
  exact h1.symm.trans h2

theorem cnext_inj {l : List Nat} (hn : l.Nodup) {a b : Nat} (ha : a ∈ l) (hb : b ∈ l)
    (e : cnext l a = cnext l b) : a = b := by
  have h1 := cprev_cnext l hn a ha
  have h2 := cprev_cnext l hn b hb
  rw [e] at h1
  exact h1.symm.trans h2

theorem cnext_mid2 (pre post : List Nat) (a b : Nat) (hn : (pre ++ a :: b :: post).Nodup) :
    cnext (pre ++ a :: b :: post) a = b := by
  rw [cnext_split _ _ _ hn]; simp

theorem cprev_mid2 (pre post : List Nat) (a b : Nat) (hn : (pre ++ a :: b :: post).Nodup) :
    cprev (pre ++ a :: b :: post) b = a := by
  have e : pre ++ a :: b :: post = (pre ++ [a]) ++ b :: post := by simp
  rw [e] at hn ⊢
  rw [cprev_split _ _ _ hn]; simp

theorem head_ne_of_nodup (a : Nat) (pre post : List Nat) (c : Nat)
    (hn : (a :: pre ++ c :: post).Nodup) : (a :: pre ++ c :: post).headD 0 ≠ c := by
  have h1 : c ∉ (a :: pre) ++ post := nodup_mid (by simpa using hn)
  intro e
  apply h1
  simp at e
  simp [e]

theorem headD_mem (a : Nat) (l : List Nat) : (a :: l).headD 0 ∈ a :: l := by simp

/-- In a ring, the predecessor of a node that is not the head is not the predecessor of the
head. -/
theorem prev_ne_prev_head {m : Heap α} (a : Nat) (pre post : List Nat) (c : Nat)
    (hr : RingOK m (a :: pre ++ c :: post)) :
    cprev (a :: pre ++ c :: post) c ≠ cprev (a :: pre ++ c :: post) a := by
  intro e
  have := cprev_inj hr.1 (by simp) (by simp) e
  exact head_ne_of_nodup a pre post c hr.1 (by simpa using this.symm)

/-- The backward loop stops at the first node, going backward from the cursor, whose
payload is not greater than the new one. -/
theorem sorted_back_found (cmp : α → α → Int) (m : Heap α) (x : α) (pre1 : List Nat)
    (q : Nat) (hq : ∃ d, ld_data m q = some d ∧ ¬ cmp d x > 0) :
    ∀ (pre2 : List Nat) (c : Nat) (post : List Nat),
      RingOK m (pre1 ++ q :: pre2 ++ c :: post) →
      (∀ a ∈ pre2, ∃ d, ld_data m a = some d ∧ cmp d x > 0) → ∀ fuel, pre2.length < fuel →
      _cll_insert_sorted_back cmp m ((pre1 ++ q :: pre2 ++ c :: post).headD 0)
        x fuel c = some q := by
  intro pre2
  induction pre2 using List.reverseRecOn with
  | nil =>
    intro c post hr _ fuel hf
    obtain ⟨fuel, rfl⟩ : ∃ k, fuel = k + 1 := ⟨fuel - 1, by omega⟩
    obtain ⟨dq, hdq, hq2⟩ := hq
    obtain ⟨a, R, hR⟩ : ∃ a R, pre1 ++ [q] = a :: R := by
      rcases pre1 with _ | ⟨a, pre1⟩
      · exact ⟨q, [], rfl⟩
      · exact ⟨a, pre1 ++ [q], rfl⟩
    have e0 : pre1 ++ q :: [] ++ c :: post = a :: R ++ c :: post := by
      rw [← hR]; try simp
    rw [e0] at hr ⊢
    have hpc : cprev (a :: R ++ c :: post) c = q := by
      have hn := hr.1
      have e1 : a :: R ++ c :: post = pre1 ++ q :: c :: post := by rw [← e0]; simp
      rw [e1] at hn ⊢
      exact cprev_mid2 _ _ _ _ hn
    have hne := prev_ne_prev_head a R post c hr
    rw [hpc] at hne
    unfold _cll_insert_sorted_back
    simp only [List.cons_append, List.headD_cons]
    rw [hr.prev (by simp : c ∈ a :: R ++ c :: post), hr.prev (by simp : a ∈ a :: R ++ c :: post), hpc]
    simp [hne, hdq, hq2]
  | append_singleton pre2 p ih =>
    intro c post hr hgt fuel hf
    obtain ⟨fuel, rfl⟩ : ∃ k, fuel = k + 1 := ⟨fuel - 1, by simp at hf; omega⟩
    obtain ⟨a, R, hR⟩ : ∃ a R, pre1 ++ q :: pre2 ++ [p] = a :: R := by
      rcases pre1 with _ | ⟨a, pre1⟩
      · exact ⟨q, pre2 ++ [p], rfl⟩
      · exact ⟨a, pre1 ++ q :: pre2 ++ [p], by simp⟩
    have e0 : pre1 ++ q :: (pre2 ++ [p]) ++ c :: post = a :: R ++ c :: post := by
      rw [← hR]; try simp
    have e2 : pre1 ++ q :: (pre2 ++ [p]) ++ c :: post = pre1 ++ q :: pre2 ++ p :: (c :: post) := by
      simp
    have hr2 := hr
    rw [e0] at hr
    have hpc : cprev (a :: R ++ c :: post) c = p := by
      have hn := hr.1
      have e1 : a :: R ++ c :: post = (pre1 ++ q :: pre2) ++ p :: c :: post := by
        rw [← e0]; simp
      rw [e1] at hn ⊢
      exact cprev_mid2 _ _ _ _ hn
    have hne := prev_ne_prev_head a R post c hr
    rw [hpc] at hne
    obtain ⟨dp, hdp, hgp⟩ := hgt p (by simp)
    rw [e0]
    unfold _cll_insert_sorted_back
    simp only [List.cons_append, List.headD_cons]
    rw [hr.prev (by simp : c ∈ a :: R ++ c :: post), hr.prev (by simp : a ∈ a :: R ++ c :: post), hpc]
    simp only [obind_some, ne_eq, hne, not_false_eq_true, if_true, hdp, hgp]
    rw [e2] at hr2
    have hrec := ih p (c :: post) hr2 (fun b hb => hgt b (by simp [hb])) fuel
      (by simp at hf; omega)
    rw [← e2, e0] at hrec
    simpa using hrec

/-- The backward loop stops at the tail when every node from the head to the cursor has a
payload greater than the new one. -/
theorem sorted_back_wrap (cmp : α → α → Int) (m : Heap α) (x : α) :
    ∀ (pre : List Nat) (c : Nat) (post : List Nat),
      RingOK m (pre ++ c :: post) →
      (∀ a ∈ pre, ∃ d, ld_data m a = some d ∧ cmp d x > 0) → ∀ fuel, pre.length < fuel →
      _cll_insert_sorted_back cmp m ((pre ++ c :: post).headD 0) x fuel c =
        some (cprev (pre ++ c :: post) ((pre ++ c :: post).headD 0)) := by
  intro pre
  induction pre using List.reverseRecOn with
  | nil =>
    intro c post hr _ fuel hf
    obtain ⟨fuel, rfl⟩ : ∃ k, fuel = k + 1 := ⟨fuel - 1, by omega⟩
    unfold _cll_insert_sorted_back
    simp only [List.nil_append, List.headD_cons]
    rw [hr.prev (by simp)]
    simp
  | append_singleton pre p ih =>
    intro c post hr hgt fuel hf
    obtain ⟨fuel, rfl⟩ : ∃ k, fuel = k + 1 := ⟨fuel - 1, by simp at hf; omega⟩
    obtain ⟨a, R, hR⟩ : ∃ a R, pre ++ [p] = a :: R := by
      rcases pre with _ | ⟨a, pre⟩
      · exact ⟨p, [], rfl⟩
      · exact ⟨a, pre ++ [p], rfl⟩
    have e0 : pre ++ [p] ++ c :: post = a :: R ++ c :: post := by rw [← hR]; try simp
    have e2 : pre ++ [p] ++ c :: post = pre ++ p :: (c :: post) := by simp
    have hr2 := hr
    rw [e0] at hr
    have hpc : cprev (a :: R ++ c :: post) c = p := by
      have hn := hr.1
      have e1 : a :: R ++ c :: post = pre ++ p :: c :: post := by rw [← e0]; simp
      rw [e1] at hn ⊢
      exact cprev_mid2 _ _ _ _ hn
    have hne := prev_ne_prev_head a R post c hr
    rw [hpc] at hne
    obtain ⟨dp, hdp, hgp⟩ := hgt p (by simp)
    rw [e0]
    unfold _cll_insert_sorted_back
    simp only [List.cons_append, List.headD_cons]
    rw [hr.prev (by simp : c ∈ a :: R ++ c :: post), hr.prev (by simp : a ∈ a :: R ++ c :: post), hpc]
    simp only [obind_some, ne_eq, hne, not_false_eq_true, if_true, hdp, hgp]
    rw [e2] at hr2
    have hrec := ih p (c :: post) hr2 (fun b hb => hgt b (by simp [hb])) fuel
      (by simp at hf; omega)
    rw [← e2, e0] at hrec
    simpa using hrec

/-- The forward loop stops at the first node, going forward from the cursor, whose payload
is not less than the new one. -/
theorem sorted_fwd_found (cmp : α → α → Int) (m : Heap α) (x : α) (post2 : List Nat)
    (q : Nat) (hq : ∃ d, ld_data m q = some d ∧ ¬ cmp d x < 0) :
    ∀ (post1 : List Nat) (c : Nat) (pre : List Nat),
      RingOK m (pre ++ c :: post1 ++ q :: post2) →
      (∀ a ∈ post1, ∃ d, ld_data m a = some d ∧ cmp d x < 0) → ∀ fuel, post1.length < fuel →
      _cll_insert_sorted_fwd cmp m ((pre ++ c :: post1 ++ q :: post2).headD 0)
        x fuel c = some q := by
  intro post1
  induction post1 with
  | nil =>
    intro c pre hr _ fuel hf
    obtain ⟨fuel, rfl⟩ : ∃ k, fuel = k + 1 := ⟨fuel - 1, by omega⟩
    obtain ⟨dq, hdq, hq2⟩ := hq
    have e0 : pre ++ c :: [] ++ q :: post2 = pre ++ c :: q :: post2 := by simp
    rw [e0] at hr ⊢
    have hnx : cnext (pre ++ c :: q :: post2) c = q := cnext_mid2 _ _ _ _ hr.1
    have hne : q ≠ (pre ++ c :: q :: post2).headD 0 := by
      rcases pre with _ | ⟨a, pre⟩
      · have := hr.1
        simp at this ⊢
        exact fun e => this.1.1 e.symm
      · have := head_ne_of_nodup a (pre ++ [c]) post2 q (by simpa using hr.1)
        simpa using this.symm
    unfold _cll_insert_sorted_fwd
    rw [hr.next (by simp), hnx]
    simp [hne, hdq, hq2]
  | cons p post1 ih =>
    intro c pre hr hlt fuel hf
    obtain ⟨fuel, rfl⟩ : ∃ k, fuel = k + 1 := ⟨fuel - 1, by simp at hf; omega⟩
    have e0 : pre ++ c :: (p :: post1) ++ q :: post2 = pre ++ c :: p :: (post1 ++ q :: post2) := by
      simp
    have e2 : pre ++ c :: (p :: post1) ++ q :: post2 = (pre ++ [c]) ++ p :: post1 ++ q :: post2 := by
      simp
    have hr2 := hr
    rw [e0] at hr
    have hnx : cnext (pre ++ c :: p :: (post1 ++ q :: post2)) c = p := cnext_mid2 _ _ _ _ hr.1
    have hne : p ≠ (pre ++ c :: p :: (post1 ++ q :: post2)).headD 0 := by
      rcases pre with _ | ⟨a, pre⟩
      · have := hr.1
        simp at this ⊢
        exact fun e => this.1.1 e.symm
      · have := head_ne_of_nodup a (pre ++ [c]) (post1 ++ q :: post2) p (by simpa using hr.1)
        simpa using this.symm
    obtain ⟨dp, hdp, hgp⟩ := hlt p (by simp)
    rw [e0]
    unfold _cll_insert_sorted_fwd
    rw [hr.next (by simp), hnx]
    simp only [obind_some, ne_eq, hne, not_false_eq_true, if_true, hdp, hgp]
    rw [← e0, e2]
    rw [e2] at hr2
    exact ih p (pre ++ [c]) hr2 (fun b hb => hlt b (by simp [hb])) fuel (by simp at hf; omega)

/-- The forward loop stops at the head when every node from the cursor to the tail has a
payload less than the new one. -/
theorem sorted_fwd_wrap (cmp : α → α → Int) (m : Heap α) (x : α) :
    ∀ (post : List Nat) (c : Nat) (pre : List Nat),
      RingOK m (pre ++ c :: post) →
      (∀ a ∈ post, ∃ d, ld_data m a = some d ∧ cmp d x < 0) → ∀ fuel, post.length < fuel →
      _cll_insert_sorted_fwd cmp m ((pre ++ c :: post).headD 0) x fuel c =
        some ((pre ++ c :: post).headD 0) := by
  intro post
  induction post with
  | nil =>
    intro c pre hr _ fuel hf
    obtain ⟨fuel, rfl⟩ : ∃ k, fuel = k + 1 := ⟨fuel - 1, by omega⟩
    have hnx : cnext (pre ++ [c]) c = (pre ++ [c]).headD 0 := by
      rw [cnext_split _ _ _ hr.1]; simp
    unfold _cll_insert_sorted_fwd
    rw [hr.next (by simp), hnx]
    simp
  | cons p post ih =>
    intro c pre hr hlt fuel hf
    obtain ⟨fuel, rfl⟩ : ∃ k, fuel = k + 1 := ⟨fuel - 1, by simp at hf; omega⟩
    have e2 : pre ++ c :: p :: post = (pre ++ [c]) ++ p :: post := by simp
    have hnx : cnext (pre ++ c :: p :: post) c = p := cnext_mid2 _ _ _ _ hr.1
    have hne : p ≠ (pre ++ c :: p :: post).headD 0 := by
      rcases pre with _ | ⟨a, pre⟩
      · have := hr.1
        simp at this ⊢
        exact fun e => this.1.1 e.symm
      · have := head_ne_of_nodup a (pre ++ [c]) post p (by simpa using hr.1)
        simpa using this.symm
    obtain ⟨dp, hdp, hgp⟩ := hlt p (by simp)
    unfold _cll_insert_sorted_fwd
    rw [hr.next (by simp), hnx]
    simp only [obind_some, ne_eq, hne, not_false_eq_true, if_true, hdp, hgp]
    rw [e2]
    rw [e2] at hr
    exact ih p (pre ++ [c]) hr (fun b hb => hlt b (by simp [hb])) fuel (by simp at hf; omega)


theorem data_cond {m : Heap α} {L sub : List (Nat × α)}
    (hd : ∀ p ∈ L, ld_data m p.1 = some p.2) (hsub : ∀ p ∈ sub, p ∈ L) (P : α → Prop)
    (hP : ∀ p ∈ sub, P p.2) : ∀ a ∈ sub.map Prod.fst, ∃ d, ld_data m a = some d ∧ P d := by
  intro a ha
  obtain ⟨p, hp, rfl⟩ := List.mem_map.1 ha
  exact ⟨p.2, hd p (hsub p hp), hP p hp⟩

/-- The heap right after the allocation of a fresh node still holds the ring. -/
theorem heap_new_frame {m : Heap α} {L : List (Nat × α)} (hA : HeapAbs m L) (n : Nat) (x : α)
    (hf : m n = none) :
    RingOK (mm_new m n x) (L.map Prod.fst) ∧
      ∀ p ∈ L, ld_data (mm_new m n x) p.1 = some p.2 := by
  have hnl := hA.fresh hf
  constructor
  · apply hA.ring.frame
    intro a ha
    have : a ≠ n := fun e => hnl (e ▸ ha)
    simp [this]
  · intro p hp
    have : p.1 ≠ n := fun e => hnl (e ▸ HeapAbs.mem_fst hp)
    simp [this, hA.data p hp]

/-- `_cll_insert_sorted` on an empty list. -/
theorem _cll_insert_sorted_nil {h : cll_handler α} (hA : Abs h [])
    (x : α) (n : Nat) (hn : n ≠ 0) (fuel : Nat) :
    ∃ m1, _cll_insert_sorted fuel h x n =
        some (insert_account { h with mem := m1, cll_head := n, cll := n }, 0) ∧
      Abs (insert_account { h with mem := m1, cll_head := n, cll := n }) [(n, x)] := by
  have hc := hA.cll_zero
  obtain ⟨m1, e1, a1⟩ := hA.heap.new_self n x hn
  refine ⟨m1, ?_, ?_⟩
  · unfold _cll_insert_sorted
    simp [hn, hc, e1]
  · refine ⟨by simpa using a1, by simp, by simp, by simp [hA.count], ?_⟩
    simp only [insert_account_start, insert_account_cur]
    exact marks_mono (by simp) hA.marks

/-- `_cll_insert_sorted` on a non-empty list: where the new node goes. -/
theorem _cll_insert_sorted_spec {h : cll_handler α} (pre post : List (Nat × α)) {d : α}
    (hA : Abs h (pre ++ (h.cll, d) :: post)) {cmp : α → α → Int} (hc : h.compare = some cmp)
    (x : α) (n : Nat) (hn : n ≠ 0) (hf : h.mem n = none) (fuel : Nat)
    (hfuel : (pre ++ (h.cll, d) :: post).length ≤ fuel) :
    ∃ m1 hd2 L2, _cll_insert_sorted fuel h x n =
        some (insert_account { h with mem := m1, cll_head := hd2, cll := n }, 0) ∧
      Abs (insert_account { h with mem := m1, cll_head := hd2, cll := n }) L2 ∧
      SortedIns cmp x pre (h.cll, d) post (n, x) L2 := by
  have hz := hA.cll_ne_zero (by simp)
  obtain ⟨hr0, hd0⟩ := heap_new_frame hA.heap n x hf
  have hdc : ld_data (mm_new h.mem n x) h.cll = some d := hd0 (h.cll, d) (by simp)
  have hhead := hA.head
  have hlen : (pre ++ (h.cll, d) :: post).length = pre.length + post.length + 1 := by
    simp; omega
  have hmarks : ∀ L2 : List (Nat × α), (∀ a ∈ (pre ++ (h.cll, d) :: post).map Prod.fst,
      a ∈ L2.map Prod.fst) → (h._iterate_start = 0 ∧ h._iterate_cur = 0) ∨
      (h._iterate_start ∈ L2.map Prod.fst ∧ h._iterate_cur ∈ L2.map Prod.fst) :=
    fun L2 hsub => marks_mono hsub hA.marks
  by_cases hgt : cmp d x > 0
  · rcases split_last_not (fun p : Nat × α => cmp p.2 x > 0) pre with hall | ⟨pre1, q, pre2, e, hq, h2⟩
    · -- the walk wraps to the tail: the new node becomes the head
      have hloop := sorted_back_wrap cmp (mm_new h.mem n x) x (pre.map Prod.fst) h.cll
        (post.map Prod.fst) (by simpa using hr0)
        (data_cond hd0 (fun p hp => by simp [hp]) _ hall) fuel (by simp; omega)
      obtain ⟨Lf, t, hLf⟩ : ∃ Lf t, pre ++ (h.cll, d) :: post = Lf ++ [t] := by
        rcases List.eq_nil_or_concat (pre ++ (h.cll, d) :: post) with e | ⟨Lf, t, e⟩
        · simp at e
        · exact ⟨Lf, t, by simpa using e⟩
      have hA2 : HeapAbs h.mem (Lf ++ (t.1, t.2) :: []) := by
        have := hA.heap
        rw [hLf] at this
        simpa using this
      have ht : cprev (pre.map Prod.fst ++ h.cll :: post.map Prod.fst)
          ((pre.map Prod.fst ++ h.cll :: post.map Prod.fst).headD 0) = t.1 := by
        have e1 : pre.map Prod.fst ++ h.cll :: post.map Prod.fst =
            (Lf ++ [t]).map Prod.fst := by rw [← hLf]; simp
        rw [e1]
        have hnd : ((Lf ++ [t]).map Prod.fst).Nodup := by rw [← hLf]; exact hA.heap.ring.1
        rcases Lf with _ | ⟨a, Lf⟩
        · simp [cprev, cnext, List.nextOr]
        · simp only [List.cons_append, List.map_cons, List.headD_cons, List.map_append,
            List.map_nil] at hnd ⊢
          rw [cprev_first _ _ (List.nodup_cons.1 hnd).1]
          simp
      rw [ht] at hloop
      obtain ⟨m1, e1, a1⟩ := hA2.new_after Lf [] n x hn hf
      have a2 : HeapAbs m1 ((pre ++ (h.cll, d) :: post) ++ [(n, x)]) := by
        rw [hLf]; simpa using a1
      have hnn := a2.hnext (pre ++ (h.cll, d) :: post) []
      simp only [List.nil_append] at hnn
      have hnn2 : ld_next m1 n = some h.cll_head := by
        rw [hnn, hhead]
        congr 1
        rcases pre with _ | ⟨a, pre⟩ <;> simp
      refine ⟨m1, n, (n, x) :: (pre ++ (h.cll, d) :: post), ?_, ?_, ?_⟩
      · unfold _cll_insert_sorted
        simp only [hn, if_false, hz, hc, obind_some, hdc, hgt, if_true]
        have hh2 : h.cll_head = (pre.map Prod.fst ++ h.cll :: post.map Prod.fst).headD 0 := by
          rw [hhead]; simp
        rw [hh2, hloop]
        simp only [obind_some, e1, hnn2, ← hh2, if_true]
      · refine ⟨by simpa using a2.hrot, by simp, by simp, by simp [hA.count], ?_⟩
        simp only [insert_account_start, insert_account_cur]
        exact hmarks _ (fun a ha => List.mem_map.2 (by
          obtain ⟨p, hp, rfl⟩ := List.mem_map.1 ha
          exact ⟨p, List.mem_cons_of_mem _ hp, rfl⟩))
      · left
        exact ⟨hgt, Or.inr ⟨hall, by simp⟩⟩
    · -- the walk stops at `q`
      subst e
      have hloop := sorted_back_found cmp (mm_new h.mem n x) x (pre1.map Prod.fst) q.1
        ⟨q.2, hd0 q (by simp), hq⟩ (pre2.map Prod.fst) h.cll (post.map Prod.fst)
        (by simpa using hr0) (data_cond hd0 (fun p hp => by simp [hp]) _ h2) fuel
        (by have := hfuel; simp at this ⊢; omega)
      have hA2 : HeapAbs h.mem (pre1 ++ (q.1, q.2) :: (pre2 ++ (h.cll, d) :: post)) := by
        simpa using hA.heap
      obtain ⟨m1, e1, a1⟩ := hA2.new_after pre1 _ n x hn hf
      have a2 : HeapAbs m1 ((pre1 ++ [q]) ++ (n, x) :: (pre2 ++ (h.cll, d) :: post)) := by
        simpa using a1
      have hnn := a2.hnext (pre1 ++ [q]) (pre2 ++ (h.cll, d) :: post)
      have hne : ((((pre2 ++ (h.cll, d) :: post) ++ (pre1 ++ [q])).map Prod.fst ++ [n]).headD 0)
          ≠ h.cll_head := by
        rw [hhead]
        have hnd := hA.heap.ring.1
        rcases pre2 with _ | ⟨b, pre2⟩
        · rcases pre1 with _ | ⟨a, pre1⟩
          · have := head_ne_of_nodup q.1 [] (post.map Prod.fst) h.cll (by simpa using hnd)
            simpa using this.symm
          · have := head_ne_of_nodup a.1 (pre1.map Prod.fst ++ [q.1]) (post.map Prod.fst) h.cll
              (by simpa using hnd)
            simpa using this.symm
        · rcases pre1 with _ | ⟨a, pre1⟩
          · have := head_ne_of_nodup q.1 [] (pre2.map Prod.fst ++ h.cll :: post.map Prod.fst)
              b.1 (by simpa using hnd)
            simpa using this.symm
          · have := head_ne_of_nodup a.1 (pre1.map Prod.fst ++ [q.1])
              (pre2.map Prod.fst ++ h.cll :: post.map Prod.fst) b.1 (by simpa using hnd)
            simpa using this.symm
      refine ⟨m1, h.cll_head, pre1 ++ q :: (n, x) :: pre2 ++ (h.cll, d) :: post, ?_, ?_, ?_⟩
      · unfold _cll_insert_sorted
        simp only [hn, if_false, hz, hc, obind_some, hdc, hgt, if_true]
        have hh2 : h.cll_head =
            (pre1.map Prod.fst ++ q.1 :: pre2.map Prod.fst ++ h.cll :: post.map Prod.fst).headD 0 := by
          rw [hhead]; simp
        rw [hh2, hloop]
        simp only [obind_some, e1, hnn, ← hh2, hne, if_false]
      · refine ⟨by simpa using a1, ?_, by simp, by simp [hA.count]; omega, ?_⟩
        · simp only [insert_account_cll_head]
          rw [hhead]
          rcases pre1 with _ | ⟨a, pre1⟩ <;> simp
        · simp only [insert_account_start, insert_account_cur]
          exact hmarks _ (fun a ha => by simp at ha ⊢; tauto)
      · left
        exact ⟨hgt, Or.inl ⟨pre1, q, pre2, rfl, h2, hq, rfl⟩⟩
  · rcases split_first_not (fun p : Nat × α => cmp p.2 x < 0) post with hall | ⟨post1, q, post2, e, hq, h2⟩
    · -- the walk wraps to the head: the new node becomes the tail
      have hloop := sorted_fwd_wrap cmp (mm_new h.mem n x) x (post.map Prod.fst) h.cll
        (pre.map Prod.fst) (by simpa using hr0)
        (data_cond hd0 (fun p hp => by simp [hp]) _ hall) fuel (by simp; omega)
      obtain ⟨hd1, Lt, hLt⟩ : ∃ hd1 Lt, pre ++ (h.cll, d) :: post = hd1 :: Lt := by
        rcases pre with _ | ⟨a, pre⟩
        · exact ⟨_, _, rfl⟩
        · exact ⟨_, _, rfl⟩
      have hh1 : h.cll_head = hd1.1 := by rw [hhead, hLt]; simp
      have hA2 : HeapAbs h.mem ([] ++ (hd1.1, hd1.2) :: Lt) := by
        have := hA.heap
        rw [hLt] at this
        simpa using this
      obtain ⟨m1, e1, a1⟩ := hA2.new_before [] Lt n x hn hf
      have a2 : HeapAbs m1 ([(n, x)] ++ (pre ++ (h.cll, d) :: post)) := by
        rw [hLt]; simpa using a1
      refine ⟨m1, h.cll_head, (pre ++ (h.cll, d) :: post) ++ [(n, x)], ?_, ?_, ?_⟩
      · unfold _cll_insert_sorted
        simp only [hn, if_false, hz, hc, obind_some, hdc, hgt]
        have hh2 : h.cll_head = (pre.map Prod.fst ++ h.cll :: post.map Prod.fst).headD 0 := by
          rw [hhead]; simp
        rw [hh2, hloop]
        simp only [obind_some, ← hh2]
        rw [hh1, e1]
        simp
      · refine ⟨by simpa using a2.hrot, ?_, by simp, by simp [hA.count]; omega, ?_⟩
        · simp only [insert_account_cll_head]
          rw [hhead]
          rcases pre with _ | ⟨a, pre⟩ <;> simp
        · simp only [insert_account_start, insert_account_cur]
          exact hmarks _ (fun a ha => by simp at ha ⊢; tauto)
      · right
        exact ⟨hgt, Or.inr ⟨hall, by simp⟩⟩
    · -- the walk stops at `q`
      subst e
      have hloop := sorted_fwd_found cmp (mm_new h.mem n x) x (post2.map Prod.fst) q.1
        ⟨q.2, hd0 q (by simp), hq⟩ (post1.map Prod.fst) h.cll (pre.map Prod.fst)
        (by simpa using hr0) (data_cond hd0 (fun p hp => by simp [hp]) _ h2) fuel
        (by have := hfuel; simp at this ⊢; omega)
      have hA2 : HeapAbs h.mem ((pre ++ (h.cll, d) :: post1) ++ (q.1, q.2) :: post2) := by
        simpa using hA.heap
      obtain ⟨m1, e1, a1⟩ := hA2.new_before _ post2 n x hn hf
      refine ⟨m1, h.cll_head, pre ++ (h.cll, d) :: post1 ++ (n, x) :: q :: post2, ?_, ?_, ?_⟩
      · unfold _cll_insert_sorted
        simp only [hn, if_false, hz, hc, obind_some, hdc, hgt]
        have hh2 : h.cll_head =
            (pre.map Prod.fst ++ h.cll :: post1.map Prod.fst ++ q.1 :: post2.map Prod.fst).headD 0 := by
          rw [hhead]; simp
        rw [hh2, hloop]
        simp only [obind_some, ← hh2, e1]
      · refine ⟨by simpa using a1, ?_, by simp, by simp [hA.count]; omega, ?_⟩
        · simp only [insert_account_cll_head]
          rw [hhead]
          rcases pre with _ | ⟨a, pre⟩ <;> simp
        · simp only [insert_account_start, insert_account_cur]
          exact hmarks _ (fun a ha => by simp at ha ⊢; tauto)
      · right
        exact ⟨hgt, Or.inl ⟨post1, q, post2, rfl, h2, hq, rfl⟩⟩


/-! ## More fuel does not change a result -/

theorem obind_imp {β γ : Type} {x : Option β} {f g : β → Option γ} {c : γ}
    (hfg : ∀ a, f a = some c → g a = some c) (h : obind x f = some c) :
    obind x g = some c := by
  obtain ⟨a, ha, hf⟩ := obind_eq_some.1 h
  rw [ha]
  exact hfg a hf

theorem walk_find_mono (stp : Nat → Option Nat) (hit : Nat → Option Bool) (start : Nat) :
    ∀ (fuel k pool : Nat) (r : Option Nat), walk_find stp hit start fuel pool = some r →
      walk_find stp hit start (fuel + k) pool = some r := by
  intro fuel
  induction fuel with
  | zero => intro k pool r h; simp [walk_find] at h
  | succ fuel ih =>
    intro k pool r h
    have e : fuel + 1 + k = (fuel + k) + 1 := by omega
    rw [e]
    rw [walk_find] at h ⊢
    revert h
    refine obind_imp (fun b => ?_)
    split_ifs
    · exact id
    · refine obind_imp (fun p1 => ?_)
      split_ifs
      · exact id
      · exact ih k p1 r

theorem _cll_insert_sorted_back_mono (cmp : α → α → Int) (m : Heap α) (head : Nat) (x : α) :
    ∀ (fuel k pool r : Nat), _cll_insert_sorted_back cmp m head x fuel pool = some r →
      _cll_insert_sorted_back cmp m head x (fuel + k) pool = some r := by
  intro fuel
  induction fuel with
  | zero => intro k pool r h; simp [_cll_insert_sorted_back] at h
  | succ fuel ih =>
    intro k pool r h
    have e : fuel + 1 + k = (fuel + k) + 1 := by omega
    rw [e]
    rw [_cll_insert_sorted_back] at h ⊢
    revert h
    refine obind_imp (fun p1 => ?_)
    refine obind_imp (fun hp => ?_)
    split_ifs
    · refine obind_imp (fun d => ?_)
      split_ifs
      · exact ih k p1 r
      · exact id
    · exact id

theorem _cll_insert_sorted_fwd_mono (cmp : α → α → Int) (m : Heap α) (head : Nat) (x : α) :
    ∀ (fuel k pool r : Nat), _cll_insert_sorted_fwd cmp m head x fuel pool = some r →
      _cll_insert_sorted_fwd cmp m head x (fuel + k) pool = some r := by
  intro fuel
  induction fuel with
  | zero => intro k pool r h; simp [_cll_insert_sorted_fwd] at h
  | succ fuel ih =>
    intro k pool r h
    have e : fuel + 1 + k = (fuel + k) + 1 := by omega
    rw [e]
    rw [_cll_insert_sorted_fwd] at h ⊢
    revert h
    refine obind_imp (fun p1 => ?_)
    split_ifs
    · refine obind_imp (fun d => ?_)
      split_ifs
      · exact ih k p1 r
      · exact id
    · exact id

theorem _cll_collapse_loop_mono :
    ∀ (fuel k : Nat) (h : cll_handler α) (pool : Nat) (r : cll_handler α),
      _cll_collapse_loop fuel h pool = some r →
      _cll_collapse_loop (fuel + k) h pool = some r := by
  intro fuel
  induction fuel with
  | zero => intro k h pool r hh; simp [_cll_collapse_loop] at hh
  | succ fuel ih =>
    intro k h pool r hh
    have e : fuel + 1 + k = (fuel + k) + 1 := by omega
    rw [e]
    rw [_cll_collapse_loop] at hh ⊢
    revert hh
    split_ifs
    · exact id
    · refine obind_imp (fun pn => ?_)
      split_ifs
      · exact id
      · refine obind_imp (fun _ => ?_)
        refine obind_imp (fun _ => ?_)
        refine obind_imp (fun _ => ?_)
        refine obind_imp (fun _ => ?_)
        refine obind_imp (fun _ => ?_)
        refine obind_imp (fun _ => ?_)
        refine obind_imp (fun _ => ?_)
        exact ih k _ _ r

/-- The functions of the interface give the same result with more fuel. -/
theorem _cll_search_mono (fuel k : Nat) (h : cll_handler α) (data : α)
    (r : cll_handler α × Option α) (hr : _cll_search fuel h data = some r) :
    _cll_search (fuel + k) h data = some r := by
  unfold _cll_search at hr ⊢
  revert hr
  split_ifs
  · exact id
  · refine obind_imp (fun s => ?_)
    rw [_cll_search_loop_eq, _cll_search_loop_eq]
    intro hh
    obtain ⟨a, ha, hf⟩ := obind_eq_some.1 hh
    rw [walk_find_mono _ _ _ fuel k _ a ha]
    exact hf

theorem _cll_unlink_mono (fuel k : Nat) (h : cll_handler α) (data : α)
    (r : cll_handler α × Option α) (hr : _cll_unlink fuel h data = some r) :
    _cll_unlink (fuel + k) h data = some r := by
  unfold _cll_unlink at hr ⊢
  revert hr
  split_ifs
  · exact id
  · refine obind_imp (fun s => ?_)
    rw [_cll_unlink_loop_eq, _cll_unlink_loop_eq]
    intro hh
    obtain ⟨a, ha, hf⟩ := obind_eq_some.1 hh
    rw [walk_find_mono _ _ _ fuel k _ a ha]
    exact hf

theorem _cll_delete_mono (fuel k : Nat) (h : cll_handler α) (data : α)
    (r : cll_handler α × Int) (hr : _cll_delete fuel h data = some r) :
    _cll_delete (fuel + k) h data = some r := by
  unfold _cll_delete at hr ⊢
  obtain ⟨a, ha, hf⟩ := obind_eq_some.1 hr
  rw [_cll_unlink_mono fuel k h data a ha]
  exact hf

theorem _cll_pope_mono (fuel k : Nat) (h : cll_handler α) (data : α)
    (r : cll_handler α × Option α) (hr : _cll_pope fuel h data = some r) :
    _cll_pope (fuel + k) h data = some r := by
  unfold _cll_pope at hr ⊢
  obtain ⟨a, ha, hf⟩ := obind_eq_some.1 hr
  rw [_cll_unlink_mono fuel k h data a ha]
  exact hf

theorem _cll_collapse_mono (fuel k : Nat) (h : cll_handler α)
    (r : cll_handler α) (hr : _cll_collapse fuel h = some r) :
    _cll_collapse (fuel + k) h = some r := by
  unfold _cll_collapse at hr ⊢
  obtain ⟨a, ha, hf⟩ := obind_eq_some.1 hr
  rw [_cll_collapse_loop_mono fuel k h _ a ha]
  exact hf

theorem _cll_insert_sorted_mono (fuel k : Nat) (h : cll_handler α) (data : α) (n : Nat)
    (r : cll_handler α × Int) (hr : _cll_insert_sorted fuel h data n = some r) :
    _cll_insert_sorted (fuel + k) h data n = some r := by
  unfold _cll_insert_sorted at hr ⊢
  revert hr
  simp only
  split_ifs
  · exact id
  · exact id
  · intro hh
    obtain ⟨a, ha, hf⟩ := obind_eq_some.1 hh
    refine obind_eq_some.2 ⟨a, ?_, hf⟩
    revert ha
    refine obind_imp (fun cmp => ?_)
    refine obind_imp (fun pd => ?_)
    split_ifs
    · intro h2
      obtain ⟨b, hb, hg⟩ := obind_eq_some.1 h2
      rw [_cll_insert_sorted_back_mono cmp _ _ _ fuel k _ b hb]
      exact hg
    · intro h2
      obtain ⟨b, hb, hg⟩ := obind_eq_some.1 h2
      rw [_cll_insert_sorted_fwd_mono cmp _ _ _ fuel k _ b hb]
      exact hg

theorem pall_cll_insert_mono (fuel k : Nat) (h : cll_handler α) (data : α) (n : Nat)
    (r : cll_handler α × Int) (hr : pall_cll_insert fuel h data n = some r) :
    pall_cll_insert (fuel + k) h data n = some r := by
  unfold pall_cll_insert at hr ⊢
  cases hi : h.insert <;> simp only [hi] at hr ⊢
  · exact hr
  · exact hr
  · exact hr
  · exact _cll_insert_sorted_mono fuel k h data n r hr

theorem pall_cll_search_mono (fuel k : Nat) (h : cll_handler α) (data : α)
    (r : cll_handler α × Option α) (hr : pall_cll_search fuel h data = some r) :
    pall_cll_search (fuel + k) h data = some r := by
  unfold pall_cll_search at hr ⊢
  cases hi : h.search <;> simp only [hi] at hr ⊢
  · exact _cll_search_mono fuel k h data r hr
  · exact hr


/-! ## Unlink, delete, pop, search: what they return and what they leave -/

theorem abs_flags {h : cll_handler α} {L : List (Nat × α)} (hA : Abs h L) (f1 : Nat) :
    Abs { h with _config_flags := f1 } L :=
  abs_congr hA rfl rfl rfl rfl rfl rfl

/-- `_cll_unlink`, in full: on a miss nothing but `CONFIG_SEARCH_BACKWARD` changes; on a hit
one node whose payload compares equal to the key leaves the list, and nothing changes but
the heap, the head, the cursor, the bookmarks, `CONFIG_SEARCH_BACKWARD` and the count. -/
theorem _cll_unlink_full {h : cll_handler α} {L : List (Nat × α)} (hA : Abs h L)
    {cmp : α → α → Int} (hc : h.compare = some cmp) (data : α) (fuel : Nat)
    (hf : L.length ≤ fuel) :
    ((∀ p ∈ L, cmp data p.2 ≠ 0) ∧
        ∃ f1, _cll_unlink fuel h data = some ({ h with _config_flags := f1 }, none)) ∨
      (∃ pre q dq post m1 c1 hd1 ic1 is1 f1, L = pre ++ (q, dq) :: post ∧ cmp data dq = 0 ∧
        _cll_unlink fuel h data = some
          ({ h with mem := m1, cll := c1, cll_head := hd1, _iterate_cur := ic1,
                    _iterate_start := is1, _config_flags := f1,
                    _count := h._count - 1 }, some dq) ∧
        Abs ({ h with mem := m1, cll := c1, cll_head := hd1, _iterate_cur := ic1,
                      _iterate_start := is1, _config_flags := f1,
                      _count := h._count - 1 }) (pre ++ post)) := by
  obtain ⟨f1, _, hcase⟩ := _cll_unlink_spec hA hc data fuel hf
  rcases hcase with ⟨h1, h2⟩ | ⟨q, dq, hq, hz, h2⟩
  · exact Or.inl ⟨h1, f1, h2⟩
  · right
    obtain ⟨pre, post, hs⟩ := List.append_of_mem hq
    subst hs
    have hA1 := abs_flags hA f1
    by_cases hne : pre ++ post = []
    · have hpre : pre = [] := (List.append_eq_nil.1 hne).1
      have hpost : post = [] := (List.append_eq_nil.1 hne).2
      subst hpre; subst hpost
      obtain ⟨e1, a1⟩ := unlink_hit_last (by simpa using hA1)
      exact ⟨[], q, dq, [], _, _, _, _, _, f1, rfl, hz, h2.trans e1, a1⟩
    · obtain ⟨m1, x, _, _, e1, a1⟩ := unlink_hit_spec pre post hA1 hne
      exact ⟨pre, q, dq, post, _, _, _, _, _, f1, rfl, hz, h2.trans e1, a1⟩

/-- `_cll_search`, in full. On a miss only `CONFIG_SEARCH_BACKWARD` and the counter
`search_nf` change. On a hit under `CONFIG_SEARCH_LRU` the node found becomes the head; on
a hit without it the cursor moves to the node found; the counter `search` goes up. -/
theorem _cll_search_full {h : cll_handler α} {L : List (Nat × α)} (hA : Abs h L)
    {cmp : α → α → Int} (hc : h.compare = some cmp) (data : α) (fuel : Nat)
    (hf : L.length ≤ fuel) :
    ((∀ p ∈ L, cmp data p.2 ≠ 0) ∧
        ∃ f1, _cll_search fuel h data = some
          ({ h with _config_flags := f1,
                    _stat := { h._stat with search_nf := h._stat.search_nf + 1 } }, none)) ∨
      (∃ pre q dq post m1 c1 hd1 f1 L2, L = pre ++ (q, dq) :: post ∧ cmp data dq = 0 ∧
        _cll_search fuel h data = some
          ({ h with mem := m1, cll := c1, cll_head := hd1, _config_flags := f1,
                    _stat := { h._stat with search := h._stat.search + 1 } }, some dq) ∧
        Abs ({ h with mem := m1, cll := c1, cll_head := hd1, _config_flags := f1,
                      _stat := { h._stat with search := h._stat.search + 1 } }) L2 ∧
        (h._config_flags &&& CONFIG_SEARCH_LRU ≠ 0 →
          L2 = (q, dq) :: pre ++ post ∧ hd1 = q ∧ c1 = h.cll) ∧
        (¬ h._config_flags &&& CONFIG_SEARCH_LRU ≠ 0 →
          L2 = pre ++ (q, dq) :: post ∧ hd1 = h.cll_head ∧ c1 = q ∧ m1 = h.mem)) := by
  obtain ⟨f1, hf1, hcase⟩ := _cll_search_spec hA hc data fuel hf
  rcases hcase with ⟨h1, h2⟩ | ⟨q, dq, hq, hz, h2⟩
  · exact Or.inl ⟨h1, f1, h2⟩
  · right
    obtain ⟨pre, post, hs⟩ := List.append_of_mem hq
    subst hs
    have hA1 := abs_flags hA f1
    by_cases hl : h._config_flags &&& CONFIG_SEARCH_LRU ≠ 0
    · have hl1 : ({ h with _config_flags := f1 } : cll_handler α)._config_flags &&&
          CONFIG_SEARCH_LRU ≠ 0 := by
        show f1 &&& CONFIG_SEARCH_LRU ≠ 0
        rw [hf1]; exact hl
      obtain ⟨m2, e2, a2⟩ := search_hit_lru pre post hA1 hl1
      exact ⟨pre, q, dq, post, m2, h.cll, q, f1, _, rfl, hz, h2.trans e2, a2,
        fun _ => ⟨rfl, rfl, rfl⟩, fun hn => absurd hl hn⟩
    · have hl1 : ¬ ({ h with _config_flags := f1 } : cll_handler α)._config_flags &&&
          CONFIG_SEARCH_LRU ≠ 0 := by
        show ¬ f1 &&& CONFIG_SEARCH_LRU ≠ 0
        rw [hf1]; exact hl
      obtain ⟨e2, a2⟩ := search_hit_cur hA1 hq hl1
      exact ⟨pre, q, dq, post, h.mem, q, h.cll_head, f1, _, rfl, hz, h2.trans e2, a2,
        fun hn => absurd hn hl, fun _ => ⟨rfl, rfl, rfl, rfl⟩⟩

/-- Without a compare callback the walk cannot run. -/
theorem walk_find_no_compare {h : cll_handler α} (hc : h.compare = none) (data : α)
    (s fuel p : Nat) :
    walk_find (search_step h) (search_test h data) s fuel p = none := by
  cases fuel with
  | zero => rfl
  | succ fuel =>
    rw [walk_find]
    have : search_test h data p = none := by simp [search_test, hc]
    rw [this]
    rfl


/-! ## Every reachable state is a well-formed list -/

theorem abs_init {compare : Option (α → α → Int)} {destroy : Bool}
    {ser_data : Option (pall_fd_t → α → pall_fd_t × Int)}
    {unser_data : Option (pall_fd_t → pall_fd_t × Option α)} {ok : Bool} {h : cll_handler α}
    (hi : pall_cll_init compare destroy ser_data unser_data ok = some h) : Abs h [] := by
  unfold pall_cll_init at hi
  split_ifs at hi <;> simp only [Option.some.injEq] at hi <;> subst hi <;>
    exact abs_empty (HeapAbs.nil_iff.2 (fun _ => rfl)) rfl rfl rfl rfl rfl rfl

theorem le_add_fuel (a b : Nat) : a ≤ b + a := by omega

theorem unlink_abs {h : cll_handler α} {L : List (Nat × α)} (hA : Abs h L) (fuel : Nat)
    (data : α) (h2 : cll_handler α) (r : Option α)
    (hr : _cll_unlink fuel h data = some (h2, r)) : ∃ L2, Abs h2 L2 := by
  have hbig := _cll_unlink_mono fuel L.length h data _ hr
  rcases hc : h.compare with _ | cmp
  · by_cases hz : h.cll = 0
    · unfold _cll_unlink at hr
      rw [if_pos hz] at hr
      simp only [Option.some.injEq, Prod.mk.injEq] at hr
      exact ⟨L, hr.1 ▸ hA⟩
    · exfalso
      unfold _cll_unlink at hr
      rw [if_neg hz] at hr
      obtain ⟨s, _, hs⟩ := obind_eq_some.1 hr
      rw [_cll_unlink_loop_eq] at hs
      have hc1 : s.1.compare = none := by
        rename_i hst
        unfold search_start at hst
        split_ifs at hst
        · simp only [Option.some.injEq] at hst; rw [← hst]; exact hc
        · rw [hc] at hst; simp at hst
        · simp only [Option.some.injEq] at hst; rw [← hst]; exact hc
      rw [walk_find_no_compare hc1] at hs
      simp at hs
  · rcases _cll_unlink_full hA hc data _ (le_add_fuel _ _) with ⟨_, f1, e⟩ |
      ⟨pre, q, dq, post, m1, c1, hd1, ic1, is1, f1, _, _, e, a⟩
    · rw [e] at hbig
      simp only [Option.some.injEq, Prod.mk.injEq] at hbig
      exact ⟨L, hbig.1 ▸ abs_flags hA f1⟩
    · rw [e] at hbig
      simp only [Option.some.injEq, Prod.mk.injEq] at hbig
      exact ⟨_, hbig.1 ▸ a⟩

theorem pall_cll_delete_abs {h : cll_handler α} {L : List (Nat × α)} (hA : Abs h L)
    (fuel : Nat) (data : α) (h2 : cll_handler α) (r : Int)
    (hr : pall_cll_delete fuel h data = some (h2, r)) : ∃ L2, Abs h2 L2 := by
  unfold pall_cll_delete _cll_delete at hr
  obtain ⟨⟨h3, r3⟩, hu, hm⟩ := obind_eq_some.1 hr
  obtain ⟨L2, a2⟩ := unlink_abs hA fuel data h3 r3 hu
  refine ⟨L2, ?_⟩
  cases r3 <;> simp only [Option.some.injEq, Prod.mk.injEq] at hm <;>
    exact hm.1 ▸ abs_congr a2 rfl rfl rfl rfl rfl rfl

theorem pall_cll_pope_abs {h : cll_handler α} {L : List (Nat × α)} (hA : Abs h L)
    (fuel : Nat) (data : α) (h2 : cll_handler α) (r : Option α)
    (hr : pall_cll_pope fuel h data = some (h2, r)) : ∃ L2, Abs h2 L2 := by
  unfold pall_cll_pope _cll_pope at hr
  obtain ⟨⟨h3, r3⟩, hu, hm⟩ := obind_eq_some.1 hr
  obtain ⟨L2, a2⟩ := unlink_abs hA fuel data h3 r3 hu
  refine ⟨L2, ?_⟩
  cases r3 <;> simp only [Option.some.injEq, Prod.mk.injEq] at hm <;>
    exact hm.1 ▸ abs_congr a2 rfl rfl rfl rfl rfl rfl

theorem pall_cll_search_abs {h : cll_handler α} {L : List (Nat × α)} (hA : Abs h L)
    (fuel : Nat) (data : α) (h2 : cll_handler α) (r : Option α)
    (hr : pall_cll_search fuel h data = some (h2, r)) : ∃ L2, Abs h2 L2 := by
  unfold pall_cll_search at hr
  cases hsf : h.search <;> simp only [hsf] at hr
  · have hbig := _cll_search_mono fuel L.length h data _ hr
    rcases hc : h.compare with _ | cmp
    · by_cases hz : h.cll = 0
      · unfold _cll_search at hr
        rw [if_pos hz] at hr
        simp only [Option.some.injEq, Prod.mk.injEq] at hr
        exact ⟨L, hr.1 ▸ abs_congr hA rfl rfl rfl rfl rfl rfl⟩
      · exfalso
        unfold _cll_search at hr
        rw [if_neg hz] at hr
        obtain ⟨s, _, hs⟩ := obind_eq_some.1 hr
        rw [_cll_search_loop_eq] at hs
        have hc1 : s.1.compare = none := by
          rename_i hst
          unfold search_start at hst
          split_ifs at hst
          · simp only [Option.some.injEq] at hst; rw [← hst]; exact hc
          · rw [hc] at hst; simp at hst
          · simp only [Option.some.injEq] at hst; rw [← hst]; exact hc
        rw [walk_find_no_compare hc1] at hs
        simp at hs
    · rcases _cll_search_full hA hc data _ (le_add_fuel _ _) with ⟨_, f1, e⟩ |
        ⟨pre, q, dq, post, m1, c1, hd1, f1, L2, _, _, e, a, _, _⟩
      · rw [e] at hbig
        simp only [Option.some.injEq, Prod.mk.injEq] at hbig
        exact ⟨L, hbig.1 ▸ abs_congr hA rfl rfl rfl rfl rfl rfl⟩
      · rw [e] at hbig
        simp only [Option.some.injEq, Prod.mk.injEq] at hbig
        exact ⟨_, hbig.1 ▸ a⟩
  · unfold _cll_search_nop at hr
    simp only [Option.some.injEq, Prod.mk.injEq] at hr
    exact ⟨L, hr.1 ▸ hA⟩

theorem pall_cll_poph_abs {h : cll_handler α} {L : List (Nat × α)} (hA : Abs h L)
    (h2 : cll_handler α) (r : Option α)
    (hr : pall_cll_poph h = some (h2, r)) : ∃ L2, Abs h2 L2 := by
  unfold pall_cll_poph at hr
  rcases L with _ | ⟨⟨c, d⟩, _ | ⟨⟨x, dx⟩, R⟩⟩
  · rw [_cll_poph_nil hA] at hr
    simp only [Option.some.injEq, Prod.mk.injEq] at hr
    exact ⟨[], hr.1 ▸ abs_congr hA rfl rfl rfl rfl rfl rfl⟩
  · obtain ⟨e, a⟩ := _cll_poph_one hA
    rw [e] at hr
    simp only [Option.some.injEq, Prod.mk.injEq] at hr
    exact ⟨[], hr.1 ▸ a⟩
  · obtain ⟨m1, e, a⟩ := _cll_poph_cons hA
    rw [e] at hr
    simp only [Option.some.injEq, Prod.mk.injEq] at hr
    exact ⟨_, hr.1 ▸ a⟩

theorem pall_cll_collapse_abs {h : cll_handler α} {L : List (Nat × α)} (hA : Abs h L)
    (fuel : Nat) (h2 : cll_handler α)
    (hr : pall_cll_collapse fuel h = some h2) : Abs h2 [] := by
  unfold pall_cll_collapse at hr
  have hbig := _cll_collapse_mono fuel (L.length + 1) h _ hr
  by_cases hL : L = []
  · subst hL
    rw [_cll_collapse_nil hA _ (by omega)] at hbig
    simp only [Option.some.injEq] at hbig
    subst hbig
    exact abs_empty hA.heap rfl hA.cll_zero (hA.head_eq_zero_iff.2 rfl)
      (by rcases hA.marks with h1 | h1
          · exact h1.1
          · simp at h1)
      (by rcases hA.marks with h1 | h1
          · exact h1.2
          · simp at h1) rfl
  · have hcur : h.cll ∈ L.map Prod.fst := by
      rcases hA.cur with ⟨e, _⟩ | hcur
      · exact absurd e hL
      · exact hcur
    obtain ⟨pre, d, post, hs⟩ := split_of_mem_fst hcur
    subst hs
    obtain ⟨m1, a1, e1⟩ := _cll_collapse_spec pre post hA (fuel + ((pre ++ (h.cll, d) :: post).length + 1)) (by omega)
    rw [e1] at hbig
    simp only [Option.some.injEq] at hbig
    subst hbig
    exact abs_empty a1 rfl rfl rfl rfl rfl rfl

theorem pall_cll_iterate_abs {h : cll_handler α} {L : List (Nat × α)} (hA : Abs h L)
    (h2 : cll_handler α) (r : Option α)
    (hr : pall_cll_iterate h = some (h2, r)) : Abs h2 L := by
  unfold pall_cll_iterate at hr
  obtain ⟨h3, r3, e, a⟩ := _cll_iterate_abs hA
  rw [e] at hr
  simp only [Option.some.injEq, Prod.mk.injEq] at hr
  exact hr.1 ▸ a

theorem pall_cll_insert_abs {h : cll_handler α} {L : List (Nat × α)} (hA : Abs h L)
    (fuel : Nat) (data : α) (n : Nat) (hn : n = 0 ∨ h.mem n = none) (h2 : cll_handler α)
    (r : Int) (hr : pall_cll_insert fuel h data n = some (h2, r)) : ∃ L2, Abs h2 L2 := by
  by_cases hn0 : n = 0
  · refine ⟨L, ?_⟩
    subst hn0
    unfold pall_cll_insert at hr
    cases hi : h.insert <;> simp only [hi] at hr
    · unfold _cll_insert at hr
      simp only [if_true, Option.some.injEq, Prod.mk.injEq] at hr
      exact hr.1 ▸ abs_congr hA rfl rfl rfl rfl rfl rfl
    · unfold _cll_insert_head at hr
      simp only [if_true, Option.some.injEq, Prod.mk.injEq] at hr
      exact hr.1 ▸ abs_congr hA rfl rfl rfl rfl rfl rfl
    · unfold _cll_insert_tail _cll_insert_head at hr
      simp at hr
      exact hr.1 ▸ abs_congr hA rfl rfl rfl rfl rfl rfl
    · unfold _cll_insert_sorted at hr
      simp only [if_true, Option.some.injEq, Prod.mk.injEq] at hr
      exact hr.1 ▸ abs_congr hA rfl rfl rfl rfl rfl rfl
  · have hfr : h.mem n = none := by
      rcases hn with e | e
      · exact absurd e hn0
      · exact e
    have hbig := pall_cll_insert_mono fuel L.length h data n _ hr
    unfold pall_cll_insert at hbig
    have hsplit : L = [] ∨ ∃ pre d post, L = pre ++ (h.cll, d) :: post := by
      rcases hA.cur with ⟨e, _⟩ | hcur
      · exact Or.inl e
      · exact Or.inr (split_of_mem_fst hcur)
    cases hi : h.insert <;> simp only [hi] at hbig
    · rcases hsplit with e | ⟨pre, d, post, e⟩
      · subst e
        obtain ⟨m1, e1, a1⟩ := _cll_insert_spec_nil hA data n hn0
        rw [e1] at hbig
        simp only [Option.some.injEq, Prod.mk.injEq] at hbig
        exact ⟨_, hbig.1 ▸ a1⟩
      · subst e
        by_cases hfl : h._config_flags &&& CONFIG_INSERT_NEXT ≠ 0
        · obtain ⟨m1, e1, a1⟩ := _cll_insert_spec_next hA data n hn0 hfr hfl
          rw [e1] at hbig
          simp only [Option.some.injEq, Prod.mk.injEq] at hbig
          exact ⟨_, hbig.1 ▸ a1⟩
        · rcases pre with _ | ⟨p, pre⟩
          · obtain ⟨m1, e1, a1⟩ := _cll_insert_spec_prev_head (by simpa using hA) data n hn0
              hfr hfl
            rw [e1] at hbig
            simp only [Option.some.injEq, Prod.mk.injEq] at hbig
            exact ⟨_, hbig.1 ▸ a1⟩
          · obtain ⟨m1, e1, a1⟩ := _cll_insert_spec_prev (by simpa using hA) data n hn0
              hfr hfl
            rw [e1] at hbig
            simp only [Option.some.injEq, Prod.mk.injEq] at hbig
            exact ⟨_, hbig.1 ▸ a1⟩
    · obtain ⟨m1, e1, a1⟩ := _cll_insert_head_spec hA data n hn0 hfr
      rw [e1] at hbig
      simp only [Option.some.injEq, Prod.mk.injEq] at hbig
      exact ⟨_, hbig.1 ▸ a1⟩
    · obtain ⟨m1, e1, a1⟩ := _cll_insert_tail_spec hA data n hn0 hfr
      rw [e1] at hbig
      simp only [Option.some.injEq, Prod.mk.injEq] at hbig
      exact ⟨_, hbig.1 ▸ a1⟩
    · rcases hsplit with e | ⟨pre, d, post, e⟩
      · subst e
        obtain ⟨m1, e1, a1⟩ := _cll_insert_sorted_nil hA data n hn0 (fuel + ([] : List (Nat × α)).length)
        rw [e1] at hbig
        simp only [Option.some.injEq, Prod.mk.injEq] at hbig
        exact ⟨_, hbig.1 ▸ a1⟩
      · subst e
        rcases hc : h.compare with _ | cmp
        · exfalso
          unfold _cll_insert_sorted at hbig
          simp [hn0, hA.cll_ne_zero (by simp), hc] at hbig
        · obtain ⟨m1, hd2, L2, e1, a1, _⟩ := _cll_insert_sorted_spec pre post hA hc data n
            hn0 hfr _ (le_add_fuel _ fuel)
          rw [e1] at hbig
          simp only [Option.some.injEq, Prod.mk.injEq] at hbig
          exact ⟨_, hbig.1 ▸ a1⟩

theorem abs_live_iff {h : cll_handler α} {L : List (Nat × α)} (hA : Abs h L) (a : Nat) :
    live h.mem a ↔ a ∈ L.map Prod.fst := by
  constructor
  · intro hl
    by_contra hn
    have := hA.heap.exact a hn
    simp [live, this] at hl
  · exact fun ha => hA.heap.halive ha

theorem sortedIns_perm {cmp : α → α → Int} {x : α} {pre post L2 : List (Nat × α)}
    {c new : Nat × α} (hS : SortedIns cmp x pre c post new L2) :
    L2.Perm (new :: (pre ++ c :: post)) := by
  rcases hS with ⟨-, ⟨pre1, q, pre2, rfl, -, -, rfl⟩ | ⟨-, rfl⟩⟩ |
      ⟨-, ⟨post1, q, post2, rfl, -, -, rfl⟩ | ⟨-, rfl⟩⟩
  · have e : pre1 ++ q :: new :: pre2 ++ c :: post =
        (pre1 ++ [q]) ++ new :: (pre2 ++ c :: post) := by simp
    have e2 : (pre1 ++ q :: pre2) ++ c :: post = (pre1 ++ [q]) ++ (pre2 ++ c :: post) := by
      simp
    rw [e, e2]
    exact List.perm_middle
  · exact List.Perm.refl _
  · have e : pre ++ c :: post1 ++ new :: q :: post2 =
        (pre ++ c :: post1) ++ new :: (q :: post2) := by simp
    have e2 : pre ++ c :: (post1 ++ q :: post2) = (pre ++ c :: post1) ++ (q :: post2) := by
      simp
    rw [e, e2]
    exact List.perm_middle
  · simpa using @List.perm_middle _ new (pre ++ c :: post) []

/-- An insert that fails changes nothing in the list; one that succeeds adds the new node
to it. -/
theorem pall_cll_insert_track {h : cll_handler α} {L : List (Nat × α)} (hA : Abs h L)
    (fuel : Nat) (data : α) (n : Nat) (hn : n = 0 ∨ h.mem n = none) (h2 : cll_handler α)
    (r : Int) (hr : pall_cll_insert fuel h data n = some (h2, r)) :
    ∃ L2, Abs h2 L2 ∧ ((n = 0 ∧ r = -1 ∧ L2 = L) ∨
      (n ≠ 0 ∧ r = 0 ∧ L2.Perm ((n, data) :: L))) := by
  by_cases hn0 : n = 0
  · refine ⟨L, ?_⟩
    subst hn0
    unfold pall_cll_insert at hr
    cases hi : h.insert <;> simp only [hi] at hr
    · unfold _cll_insert at hr
      simp only [if_true, Option.some.injEq, Prod.mk.injEq] at hr
      exact ⟨hr.1 ▸ abs_congr hA rfl rfl rfl rfl rfl rfl, Or.inl ⟨rfl, hr.2.symm, rfl⟩⟩
    · unfold _cll_insert_head at hr
      simp only [if_true, Option.some.injEq, Prod.mk.injEq] at hr
      exact ⟨hr.1 ▸ abs_congr hA rfl rfl rfl rfl rfl rfl, Or.inl ⟨rfl, hr.2.symm, rfl⟩⟩
    · unfold _cll_insert_tail _cll_insert_head at hr
      simp at hr
      exact ⟨hr.1 ▸ abs_congr hA rfl rfl rfl rfl rfl rfl, Or.inl ⟨rfl, hr.2.symm, rfl⟩⟩
    · unfold _cll_insert_sorted at hr
      simp only [if_true, Option.some.injEq, Prod.mk.injEq] at hr
      exact ⟨hr.1 ▸ abs_congr hA rfl rfl rfl rfl rfl rfl, Or.inl ⟨rfl, hr.2.symm, rfl⟩⟩
  · have hfr : h.mem n = none := by
      rcases hn with e | e
      · exact absurd e hn0
      · exact e
    have hbig := pall_cll_insert_mono fuel L.length h data n _ hr
    unfold pall_cll_insert at hbig
    have hsplit : L = [] ∨ ∃ pre d post, L = pre ++ (h.cll, d) :: post := by
      rcases hA.cur with ⟨e, _⟩ | hcur
      · exact Or.inl e
      · exact Or.inr (split_of_mem_fst hcur)
    have fin : ∀ (g : cll_handler α) (L2 : List (Nat × α)),
        some (g, (0 : Int)) = some (h2, r) → Abs g L2 → L2.Perm ((n, data) :: L) →
        ∃ L2, Abs h2 L2 ∧ ((n = 0 ∧ r = -1 ∧ L2 = L) ∨
          (n ≠ 0 ∧ r = 0 ∧ L2.Perm ((n, data) :: L))) := by
      intro g L2 e a p
      simp only [Option.some.injEq, Prod.mk.injEq] at e
      exact ⟨L2, e.1 ▸ a, Or.inr ⟨hn0, e.2.symm, p⟩⟩
    cases hi : h.insert <;> simp only [hi] at hbig
    · rcases hsplit with e | ⟨pre, d, post, e⟩
      · subst e
        obtain ⟨m1, e1, a1⟩ := _cll_insert_spec_nil hA data n hn0
        rw [e1] at hbig
        exact fin _ _ hbig a1 (List.Perm.refl _)
      · subst e
        by_cases hfl : h._config_flags &&& CONFIG_INSERT_NEXT ≠ 0
        · obtain ⟨m1, e1, a1⟩ := _cll_insert_spec_next hA data n hn0 hfr hfl
          rw [e1] at hbig
          refine fin _ _ hbig a1 ?_
          have e : pre ++ (h.cll, d) :: (n, data) :: post =
              (pre ++ [(h.cll, d)]) ++ (n, data) :: post := by simp
          have e2 : pre ++ (h.cll, d) :: post = (pre ++ [(h.cll, d)]) ++ post := by simp
          rw [e, e2]
          exact List.perm_middle
        · rcases pre with _ | ⟨p, pre⟩
          · obtain ⟨m1, e1, a1⟩ := _cll_insert_spec_prev_head (by simpa using hA) data n hn0
              hfr hfl
            rw [e1] at hbig
            refine fin _ _ hbig a1 ?_
            simpa using @List.perm_middle _ (n, data) ((h.cll, d) :: post) []
          · obtain ⟨m1, e1, a1⟩ := _cll_insert_spec_prev (by simpa using hA) data n hn0
              hfr hfl
            rw [e1] at hbig
            refine fin _ _ hbig a1 ?_
            exact @List.perm_middle _ (n, data) (p :: pre) ((h.cll, d) :: post)
    · obtain ⟨m1, e1, a1⟩ := _cll_insert_head_spec hA data n hn0 hfr
      rw [e1] at hbig
      exact fin _ _ hbig a1 (List.Perm.refl _)
    · obtain ⟨m1, e1, a1⟩ := _cll_insert_tail_spec hA data n hn0 hfr
      rw [e1] at hbig
      refine fin _ _ hbig a1 ?_
      simpa using @List.perm_middle _ (n, data) L []
    · rcases hsplit with e | ⟨pre, d, post, e⟩
      · subst e
        obtain ⟨m1, e1, a1⟩ := _cll_insert_sorted_nil hA data n hn0
          (fuel + ([] : List (Nat × α)).length)
        rw [e1] at hbig
        exact fin _ _ hbig a1 (List.Perm.refl _)
      · subst e
        rcases hc : h.compare with _ | cmp
        · exfalso
          unfold _cll_insert_sorted at hbig
          simp [hn0, hA.cll_ne_zero (by simp), hc] at hbig
        · obtain ⟨m1, hd2, L2, e1, a1, hS⟩ := _cll_insert_sorted_spec pre post hA hc data n
            hn0 hfr _ (le_add_fuel _ fuel)
          rw [e1] at hbig
          exact fin _ _ hbig a1 (sortedIns_perm hS)

/-! ## Serialization keeps the list well formed -/

theorem _cll_serialize_loop_frame (ser : pall_fd_t → α → pall_fd_t × Int) (start : Nat) :
    ∀ (fuel : Nat) (h : cll_handler α) (fd : pall_fd_t) (pool : Nat)
      (r : cll_handler α × pall_fd_t × Int),
      _cll_serialize_loop ser start fuel h fd pool = some r →
      ∃ st, r.1 = { h with _stat := st } := by
  intro fuel
  induction fuel with
  | zero => intro h fd pool r e; simp [_cll_serialize_loop] at e
  | succ fuel ih =>
    intro h fd pool r e
    rw [_cll_serialize_loop] at e
    obtain ⟨d, -, e⟩ := obind_eq_some.1 e
    simp only at e
    by_cases hlt : (ser fd d).2 < 0
    · rw [if_pos hlt] at e
      cases e
      exact ⟨_, rfl⟩
    · rw [if_neg hlt] at e
      obtain ⟨p1, -, e⟩ := obind_eq_some.1 e
      by_cases hp : p1 = start
      · rw [if_pos hp] at e
        cases e
        exact ⟨_, rfl⟩
      · rw [if_neg hp] at e
        exact ih _ _ _ _ e

/-- `serialize` changes nothing but the counters. -/
theorem pall_cll_serialize_frame {fuel : Nat} {h : cll_handler α} {fd : pall_fd_t}
    {r : cll_handler α × pall_fd_t × Int} (e : pall_cll_serialize fuel h fd = some r) :
    ∃ st, r.1 = { h with _stat := st } := by
  unfold pall_cll_serialize _cll_serialize at e
  split at e
  · cases e
    exact ⟨_, rfl⟩
  · simp only at e
    by_cases hw : (pall_write fd (pall_htonl h._count)).2 ≠ 4
    · rw [if_pos hw] at e
      cases e
      exact ⟨_, rfl⟩
    · rw [if_neg hw] at e
      by_cases hz : h.cll = 0
      · rw [if_pos hz] at e
        cases e
        exact ⟨_, rfl⟩
      · rw [if_neg hz] at e
        exact _cll_serialize_loop_frame _ _ _ _ _ _ _ e

theorem pall_cll_serialize_abs {h : cll_handler α} {L : List (Nat × α)} (hA : Abs h L)
    {fuel : Nat} {fd : pall_fd_t} {r : cll_handler α × pall_fd_t × Int}
    (e : pall_cll_serialize fuel h fd = some r) : Abs r.1 L := by
  obtain ⟨st, hst⟩ := pall_cll_serialize_frame e
  rw [hst]
  exact abs_congr hA rfl rfl rfl rfl rfl rfl

theorem fresh_after_insert {h h2 : cll_handler α} {L L2 : List (Nat × α)} (hA : Abs h L)
    (hA2 : Abs h2 L2) {a : Nat} {data : α}
    (hL : L2 = L ∨ L2.Perm ((a, data) :: L)) (hfresh : ∀ i, h.mem (a + i) = none) :
    ∀ i, h2.mem (a + 1 + i) = none := by
  intro i
  by_contra hne
  have hl : live h2.mem (a + 1 + i) := by
    unfold live
    cases hm : h2.mem (a + 1 + i) with
    | none => exact absurd hm hne
    | some x => rfl
  have hin : a + 1 + i ∈ L.map Prod.fst := by
    have h2in := (abs_live_iff hA2 _).1 hl
    rcases hL with rfl | hp
    · exact h2in
    · have := (hp.map Prod.fst).mem_iff.1 h2in
      simp only [List.map_cons, List.mem_cons] at this
      rcases this with h0 | h1
      · omega
      · exact h1
  have hl1 := (abs_live_iff hA _).2 hin
  unfold live at hl1
  rw [show a + 1 + i = a + (i + 1) by omega, hfresh (i + 1)] at hl1
  cases hl1

/-- The loop of `unserialize` keeps the list well formed, the addresses handed out by the
allocator being free. -/
theorem _cll_unserialize_loop_abs (unser : pall_fd_t → pall_fd_t × Option α) (fuel : Nat) :
    ∀ (count : Nat) (h : cll_handler α) (L : List (Nat × α)) (fd : pall_fd_t) (a : Nat)
      (r : cll_handler α × pall_fd_t × Int), Abs h L → (∀ i, h.mem (a + i) = none) →
      _cll_unserialize_loop unser fuel count h fd a = some r → ∃ L2, Abs r.1 L2 := by
  intro count
  induction count with
  | zero =>
    intro h L fd a r hA _ e
    rw [_cll_unserialize_loop] at e
    cases e
    exact ⟨L, abs_congr hA rfl rfl rfl rfl rfl rfl⟩
  | succ count ih =>
    intro h L fd a r hA hfresh e
    rw [_cll_unserialize_loop] at e
    simp only at e
    split at e
    · cases e
      exact ⟨L, abs_congr hA rfl rfl rfl rfl rfl rfl⟩
    · rename_i data hu
      obtain ⟨ri, hri, e⟩ := obind_eq_some.1 e
      have hins : pall_cll_insert fuel h data a = some (ri.1, ri.2) := hri
      obtain ⟨L2, hA2, hcase⟩ :=
        pall_cll_insert_track hA fuel data a (Or.inr (by simpa using hfresh 0)) ri.1 ri.2 hins
      by_cases hlt : ri.2 < 0
      · rw [if_pos hlt] at e
        cases e
        exact ⟨L2, abs_congr hA2 rfl rfl rfl rfl rfl rfl⟩
      · rw [if_neg hlt] at e
        refine ih ri.1 L2 _ (a + 1) r hA2 ?_ e
        apply fresh_after_insert hA hA2 _ hfresh
        · exact data
        · rcases hcase with ⟨-, -, h1⟩ | ⟨-, -, h2⟩
          · exact Or.inl h1
          · exact Or.inr h2

theorem pall_cll_unserialize_abs {h : cll_handler α} {L : List (Nat × α)} (hA : Abs h L)
    {fuel : Nat} {fd : pall_fd_t} {a : Nat} (hfresh : ∀ i, h.mem (a + i) = none)
    {r : cll_handler α × pall_fd_t × Int}
    (e : pall_cll_unserialize fuel h fd a = some r) : ∃ L2, Abs r.1 L2 := by
  unfold pall_cll_unserialize _cll_unserialize at e
  split at e
  · cases e
    exact ⟨L, abs_congr hA rfl rfl rfl rfl rfl rfl⟩
  · simp only at e
    by_cases hw : (pall_read fd 4).2.length ≠ 4
    · rw [if_pos hw] at e
      cases e
      exact ⟨L, abs_congr hA rfl rfl rfl rfl rfl rfl⟩
    · rw [if_neg hw] at e
      exact _cll_unserialize_loop_abs _ fuel _ h L _ a r hA hfresh e

/-- Every reachable state of a handler is a well-formed list. -/
theorem reachable_abs {h : cll_handler α} (hr : Reachable h) : ∃ L, Abs h L := by
  induction hr with
  | init compare destroy ser_data unser_data ok h hi => exact ⟨[], abs_init hi⟩
  | insert fuel h data n h2 r _ hn hstep ih =>
    obtain ⟨L, hA⟩ := ih
    exact pall_cll_insert_abs hA fuel data n hn h2 r hstep
  | delete fuel h data h2 r _ hstep ih =>
    obtain ⟨L, hA⟩ := ih
    exact pall_cll_delete_abs hA fuel data h2 r hstep
  | search fuel h data h2 r _ hstep ih =>
    obtain ⟨L, hA⟩ := ih
    exact pall_cll_search_abs hA fuel data h2 r hstep
  | pope fuel h data h2 r _ hstep ih =>
    obtain ⟨L, hA⟩ := ih
    exact pall_cll_pope_abs hA fuel data h2 r hstep
  | poph h h2 r _ hstep ih =>
    obtain ⟨L, hA⟩ := ih
    exact pall_cll_poph_abs hA h2 r hstep
  | collapse fuel h h2 _ hstep ih =>
    obtain ⟨L, hA⟩ := ih
    exact ⟨[], pall_cll_collapse_abs hA fuel h2 hstep⟩
  | iterate h h2 r _ hstep ih =>
    obtain ⟨L, hA⟩ := ih
    exact ⟨L, pall_cll_iterate_abs hA h2 r hstep⟩
  | rewind h to_ _ ih =>
    obtain ⟨L, hA⟩ := ih
    exact ⟨L, _cll_rewind_abs hA to_⟩
  | set_config h flags _ ih =>
    obtain ⟨L, hA⟩ := ih
    refine ⟨L, ?_⟩
    unfold pall_cll_set_config _cll_set_config
    simp only
    split_ifs <;> exact abs_congr hA rfl rfl rfl rfl rfl rfl
  | get_config h _ ih =>
    obtain ⟨L, hA⟩ := ih
    exact ⟨L, abs_congr hA rfl rfl rfl rfl rfl rfl⟩
  | count h _ ih =>
    obtain ⟨L, hA⟩ := ih
    exact ⟨L, abs_congr hA rfl rfl rfl rfl rfl rfl⟩
  | stat h _ ih =>
    obtain ⟨L, hA⟩ := ih
    exact ⟨L, abs_congr hA rfl rfl rfl rfl rfl rfl⟩
  | stat_reset h _ ih =>
    obtain ⟨L, hA⟩ := ih
    exact ⟨L, abs_congr hA rfl rfl rfl rfl rfl rfl⟩
  | serialize fuel h fd h2 fd2 r _ hstep ih =>
    obtain ⟨L, hA⟩ := ih
    exact ⟨L, pall_cll_serialize_abs hA hstep⟩
  | unserialize fuel h fd a h2 fd2 r _ hfresh hstep ih =>
    obtain ⟨L, hA⟩ := ih
    exact pall_cll_unserialize_abs hA hfresh hstep


/-! ## Ring integrity -/

theorem cnext_get (o : List Nat) (hn : o.Nodup) (i : Nat) (hi : i < o.length) :
    cnext o (o.get ⟨i, hi⟩) = o.get ⟨(i + 1) % o.length, Nat.mod_lt _ (by omega)⟩ := by
  rw [cnext_eq_next _ _ (List.get_mem _ _ _)]
  exact List.next_get o hn ⟨i, hi⟩

/-- Following the steps of a ring `k` times from its `i`-th node leads to the node at
position `(i + k) mod length`. -/
theorem iter_opt_ring (f : Nat → Option Nat) (o : List Nat) (hn : o.Nodup)
    (hf : ∀ a ∈ o, f a = some (cnext o a)) :
    ∀ (k i : Nat) (hi : i < o.length),
      iter_opt f k (o.get ⟨i, hi⟩) =
        some (o.get ⟨(i + k) % o.length, Nat.mod_lt _ (by omega)⟩) := by
  intro k
  induction k with
  | zero =>
    intro i hi
    simp [iter_opt, Nat.mod_eq_of_lt hi]
  | succ k ih =>
    intro i hi
    rw [iter_opt, hf _ (List.get_mem _ _ _), cnext_get o hn i hi]
    simp only [obind_some]
    rw [ih ((i + 1) % o.length) (Nat.mod_lt _ (by omega))]
    congr 2
    simp only [Fin.mk.injEq]
    rw [Nat.mod_add_mod]
    congr 1
    omega

/-- Following the steps of a ring from a node leads back to that node for the first time
after as many steps as the ring has nodes. -/
theorem iter_opt_return (f : Nat → Option Nat) (o : List Nat) (hn : o.Nodup)
    (hf : ∀ a ∈ o, f a = some (cnext o a)) (a : Nat) (ha : a ∈ o) :
    iter_opt f o.length a = some a ∧
      ∀ k, 0 < k → k < o.length → iter_opt f k a ≠ some a := by
  obtain ⟨⟨i, hi⟩, rfl⟩ := List.get_of_mem ha
  constructor
  · rw [iter_opt_ring f o hn hf]
    congr 2
    simp only [Fin.mk.injEq]
    rw [Nat.add_mod_right, Nat.mod_eq_of_lt hi]
  · intro k hk hkl
    rw [iter_opt_ring f o hn hf]
    intro e
    simp only [Option.some.injEq] at e
    have := (List.Nodup.get_inj_iff hn).1 e
    simp only [Fin.mk.injEq] at this
    by_cases h1 : i + k < o.length
    · rw [Nat.mod_eq_of_lt h1] at this
      omega
    · have h2 : (i + k) % o.length = i + k - o.length := by
        rw [Nat.mod_eq_sub_mod (by omega), Nat.mod_eq_of_lt (by omega)]
      omega

theorem abs_mem_of_live {h : cll_handler α} {L : List (Nat × α)} (hA : Abs h L) {n : Nat}
    {e : cll_elem α} (hn : h.mem n = some e) : n ∈ L.map Prod.fst := by
  by_contra hcon
  have := hA.heap.exact n hcon
  rw [hn] at this
  exact Option.noConfusion this


theorem ex_fresh_reachable : Reachable ex_fresh :=
  Reachable.init (some compare_id) true none none true ex_fresh rfl

theorem ex_three_reachable : Reachable ex_three := by
  have h1 : Reachable (run1 ex_fresh (pall_cll_insert 0 ex_fresh 10 1)) :=
    Reachable.insert 0 ex_fresh 10 1 _ 0 ex_fresh_reachable (Or.inr rfl) rfl
  have h2 := Reachable.insert 0 _ 20 2
    (run1 (run1 ex_fresh (pall_cll_insert 0 ex_fresh 10 1))
      (pall_cll_insert 0 (run1 ex_fresh (pall_cll_insert 0 ex_fresh 10 1)) 20 2)) 0 h1
    (Or.inr rfl) rfl
  exact Reachable.insert 0 _ 30 3 ex_three 0 h2 (Or.inr rfl) rfl

/-- C1. Ring integrity: in every reachable state, every allocated node `n` satisfies
`n.next.prev = n` and `n.prev.next = n`, and following `next` (likewise `prev`) from `n`
leads back to `n` for the first time after exactly `_count` steps. -/
theorem ring_integrity {h : cll_handler α} (hr : Reachable h) (n : Nat) (e : cll_elem α)
    (hn : h.mem n = some e) :
    ld_prev h.mem e.next = some n ∧ ld_next h.mem e.prev = some n ∧
      (iter_next h.mem h._count n = some n ∧
        ∀ k, 0 < k → k < h._count → iter_next h.mem k n ≠ some n) ∧
      (iter_prev h.mem h._count n = some n ∧
        ∀ k, 0 < k → k < h._count → iter_prev h.mem k n ≠ some n) := by
  obtain ⟨L, hA⟩ := reachable_abs hr
  have hm := abs_mem_of_live hA hn
  have hring := hA.heap.ring
  set l := L.map Prod.fst with hl
  have hnx : e.next = cnext l n := by
    have := hring.next hm
    unfold ld_next at this
    rw [hn] at this
    exact Option.some.inj this
  have hpv : e.prev = cprev l n := by
    have := hring.prev hm
    unfold ld_prev at this
    rw [hn] at this
    exact Option.some.inj this
  have hlen : h._count = l.length := by rw [hA.count, hl]; simp
  refine ⟨?_, ?_, ?_, ?_⟩
  · rw [hnx, hring.prev (cnext_mem l n hm), cprev_cnext l hring.1 n hm]
  · rw [hpv, hring.next (cprev_mem l n hm), cnext_cprev l hring.1 n hm]
  · rw [hlen]
    exact iter_opt_return (ld_next h.mem) l hring.1 (fun a ha => hring.next ha) n hm
  · rw [hlen]
    have := iter_opt_return (ld_prev h.mem) l.reverse (List.nodup_reverse.2 hring.1)
      (fun a ha => hring.prev (List.mem_reverse.1 ha)) n (List.mem_reverse.2 hm)
    simpa using this

theorem ring_integrity_witness :
    Reachable ex_three ∧ ex_three.mem 2 = some ⟨20, 1, 3⟩ ∧
    ld_prev ex_three.mem 1 = some 2 ∧ ld_next ex_three.mem 3 = some 2 ∧
      (iter_next ex_three.mem ex_three._count 2 = some 2 ∧
        ∀ k, 0 < k → k < ex_three._count → iter_next ex_three.mem k 2 ≠ some 2) ∧
      (iter_prev ex_three.mem ex_three._count 2 = some 2 ∧
        ∀ k, 0 < k → k < ex_three._count → iter_prev ex_three.mem k 2 ≠ some 2) :=
  ⟨ex_three_reachable, rfl, ring_integrity ex_three_reachable 2 ⟨20, 1, 3⟩ rfl⟩

/-! ## The callbacks never change -/

theorem cb_eq_refl (h : cll_handler α) : cb_eq h h := ⟨rfl, rfl, rfl, rfl⟩

theorem cb_eq_trans {h h2 h3 : cll_handler α} (a : cb_eq h h2) (b : cb_eq h2 h3) : cb_eq h h3 :=
  ⟨b.1.trans a.1, b.2.1.trans a.2.1, b.2.2.1.trans a.2.2.1, b.2.2.2.trans a.2.2.2⟩

theorem cb_eq_ite {h a b : cll_handler α} (c : Prop) [Decidable c] (ha : cb_eq h a)
    (hb : cb_eq h b) : cb_eq h (if c then a else b) := by
  split_ifs
  · exact ha
  · exact hb

/-- The repair of a bookmark keeps the callbacks. -/
theorem cb_eq_ite_obind {h h2 : cll_handler α} {c : Prop} [Decidable c] {x : Option Nat}
    {f : Nat → cll_handler α}
    (e : (if c then obind x fun a => some (f a) else some h) = some h2)
    (hf : ∀ a, cb_eq h (f a)) : cb_eq h h2 := by
  split_ifs at e
  · obtain ⟨a, -, e⟩ := obind_eq_some.1 e
    cases e
    exact hf a
  · cases e
    exact cb_eq_refl h

theorem insert_account_cb (h : cll_handler α) : cb_eq h (insert_account h) := by
  unfold insert_account
  simp only
  split_ifs <;> exact ⟨rfl, rfl, rfl, rfl⟩

theorem _cll_insert_head_cb {h : cll_handler α} {data : α} {n : Nat} {r : cll_handler α × Int}
    (e : _cll_insert_head h data n = some r) : cb_eq h r.1 := by
  unfold _cll_insert_head at e
  split_ifs at e
  · cases e; exact ⟨rfl, rfl, rfl, rfl⟩
  · simp only [obind_eq_some] at e
    obtain ⟨h1, ⟨m, -, e1⟩, e⟩ := e
    cases e1; cases e
    exact cb_eq_trans ⟨rfl, rfl, rfl, rfl⟩ (insert_account_cb _)
  · simp only [obind_eq_some] at e
    obtain ⟨h1, ⟨m, -, e1⟩, e⟩ := e
    cases e1; cases e
    exact cb_eq_trans ⟨rfl, rfl, rfl, rfl⟩ (insert_account_cb _)

theorem _cll_insert_tail_cb {h : cll_handler α} {data : α} {n : Nat} {r : cll_handler α × Int}
    (e : _cll_insert_tail h data n = some r) : cb_eq h r.1 := by
  unfold _cll_insert_tail at e
  obtain ⟨r1, e1, e⟩ := obind_eq_some.1 e
  have c1 := _cll_insert_head_cb e1
  split_ifs at e
  · cases e; exact c1
  · obtain ⟨hn, -, e⟩ := obind_eq_some.1 e
    cases e
    exact cb_eq_trans c1 ⟨rfl, rfl, rfl, rfl⟩

theorem _cll_insert_cb {h : cll_handler α} {data : α} {n : Nat} {r : cll_handler α × Int}
    (e : _cll_insert h data n = some r) : cb_eq h r.1 := by
  unfold _cll_insert at e
  simp only at e
  split_ifs at e
  · cases e; exact ⟨rfl, rfl, rfl, rfl⟩
  all_goals
    simp only [obind_eq_some] at e
    obtain ⟨h1, ⟨m, -, e1⟩, e⟩ := e
    cases e1; cases e
    exact cb_eq_trans ⟨rfl, rfl, rfl, rfl⟩ (insert_account_cb _)

theorem _cll_insert_sorted_cb {fuel : Nat} {h : cll_handler α} {data : α} {n : Nat}
    {r : cll_handler α × Int} (e : _cll_insert_sorted fuel h data n = some r) :
    cb_eq h r.1 := by
  unfold _cll_insert_sorted at e
  simp only at e
  split_ifs at e
  · cases e; exact ⟨rfl, rfl, rfl, rfl⟩
  · simp only [obind_eq_some] at e
    obtain ⟨h1, ⟨m, -, e1⟩, e⟩ := e
    cases e1; cases e
    exact cb_eq_trans ⟨rfl, rfl, rfl, rfl⟩ (insert_account_cb _)
  · obtain ⟨h1, e1, e⟩ := obind_eq_some.1 e
    cases e
    refine cb_eq_trans ?_ (insert_account_cb _)
    obtain ⟨cmp, -, e1⟩ := obind_eq_some.1 e1
    obtain ⟨pd, -, e1⟩ := obind_eq_some.1 e1
    split_ifs at e1
    · obtain ⟨p, -, e1⟩ := obind_eq_some.1 e1
      obtain ⟨m4, -, e1⟩ := obind_eq_some.1 e1
      obtain ⟨nn, -, e1⟩ := obind_eq_some.1 e1
      cases e1
      exact ⟨rfl, rfl, rfl, rfl⟩
    · obtain ⟨p, -, e1⟩ := obind_eq_some.1 e1
      obtain ⟨m4, -, e1⟩ := obind_eq_some.1 e1
      cases e1
      exact ⟨rfl, rfl, rfl, rfl⟩

theorem pall_cll_insert_cb {fuel : Nat} {h : cll_handler α} {data : α} {n : Nat}
    {r : cll_handler α × Int} (e : pall_cll_insert fuel h data n = some r) :
    cb_eq h r.1 := by
  unfold pall_cll_insert at e
  split at e
  · exact _cll_insert_cb e
  · exact _cll_insert_head_cb e
  · exact _cll_insert_tail_cb e
  · exact _cll_insert_sorted_cb e

theorem search_start_cb {h : cll_handler α} {data : α} {r : cll_handler α × Nat}
    (e : search_start h data = some r) : cb_eq h r.1 := by
  unfold search_start at e
  simp only at e
  split_ifs at e
  · cases e; exact cb_eq_refl h
  · obtain ⟨cmp, -, e⟩ := obind_eq_some.1 e
    obtain ⟨pd, -, e⟩ := obind_eq_some.1 e
    split_ifs at e <;> cases e <;> exact ⟨rfl, rfl, rfl, rfl⟩
  · cases e; exact cb_eq_refl h

theorem unlink_hit_cb {h : cll_handler α} {pool : Nat} {r : cll_handler α × Option α}
    (e : unlink_hit h pool = some r) : cb_eq h r.1 := by
  unfold unlink_hit at e
  obtain ⟨d, -, e⟩ := obind_eq_some.1 e
  obtain ⟨pn, -, e⟩ := obind_eq_some.1 e
  by_cases hp : pool = pn
  · rw [if_pos hp] at e
    cases e; exact ⟨rfl, rfl, rfl, rfl⟩
  · rw [if_neg hp] at e
    simp only at e
    obtain ⟨m2, -, e⟩ := obind_eq_some.1 e
    obtain ⟨pn2, -, e⟩ := obind_eq_some.1 e
    obtain ⟨h4, e4, e⟩ := obind_eq_some.1 e
    obtain ⟨h5, e5, e⟩ := obind_eq_some.1 e
    obtain ⟨ed, -, e⟩ := obind_eq_some.1 e
    cases e
    have c5 := cb_eq_ite_obind e5 (fun a => ⟨rfl, rfl, rfl, rfl⟩)
    have c4 := cb_eq_ite_obind e4 (fun a => ⟨rfl, rfl, rfl, rfl⟩)
    refine cb_eq_trans ?_ (cb_eq_trans c4 (cb_eq_trans c5 ⟨rfl, rfl, rfl, rfl⟩))
    split_ifs <;> exact ⟨rfl, rfl, rfl, rfl⟩

theorem _cll_unlink_cb {fuel : Nat} {h : cll_handler α} {data : α}
    {r : cll_handler α × Option α} (e : _cll_unlink fuel h data = some r) : cb_eq h r.1 := by
  unfold _cll_unlink at e
  split_ifs at e
  · cases e; exact cb_eq_refl h
  · obtain ⟨s, es, e⟩ := obind_eq_some.1 e
    refine cb_eq_trans (search_start_cb es) ?_
    rw [_cll_unlink_loop_eq] at e
    obtain ⟨w, -, e⟩ := obind_eq_some.1 e
    cases w with
    | none => cases e; exact cb_eq_refl _
    | some p => exact unlink_hit_cb e

theorem _cll_delete_cb {fuel : Nat} {h : cll_handler α} {data : α}
    {r : cll_handler α × Int} (e : _cll_delete fuel h data = some r) : cb_eq h r.1 := by
  unfold _cll_delete at e
  obtain ⟨u, eu, e⟩ := obind_eq_some.1 e
  refine cb_eq_trans (_cll_unlink_cb eu) ?_
  split at e <;> cases e <;> exact ⟨rfl, rfl, rfl, rfl⟩

theorem _cll_pope_cb {fuel : Nat} {h : cll_handler α} {data : α}
    {r : cll_handler α × Option α} (e : _cll_pope fuel h data = some r) : cb_eq h r.1 := by
  unfold _cll_pope at e
  obtain ⟨u, eu, e⟩ := obind_eq_some.1 e
  refine cb_eq_trans (_cll_unlink_cb eu) ?_
  split at e <;> cases e <;> exact ⟨rfl, rfl, rfl, rfl⟩

theorem _cll_move_to_head_cb {h h2 : cll_handler α} {p : Nat}
    (e : _cll_move_to_head h p = some h2) : cb_eq h h2 := by
  unfold _cll_move_to_head at e
  simp only at e
  split_ifs at e
  · obtain ⟨m2, -, e⟩ := obind_eq_some.1 e
    obtain ⟨m6, -, e⟩ := obind_eq_some.1 e
    cases e
    exact ⟨rfl, rfl, rfl, rfl⟩
  · cases e; exact cb_eq_refl h

theorem search_hit_cb {h : cll_handler α} {pool : Nat} {r : cll_handler α × Option α}
    (e : search_hit h pool = some r) : cb_eq h r.1 := by
  unfold search_hit at e
  obtain ⟨h1, e1, e⟩ := obind_eq_some.1 e
  simp only at e
  obtain ⟨d, -, e⟩ := obind_eq_some.1 e
  cases e
  refine @cb_eq_trans _ h h1 _ ?_ ⟨rfl, rfl, rfl, rfl⟩
  split_ifs at e1
  · exact _cll_move_to_head_cb e1
  · cases e1; exact ⟨rfl, rfl, rfl, rfl⟩

theorem _cll_search_cb {fuel : Nat} {h : cll_handler α} {data : α}
    {r : cll_handler α × Option α} (e : _cll_search fuel h data = some r) : cb_eq h r.1 := by
  unfold _cll_search at e
  split_ifs at e
  · cases e; exact ⟨rfl, rfl, rfl, rfl⟩
  · obtain ⟨s, es, e⟩ := obind_eq_some.1 e
    refine cb_eq_trans (search_start_cb es) ?_
    rw [_cll_search_loop_eq] at e
    obtain ⟨w, -, e⟩ := obind_eq_some.1 e
    cases w with
    | none => cases e; exact ⟨rfl, rfl, rfl, rfl⟩
    | some p => exact search_hit_cb e

theorem pall_cll_search_cb {fuel : Nat} {h : cll_handler α} {data : α}
    {r : cll_handler α × Option α} (e : pall_cll_search fuel h data = some r) :
    cb_eq h r.1 := by
  unfold pall_cll_search at e
  split at e
  · exact _cll_search_cb e
  · cases e; exact cb_eq_refl h

theorem _cll_poph_cb {h : cll_handler α} {r : cll_handler α × Option α}
    (e : _cll_poph h = some r) : cb_eq h r.1 := by
  unfold _cll_poph at e
  split_ifs at e
  · cases e; exact ⟨rfl, rfl, rfl, rfl⟩
  · obtain ⟨hn, -, e⟩ := obind_eq_some.1 e
    obtain ⟨r1, e1, e⟩ := obind_eq_some.1 e
    cases e
    refine cb_eq_trans ?_ ⟨rfl, rfl, rfl, rfl⟩
    split_ifs at e1
    · obtain ⟨d, -, e1⟩ := obind_eq_some.1 e1
      cases e1
      exact ⟨rfl, rfl, rfl, rfl⟩
    · simp only at e1
      obtain ⟨m2, -, e1⟩ := obind_eq_some.1 e1
      obtain ⟨hn2, -, e1⟩ := obind_eq_some.1 e1
      obtain ⟨h3, e3, e1⟩ := obind_eq_some.1 e1
      obtain ⟨h4, e4, e1⟩ := obind_eq_some.1 e1
      obtain ⟨d, -, e1⟩ := obind_eq_some.1 e1
      cases e1
      have c3 := cb_eq_ite_obind e3 (fun a => ⟨rfl, rfl, rfl, rfl⟩)
      have c4 := cb_eq_ite_obind e4 (fun a => ⟨rfl, rfl, rfl, rfl⟩)
      exact cb_eq_trans (cb_eq_trans (cb_eq_trans ⟨rfl, rfl, rfl, rfl⟩ c3) c4)
        ⟨rfl, rfl, rfl, rfl⟩

theorem _cll_collapse_loop_cb : ∀ (fuel : Nat) (h : cll_handler α) (pool : Nat)
    (h2 : cll_handler α), _cll_collapse_loop fuel h pool = some h2 → cb_eq h h2 := by
  intro fuel
  induction fuel with
  | zero => intro h pool h2 e; simp [_cll_collapse_loop] at e
  | succ k ih =>
    intro h pool h2 e
    rw [_cll_collapse_loop] at e
    split_ifs at e
    · cases e; exact cb_eq_refl h
    · obtain ⟨pn, -, e⟩ := obind_eq_some.1 e
      split_ifs at e
      · obtain ⟨d, -, e⟩ := obind_eq_some.1 e
        cases e
        exact ⟨rfl, rfl, rfl, rfl⟩
      · simp only at e
        obtain ⟨pp, -, e⟩ := obind_eq_some.1 e
        obtain ⟨m1, -, e⟩ := obind_eq_some.1 e
        obtain ⟨pp2, -, e⟩ := obind_eq_some.1 e
        obtain ⟨pn2, -, e⟩ := obind_eq_some.1 e
        obtain ⟨m2, -, e⟩ := obind_eq_some.1 e
        obtain ⟨pn3, -, e⟩ := obind_eq_some.1 e
        obtain ⟨d, -, e⟩ := obind_eq_some.1 e
        have c := ih _ _ _ e
        exact cb_eq_trans ⟨rfl, rfl, rfl, rfl⟩ c

theorem _cll_collapse_cb {fuel : Nat} {h h2 : cll_handler α}
    (e : _cll_collapse fuel h = some h2) : cb_eq h h2 := by
  unfold _cll_collapse at e
  obtain ⟨h1, e1, e⟩ := obind_eq_some.1 e
  cases e
  exact cb_eq_trans (_cll_collapse_loop_cb _ _ _ _ e1) ⟨rfl, rfl, rfl, rfl⟩

theorem _cll_iterate_cb {h : cll_handler α} {r : cll_handler α × Option α}
    (e : _cll_iterate h = some r) : cb_eq h r.1 := by
  unfold _cll_iterate at e
  split_ifs at e
  · cases e; exact ⟨rfl, rfl, rfl, rfl⟩
  · obtain ⟨h1, e1, e⟩ := obind_eq_some.1 e
    obtain ⟨d, -, e⟩ := obind_eq_some.1 e
    cases e
    obtain ⟨hp, -, e1⟩ := obind_eq_some.1 e1
    obtain ⟨hpp, -, e1⟩ := obind_eq_some.1 e1
    cases e1
    exact ⟨rfl, rfl, rfl, rfl⟩
  · obtain ⟨h1, e1, e⟩ := obind_eq_some.1 e
    obtain ⟨d, -, e⟩ := obind_eq_some.1 e
    cases e
    obtain ⟨hp, -, e1⟩ := obind_eq_some.1 e1
    cases e1
    exact ⟨rfl, rfl, rfl, rfl⟩
  · cases e; exact ⟨rfl, rfl, rfl, rfl⟩
  · simp only at e
    obtain ⟨c, -, e⟩ := obind_eq_some.1 e
    obtain ⟨d, -, e⟩ := obind_eq_some.1 e
    cases e
    exact ⟨rfl, rfl, rfl, rfl⟩
  · simp only at e
    obtain ⟨c, -, e⟩ := obind_eq_some.1 e
    obtain ⟨d, -, e⟩ := obind_eq_some.1 e
    cases e
    exact ⟨rfl, rfl, rfl, rfl⟩

theorem _cll_set_config_cb (h : cll_handler α) (flags : Nat) :
    cb_eq h (_cll_set_config h flags).1 := by
  unfold _cll_set_config
  simp only
  split_ifs <;> exact ⟨rfl, rfl, rfl, rfl⟩

/-! ## Serialization keeps the callbacks -/

theorem pall_cll_serialize_cb {fuel : Nat} {h : cll_handler α} {fd : pall_fd_t}
    {r : cll_handler α × pall_fd_t × Int} (e : pall_cll_serialize fuel h fd = some r) :
    cb_eq h r.1 := by
  obtain ⟨st, hst⟩ := pall_cll_serialize_frame e
  rw [hst]
  exact ⟨rfl, rfl, rfl, rfl⟩

theorem _cll_unserialize_loop_cb (unser : pall_fd_t → pall_fd_t × Option α) (fuel : Nat) :
    ∀ (count : Nat) (h : cll_handler α) (fd : pall_fd_t) (a : Nat)
      (r : cll_handler α × pall_fd_t × Int),
      _cll_unserialize_loop unser fuel count h fd a = some r → cb_eq h r.1 := by
  intro count
  induction count with
  | zero =>
    intro h fd a r e
    rw [_cll_unserialize_loop] at e
    cases e
    exact ⟨rfl, rfl, rfl, rfl⟩
  | succ count ih =>
    intro h fd a r e
    rw [_cll_unserialize_loop] at e
    simp only at e
    split at e
    · cases e
      exact ⟨rfl, rfl, rfl, rfl⟩
    · rename_i data hu
      obtain ⟨ri, hri, e⟩ := obind_eq_some.1 e
      have hins : pall_cll_insert fuel h data a = some ri := hri
      have c1 := pall_cll_insert_cb hins
      by_cases hlt : ri.2 < 0
      · rw [if_pos hlt] at e
        cases e
        exact c1
      · rw [if_neg hlt] at e
        exact cb_eq_trans c1 (ih _ _ _ _ e)

theorem pall_cll_unserialize_cb {fuel : Nat} {h : cll_handler α} {fd : pall_fd_t} {a : Nat}
    {r : cll_handler α × pall_fd_t × Int}
    (e : pall_cll_unserialize fuel h fd a = some r) : cb_eq h r.1 := by
  unfold pall_cll_unserialize _cll_unserialize at e
  split at e
  · cases e
    exact ⟨rfl, rfl, rfl, rfl⟩
  · simp only at e
    by_cases hw : (pall_read fd 4).2.length ≠ 4
    · rw [if_pos hw] at e
      cases e
      exact ⟨rfl, rfl, rfl, rfl⟩
    · rw [if_neg hw] at e
      exact _cll_unserialize_loop_cb _ fuel _ h _ a r e

/-- In a reachable state the function pointer `search` is the one that `pall_cll_init` has
chosen from the compare callback. -/
theorem reachable_search {h : cll_handler α} (hr : Reachable h) :
    h.search = if h.compare.isSome then search_fn.cll_search else search_fn.cll_search_nop := by
  have key : ∀ {h h2 : cll_handler α}, cb_eq h h2 →
      (h.search = if h.compare.isSome then search_fn.cll_search
        else search_fn.cll_search_nop) →
      h2.search = if h2.compare.isSome then search_fn.cll_search
        else search_fn.cll_search_nop := by
    intro h h2 c hs
    rw [c.1, c.2.1]; exact hs
  induction hr with
  | init compare destroy ser_data unser_data ok h e =>
    unfold pall_cll_init at e
    split_ifs at e <;> cases e <;> simp_all
  | insert fuel h data n h2 r _ _ e ih => exact key (pall_cll_insert_cb e) ih
  | delete fuel h data h2 r _ e ih => exact key (_cll_delete_cb e) ih
  | search fuel h data h2 r _ e ih => exact key (pall_cll_search_cb e) ih
  | pope fuel h data h2 r _ e ih => exact key (_cll_pope_cb e) ih
  | poph h h2 r _ e ih => exact key (_cll_poph_cb e) ih
  | collapse fuel h h2 _ e ih => exact key (_cll_collapse_cb e) ih
  | iterate h h2 r _ e ih => exact key (_cll_iterate_cb e) ih
  | rewind h to_ _ ih => exact key ⟨rfl, rfl, rfl, rfl⟩ ih
  | set_config h flags _ ih => exact key (_cll_set_config_cb h flags) ih
  | get_config _ _ ih => exact key ⟨rfl, rfl, rfl, rfl⟩ ih
  | count _ _ ih => exact key ⟨rfl, rfl, rfl, rfl⟩ ih
  | stat _ _ ih => exact key ⟨rfl, rfl, rfl, rfl⟩ ih
  | stat_reset _ _ ih => exact key ⟨rfl, rfl, rfl, rfl⟩ ih
  | serialize fuel h fd h2 fd2 r _ e ih => exact key (pall_cll_serialize_cb e) ih
  | unserialize fuel h fd a h2 fd2 r _ _ e ih => exact key (pall_cll_unserialize_cb e) ih

/-! ## The head-to-tail sequence -/

theorem walk_next_ring {m : Heap α} : ∀ (rest pre : List (Nat × α)) (p : Nat),
    HeapAbs m (pre ++ rest) → (rest ≠ [] → p = (rest.map Prod.fst).headD 0) →
    walk_next m rest.length p = rest.map Prod.snd := by
  intro rest
  induction rest with
  | nil => intro pre p _ _; rfl
  | cons x rest ih =>
    intro pre p hm hp
    obtain ⟨a, d⟩ := x
    have hpa : p = a := by simpa using hp (by simp)
    subst hpa
    have hd := hm.dat pre rest
    have hn := hm.hnext pre rest
    have hm2 : HeapAbs m ((pre ++ [(p, d)]) ++ rest) := by
      rw [List.append_assoc]; exact hm
    rw [List.length_cons, walk_next]
    cases hmp : m p with
    | none => simp [ld_data, hmp] at hd
    | some e =>
      simp only [ld_data, ld_next, hmp, Option.map_some', Option.some.injEq] at hd hn
      simp only [List.map_cons]
      rw [hd, ih (pre ++ [(p, d)]) e.next hm2]
      intro hne
      rw [hn]
      cases rest with
      | nil => exact absurd rfl hne
      | cons y r => simp

/-- The head-to-tail sequence of a handler that represents `L` is the payloads of `L`. -/
theorem abs_head_to_tail {h : cll_handler α} {L : List (Nat × α)} (hA : Abs h L) :
    head_to_tail h = L.map Prod.snd := by
  unfold head_to_tail
  rw [hA.count]
  exact walk_next_ring L [] _ (by simpa using hA.heap) (fun _ => hA.head)

theorem abs_head_data {h : cll_handler α} {q : Nat} {dq : α} {L : List (Nat × α)}
    (hA : Abs h ((q, dq) :: L)) : head_data h = some dq := by
  unfold head_data
  have e : h.cll_head = q := by simpa using hA.head
  rw [e]
  exact hA.heap.data (q, dq) (by simp)

theorem reachable_cll_search {h : cll_handler α} (hr : Reachable h) {cmp : α → α → Int}
    (hc : h.compare = some cmp) : h.search = search_fn.cll_search := by
  rw [reachable_search hr, hc]; rfl

theorem reachable_cll_search_nop {h : cll_handler α} (hr : Reachable h)
    (hc : h.compare = none) : h.search = search_fn.cll_search_nop := by
  rw [reachable_search hr, hc]; rfl

theorem pall_cll_search_eq {h : cll_handler α} (hs : h.search = search_fn.cll_search)
    (fuel : Nat) (k : α) : pall_cll_search fuel h k = _cll_search fuel h k := by
  unfold pall_cll_search
  rw [hs]

/-- C3. Search is correct under every search discipline: in every reachable state with a
compare callback `cmp` (whatever the flag word that `set_config` has stored) and for every
key `k`, `pall_cll_search` returns within `_count` turns of its loop, each turn visiting one
more node of the ring; a payload `p` that it returns is stored and `cmp k p = 0`; it returns
`NULL` exactly when no stored payload compares equal to `k`; the stored payloads are the
same afterwards. -/
theorem search_correct {h : cll_handler α} (hr : Reachable h) {cmp : α → α → Int}
    (hc : h.compare = some cmp) (k : α) :
    ∃ h2 r, pall_cll_search h._count h k = some (h2, r) ∧
      (∀ p, r = some p → p ∈ head_to_tail h ∧ cmp k p = 0) ∧
      (r = none ↔ ∀ p ∈ head_to_tail h, cmp k p ≠ 0) ∧
      (head_to_tail h2).Perm (head_to_tail h) := by
  obtain ⟨L, hA⟩ := reachable_abs hr
  rw [pall_cll_search_eq (reachable_cll_search hr hc), abs_head_to_tail hA]
  rcases _cll_search_full hA hc k h._count (le_of_eq hA.count.symm) with
    ⟨hall, f1, e⟩ | ⟨pre, q, dq, post, m1, c1, hd1, f1, L2, hL, hz, e, hA2, hlru, hnl⟩
  · refine ⟨_, _, e, fun p hp => (by cases hp), ?_, ?_⟩
    · refine ⟨fun _ p hp => ?_, fun _ => rfl⟩
      obtain ⟨x, hx, rfl⟩ := List.mem_map.1 hp
      exact hall x hx
    · rw [← abs_head_to_tail hA]
      exact List.Perm.refl _
  · have hmem : dq ∈ L.map Prod.snd := by
      rw [hL]; simp
    refine ⟨_, _, e, fun p hp => ?_, ?_, ?_⟩
    · cases hp
      exact ⟨hmem, hz⟩
    · exact ⟨fun hn => (by cases hn), fun hall => absurd hz (hall dq hmem)⟩
    · rw [abs_head_to_tail hA2, hL]
      by_cases hl : h._config_flags &&& CONFIG_SEARCH_LRU ≠ 0
      · rw [(hlru hl).1]
        simp only [List.map_cons, List.map_append, List.cons_append]
        exact List.perm_middle.symm
      · rw [(hnl hl).1]

theorem search_correct_witness :
    Reachable ex_three ∧ ex_three.compare = some compare_id ∧
    ∃ h2 r, pall_cll_search ex_three._count ex_three 20 = some (h2, r) ∧
      (∀ p, r = some p → p ∈ head_to_tail ex_three ∧ compare_id 20 p = 0) ∧
      (r = none ↔ ∀ p ∈ head_to_tail ex_three, compare_id 20 p ≠ 0) ∧
      (head_to_tail h2).Perm (head_to_tail ex_three) :=
  ⟨ex_three_reachable, rfl, search_correct ex_three_reachable rfl 20⟩

/-- C6. LRU move-to-front: in every reachable state with `CONFIG_SEARCH_LRU` set, when
`pall_cll_search` returns a payload `p` for the key `k`, the payload of the head node is
`p` afterwards, `p` compares equal to `k`, the counter `search` has gone up by one and the
counter `search_nf` is unchanged. -/
theorem lru_move_to_front {h : cll_handler α} (hr : Reachable h)
    (hl : h._config_flags &&& CONFIG_SEARCH_LRU ≠ 0) (fuel : Nat) (k p : α)
    (h2 : cll_handler α) (e : pall_cll_search fuel h k = some (h2, some p)) :
    head_data h2 = some p ∧ (∃ cmp, h.compare = some cmp ∧ cmp k p = 0) ∧
      h2._stat.search = h._stat.search + 1 ∧ h2._stat.search_nf = h._stat.search_nf := by
  obtain ⟨L, hA⟩ := reachable_abs hr
  cases hc : h.compare with
  | none =>
    have hs := reachable_cll_search_nop hr hc
    unfold pall_cll_search at e
    rw [hs] at e
    simp [_cll_search_nop] at e
  | some cmp =>
    have e2 := pall_cll_search_mono fuel L.length h k _ e
    rw [pall_cll_search_eq (reachable_cll_search hr hc)] at e2
    rcases _cll_search_full hA hc k (fuel + L.length) (Nat.le_add_left _ _) with
      ⟨hall, f1, e3⟩ | ⟨pre, q, dq, post, m1, c1, hd1, f1, L2, hL, hz, e3, hA2, hlru, hnl⟩
    · rw [e2] at e3
      simp at e3
    · rw [e2] at e3
      simp only [Option.some.injEq, Prod.mk.injEq] at e3
      obtain ⟨e4, e5⟩ := e3
      subst e4 e5
      rw [(hlru hl).1] at hA2
      exact ⟨abs_head_data hA2, ⟨cmp, rfl, hz⟩, rfl, rfl⟩

theorem lru_move_to_front_witness :
    Reachable ex_three ∧ ex_three._config_flags &&& CONFIG_SEARCH_LRU ≠ 0 ∧
    pall_cll_search 3 ex_three 20 =
      some (run1 ex_three (pall_cll_search 3 ex_three 20), some 20) ∧
    head_data (run1 ex_three (pall_cll_search 3 ex_three 20)) = some 20 ∧
    (∃ cmp, ex_three.compare = some cmp ∧ cmp 20 20 = 0) ∧
    (run1 ex_three (pall_cll_search 3 ex_three 20))._stat.search =
      ex_three._stat.search + 1 ∧
    (run1 ex_three (pall_cll_search 3 ex_three 20))._stat.search_nf =
      ex_three._stat.search_nf :=
  ⟨ex_three_reachable, by decide, rfl,
    lru_move_to_front ex_three_reachable (by decide) 3 20 20 _ rfl⟩

/-- C4. Delete postcondition: in every reachable state with a compare callback `cmp` and
for every key `k`, `pall_cll_delete` returns, and it returns `0` exactly when a stored
payload compares equal to `k`. On success one node `q`, whose payload `p` compares equal to
`k`, is freed and no other node is; the head-to-tail sequence is the former one without
`p`, in the same order; `_count` goes down by one; `destroy` is called once, on `p`; the
counter `del` goes up by one. Otherwise the result is `-1`, the counter `del_nf` goes up by
one and the heap, the head, the cursor, both iteration bookmarks and `_count` are
unchanged, and `destroy` is not called. -/
theorem delete_postcondition {h : cll_handler α} (hr : Reachable h) {cmp : α → α → Int}
    (hc : h.compare = some cmp) (k : α) :
    ∃ h2 r, pall_cll_delete h._count h k = some (h2, r) ∧
      (r = 0 ↔ ∃ p ∈ head_to_tail h, cmp k p = 0) ∧
      (r = 0 → ∃ pre p post q, head_to_tail h = pre ++ p :: post ∧ cmp k p = 0 ∧
        head_to_tail h2 = pre ++ post ∧ ld_data h.mem q = some p ∧
        (∀ a, live h2.mem a ↔ live h.mem a ∧ a ≠ q) ∧ h2._count + 1 = h._count ∧
        h2.destroyed = h.destroyed ++ [p] ∧ h2._stat.del = h._stat.del + 1 ∧
        h2._stat.del_nf = h._stat.del_nf) ∧
      (r ≠ 0 → r = -1 ∧ h2._stat.del_nf = h._stat.del_nf + 1 ∧ h2._stat.del = h._stat.del ∧
        h2.mem = h.mem ∧ h2.cll_head = h.cll_head ∧ h2.cll = h.cll ∧
        h2._iterate_start = h._iterate_start ∧ h2._iterate_cur = h._iterate_cur ∧
        h2._count = h._count ∧ h2.destroyed = h.destroyed) := by
  obtain ⟨L, hA⟩ := reachable_abs hr
  rw [abs_head_to_tail hA]
  unfold pall_cll_delete _cll_delete
  rcases _cll_unlink_full hA hc k h._count (le_of_eq hA.count.symm) with
    ⟨hall, f1, e⟩ | ⟨pre, q, dq, post, m1, c1, hd1, ic1, is1, f1, hL, hz, e, hA2⟩
  · rw [e]
    refine ⟨_, _, rfl, ?_, fun h0 => absurd h0 (by decide), fun _ =>
      ⟨rfl, rfl, rfl, rfl, rfl, rfl, rfl, rfl, rfl, rfl⟩⟩
    refine ⟨fun h0 => absurd h0 (by decide), fun ⟨p, hp, hz⟩ => ?_⟩
    obtain ⟨x, hx, rfl⟩ := List.mem_map.1 hp
    exact absurd hz (hall x hx)
  · rw [e]
    have hmem : dq ∈ L.map Prod.snd := by
      rw [hL]; simp
    refine ⟨_, _, rfl, ⟨fun _ => ⟨dq, hmem, hz⟩, fun _ => rfl⟩, fun _ => ?_,
      fun h0 => absurd rfl h0⟩
    refine ⟨pre.map Prod.snd, dq, post.map Prod.snd, q, by rw [hL]; simp, hz, ?_, ?_, ?_, ?_,
      rfl, rfl, rfl⟩
    · have := abs_head_to_tail hA2
      rw [List.map_append] at this
      rw [← this]
      rfl
    · exact abs_data hA (by rw [hL]; simp)
    · intro a
      have h1 := abs_live_iff hA2 a
      have h2 := abs_live_iff hA a
      have hnd := hA.heap.nodup
      rw [hL] at hnd h2
      have hq : q ∉ (pre ++ post).map Prod.fst := by
        have := nodup_mid (by simpa using hnd : (pre.map Prod.fst ++ q :: post.map Prod.fst).Nodup)
        simpa using this
      show live m1 a ↔ _
      rw [h2]
      have h1 : live m1 a ↔ a ∈ (pre ++ post).map Prod.fst := h1
      rw [h1]
      constructor
      · intro ha
        refine ⟨by simp at ha ⊢; tauto, fun hq2 => hq (hq2 ▸ ha)⟩
      · rintro ⟨ha, hne⟩
        simp at ha ⊢
        tauto
    · show h._count - 1 + 1 = h._count
      have := hA.count
      rw [hL] at this
      simp at this
      omega

theorem delete_postcondition_witness :
    Reachable ex_three ∧ ex_three.compare = some compare_id ∧
    ∃ h2 r, pall_cll_delete ex_three._count ex_three 20 = some (h2, r) ∧
      (r = 0 ↔ ∃ p ∈ head_to_tail ex_three, compare_id 20 p = 0) ∧
      (r = 0 → ∃ pre p post q, head_to_tail ex_three = pre ++ p :: post ∧
        compare_id 20 p = 0 ∧
        head_to_tail h2 = pre ++ post ∧ ld_data ex_three.mem q = some p ∧
        (∀ a, live h2.mem a ↔ live ex_three.mem a ∧ a ≠ q) ∧
        h2._count + 1 = ex_three._count ∧
        h2.destroyed = ex_three.destroyed ++ [p] ∧
        h2._stat.del = ex_three._stat.del + 1 ∧
        h2._stat.del_nf = ex_three._stat.del_nf) ∧
      (r ≠ 0 → r = -1 ∧ h2._stat.del_nf = ex_three._stat.del_nf + 1 ∧
        h2._stat.del = ex_three._stat.del ∧
        h2.mem = ex_three.mem ∧ h2.cll_head = ex_three.cll_head ∧ h2.cll = ex_three.cll ∧
        h2._iterate_start = ex_three._iterate_start ∧
        h2._iterate_cur = ex_three._iterate_cur ∧
        h2._count = ex_three._count ∧ h2.destroyed = ex_three.destroyed) :=
  ⟨ex_three_reachable, rfl, delete_postcondition ex_three_reachable rfl 20⟩

/-- C7. Deleting a node that is not the current iteration position can end the iteration
early: on the list `1, 2`, after `rewind(0)` and one `iterate` (which returns `1`, with
`_iterate_start` at node `1` and `_iterate_cur` at node `2`), `delete(1)` removes the node
at `_iterate_start`; the next `iterate` returns `NULL` although `2` is still stored and has
not been returned. -/
theorem delete_start_ends_iteration :
    scenario_delete_start = some ((1, 2), [some 1, none], [2]) := by decide

/-- C8. The loop `rewind(0); while ((d = iterate(h))) delete(h, d);` on the list `1, 2, 3`
stops after the first element: it visits `1` only and leaves `2, 3` in the list. -/
theorem drain_loop_stops_early : scenario_drain = some ([1], 2, [2, 3]) := by decide

/-- C10. On a fresh handler, without `set_config`, the inserts go through `_cll_insert`,
not `_cll_insert_head`: after `10`, `20`, `30` the head-to-tail sequence is `10, 30, 20`. -/
theorem default_insert_is_not_head : scenario_default_insert = some [10, 30, 20] := by decide

/-! ## Iteration -/

theorem iterate_n_succ (k : Nat) (h : cll_handler α) {h1 : cll_handler α} {r : Option α}
    {h2 : cll_handler α} {rs : List (Option α)} (e1 : _cll_iterate h = some (h1, r))
    (e2 : iterate_n k h1 = some (h2, rs)) : iterate_n (k + 1) h = some (h2, r :: rs) := by
  rw [iterate_n]
  unfold pall_cll_iterate
  rw [e1, obind_some]
  simp only
  rw [e2, obind_some]

/-- Once the iteration is over, or on an empty list, `iterate` keeps returning `NULL`, and
only the counter `iterate` changes. -/
theorem iterate_idle : ∀ (j : Nat) (h : cll_handler α),
    (h.cll = 0 ∨ (h._iterate_start ≠ 0 ∧ h._iterate_cur = h._iterate_start)) →
    ∃ st, iterate_n j h = some ({ h with _stat := st }, List.replicate j none) := by
  intro j
  induction j with
  | zero => intro h _; exact ⟨h._stat, rfl⟩
  | succ j ih =>
    intro h hi
    have e1 : _cll_iterate h =
        some ({ h with _stat := { h._stat with iterate := h._stat.iterate + 1 } }, none) := by
      unfold _cll_iterate
      rcases hi with hc | ⟨hs, he⟩
      · rw [if_pos hc]
      · by_cases hc : h.cll = 0
        · rw [if_pos hc]
        · rw [if_neg hc, if_neg hs, if_pos he]
    obtain ⟨st, e2⟩ := ih { h with _stat := { h._stat with iterate := h._stat.iterate + 1 } } hi
    exact ⟨st, iterate_n_succ j h e1 e2⟩

/-- The iteration from a node of the ring `K` on, `K` being the list in the order of the
iteration: the payloads of the nodes up to the end of `K` come out, then `NULL`. -/
theorem iterate_run {m : Heap α} {rev : Int} (K : List (Nat × α))
    (hnd : (K.map Prod.fst).Nodup) (h0 : 0 ∉ K.map Prod.fst)
    (hstep : ∀ a ∈ K.map Prod.fst,
      (if rev ≠ 0 then ld_prev m a else ld_next m a) = some (cnext (K.map Prod.fst) a))
    (hdat : ∀ p ∈ K, ld_data m p.1 = some p.2) (j : Nat) :
    ∀ (rest pre : List (Nat × α)) (h : cll_handler α), K = pre ++ rest → pre ≠ [] →
      h.mem = m → h._iterate_reverse = rev → h.cll ≠ 0 →
      h._iterate_start = (K.map Prod.fst).headD 0 →
      h._iterate_cur = ((rest ++ K).map Prod.fst).headD 0 →
      ∃ c ic st, iterate_n (rest.length + j) h =
        some ({ h with cll := c, _iterate_cur := ic, _stat := st },
          rest.map (fun p => some p.2) ++ List.replicate j none) := by
  intro rest
  induction rest with
  | nil =>
    intro pre h hK hpre hm hrev hc hs hcur
    have hmem : (K.map Prod.fst).headD 0 ∈ K.map Prod.fst := by
      subst hK
      cases pre with
      | nil => exact absurd rfl hpre
      | cons p pre => simp
    have hs0 : h._iterate_start ≠ 0 := by
      rw [hs]; intro e; rw [e] at hmem; exact h0 hmem
    have he : h._iterate_cur = h._iterate_start := by
      rw [hcur, hs]; rfl
    obtain ⟨st, e⟩ := iterate_idle j h (Or.inr ⟨hs0, he⟩)
    exact ⟨h.cll, h._iterate_cur, st, by simpa using e⟩
  | cons x rest ih =>
    intro pre h hK hpre hm hrev hc hs hcur
    obtain ⟨a, d⟩ := x
    obtain ⟨p, pre, rfl⟩ := List.exists_cons_of_ne_nil hpre
    have hKm : K.map Prod.fst = p.1 :: pre.map Prod.fst ++ a :: rest.map Prod.fst := by
      rw [hK]; simp
    have ha : a ∈ K.map Prod.fst := by rw [hKm]; simp
    have hcur2 : h._iterate_cur = a := by rw [hcur]; simp
    have hs2 : h._iterate_start = p.1 := by rw [hs, hKm]; simp
    have hne : h._iterate_cur ≠ h._iterate_start := by
      rw [hcur2, hs2]
      rw [hKm] at hnd
      have := head_ne_of_nodup p.1 (pre.map Prod.fst) (rest.map Prod.fst) a hnd
      simp only [List.cons_append, List.headD_cons] at this
      exact fun e => this e.symm
    have hs0 : h._iterate_start ≠ 0 := by
      rw [hs2]; intro e
      apply h0; rw [hKm, ← e]; simp
    have ha0 : a ≠ 0 := fun e => h0 (e ▸ ha)
    have hd : ld_data h.mem a = some d := by
      rw [hm]; exact hdat (a, d) (by rw [hK]; simp)
    have hst : (if h._iterate_reverse ≠ 0 then ld_prev h.mem h._iterate_cur
        else ld_next h.mem h._iterate_cur) = some (cnext (K.map Prod.fst) a) := by
      rw [hrev, hm, hcur2]; exact hstep a ha
    have e1 : _cll_iterate h =
        some ({ h with cll := a, _iterate_cur := cnext (K.map Prod.fst) a }, some d) := by
      unfold _cll_iterate
      rw [if_neg hc, if_neg hs0, if_neg hne]
      simp only
      rw [hst, obind_some, hcur2, hd, obind_some]
    have hcn : cnext (K.map Prod.fst) a = ((rest ++ K).map Prod.fst).headD 0 := by
      have hnd2 : ((p.1 :: pre.map Prod.fst) ++ a :: rest.map Prod.fst).Nodup := by
        rw [hKm] at hnd; simpa using hnd
      rw [hKm]
      have := cnext_split (p.1 :: pre.map Prod.fst) (rest.map Prod.fst) a hnd2
      simp only [List.cons_append] at this ⊢
      rw [this]
      cases rest with
      | nil => simp [hK]
      | cons y r => simp
    obtain ⟨c, ic, st, e2⟩ := ih (p :: pre ++ [(a, d)])
      { h with cll := a, _iterate_cur := cnext (K.map Prod.fst) a }
      (by rw [hK]; simp) (by simp) hm hrev ha0 hs hcn
    refine ⟨c, ic, st, ?_⟩
    have hlen : ((a, d) :: rest).length + j = (rest.length + j) + 1 := by
      simp only [List.length_cons]; omega
    rw [hlen]
    exact iterate_n_succ _ h e1 e2

theorem cnext_run (pre rest : List Nat) (a : Nat) (hnd : (pre ++ a :: rest).Nodup) :
    cnext (pre ++ a :: rest) a = (rest ++ (pre ++ a :: rest)).headD 0 := by
  rw [cnext_split pre rest a hnd]
  cases rest with
  | nil => simp
  | cons y r => simp

/-- The first `iterate` after a `rewind`, and the rest of the iteration, on a list that is
not empty; `K` is the list in the order of the iteration. -/
theorem iterate_from_rewind {h : cll_handler α} (y : Nat × α) (R : List (Nat × α))
    (hnd : ((y :: R).map Prod.fst).Nodup) (h0 : 0 ∉ (y :: R).map Prod.fst)
    (hstep : ∀ a ∈ (y :: R).map Prod.fst,
      (if h._iterate_reverse ≠ 0 then ld_prev h.mem a else ld_next h.mem a) =
        some (cnext ((y :: R).map Prod.fst) a))
    (hdat : ∀ p ∈ y :: R, ld_data h.mem p.1 = some p.2) (hc : h.cll ≠ 0)
    (hs : h._iterate_start = 0)
    (hfirst : if h._iterate_reverse ≠ 0 then ld_prev h.mem h.cll_head = some y.1
      else h.cll_head = y.1) (j : Nat) :
    ∃ c ic is st, iterate_n ((y :: R).length + j) h =
      some ({ h with cll := c, _iterate_cur := ic, _iterate_start := is, _stat := st },
        (y :: R).map (fun p => some p.2) ++ List.replicate j none) := by
  have hy : y.1 ∈ (y :: R).map Prod.fst := by simp
  have hdy : ld_data h.mem y.1 = some y.2 := hdat y (by simp)
  have hcn := cnext_run [] (R.map Prod.fst) y.1 (by simpa using hnd)
  have e1 : _cll_iterate h =
      some ({ h with _iterate_start := y.1, _iterate_cur := cnext ((y :: R).map Prod.fst) y.1 },
        some y.2) := by
    unfold _cll_iterate
    rw [if_neg hc, if_pos hs]
    by_cases hr : h._iterate_reverse ≠ 0
    · rw [if_pos hr] at hfirst
      have h2 := hstep y.1 hy
      rw [if_pos hr] at h2
      rw [if_pos hr, hfirst, obind_some, h2, obind_some, obind_some]
      simp only
      rw [hdy, obind_some]
    · rw [if_neg hr] at hfirst
      have h2 := hstep y.1 hy
      rw [if_neg hr] at h2
      rw [if_neg hr, hfirst, h2, obind_some, obind_some]
      simp only
      rw [hdy, obind_some]
  obtain ⟨c, ic, st, e2⟩ := iterate_run (y :: R) hnd h0 hstep hdat j R [y]
    { h with _iterate_start := y.1, _iterate_cur := cnext ((y :: R).map Prod.fst) y.1 }
    rfl (by simp) rfl rfl hc (by simp) (by
      show cnext ((y :: R).map Prod.fst) y.1 = _
      simp only [List.map_cons, List.map_append, List.nil_append] at hcn ⊢
      exact hcn)
  refine ⟨c, ic, y.1, st, ?_⟩
  have hlen : (y :: R).length + j = (R.length + j) + 1 := by
    simp only [List.length_cons]; omega
  rw [hlen]
  have := iterate_n_succ _ h e1 e2
  simpa using this

/-- What the calls of `iterate` after `rewind` return, in every reachable state. -/
theorem iterate_n_rewind {h : cll_handler α} (hr : Reachable h) (to_ : Int) (j : Nat) :
    ∃ h2, iterate_n (h._count + j) (pall_cll_rewind h to_) =
        some (h2, (if to_ = 0 then head_to_tail h else (head_to_tail h).reverse).map some ++
          List.replicate j none) ∧
      (head_to_tail h).length = h._count ∧ head_to_tail h2 = head_to_tail h := by
  obtain ⟨L, hA⟩ := reachable_abs hr
  rw [abs_head_to_tail hA, hA.count, List.length_map]
  cases L with
  | nil =>
    obtain ⟨st, e⟩ := iterate_idle (0 + j) (pall_cll_rewind h to_) (Or.inl hA.cll_zero)
    refine ⟨{ pall_cll_rewind h to_ with _stat := st }, ?_, rfl, ?_⟩
    · simpa using e
    · show head_to_tail h = _
      exact abs_head_to_tail hA
  | cons x T =>
    have hc : (pall_cll_rewind h to_).cll ≠ 0 := hA.cll_ne_zero (by simp)
    have hhead : h.cll_head = x.1 := by simpa using hA.head
    by_cases ht : to_ = 0
    · subst ht
      obtain ⟨c, ic, is, st, e⟩ := iterate_from_rewind (h := pall_cll_rewind h 0) x T
        hA.heap.nodup hA.heap.nonnull
        (fun a ha => by
          show (if (0 : Int) ≠ 0 then _ else _) = _
          rw [if_neg (by simp)]
          exact hA.heap.ring.next ha)
        hA.heap.data hc rfl
        (by
          show (if (0 : Int) ≠ 0 then _ else _)
          rw [if_neg (by simp)]
          exact hhead) j
      refine ⟨{ pall_cll_rewind h 0 with cll := c, _iterate_cur := ic, _iterate_start := is, _stat := st }, ?_, rfl, ?_⟩
      · rw [e, if_pos rfl]
        simp
      · show head_to_tail h = _
        exact abs_head_to_tail hA
    · obtain ⟨y, R, hyR⟩ : ∃ y R, (x :: T).reverse = y :: R := by
        cases hrv : (x :: T).reverse with
        | nil => simp at hrv
        | cons y R => exact ⟨y, R, rfl⟩
      have hmap : (y :: R).map Prod.fst = ((x :: T).map Prod.fst).reverse := by
        rw [← hyR, List.map_reverse]
      have hlen : (x :: T).length = (y :: R).length := by
        rw [← hyR, List.length_reverse]
      have hwrap : cprev ((x :: T).map Prod.fst) x.1 = y.1 := by
        have hnd := hA.heap.nodup
        simp only [List.map_cons, List.nodup_cons] at hnd
        rw [List.map_cons, cprev_first _ _ hnd.1, ← List.reverse_cons, ← List.map_cons,
          ← List.map_reverse, hyR]
        simp
      obtain ⟨c, ic, is, st, e⟩ := iterate_from_rewind (h := pall_cll_rewind h to_) y R
        (by rw [hmap]; exact List.nodup_reverse.2 hA.heap.nodup)
        (by rw [hmap]; exact fun hm => hA.heap.nonnull (List.mem_reverse.1 hm))
        (fun a ha => by
          show (if to_ ≠ 0 then _ else _) = _
          rw [if_pos ht, hmap]
          rw [hmap] at ha
          exact hA.heap.ring.prev (List.mem_reverse.1 ha))
        (fun p hp => hA.heap.data p (by
          rw [← hyR] at hp; exact List.mem_reverse.1 hp)) hc rfl
        (by
          show (if to_ ≠ 0 then _ else _)
          rw [if_pos ht]
          show ld_prev h.mem h.cll_head = _
          rw [hhead, hA.heap.ring.prev (by simp), hwrap]) j
      refine ⟨{ pall_cll_rewind h to_ with cll := c, _iterate_cur := ic, _iterate_start := is, _stat := st }, ?_, rfl, ?_⟩
      · rw [hlen, e, if_neg ht, ← List.map_reverse, hyR]
        simp
      · show head_to_tail h = _
        exact abs_head_to_tail hA

/-- C2. Iteration coverage: in every reachable state, whose head-to-tail payload sequence
is `s`, the calls of `iterate` that follow `rewind(0)` return the elements of `s` in order,
and those that follow `rewind(to)` with `to ≠ 0` return the elements of `s` in reverse
order; these are `_count` payloads; every further call, `j` of them for any `j`, returns
`NULL`; the list is the same afterwards. -/
theorem iteration_coverage {h : cll_handler α} (hr : Reachable h) (to_ : Int) (j : Nat) :
    ∃ h2, iterate_n (h._count + j) (pall_cll_rewind h to_) =
        some (h2, (if to_ = 0 then head_to_tail h else (head_to_tail h).reverse).map some ++
          List.replicate j none) ∧
      (head_to_tail h).length = h._count ∧ head_to_tail h2 = head_to_tail h :=
  iterate_n_rewind hr to_ j

theorem iteration_coverage_witness :
    Reachable ex_three ∧
    ∃ h2, iterate_n (ex_three._count + 2) (pall_cll_rewind ex_three 1) =
        some (h2, (if (1 : Int) = 0 then head_to_tail ex_three
          else (head_to_tail ex_three).reverse).map some ++ List.replicate 2 none) ∧
      (head_to_tail ex_three).length = ex_three._count ∧
      head_to_tail h2 = head_to_tail ex_three :=
  ⟨ex_three_reachable, iteration_coverage ex_three_reachable 1 2⟩

/-! ## Sorted insertion -/

theorem pairwise_insert {β : Type} (R : β → β → Prop) (A B : List β) (x : β)
    (hAB : (A ++ B).Pairwise R) (ha : ∀ a ∈ A, R a x) (hb : ∀ b ∈ B, R x b) :
    (A ++ x :: B).Pairwise R := by
  rw [List.pairwise_append] at hAB ⊢
  refine ⟨hAB.1, List.pairwise_cons.2 ⟨hb, hAB.2.1⟩, ?_⟩
  intro a haA b hbB
  rcases List.mem_cons.1 hbB with rfl | hbB
  · exact ha a haA
  · exact hAB.2.2 a haA b hbB

theorem cmp_refl_le {cmp : α → α → Int} (hsym : ∀ a b, 0 < cmp a b ↔ cmp b a < 0) (a : α) :
    cmp a a ≤ 0 := by
  by_contra hlt
  have h1 : 0 < cmp a a := by omega
  have h2 := (hsym a a).1 h1
  omega

theorem cmp_le_of_not_lt {cmp : α → α → Int} (hsym : ∀ a b, 0 < cmp a b ↔ cmp b a < 0)
    {a b : α} (h : ¬ cmp a b < 0) : cmp b a ≤ 0 := by
  by_contra hlt
  have h1 : 0 < cmp b a := by omega
  exact h ((hsym b a).1 h1)

theorem cmp_le_of_gt {cmp : α → α → Int} (hsym : ∀ a b, 0 < cmp a b ↔ cmp b a < 0)
    {a b : α} (h : cmp a b > 0) : cmp b a ≤ 0 :=
  le_of_lt ((hsym a b).1 h)

/-- Where `_cll_insert_sorted` puts the new node, a sorted list stays sorted. -/
theorem sortedIns_pairwise {cmp : α → α → Int} (hsym : ∀ a b, 0 < cmp a b ↔ cmp b a < 0)
    (htr : ∀ a b c, cmp a b ≤ 0 → cmp b c ≤ 0 → cmp a c ≤ 0)
    {x : α} {pre post L2 : List (Nat × α)} {c : Nat × α} {n : Nat}
    (hS : SortedIns cmp x pre c post (n, x) L2)
    (hP : (pre ++ c :: post).Pairwise (fun a b => cmp a.2 b.2 ≤ 0)) :
    L2.Pairwise (fun a b => cmp a.2 b.2 ≤ 0) ∧ L2.Perm ((n, x) :: (pre ++ c :: post)) := by
  have hP' := hP
  rw [List.pairwise_append, List.pairwise_cons] at hP'
  obtain ⟨hpre, ⟨hcpost, hpost⟩, hprec⟩ := hP'
  rcases hS with ⟨hgt, ⟨pre1, q, pre2, rfl, hall, hq, rfl⟩ | ⟨hall, rfl⟩⟩ |
      ⟨hle, ⟨post1, q, post2, rfl, hall, hq, rfl⟩ | ⟨hall, rfl⟩⟩
  · have hxc : cmp x c.2 ≤ 0 := cmp_le_of_gt hsym hgt
    have e : pre1 ++ q :: (n, x) :: pre2 ++ c :: post =
        (pre1 ++ [q]) ++ (n, x) :: (pre2 ++ c :: post) := by simp
    have e2 : (pre1 ++ q :: pre2) ++ c :: post = (pre1 ++ [q]) ++ (pre2 ++ c :: post) := by
      simp
    rw [e]
    refine ⟨pairwise_insert _ _ _ _ (e2 ▸ hP) ?_ ?_, ?_⟩
    · intro a ha
      have hqx : cmp q.2 x ≤ 0 := by omega
      rcases List.mem_append.1 ha with ha | ha
      · have hpw := hpre
        rw [List.pairwise_append] at hpw
        exact htr _ _ _ (hpw.2.2 a ha q (by simp)) hqx
      · rcases List.mem_singleton.1 ha with rfl
        exact hqx
    · intro b hb
      show cmp x b.2 ≤ 0
      rcases List.mem_append.1 hb with hb | hb
      · exact cmp_le_of_gt hsym (hall b hb)
      · rcases List.mem_cons.1 hb with rfl | hb
        · exact hxc
        · exact htr _ _ _ hxc (hcpost b hb)
    · rw [e2]
      exact List.perm_middle
  · have hxc : cmp x c.2 ≤ 0 := cmp_le_of_gt hsym hgt
    refine ⟨?_, List.Perm.refl _⟩
    rw [List.cons_append]
    refine List.pairwise_cons.2 ⟨?_, hP⟩
    intro b hb
    show cmp x b.2 ≤ 0
    rcases List.mem_append.1 hb with hb | hb
    · exact cmp_le_of_gt hsym (hall b hb)
    · rcases List.mem_cons.1 hb with rfl | hb
      · exact hxc
      · exact htr _ _ _ hxc (hcpost b hb)
  · have hcx : cmp c.2 x ≤ 0 := by omega
    have e : pre ++ c :: post1 ++ (n, x) :: q :: post2 =
        (pre ++ c :: post1) ++ (n, x) :: (q :: post2) := by simp
    have e2 : pre ++ c :: (post1 ++ q :: post2) = (pre ++ c :: post1) ++ (q :: post2) := by
      simp
    have hxq : cmp x q.2 ≤ 0 := cmp_le_of_not_lt hsym hq
    rw [e]
    refine ⟨pairwise_insert _ _ _ _ (e2 ▸ hP) ?_ ?_, ?_⟩
    · intro a ha
      show cmp a.2 x ≤ 0
      rcases List.mem_append.1 ha with ha | ha
      · exact htr _ _ _ (hprec a ha c (by simp)) hcx
      · rcases List.mem_cons.1 ha with rfl | ha
        · exact hcx
        · exact le_of_lt (hall a ha)
    · intro b hb
      show cmp x b.2 ≤ 0
      rcases List.mem_cons.1 hb with rfl | hb
      · exact hxq
      · have hpw := hpost
        rw [List.pairwise_append, List.pairwise_cons] at hpw
        exact htr _ _ _ hxq (hpw.2.1.1 b hb)
    · rw [e2]
      exact List.perm_middle
  · have hcx : cmp c.2 x ≤ 0 := by omega
    have e : pre ++ c :: post ++ [(n, x)] = (pre ++ c :: post) ++ (n, x) :: [] := by simp
    rw [e]
    refine ⟨pairwise_insert _ _ _ _ (by simpa using hP) ?_ (by simp), ?_⟩
    · intro a ha
      show cmp a.2 x ≤ 0
      rcases List.mem_append.1 ha with ha | ha
      · exact htr _ _ _ (hprec a ha c (by simp)) hcx
      · rcases List.mem_cons.1 ha with rfl | ha
        · exact hcx
        · exact le_of_lt (hall a ha)
    · simpa using @List.perm_middle _ (n, x) (pre ++ c :: post) []

theorem compare_id_sym (a b : Nat) : 0 < compare_id a b ↔ compare_id b a < 0 := by
  unfold compare_id
  split_ifs <;> simp; omega

theorem compare_id_trans (a b c : Nat) (h1 : compare_id a b ≤ 0) (h2 : compare_id b c ≤ 0) :
    compare_id a c ≤ 0 := by
  unfold compare_id at *
  split_ifs at * <;> simp at * <;> omega

/-- A call of `pall_cll_insert` that returns, with a fresh address or none, leads to a
reachable state. -/
theorem reachable_run1_insert {h : cll_handler α} (hr : Reachable h) (fuel : Nat) (x : α)
    (n : Nat) (hn : (h.mem n).isNone = true)
    (hs : (pall_cll_insert fuel h x n).isSome = true) :
    Reachable (run1 h (pall_cll_insert fuel h x n)) := by
  cases e : pall_cll_insert fuel h x n with
  | none => rw [e] at hs; cases hs
  | some r =>
    exact Reachable.insert fuel h x n r.1 r.2 hr (Or.inr (Option.isNone_iff_eq_none.1 hn)) e

theorem ex_sorted_reachable : Reachable ex_sorted := by
  have h0 : Reachable (pall_cll_set_config ex_fresh CONFIG_INSERT_SORTED).1 :=
    Reachable.set_config _ _ ex_fresh_reachable
  have h1 := reachable_run1_insert h0 4 5 1 (by decide) (by decide)
  have h2 := reachable_run1_insert h1 4 1 2 (by decide) (by decide)
  have h3 := reachable_run1_insert h2 4 3 3 (by decide) (by decide)
  exact reachable_run1_insert h3 4 2 4 (by decide) (by decide)

theorem ex_sorted_chain :
    List.Chain' (fun a b => compare_id a b ≤ 0) (head_to_tail ex_sorted) := by
  have e : head_to_tail ex_sorted = [1, 2, 3, 5] := by decide
  rw [e]
  simp [compare_id]

/-- The example of sorted insertion: `5, 1, 3, 2, 4` come out as `1, 2, 3, 4, 5`. -/
theorem scenario_sorted_eq :
    scenario_sorted = some [some 1, some 2, some 3, some 4, some 5] := by decide

/-- C5. Sorted insertion keeps the list sorted from any cursor position: in every reachable
state whose insert function is `_cll_insert_sorted` and whose head-to-tail sequence is
non-decreasing under the compare callback `cmp`, where `cmp` is a three-way comparison of a
total preorder (`cmp a b > 0` exactly when `cmp b a < 0`, and `cmp a b ≤ 0` is transitive),
wherever the cursor is, a call of `pall_cll_insert` with payload `x` whose allocation
succeeds returns `0` within `_count` turns of its loop; afterwards the head-to-tail sequence
is non-decreasing, holds `x` and the former payloads and nothing else, and the payload of
the head is a minimum. -/
theorem sorted_insert {h : cll_handler α} (hr : Reachable h)
    (hi : h.insert = insert_fn.cll_insert_sorted) {cmp : α → α → Int}
    (hc : h.compare = some cmp) (hsym : ∀ a b, 0 < cmp a b ↔ cmp b a < 0)
    (htr : ∀ a b c, cmp a b ≤ 0 → cmp b c ≤ 0 → cmp a c ≤ 0)
    (hs : List.Chain' (fun a b => cmp a b ≤ 0) (head_to_tail h))
    (x : α) (n : Nat) (hn : n ≠ 0) (hf : h.mem n = none) :
    ∃ h2, pall_cll_insert h._count h x n = some (h2, 0) ∧
      List.Chain' (fun a b => cmp a b ≤ 0) (head_to_tail h2) ∧
      (head_to_tail h2).Perm (x :: head_to_tail h) ∧
      ∃ m, head_data h2 = some m ∧ ∀ p ∈ head_to_tail h2, cmp m p ≤ 0 := by
  obtain ⟨L, hA⟩ := reachable_abs hr
  have hpi : pall_cll_insert h._count h x n = _cll_insert_sorted h._count h x n := by
    unfold pall_cll_insert; rw [hi]
  rw [hpi]
  rw [abs_head_to_tail hA] at hs ⊢
  haveI : IsTrans α (fun a b => cmp a b ≤ 0) := ⟨htr⟩
  rcases hA.cur with ⟨rfl, _⟩ | hcur
  · obtain ⟨m1, e, hA2⟩ := _cll_insert_sorted_nil hA x n hn h._count
    refine ⟨_, e, ?_, ?_, x, abs_head_data hA2, ?_⟩
    · rw [abs_head_to_tail hA2]; simp
    · rw [abs_head_to_tail hA2]; simp
    · rw [abs_head_to_tail hA2]
      intro p hp
      simp at hp
      subst hp
      exact cmp_refl_le hsym _
  · obtain ⟨pre, d, post, rfl⟩ := split_of_mem_fst hcur
    obtain ⟨m1, hd2, L2, e, hA2, hS⟩ := _cll_insert_sorted_spec pre post hA hc x n hn hf
      h._count (le_of_eq hA.count.symm)
    have hP : (pre ++ (h.cll, d) :: post).Pairwise (fun a b => cmp a.2 b.2 ≤ 0) := by
      have := List.chain'_iff_pairwise.1 hs
      exact List.pairwise_map.1 this
    obtain ⟨hP2, hperm⟩ := sortedIns_pairwise hsym htr hS hP
    have hP3 : (L2.map Prod.snd).Pairwise (fun a b => cmp a b ≤ 0) := List.pairwise_map.2 hP2
    refine ⟨_, e, ?_, ?_, ?_⟩
    · rw [abs_head_to_tail hA2]
      exact List.Pairwise.chain' hP3
    · rw [abs_head_to_tail hA2]
      exact hperm.map Prod.snd
    · rw [abs_head_to_tail hA2]
      cases L2 with
      | nil => exact absurd hperm.length_eq (by simp)
      | cons y L3 =>
        obtain ⟨y1, y2⟩ := y
        refine ⟨y2, abs_head_data hA2, ?_⟩
        intro p hp
        rw [List.map_cons, List.pairwise_cons] at hP3
        rcases List.mem_cons.1 hp with rfl | hp
        · exact cmp_refl_le hsym _
        · exact hP3.1 p hp

theorem sorted_insert_witness :
    Reachable ex_sorted ∧ ex_sorted.insert = insert_fn.cll_insert_sorted ∧
    ex_sorted.compare = some compare_id ∧
    List.Chain' (fun a b => compare_id a b ≤ 0) (head_to_tail ex_sorted) ∧
    (5 : Nat) ≠ 0 ∧ ex_sorted.mem 5 = none ∧
    ∃ h2, pall_cll_insert ex_sorted._count ex_sorted 4 5 = some (h2, 0) ∧
      List.Chain' (fun a b => compare_id a b ≤ 0) (head_to_tail h2) ∧
      (head_to_tail h2).Perm (4 :: head_to_tail ex_sorted) ∧
      ∃ m, head_data h2 = some m ∧ ∀ p ∈ head_to_tail h2, compare_id m p ≤ 0 :=
  ⟨ex_sorted_reachable, rfl, rfl, ex_sorted_chain, by decide, rfl,
    sorted_insert ex_sorted_reachable rfl rfl compare_id_sym compare_id_trans ex_sorted_chain
      4 5 (by decide) rfl⟩

/-! ## Serialization -/

theorem ntohl_pall_htonl (c : Nat) (hc : c < 4294967296) : ntohl (pall_htonl c) = c := by
  unfold pall_htonl ntohl
  simp only
  omega

theorem pall_write_four (fd : pall_fd_t) (bs : List Nat) (hb : bs.length = 4)
    (hroom : 4 ≤ fd.room) :
    (pall_write fd bs).2 = 4 ∧ (pall_write fd bs).1.wr = fd.wr ++ bs := by
  unfold pall_write
  have hm : min bs.length fd.room = 4 := by rw [hb]; omega
  simp only [hm]
  refine ⟨rfl, ?_⟩
  rw [← hb, List.take_length]

theorem pall_htonl_length (c : Nat) : (pall_htonl c).length = 4 := rfl

theorem pall_read_four (fd : pall_fd_t) (bs rest : List Nat) (hb : bs.length = 4)
    (hrd : fd.rd = bs ++ rest) :
    (pall_read fd 4).2 = bs ∧ (pall_read fd 4).1.rd = rest := by
  unfold pall_read
  simp only [hrd]
  rw [← hb]
  simp

/-- The stream after the element callback has run on the payloads `xs` in order. -/
theorem foldl_ser_wr {ser : pall_fd_t → α → pall_fd_t × Int} {enc : α → List Nat}
    (hser : ∀ fd x, (ser fd x).2 = 0 ∧ (ser fd x).1.wr = fd.wr ++ enc x) :
    ∀ (xs : List α) (fd : pall_fd_t),
      (xs.foldl (fun f x => (ser f x).1) fd).wr = fd.wr ++ xs.flatMap enc := by
  intro xs
  induction xs with
  | nil => intro fd; simp
  | cons x xs ih =>
    intro fd
    rw [List.foldl_cons, ih, (hser fd x).2]
    simp

/-- The loop of `_cll_serialize` runs the element callback on the payloads from `pool` to
the tail, in order. -/
theorem _cll_serialize_loop_spec {h : cll_handler α} {ser : pall_fd_t → α → pall_fd_t × Int}
    (hok : ∀ fd x, 0 ≤ (ser fd x).2) :
    ∀ (rest pre : List (Nat × α)) (fuel : Nat) (fd : pall_fd_t) (a : Nat) (d : α),
      HeapAbs h.mem (pre ++ (a, d) :: rest) → ((a, d) :: rest).length ≤ fuel →
      _cll_serialize_loop ser (((pre ++ (a, d) :: rest).map Prod.fst).headD 0) fuel h fd a =
        some ({ h with _stat := { h._stat with serialize := h._stat.serialize + 1 } },
          (((a, d) :: rest).map Prod.snd).foldl (fun f x => (ser f x).1) fd, 0) := by
  intro rest
  induction rest with
  | nil =>
    intro pre fuel fd a d hm hf
    cases fuel with
    | zero => simp at hf
    | succ fuel =>
      rw [_cll_serialize_loop, hm.dat pre [], obind_some]
      simp only
      rw [if_neg (not_lt.2 (hok fd d)), hm.hnext pre [], obind_some]
      have e : ((([] : List (Nat × α)) ++ pre).map Prod.fst ++ [a]).headD 0 =
          ((pre ++ [(a, d)]).map Prod.fst).headD 0 := by simp
      rw [if_pos e]
      rfl
  | cons y rest ih =>
    intro pre fuel fd a d hm hf
    obtain ⟨b, e⟩ := y
    cases fuel with
    | zero => simp at hf
    | succ fuel =>
      rw [_cll_serialize_loop, hm.dat pre _, obind_some]
      simp only
      rw [if_neg (not_lt.2 (hok fd d)), hm.hnext pre _, obind_some]
      have hnx : (((b, e) :: rest ++ pre).map Prod.fst ++ [a]).headD 0 = b := by simp
      have hm2 : HeapAbs h.mem ((pre ++ [(a, d)]) ++ (b, e) :: rest) := by
        rw [List.append_assoc]; exact hm
      have hst : ((pre ++ (a, d) :: (b, e) :: rest).map Prod.fst).headD 0 =
          (((pre ++ [(a, d)]) ++ (b, e) :: rest).map Prod.fst).headD 0 := by
        rw [List.append_assoc]; rfl
      have hne : b ≠ ((pre ++ (a, d) :: (b, e) :: rest).map Prod.fst).headD 0 := by
        rw [hst]
        have hnd := hm2.nodup
        obtain ⟨q, Q, hq⟩ : ∃ q Q, pre ++ [(a, d)] = q :: Q := by
          cases pre with
          | nil => exact ⟨_, _, rfl⟩
          | cons q Q => exact ⟨q, Q ++ [(a, d)], rfl⟩
        rw [hq] at hnd ⊢
        have := head_ne_of_nodup q.1 (Q.map Prod.fst) (rest.map Prod.fst) b
          (by simpa using hnd)
        intro hb
        apply this
        rw [hb]
        simp
      rw [hnx, if_neg hne, hst, ih (pre ++ [(a, d)]) fuel _ b e hm2
        (by simp only [List.length_cons] at hf ⊢; omega)]
      rfl

theorem _cll_serialize_spec {h : cll_handler α} {L : List (Nat × α)} (hA : Abs h L)
    {ser : pall_fd_t → α → pall_fd_t × Int} (hs : h.ser_data = some ser)
    (hok : ∀ fd x, 0 ≤ (ser fd x).2) (fd : pall_fd_t) (hroom : 4 ≤ fd.room) (fuel : Nat)
    (hf : L.length ≤ fuel) :
    _cll_serialize fuel h fd =
      some ({ h with _stat := { h._stat with serialize := h._stat.serialize + 1 } },
        (L.map Prod.snd).foldl (fun f x => (ser f x).1)
          (pall_write fd (pall_htonl h._count)).1, 0) := by
  unfold _cll_serialize
  rw [hs]
  simp only
  have hw := pall_write_four fd (pall_htonl h._count) rfl hroom
  rw [if_neg (not_not.2 hw.1)]
  cases L with
  | nil =>
    rw [if_pos hA.cll_zero]
    rfl
  | cons x T =>
    rw [if_neg (hA.cll_ne_zero (by simp))]
    obtain ⟨a, d⟩ := x
    have ha : h.cll_head = a := by simpa using hA.head
    have := _cll_serialize_loop_spec hok T [] fuel (pall_write fd (pall_htonl h._count)).1 a d
      (by simpa using hA.heap) hf
    simp only [List.nil_append, List.map_cons, List.headD_cons] at this
    have e2 : _cll_serialize_loop ser h.cll_head fuel h (pall_write fd (pall_htonl h._count)).1
        h.cll_head =
        _cll_serialize_loop ser a fuel h (pall_write fd (pall_htonl h._count)).1 a := by
      rw [ha]
    rw [e2, this]
    simp [hs]

@[simp] theorem insert_account_insert (h : cll_handler α) :
    (insert_account h).insert = h.insert := by
  unfold insert_account; simp only []; split <;> rfl

@[simp] theorem insert_account_flags (h : cll_handler α) :
    (insert_account h)._config_flags = h._config_flags := by
  unfold insert_account; simp only []; split <;> rfl

/-- The loop of `_cll_unserialize` on a handler whose insert function is `_cll_insert`
without `CONFIG_INSERT_NEXT`, once the list holds a node: each payload read goes right
after the head. -/
theorem _cll_unserialize_loop_spec {unser : pall_fd_t → pall_fd_t × Option α}
    {enc : α → List Nat}
    (hdec : ∀ fd x rest, fd.rd = enc x ++ rest → (unser fd).2 = some x ∧ (unser fd).1.rd = rest)
    (fuel : Nat) :
    ∀ (ys : List α) (g : cll_handler α) (p : Nat × α) (acc : List (Nat × α)) (fd : pall_fd_t)
      (a : Nat) (tl : List Nat),
      Abs g (p :: acc) → g.cll = ((acc ++ [p]).map Prod.fst).headD 0 →
      g.insert = insert_fn.cll_insert → ¬ g._config_flags &&& CONFIG_INSERT_NEXT ≠ 0 →
      (∀ b ∈ (p :: acc).map Prod.fst, b < a) → fd.rd = ys.flatMap enc ++ tl →
      ∃ g2 fd2 acc2, _cll_unserialize_loop unser fuel ys.length g fd a = some (g2, fd2, 0) ∧
        Abs g2 (p :: acc2) ∧ acc2.map Prod.snd = ys.reverse ++ acc.map Prod.snd ∧
        fd2.rd = tl := by
  intro ys
  induction ys with
  | nil =>
    intro g p acc fd a tl hA hcll hins hfl hlt hrd
    refine ⟨{ g with _stat := { g._stat with unserialize := g._stat.unserialize + 1 } }, fd,
      acc, rfl, abs_congr hA rfl rfl rfl rfl rfl rfl, by simp, by simpa using hrd⟩
  | cons y ys ih =>
    intro g p acc fd a tl hA hcll hins hfl hlt hrd
    have hd := hdec fd y (ys.flatMap enc ++ tl) (by rw [hrd]; simp)
    have ha0 : a ≠ 0 := by
      have := hlt p.1 (by simp)
      omega
    have hfresh : g.mem a = none := by
      apply hA.heap.exact
      intro hm
      exact absurd (hlt a hm) (lt_irrefl a)
    have hstep : ∀ (m1 : Heap α) (acc1 : List (Nat × α)),
        _cll_insert g y a = some (insert_account { g with mem := m1, cll := a }, 0) →
        Abs (insert_account { g with mem := m1, cll := a }) (p :: acc1) →
        acc1 = (a, y) :: acc →
        ∃ g2 fd2 acc2, _cll_unserialize_loop unser fuel (y :: ys).length g fd a =
            some (g2, fd2, 0) ∧
          Abs g2 (p :: acc2) ∧ acc2.map Prod.snd = (y :: ys).reverse ++ acc.map Prod.snd ∧
          fd2.rd = tl := by
      intro m1 acc1 e hA2 hacc
      subst hacc
      obtain ⟨g2, fd2, acc2, e2, hA3, hp, hr⟩ := ih (insert_account { g with mem := m1, cll := a })
        p ((a, y) :: acc) (unser fd).1 (a + 1) tl hA2 (by simp) (by simpa using hins)
        (by simpa using hfl)
        (by
          intro b hb
          simp only [List.map_cons, List.mem_cons] at hb
          rcases hb with rfl | rfl | hb
          · exact Nat.lt_succ_of_lt (hlt _ (by simp))
          · exact Nat.lt_succ_self _
          · exact Nat.lt_succ_of_lt (hlt b (by simp [hb])))
        hd.2
      refine ⟨g2, fd2, acc2, ?_, hA3, by rw [hp]; simp, hr⟩
      rw [List.length_cons, _cll_unserialize_loop]
      simp only [hd.1, hins, e, obind_some]
      rw [if_neg (by decide)]
      simpa only [hins] using e2
    cases acc with
    | nil =>
      have hc : g.cll = p.1 := by simpa using hcll
      have hA1 : Abs g ((g.cll, p.2) :: []) := by rw [hc]; exact hA
      obtain ⟨m1, e, hA2⟩ := _cll_insert_spec_prev_head hA1 y a ha0 hfresh hfl
      rw [hc] at hA2
      exact hstep m1 _ e hA2 rfl
    | cons q post =>
      obtain ⟨c, d⟩ := q
      have hc : g.cll = c := by simpa using hcll
      have hA1 : Abs g (p :: [] ++ (g.cll, d) :: post) := by rw [hc]; exact hA
      obtain ⟨m1, e, hA2⟩ := _cll_insert_spec_prev hA1 y a ha0 hfresh hfl
      rw [hc] at hA2
      exact hstep m1 _ e hA2 rfl

/-- The loop of `_cll_unserialize` on an empty handler whose insert function is
`_cll_insert` without `CONFIG_INSERT_NEXT`: the first payload read is the head, the others
follow it in reverse order. -/
theorem _cll_unserialize_loop_fresh {unser : pall_fd_t → pall_fd_t × Option α}
    {enc : α → List Nat}
    (hdec : ∀ fd x rest, fd.rd = enc x ++ rest → (unser fd).2 = some x ∧ (unser fd).1.rd = rest)
    (fuel : Nat) (ys : List α) (g : cll_handler α) (fd : pall_fd_t) (a : Nat) (tl : List Nat)
    (hA : Abs g []) (hins : g.insert = insert_fn.cll_insert)
    (hfl : ¬ g._config_flags &&& CONFIG_INSERT_NEXT ≠ 0) (ha : a ≠ 0)
    (hrd : fd.rd = ys.flatMap enc ++ tl) :
    ∃ g2 fd2 G, _cll_unserialize_loop unser fuel ys.length g fd a = some (g2, fd2, 0) ∧
      Abs g2 G ∧ G.map Prod.snd = ys.take 1 ++ (ys.drop 1).reverse ∧ fd2.rd = tl := by
  cases ys with
  | nil =>
    exact ⟨{ g with _stat := { g._stat with unserialize := g._stat.unserialize + 1 } }, fd,
      [], rfl, abs_congr hA rfl rfl rfl rfl rfl rfl, by simp, by simpa using hrd⟩
  | cons y ys =>
    have hd := hdec fd y (ys.flatMap enc ++ tl) (by rw [hrd]; simp)
    obtain ⟨m1, e, hA2⟩ := _cll_insert_spec_nil hA y a ha
    obtain ⟨g2, fd2, acc2, e2, hA3, hp, hr⟩ := _cll_unserialize_loop_spec hdec fuel ys
      (insert_account { g with mem := m1, cll_head := a, cll := a }) (a, y) [] (unser fd).1
      (a + 1) tl hA2 (by simp) (by simpa using hins) (by simpa using hfl)
      (by intro b hb; simp at hb; omega) hd.2
    refine ⟨g2, fd2, (a, y) :: acc2, ?_, hA3, by rw [List.map_cons, hp]; simp, hr⟩
    rw [List.length_cons, _cll_unserialize_loop]
    simp only [hd.1, hins, e, obind_some]
    rw [if_neg (by decide)]
    simpa only [hins] using e2

theorem init_fresh {compare : Option (α → α → Int)}
    {ser_data : Option (pall_fd_t → α → pall_fd_t × Int)}
    {unser_data : Option (pall_fd_t → pall_fd_t × Option α)} {g : cll_handler α}
    (hg : pall_cll_init compare true ser_data unser_data true = some g) :
    g.insert = insert_fn.cll_insert ∧ ¬ g._config_flags &&& CONFIG_INSERT_NEXT ≠ 0 ∧
      g.unser_data = unser_data ∧ g.ser_data = ser_data := by
  unfold pall_cll_init at hg
  simp only [Bool.not_true, Bool.false_eq_true, if_false, Option.some.injEq] at hg
  subst hg
  have hd : ¬ (CONFIG_SEARCH_LRU ||| CONFIG_INSERT_HEAD) &&& CONFIG_INSERT_NEXT ≠ 0 := by decide
  exact ⟨rfl, hd, rfl, rfl⟩

/-- What `_cll_serialize` followed by `_cll_unserialize` does on a handler that comes from
`pall_cll_init` with the insert pointer `_cll_insert`: for every reachable handler `h` with
fewer than `2^32` payloads and a codec whose writes succeed and whose reads return what
has been written, `pall_cll_serialize` to an empty stream with room for the prefix returns
`0`, and `pall_cll_unserialize` of the bytes written returns `0` and yields a handler with
the same count and the same payloads, each payload read after the first being linked right
after the head. -/
theorem _cll_round_trip_spec {h : cll_handler α} (hr : Reachable h)
    {ser : pall_fd_t → α → pall_fd_t × Int} {unser : pall_fd_t → pall_fd_t × Option α}
    {enc : α → List Nat} (hs : h.ser_data = some ser)
    (hser : ∀ fd x, (ser fd x).2 = 0 ∧ (ser fd x).1.wr = fd.wr ++ enc x)
    (hdec : ∀ fd x rest, fd.rd = enc x ++ rest → (unser fd).2 = some x ∧ (unser fd).1.rd = rest)
    (hcount : h._count < 4294967296) (fd : pall_fd_t) (hroom : 4 ≤ fd.room)
    (hwr : fd.wr = []) (compare2 : Option (α → α → Int))
    (ser2 : Option (pall_fd_t → α → pall_fd_t × Int)) (g : cll_handler α)
    (hg : pall_cll_init compare2 true ser2 (some unser) true = some g) (fuel : Nat) :
    ∃ h1 fd1, pall_cll_serialize h._count h fd = some (h1, fd1, 0) ∧
      ∀ fd2 : pall_fd_t, fd2.rd = fd1.wr →
        ∃ g2 fd3, pall_cll_unserialize fuel g fd2 1 = some (g2, fd3, 0) ∧
          g2._count = h._count ∧ (head_to_tail g2).Perm (head_to_tail h) ∧
          head_to_tail g2 = (head_to_tail h).take 1 ++ ((head_to_tail h).drop 1).reverse := by
  obtain ⟨L, hA⟩ := reachable_abs hr
  have hok : ∀ fd x, 0 ≤ (ser fd x).2 := fun fd x => le_of_eq (hser fd x).1.symm
  refine ⟨_, _, _cll_serialize_spec hA hs hok fd hroom h._count (le_of_eq hA.count.symm), ?_⟩
  intro fd2 hrd2
  rw [foldl_ser_wr hser, (pall_write_four fd (pall_htonl h._count) rfl hroom).2, hwr,
    List.nil_append] at hrd2
  obtain ⟨hins, hfl, hu, -⟩ := init_fresh hg
  have hrd := pall_read_four fd2 (pall_htonl h._count) _ rfl hrd2
  obtain ⟨g2, fd3, G, e, hA2, hG, -⟩ := _cll_unserialize_loop_fresh hdec fuel (L.map Prod.snd) g
    (pall_read fd2 4).1 1 [] (abs_init hg) hins hfl (by decide) (by rw [hrd.2]; simp)
  have hlen : G.length = L.length := by
    have := congrArg List.length hG
    simp only [List.length_map, List.length_append, List.length_take, List.length_reverse,
      List.length_drop] at this
    omega
  refine ⟨g2, fd3, ?_, ?_, ?_, ?_⟩
  · unfold pall_cll_unserialize _cll_unserialize
    simp only [hu, hrd.1, pall_htonl_length, ne_eq, not_true_eq_false, if_false]
    rw [ntohl_pall_htonl _ hcount, hA.count]
    simpa using e
  · rw [hA2.count, hlen, hA.count]
  · rw [abs_head_to_tail hA2, abs_head_to_tail hA, hG]
    have h1 := List.take_append_drop 1 (L.map Prod.snd)
    have h2 : (List.take 1 (L.map Prod.snd) ++ (List.drop 1 (L.map Prod.snd)).reverse).Perm
        (List.take 1 (L.map Prod.snd) ++ List.drop 1 (L.map Prod.snd)) :=
      List.Perm.append_left _ (List.reverse_perm _)
    rw [h1] at h2
    exact h2
  · rw [abs_head_to_tail hA2, abs_head_to_tail hA, hG]

/-- C9. Serialization round trip preserves the count and the payloads: for every reachable
handler `h` with fewer than `2^32` payloads and a codec whose writes succeed and whose
reads return what has been written, `pall_cll_serialize` to an empty stream with room for
the prefix returns `0`, and `pall_cll_unserialize` of the bytes written, into a freshly
initialised handler (no `set_config` call), returns `0` and yields a handler with the same
count and the same multiset of payloads. -/
theorem serialize_round_trip {h : cll_handler α} (hr : Reachable h)
    {ser : pall_fd_t → α → pall_fd_t × Int} {unser : pall_fd_t → pall_fd_t × Option α}
    {enc : α → List Nat} (hs : h.ser_data = some ser)
    (hser : ∀ fd x, (ser fd x).2 = 0 ∧ (ser fd x).1.wr = fd.wr ++ enc x)
    (hdec : ∀ fd x rest, fd.rd = enc x ++ rest → (unser fd).2 = some x ∧ (unser fd).1.rd = rest)
    (hcount : h._count < 4294967296) (fd : pall_fd_t) (hroom : 4 ≤ fd.room)
    (hwr : fd.wr = []) (compare2 : Option (α → α → Int))
    (ser2 : Option (pall_fd_t → α → pall_fd_t × Int)) (g : cll_handler α)
    (hg : pall_cll_init compare2 true ser2 (some unser) true = some g) (fuel : Nat) :
    ∃ h1 fd1, pall_cll_serialize h._count h fd = some (h1, fd1, 0) ∧
      ∀ fd2 : pall_fd_t, fd2.rd = fd1.wr →
        ∃ g2 fd3, pall_cll_unserialize fuel g fd2 1 = some (g2, fd3, 0) ∧
          g2._count = h._count ∧ (head_to_tail g2).Perm (head_to_tail h) := by
  obtain ⟨h1, fd1, e, hh⟩ :=
    _cll_round_trip_spec hr hs hser hdec hcount fd hroom hwr compare2 ser2 g hg fuel
  refine ⟨h1, fd1, e, fun fd2 h2 => ?_⟩
  obtain ⟨g2, fd3, e2, hc, hp, -⟩ := hh fd2 h2
  exact ⟨g2, fd3, e2, hc, hp⟩

theorem ex_codec_three_reachable : Reachable ex_codec_three := by
  have h0 : Reachable ex_codec_fresh :=
    Reachable.init (some compare_id) true (some ex_ser) (some ex_unser) true ex_codec_fresh rfl
  have h1 := reachable_run1_insert h0 0 1 1 (by decide) (by decide)
  have h2 := reachable_run1_insert h1 0 2 2 (by decide) (by decide)
  exact reachable_run1_insert h2 0 3 3 (by decide) (by decide)

theorem ex_ser_spec (fd : pall_fd_t) (x : Nat) :
    (ex_ser fd x).2 = 0 ∧ (ex_ser fd x).1.wr = fd.wr ++ (fun y => [y]) x := ⟨rfl, rfl⟩

theorem ex_unser_spec (fd : pall_fd_t) (x : Nat) (rest : List Nat)
    (h : fd.rd = (fun y => [y]) x ++ rest) :
    (ex_unser fd).2 = some x ∧ (ex_unser fd).1.rd = rest := by
  unfold ex_unser
  rw [h]
  exact ⟨rfl, rfl⟩

theorem serialize_round_trip_witness :
    Reachable ex_codec_three ∧ ex_codec_three.ser_data = some ex_ser ∧
    ex_codec_three._count < 4294967296 ∧
    pall_cll_init (some compare_id) true (some ex_ser) (some ex_unser) true =
      some ex_codec_fresh ∧
    ∃ h1 fd1, pall_cll_serialize ex_codec_three._count ex_codec_three
        { rd := [], wr := [], room := 4 } = some (h1, fd1, 0) ∧
      ∀ fd2 : pall_fd_t, fd2.rd = fd1.wr →
        ∃ g2 fd3, pall_cll_unserialize 0 ex_codec_fresh fd2 1 = some (g2, fd3, 0) ∧
          g2._count = ex_codec_three._count ∧
          (head_to_tail g2).Perm (head_to_tail ex_codec_three) :=
  ⟨ex_codec_three_reachable, rfl, by decide, rfl,
    serialize_round_trip ex_codec_three_reachable rfl ex_ser_spec ex_unser_spec (by decide)
      { rd := [], wr := [], room := 4 } (by decide) rfl (some compare_id) (some ex_ser)
      ex_codec_fresh rfl 0⟩

/-- The round trip of the list built by `insert` of `1`, `2`, `3` on a fresh handler: the
first handler has the head-to-tail sequence `1, 3, 2`, the second one `1, 2, 3`. -/
theorem round_trip_changes_order :
    scenario_round_trip = some (([1, 3, 2], 3), ([1, 2, 3], 3)) := by decide

/-- C14. The postcondition of `poph`: in a reachable state whose head-to-tail sequence is
`p :: rest`, `pall_cll_poph` returns `p`, does not call `destroy`, leaves the head-to-tail
sequence `rest` with the cursor at the new head, takes one off `_count` and adds one to the
counter `poph`; on an empty list it returns `NULL`, adds one to the counter `poph_nf` and
changes nothing else. -/
theorem poph_postcondition {h : cll_handler α} (hr : Reachable h) :
    (head_to_tail h = [] → pall_cll_poph h =
      some ({ h with _stat := { h._stat with poph_nf := h._stat.poph_nf + 1 } }, none)) ∧
    (∀ p rest, head_to_tail h = p :: rest →
      ∃ h2, pall_cll_poph h = some (h2, some p) ∧ head_to_tail h2 = rest ∧
        h2.cll = h2.cll_head ∧ (rest = [] ↔ h2.cll_head = 0) ∧ h2._count + 1 = h._count ∧
        h2._stat = { h._stat with poph := h._stat.poph + 1 } ∧
        h2.destroyed = h.destroyed) := by
  obtain ⟨L, hA⟩ := reachable_abs hr
  rw [abs_head_to_tail hA]
  unfold pall_cll_poph
  constructor
  · intro hL
    have : L = [] := by simpa using hL
    subst this
    exact _cll_poph_nil hA
  · intro p rest hL
    cases L with
    | nil => simp at hL
    | cons x T =>
      obtain ⟨c, d⟩ := x
      simp only [List.map_cons, List.cons.injEq] at hL
      obtain ⟨rfl, hT⟩ := hL
      have hc : h._count - 1 + 1 = h._count := by
        have := hA.count
        simp at this
        omega
      cases T with
      | nil =>
        obtain ⟨e, hA2⟩ := _cll_poph_one hA
        refine ⟨_, e, ?_, rfl, ?_, hc, rfl, rfl⟩
        · rw [abs_head_to_tail hA2, ← hT]
        · rw [← hT]; simp
      | cons y R =>
        obtain ⟨x, dx⟩ := y
        obtain ⟨m1, e, hA2⟩ := _cll_poph_cons hA
        refine ⟨_, e, ?_, rfl, ?_, hc, rfl, rfl⟩
        · rw [abs_head_to_tail hA2, ← hT]
        · rw [← hT]
          have := hA2.head_eq_zero_iff
          simp only [reduceCtorEq, iff_false] at this
          simp only [List.map_cons, reduceCtorEq, false_iff]
          exact this

theorem poph_postcondition_witness :
    Reachable ex_three ∧
    (head_to_tail ex_three = [] → pall_cll_poph ex_three =
      some ({ ex_three with
        _stat := { ex_three._stat with poph_nf := ex_three._stat.poph_nf + 1 } }, none)) ∧
    (∀ p rest, head_to_tail ex_three = p :: rest →
      ∃ h2, pall_cll_poph ex_three = some (h2, some p) ∧ head_to_tail h2 = rest ∧
        h2.cll = h2.cll_head ∧ (rest = [] ↔ h2.cll_head = 0) ∧
        h2._count + 1 = ex_three._count ∧
        h2._stat = { ex_three._stat with poph := ex_three._stat.poph + 1 } ∧
        h2.destroyed = ex_three.destroyed) :=
  ⟨ex_three_reachable, poph_postcondition ex_three_reachable⟩

/-- With a compare callback, `_cll_unlink` returns within `_count` turns of its loop. -/
theorem unlink_returns {h : cll_handler α} {L : List (Nat × α)} (hA : Abs h L)
    {cmp : α → α → Int} (hc : h.compare = some cmp) (k : α) :
    ∃ r, _cll_unlink h._count h k = some r := by
  rcases _cll_unlink_full hA hc k h._count (le_of_eq hA.count.symm) with
    ⟨-, f1, e⟩ | ⟨pre, q, dq, post, m1, c1, hd1, ic1, is1, f1, -, -, e, -⟩
  · exact ⟨_, e⟩
  · exact ⟨_, e⟩

theorem search_start_destroyed {h : cll_handler α} {data : α} {r : cll_handler α × Nat}
    (e : search_start h data = some r) : r.1.destroyed = h.destroyed := by
  unfold search_start at e
  simp only at e
  split_ifs at e
  · cases e; rfl
  · obtain ⟨cmp, -, e⟩ := obind_eq_some.1 e
    obtain ⟨pd, -, e⟩ := obind_eq_some.1 e
    split_ifs at e <;> cases e <;> rfl
  · cases e; rfl

theorem destroyed_ite_obind {h h2 : cll_handler α} {c : Prop} [Decidable c] {x : Option Nat}
    {f : Nat → cll_handler α}
    (e : (if c then obind x fun a => some (f a) else some h) = some h2)
    (hf : ∀ a, (f a).destroyed = h.destroyed) : h2.destroyed = h.destroyed := by
  split_ifs at e
  · obtain ⟨a, -, e⟩ := obind_eq_some.1 e
    cases e
    exact hf a
  · cases e
    rfl

theorem unlink_hit_destroyed {h : cll_handler α} {pool : Nat} {r : cll_handler α × Option α}
    (e : unlink_hit h pool = some r) : r.1.destroyed = h.destroyed := by
  unfold unlink_hit at e
  obtain ⟨d, -, e⟩ := obind_eq_some.1 e
  obtain ⟨pn, -, e⟩ := obind_eq_some.1 e
  by_cases hp : pool = pn
  · rw [if_pos hp] at e
    cases e; rfl
  · rw [if_neg hp] at e
    simp only at e
    obtain ⟨m2, -, e⟩ := obind_eq_some.1 e
    obtain ⟨pn2, -, e⟩ := obind_eq_some.1 e
    obtain ⟨h4, e4, e⟩ := obind_eq_some.1 e
    obtain ⟨h5, e5, e⟩ := obind_eq_some.1 e
    obtain ⟨ed, -, e⟩ := obind_eq_some.1 e
    cases e
    have c5 := destroyed_ite_obind e5 (fun a => rfl)
    have c4 := destroyed_ite_obind e4 (fun a => rfl)
    show h5.destroyed = h.destroyed
    rw [c5, c4]
    split_ifs <;> rfl

/-- `_cll_unlink` does not call `destroy`. -/
theorem _cll_unlink_destroyed {fuel : Nat} {h : cll_handler α} {data : α}
    {r : cll_handler α × Option α} (e : _cll_unlink fuel h data = some r) :
    r.1.destroyed = h.destroyed := by
  unfold _cll_unlink at e
  split_ifs at e
  · cases e; rfl
  · obtain ⟨s, es, e⟩ := obind_eq_some.1 e
    rw [← search_start_destroyed es]
    rw [_cll_unlink_loop_eq] at e
    obtain ⟨w, -, e⟩ := obind_eq_some.1 e
    cases w with
    | none => cases e; rfl
    | some p => exact unlink_hit_destroyed e

/-- C15. `pope` is `delete` without `destroy`: from the same state and with the same key,
`pall_cll_pope` returns exactly when `pall_cll_delete` does (within `_count` turns of the
loop in a reachable state with a compare callback), and then both leave the same heap,
head, cursor, iteration bookmarks, flag word and `_count`; `pope` returns the payload that
`delete` hands to `destroy`, and `NULL` exactly when `delete` returns `-1`; `pope` does not
call `destroy`. -/
theorem pope_is_delete_without_destroy {h : cll_handler α} (hr : Reachable h) (k : α) :
    (h.compare.isSome → (pall_cll_pope h._count h k).isSome) ∧
    ∀ fuel, (pall_cll_pope fuel h k = none ↔ pall_cll_delete fuel h k = none) ∧
      ∀ hp r hd rd, pall_cll_pope fuel h k = some (hp, r) →
        pall_cll_delete fuel h k = some (hd, rd) →
        hp.mem = hd.mem ∧ hp.cll_head = hd.cll_head ∧ hp.cll = hd.cll ∧
        hp._iterate_start = hd._iterate_start ∧ hp._iterate_cur = hd._iterate_cur ∧
        hp._config_flags = hd._config_flags ∧ hp._count = hd._count ∧
        hd.destroyed = hp.destroyed ++ r.toList ∧ (r = none ↔ rd = -1) ∧
        (r ≠ none ↔ rd = 0) ∧ hp.destroyed = h.destroyed := by
  obtain ⟨L, hA⟩ := reachable_abs hr
  unfold pall_cll_pope pall_cll_delete _cll_pope _cll_delete
  constructor
  · intro hc
    obtain ⟨cmp, hc⟩ := Option.isSome_iff_exists.1 hc
    obtain ⟨r, e⟩ := unlink_returns hA hc k
    rw [e, obind_some]
    cases r.2 <;> rfl
  · intro fuel
    cases e : _cll_unlink fuel h k with
    | none => simp
    | some u =>
      obtain ⟨u, o⟩ := u
      cases o with
      | none =>
        simp only [obind_some]
        refine ⟨by simp, ?_⟩
        intro hp r hd rd e1 e2
        simp only [Option.some.injEq, Prod.mk.injEq] at e1 e2
        obtain ⟨rfl, rfl⟩ := e1
        obtain ⟨rfl, rfl⟩ := e2
        exact ⟨rfl, rfl, rfl, rfl, rfl, rfl, rfl, by simp, by simp, by simp, _cll_unlink_destroyed e⟩
      | some d =>
        simp only [obind_some]
        refine ⟨by simp, ?_⟩
        intro hp r hd rd e1 e2
        simp only [Option.some.injEq, Prod.mk.injEq] at e1 e2
        obtain ⟨rfl, rfl⟩ := e1
        obtain ⟨rfl, rfl⟩ := e2
        exact ⟨rfl, rfl, rfl, rfl, rfl, rfl, rfl, by simp, by simp, by simp, _cll_unlink_destroyed e⟩

theorem pope_is_delete_without_destroy_witness :
    Reachable ex_three ∧
    (ex_three.compare.isSome → (pall_cll_pope ex_three._count ex_three 20).isSome) ∧
    ∀ fuel, (pall_cll_pope fuel ex_three 20 = none ↔ pall_cll_delete fuel ex_three 20 = none) ∧
      ∀ hp r hd rd, pall_cll_pope fuel ex_three 20 = some (hp, r) →
        pall_cll_delete fuel ex_three 20 = some (hd, rd) →
        hp.mem = hd.mem ∧ hp.cll_head = hd.cll_head ∧ hp.cll = hd.cll ∧
        hp._iterate_start = hd._iterate_start ∧ hp._iterate_cur = hd._iterate_cur ∧
        hp._config_flags = hd._config_flags ∧ hp._count = hd._count ∧
        hd.destroyed = hp.destroyed ++ r.toList ∧ (r = none ↔ rd = -1) ∧
        (r ≠ none ↔ rd = 0) ∧ hp.destroyed = ex_three.destroyed :=
  ⟨ex_three_reachable, pope_is_delete_without_destroy ex_three_reachable 20⟩

/-- C16. Collapse is idempotent and destroys each element once: in a reachable state,
`pall_cll_collapse` returns within `_count + 1` turns of its loop; the payloads it hands to
`destroy` are the stored payloads, each once (a permutation of the head-to-tail sequence);
afterwards no node is allocated, `_count` is `0` and the head, the cursor and both
iteration bookmarks are `NULL`. A second `pall_cll_collapse` calls `destroy` on nothing
and changes nothing but the counter `collapse`. -/
theorem collapse_idempotent {h : cll_handler α} (hr : Reachable h) :
    ∃ h1 ds, pall_cll_collapse (h._count + 1) h = some h1 ∧
      h1.destroyed = h.destroyed ++ ds ∧ ds.Perm (head_to_tail h) ∧
      (∀ a, h1.mem a = none) ∧ h1._count = 0 ∧ h1.cll_head = 0 ∧ h1.cll = 0 ∧
      h1._iterate_start = 0 ∧ h1._iterate_cur = 0 ∧
      ∀ fuel, 0 < fuel → pall_cll_collapse fuel h1 =
        some { h1 with _stat := { h1._stat with collapse := h1._stat.collapse + 1 } } := by
  obtain ⟨L, hA⟩ := reachable_abs hr
  rw [abs_head_to_tail hA]
  unfold pall_cll_collapse
  rcases hA.cur with ⟨rfl, _⟩ | hcur
  · have e := _cll_collapse_nil hA (h._count + 1) (Nat.succ_pos _)
    have hA1 := pall_cll_collapse_abs hA _ _ e
    refine ⟨_, [], e, by simp, by simp, fun a => hA.heap.exact a (by simp), rfl,
      by simpa using hA.head, hA.cll_zero, ?_, ?_, ?_⟩
    · rcases hA.marks with hm | hm
      · exact hm.1
      · simp at hm
    · rcases hA.marks with hm | hm
      · exact hm.2
      · simp at hm
    · intro fuel hf
      rw [_cll_collapse_nil hA1 fuel hf]
  · obtain ⟨pre, d, post, rfl⟩ := split_of_mem_fst hcur
    obtain ⟨m1, hm1, e⟩ := _cll_collapse_spec pre post hA (h._count + 1)
      (by rw [hA.count]; exact Nat.le_succ _)
    have hA1 := pall_cll_collapse_abs hA _ _ e
    refine ⟨_, d :: (post ++ pre).map Prod.snd, e, rfl, ?_, fun a => hm1.exact a (by simp),
      rfl, rfl, rfl, rfl, rfl, ?_⟩
    · simp only [List.map_append, List.map_cons]
      have h1 : (d :: (post.map Prod.snd ++ pre.map Prod.snd)).Perm
          (d :: (pre.map Prod.snd ++ post.map Prod.snd)) :=
        List.Perm.cons d List.perm_append_comm
      exact h1.trans List.perm_middle.symm
    · intro fuel hf
      rw [_cll_collapse_nil hA1 fuel hf]

theorem collapse_idempotent_witness :
    Reachable ex_three ∧
    ∃ h1 ds, pall_cll_collapse (ex_three._count + 1) ex_three = some h1 ∧
      h1.destroyed = ex_three.destroyed ++ ds ∧ ds.Perm (head_to_tail ex_three) ∧
      (∀ a, h1.mem a = none) ∧ h1._count = 0 ∧ h1.cll_head = 0 ∧ h1.cll = 0 ∧
      h1._iterate_start = 0 ∧ h1._iterate_cur = 0 ∧
      ∀ fuel, 0 < fuel → pall_cll_collapse fuel h1 =
        some { h1 with _stat := { h1._stat with collapse := h1._stat.collapse + 1 } } :=
  ⟨ex_three_reachable, collapse_idempotent ex_three_reachable⟩

/-- C17. Emptiness invariant: in every reachable state `cll_head` is `NULL` exactly when
the cursor `cll` is `NULL`, and exactly when `_count` is `0`; when they are not `NULL`, the
cursor is reached from the head by fewer than `_count` steps along `next`, so both are
nodes of one ring. -/
theorem emptiness_invariant {h : cll_handler α} (hr : Reachable h) :
    (h.cll_head = 0 ↔ h.cll = 0) ∧ (h.cll = 0 ↔ h._count = 0) ∧
      (h.cll ≠ 0 → ∃ k, k < h._count ∧ iter_next h.mem k h.cll_head = some h.cll) := by
  obtain ⟨L, hA⟩ := reachable_abs hr
  refine ⟨by rw [hA.head_eq_zero_iff, hA.cll_eq_zero_iff], ?_, ?_⟩
  · rw [hA.cll_eq_zero_iff, hA.count]
    exact List.length_eq_zero.symm
  · intro hc
    have hL : L ≠ [] := fun e => hc (hA.cll_eq_zero_iff.2 e)
    have hcur : h.cll ∈ L.map Prod.fst := by
      rcases hA.cur with ⟨e, _⟩ | hm
      · exact absurd e hL
      · exact hm
    obtain ⟨i, hi, hget⟩ := List.getElem_of_mem hcur
    have hlen : (L.map Prod.fst).length = h._count := by rw [List.length_map, hA.count]
    have h0 : 0 < (L.map Prod.fst).length := by omega
    have hhd : h.cll_head = (L.map Prod.fst).get ⟨0, h0⟩ := by
      rw [hA.head]
      cases L with
      | nil => exact absurd rfl hL
      | cons x T => rfl
    have := iter_opt_ring (ld_next h.mem) (L.map Prod.fst) hA.heap.nodup
      (fun a ha => hA.heap.ring.next ha) i 0 h0
    refine ⟨i, by omega, ?_⟩
    unfold iter_next
    rw [hhd, this]
    congr 1
    rw [← hget]
    simp only [List.get_eq_getElem, Nat.zero_add]
    congr 1
    exact Nat.mod_eq_of_lt hi

theorem emptiness_invariant_witness :
    Reachable ex_three ∧ (ex_three.cll_head = 0 ↔ ex_three.cll = 0) ∧
      (ex_three.cll = 0 ↔ ex_three._count = 0) ∧
      (ex_three.cll ≠ 0 → ∃ k, k < ex_three._count ∧
        iter_next ex_three.mem k ex_three.cll_head = some ex_three.cll) :=
  ⟨ex_three_reachable, emptiness_invariant ex_three_reachable⟩

/-! ## FIFO -/

theorem abs_cll_stat {h : cll_handler α} {L : List (Nat × α)} (hA : Abs h L) :
    Abs (_cll_stat h) L := abs_congr hA rfl rfl rfl rfl rfl rfl

@[simp] theorem _cll_stat_insert (h : cll_handler α) : (_cll_stat h).insert = h.insert := rfl

theorem _fifo_stat_fifo (q : fifo_handler α) :
    (_fifo_stat q).fifo = _cll_stat (_cll_stat (_cll_stat (_cll_stat (_cll_stat (_cll_stat
      (_cll_stat (_cll_stat (_cll_stat (_cll_stat (_cll_stat (_cll_stat (_cll_stat
      (_cll_stat q.fifo))))))))))))) := by
  unfold _fifo_stat
  dsimp only

/-- What the list of a queue looks like after pushes with history `P` and `k` pops. -/
theorem fifo_reach_abs {q : fifo_handler α} {P : List α} {k : Nat} (hr : FifoReach q P k) :
    k ≤ P.length ∧ q.fifo.insert = insert_fn.cll_insert_tail ∧
      ∃ L, Abs q.fifo L ∧ L.map Prod.snd = P.drop k := by
  induction hr with
  | init destroy ser_data unser_data ok ok_cll q e =>
    unfold pall_fifo_init at e
    split_ifs at e
    obtain ⟨c, ec, e⟩ := obind_eq_some.1 e
    cases e
    refine ⟨le_refl _, rfl, [], ?_, rfl⟩
    exact abs_congr (abs_init ec) rfl rfl rfl rfl rfl rfl
  | push fuel q P k x n q2 r _ hn e ih =>
    obtain ⟨hk, hins, L, hA, hL⟩ := ih
    unfold pall_fifo_push _fifo_push at e
    obtain ⟨ri, ei, e⟩ := obind_eq_some.1 e
    cases e
    have ei2 : _cll_insert_tail q.fifo x n = some ri := by
      unfold pall_cll_insert at ei
      rw [hins] at ei
      exact ei
    by_cases hn0 : n = 0
    · subst hn0
      unfold _cll_insert_tail _cll_insert_head at ei2
      simp at ei2
      subst ei2
      refine ⟨by simpa using hk, hins, L, abs_congr hA rfl rfl rfl rfl rfl rfl, by simpa using hL⟩
    · have hfr : q.fifo.mem n = none := by
        rcases hn with e | e
        · exact absurd e hn0
        · exact e
      obtain ⟨m1, e1, a1⟩ := _cll_insert_tail_spec hA x n hn0 hfr
      rw [e1] at ei2
      cases ei2
      refine ⟨?_, ?_, L ++ [(n, x)], a1, ?_⟩
      · simp; omega
      · simpa using hins
      · simp [hL, List.drop_append_of_le_length hk]
  | pop q P k q2 r _ e ih =>
    obtain ⟨hk, hins, L, hA, hL⟩ := ih
    unfold pall_fifo_pop _fifo_pop at e
    obtain ⟨rp, ep, e⟩ := obind_eq_some.1 e
    cases e
    cases L with
    | nil =>
      rw [_cll_poph_nil hA] at ep
      cases ep
      exact ⟨by simpa using hk, hins, [], abs_congr hA rfl rfl rfl rfl rfl rfl, by simpa using hL⟩
    | cons y T =>
      obtain ⟨c, d⟩ := y
      have hlt : k < P.length := by
        by_contra hge
        rw [List.drop_eq_nil_of_le (by omega)] at hL
        simp at hL
      have hdrop : P.drop (k + 1) = T.map Prod.snd := by
        have := congrArg List.tail hL
        simpa using this.symm
      cases T with
      | nil =>
        obtain ⟨e1, a1⟩ := _cll_poph_one hA
        rw [e1] at ep
        cases ep
        exact ⟨by simpa using hlt, hins, [], a1, by simpa using hdrop.symm⟩
      | cons z R =>
        obtain ⟨x2, dx⟩ := z
        obtain ⟨m1, e1, a1⟩ := _cll_poph_cons hA
        rw [e1] at ep
        cases ep
        exact ⟨by simpa using hlt, hins, _, a1, by simpa using hdrop.symm⟩
  | count q P k _ ih =>
    obtain ⟨hk, hins, L, hA, hL⟩ := ih
    exact ⟨hk, hins, L, abs_congr hA rfl rfl rfl rfl rfl rfl, hL⟩
  | stat q P k _ ih =>
    obtain ⟨hk, hins, L, hA, hL⟩ := ih
    unfold pall_fifo_stat
    rw [_fifo_stat_fifo]
    refine ⟨hk, by simpa only [_cll_stat_insert] using hins, L, ?_, hL⟩
    repeat apply abs_cll_stat
    exact hA
  | stat_reset q P k _ ih =>
    obtain ⟨hk, hins, L, hA, hL⟩ := ih
    exact ⟨hk, hins, L, hA, hL⟩

@[simp] theorem _cll_stat_poph_nf (h : cll_handler α) :
    (_cll_stat h)._stat.poph_nf = h._stat.poph_nf := rfl

/-- The member `pop_nf` of the record of `stat` is the counter `poph_nf` of the list. -/
theorem _fifo_stat_pop_nf (q : fifo_handler α) :
    (_fifo_stat q)._stat.pop_nf = q.fifo._stat.poph_nf := by
  unfold _fifo_stat
  dsimp only
  simp only [_cll_stat_poph_nf]

theorem fifo_reach_push {q : fifo_handler α} {P : List α} {k : Nat} (hr : FifoReach q P k)
    (fuel : Nat) (x : α) (n : Nat) (hn : (q.fifo.mem n).isNone = true)
    (hs : (pall_fifo_push fuel q x n).map Prod.snd = some 0) :
    FifoReach (frun q (pall_fifo_push fuel q x n)) (P ++ [x]) k := by
  cases e : pall_fifo_push fuel q x n with
  | none => rw [e] at hs; cases hs
  | some r =>
    rw [e] at hs
    simp only [Option.map_some', Option.some.injEq] at hs
    have := FifoReach.push fuel q P k x n r.1 r.2 hr
      (Or.inr (Option.isNone_iff_eq_none.1 hn)) e
    rw [hs, if_pos rfl] at this
    exact this

theorem fifo_reach_pop {q : fifo_handler α} {P : List α} {k : Nat} (hr : FifoReach q P k)
    (hs : (pall_fifo_pop q).map (fun r => r.2.isSome) = some true) :
    FifoReach (frun q (pall_fifo_pop q)) P (k + 1) := by
  cases e : pall_fifo_pop q with
  | none => rw [e] at hs; cases hs
  | some r =>
    rw [e] at hs
    simp only [Option.map_some', Option.some.injEq] at hs
    have := FifoReach.pop q P k r.1 r.2 hr e
    rw [hs, if_pos rfl] at this
    exact this

theorem ex_fifo_reach : FifoReach ex_fifo [1, 2, 3] 1 := by
  have h0 : FifoReach ex_fifo_fresh [] 0 :=
    FifoReach.init true none none true true ex_fifo_fresh rfl
  have h1 := fifo_reach_push h0 0 1 1 (by decide) (by decide)
  have h2 := fifo_reach_push h1 0 2 2 (by decide) (by decide)
  have h3 := fifo_reach_push h2 0 3 3 (by decide) (by decide)
  exact fifo_reach_pop h3 (by decide)

/-- The example of the queue: after `push` of `1`, `2`, `3` the calls of `pop` return `1`,
`2`, then `count` is `1`, then `3`, then `NULL` with `pop_nf = 1`. -/
theorem scenario_fifo_eq :
    scenario_fifo = some ([some 1, some 2, some 3, none], 1, 1) := by decide

/-- C12. FIFO order: in a queue reached from `pall_fifo_init` by pushes and pops in any
order, where `P` holds the payloads pushed with success, in order, and `k` pops have
returned a payload so far, at most `P.length` pops have succeeded, the next `pop` returns
the payload number `k` of `P` (counted from `0`; `NULL` when there is none), `count` is
`P.length - k`, and on the empty queue `pop` returns `NULL` and the member `pop_nf` of the
record of `stat` goes up by exactly one. -/
theorem fifo_order {q : fifo_handler α} {P : List α} {k : Nat} (hr : FifoReach q P k) :
    k ≤ P.length ∧ (∃ q2, pall_fifo_pop q = some (q2, P[k]?)) ∧
      (pall_fifo_count q).2 = P.length - k ∧
      (k = P.length → ∃ q2, pall_fifo_pop q = some (q2, none) ∧
        (pall_fifo_stat q2)._stat.pop_nf = (pall_fifo_stat q)._stat.pop_nf + 1 ∧
        (pall_fifo_count q2).2 = 0) := by
  obtain ⟨hk, hins, L, hA, hL⟩ := fifo_reach_abs hr
  have hcount : (pall_fifo_count q).2 = P.length - k := by
    show q.fifo._count = _
    rw [hA.count, ← List.length_map L Prod.snd, hL, List.length_drop]
  refine ⟨hk, ?_, hcount, ?_⟩
  · unfold pall_fifo_pop _fifo_pop
    cases L with
    | nil =>
      rw [_cll_poph_nil hA, obind_some]
      have : P.length ≤ k := by
        have := congrArg List.length hL
        simp at this
        omega
      rw [List.getElem?_eq_none this]
      exact ⟨_, rfl⟩
    | cons y T =>
      obtain ⟨c, d⟩ := y
      have hget : P[k]? = some d := by
        have := congrArg List.head? hL
        rw [List.head?_drop] at this
        simpa using this.symm
      rw [hget]
      cases T with
      | nil =>
        rw [(_cll_poph_one hA).1, obind_some]
        exact ⟨_, rfl⟩
      | cons z R =>
        obtain ⟨x2, dx⟩ := z
        obtain ⟨m1, e1, -⟩ := _cll_poph_cons hA
        rw [e1, obind_some]
        exact ⟨_, rfl⟩
  · intro hkl
    have hnil : L = [] := by
      have := congrArg List.length hL
      rw [hkl] at this
      simpa using this
    subst hnil
    unfold pall_fifo_pop _fifo_pop pall_fifo_stat
    rw [_cll_poph_nil hA, obind_some]
    refine ⟨_, rfl, ?_, ?_⟩
    · rw [_fifo_stat_pop_nf, _fifo_stat_pop_nf]
    · show q.fifo._count = 0
      rw [hA.count]; rfl

theorem fifo_order_witness :
    FifoReach ex_fifo [1, 2, 3] 1 ∧ 1 ≤ [1, 2, 3].length ∧
      (∃ q2, pall_fifo_pop ex_fifo = some (q2, [1, 2, 3][1]?)) ∧
      (pall_fifo_count ex_fifo).2 = [1, 2, 3].length - 1 ∧
      (1 = [1, 2, 3].length → ∃ q2, pall_fifo_pop ex_fifo = some (q2, none) ∧
        (pall_fifo_stat q2)._stat.pop_nf = (pall_fifo_stat ex_fifo)._stat.pop_nf + 1 ∧
        (pall_fifo_count q2).2 = 0) :=
  ⟨ex_fifo_reach, fifo_order ex_fifo_reach⟩

/-! ## LIFO -/

theorem _lifo_stat_lifo (s : lifo_handler α) :
    (_lifo_stat s).lifo = _cll_stat (_cll_stat (_cll_stat (_cll_stat (_cll_stat (_cll_stat
      (_cll_stat (_cll_stat (_cll_stat (_cll_stat (_cll_stat (_cll_stat (_cll_stat
      (_cll_stat s.lifo))))))))))))) := by
  unfold _lifo_stat
  dsimp only

theorem lifo_pending_snoc (evs : List (lifo_event α)) (e : lifo_event α) :
    lifo_pending (evs ++ [e]) =
      match e with
      | lifo_event.push x => x :: lifo_pending evs
      | lifo_event.pop => (lifo_pending evs).tail := by
  unfold lifo_pending
  rw [List.foldl_append]
  rfl

/-- The list of a stack holds the payloads pushed and not yet popped, the most recently
pushed one at the head. -/
theorem lifo_reach_abs {s : lifo_handler α} {evs : List (lifo_event α)}
    (hr : LifoReach s evs) :
    s.lifo.insert = insert_fn.cll_insert_head ∧
      ∃ L, Abs s.lifo L ∧ L.map Prod.snd = lifo_pending evs := by
  induction hr with
  | init destroy ser_data unser_data ok ok_cll s e =>
    unfold pall_lifo_init at e
    split_ifs at e
    obtain ⟨c, ec, e⟩ := obind_eq_some.1 e
    cases e
    refine ⟨rfl, [], ?_, rfl⟩
    exact abs_congr (abs_init ec) rfl rfl rfl rfl rfl rfl
  | push fuel s evs x n s2 r _ hn e ih =>
    obtain ⟨hins, L, hA, hL⟩ := ih
    unfold pall_lifo_push _lifo_push at e
    obtain ⟨ri, ei, e⟩ := obind_eq_some.1 e
    cases e
    have ei2 : _cll_insert_head s.lifo x n = some ri := by
      unfold pall_cll_insert at ei
      rw [hins] at ei
      exact ei
    by_cases hn0 : n = 0
    · subst hn0
      unfold _cll_insert_head at ei2
      simp at ei2
      subst ei2
      refine ⟨hins, L, abs_congr hA rfl rfl rfl rfl rfl rfl, by simpa using hL⟩
    · have hfr : s.lifo.mem n = none := by
        rcases hn with e | e
        · exact absurd e hn0
        · exact e
      obtain ⟨m1, e1, a1⟩ := _cll_insert_head_spec hA x n hn0 hfr
      rw [e1] at ei2
      cases ei2
      refine ⟨by simpa using hins, (n, x) :: L, a1, ?_⟩
      rw [if_pos rfl, lifo_pending_snoc]
      simp [hL]
  | pop s evs s2 r _ e ih =>
    obtain ⟨hins, L, hA, hL⟩ := ih
    unfold pall_lifo_pop _lifo_pop at e
    obtain ⟨rp, ep, e⟩ := obind_eq_some.1 e
    cases e
    cases L with
    | nil =>
      rw [_cll_poph_nil hA] at ep
      cases ep
      exact ⟨hins, [], abs_congr hA rfl rfl rfl rfl rfl rfl, by simpa using hL⟩
    | cons y T =>
      obtain ⟨c, d⟩ := y
      have htl : T.map Prod.snd = (lifo_pending evs).tail := by
        rw [← hL]; rfl
      cases T with
      | nil =>
        obtain ⟨e1, a1⟩ := _cll_poph_one hA
        rw [e1] at ep
        cases ep
        refine ⟨hins, [], a1, ?_⟩
        show _ = lifo_pending (evs ++ [lifo_event.pop])
        rw [lifo_pending_snoc]
        exact htl
      | cons z R =>
        obtain ⟨x2, dx⟩ := z
        obtain ⟨m1, e1, a1⟩ := _cll_poph_cons hA
        rw [e1] at ep
        cases ep
        refine ⟨hins, _, a1, ?_⟩
        show _ = lifo_pending (evs ++ [lifo_event.pop])
        rw [lifo_pending_snoc]
        exact htl
  | count s evs _ ih =>
    obtain ⟨hins, L, hA, hL⟩ := ih
    exact ⟨hins, L, abs_congr hA rfl rfl rfl rfl rfl rfl, hL⟩
  | stat s evs _ ih =>
    obtain ⟨hins, L, hA, hL⟩ := ih
    unfold pall_lifo_stat
    rw [_lifo_stat_lifo]
    refine ⟨by simpa only [_cll_stat_insert] using hins, L, ?_, hL⟩
    repeat apply abs_cll_stat
    exact hA
  | stat_reset s evs _ ih =>
    obtain ⟨hins, L, hA, hL⟩ := ih
    exact ⟨hins, L, hA, hL⟩

theorem lifo_reach_push {s : lifo_handler α} {evs : List (lifo_event α)}
    (hr : LifoReach s evs) (fuel : Nat) (x : α) (n : Nat)
    (hn : (s.lifo.mem n).isNone = true)
    (hs : (pall_lifo_push fuel s x n).map Prod.snd = some 0) :
    LifoReach (lrun s (pall_lifo_push fuel s x n)) (evs ++ [lifo_event.push x]) := by
  cases e : pall_lifo_push fuel s x n with
  | none => rw [e] at hs; cases hs
  | some r =>
    rw [e] at hs
    simp only [Option.map_some', Option.some.injEq] at hs
    have := LifoReach.push fuel s evs x n r.1 r.2 hr
      (Or.inr (Option.isNone_iff_eq_none.1 hn)) e
    rw [hs, if_pos rfl] at this
    exact this

theorem lifo_reach_pop {s : lifo_handler α} {evs : List (lifo_event α)}
    (hr : LifoReach s evs)
    (hs : (pall_lifo_pop s).map (fun r => r.2.isSome) = some true) :
    LifoReach (lrun s (pall_lifo_pop s)) (evs ++ [lifo_event.pop]) := by
  cases e : pall_lifo_pop s with
  | none => rw [e] at hs; cases hs
  | some r =>
    rw [e] at hs
    simp only [Option.map_some', Option.some.injEq] at hs
    have := LifoReach.pop s evs r.1 r.2 hr e
    rw [hs, if_pos rfl] at this
    exact this

theorem ex_lifo_reach : LifoReach ex_lifo
    [lifo_event.push 1, lifo_event.push 2, lifo_event.push 3, lifo_event.pop,
      lifo_event.push 4] := by
  have h0 : LifoReach ex_lifo_fresh [] :=
    LifoReach.init true none none true true ex_lifo_fresh rfl
  have h1 := lifo_reach_push h0 0 1 1 (by decide) (by decide)
  have h2 := lifo_reach_push h1 0 2 2 (by decide) (by decide)
  have h3 := lifo_reach_push h2 0 3 3 (by decide) (by decide)
  have h4 := lifo_reach_pop h3 (by decide)
  exact lifo_reach_push h4 0 4 4 (by decide) (by decide)

/-- The example of the stack: after `push` of `1`, `2`, `3` the calls of `pop` return `3`,
`2`, `1`, then `NULL`. -/
theorem scenario_lifo_eq :
    scenario_lifo = some [some 3, some 2, some 1, none] := by decide

/-- C13. LIFO order: in a stack reached from `pall_lifo_init` by pushes and pops in any
order, `pop` returns the most recently pushed payload that no pop has returned yet, and
`NULL` when there is none (in particular on the empty stack); `count` is the number of
payloads pushed and not yet popped. -/
theorem lifo_order {s : lifo_handler α} {evs : List (lifo_event α)} (hr : LifoReach s evs) :
    (∃ s2, pall_lifo_pop s = some (s2, (lifo_pending evs).head?)) ∧
      (pall_lifo_count s).2 = (lifo_pending evs).length ∧
      ((pall_lifo_count s).2 = 0 → ∃ s2, pall_lifo_pop s = some (s2, none)) := by
  obtain ⟨hins, L, hA, hL⟩ := lifo_reach_abs hr
  have hcount : (pall_lifo_count s).2 = (lifo_pending evs).length := by
    show s.lifo._count = _
    rw [hA.count, ← hL, List.length_map]
  have hpop : ∃ s2, pall_lifo_pop s = some (s2, (lifo_pending evs).head?) := by
    unfold pall_lifo_pop _lifo_pop
    rw [← hL]
    cases L with
    | nil =>
      rw [_cll_poph_nil hA, obind_some]
      exact ⟨_, rfl⟩
    | cons y T =>
      obtain ⟨c, d⟩ := y
      cases T with
      | nil =>
        rw [(_cll_poph_one hA).1, obind_some]
        exact ⟨_, rfl⟩
      | cons z R =>
        obtain ⟨x2, dx⟩ := z
        obtain ⟨m1, e1, -⟩ := _cll_poph_cons hA
        rw [e1, obind_some]
        exact ⟨_, rfl⟩
  refine ⟨hpop, hcount, ?_⟩
  intro h0
  rw [hcount] at h0
  have : lifo_pending evs = [] := List.length_eq_zero.1 h0
  rw [this] at hpop
  exact hpop

theorem lifo_order_witness :
    LifoReach ex_lifo [lifo_event.push 1, lifo_event.push 2, lifo_event.push 3,
      lifo_event.pop, lifo_event.push 4] ∧
    (∃ s2, pall_lifo_pop ex_lifo = some (s2, (lifo_pending [lifo_event.push 1,
      lifo_event.push 2, lifo_event.push 3, lifo_event.pop, lifo_event.push 4]).head?)) ∧
    (pall_lifo_count ex_lifo).2 = (lifo_pending [lifo_event.push 1, lifo_event.push 2,
      lifo_event.push 3, lifo_event.pop, lifo_event.push 4]).length ∧
    ((pall_lifo_count ex_lifo).2 = 0 → ∃ s2, pall_lifo_pop ex_lifo = some (s2, none)) :=
  ⟨ex_lifo_reach, lifo_order ex_lifo_reach⟩

/-! ## What each call does to the stored payloads -/

/-- `_cll_unlink` leaves the list as it is and returns `NULL`, or takes one node out of it
and returns its payload. -/
theorem unlink_track {h : cll_handler α} {L : List (Nat × α)} (hA : Abs h L) (fuel : Nat)
    (data : α) (h2 : cll_handler α) (r : Option α)
    (hr : _cll_unlink fuel h data = some (h2, r)) :
    ∃ L2, Abs h2 L2 ∧ ((r = none ∧ L2 = L) ∨
      ∃ pre q dq post, r = some dq ∧ L = pre ++ (q, dq) :: post ∧ L2 = pre ++ post) := by
  have hbig := _cll_unlink_mono fuel L.length h data _ hr
  rcases hc : h.compare with _ | cmp
  · by_cases hz : h.cll = 0
    · unfold _cll_unlink at hr
      rw [if_pos hz] at hr
      simp only [Option.some.injEq, Prod.mk.injEq] at hr
      exact ⟨L, hr.1 ▸ hA, Or.inl ⟨hr.2.symm, rfl⟩⟩
    · exfalso
      unfold _cll_unlink at hr
      rw [if_neg hz] at hr
      obtain ⟨s, _, hs⟩ := obind_eq_some.1 hr
      rw [_cll_unlink_loop_eq] at hs
      have hc1 : s.1.compare = none := by
        rename_i hst
        unfold search_start at hst
        split_ifs at hst
        · simp only [Option.some.injEq] at hst; rw [← hst]; exact hc
        · rw [hc] at hst; simp at hst
        · simp only [Option.some.injEq] at hst; rw [← hst]; exact hc
      rw [walk_find_no_compare hc1] at hs
      simp at hs
  · rcases _cll_unlink_full hA hc data _ (le_add_fuel _ _) with ⟨_, f1, e⟩ |
      ⟨pre, q, dq, post, m1, c1, hd1, ic1, is1, f1, hL, _, e, a⟩
    · rw [e] at hbig
      simp only [Option.some.injEq, Prod.mk.injEq] at hbig
      exact ⟨L, hbig.1 ▸ abs_flags hA f1, Or.inl ⟨hbig.2.symm, rfl⟩⟩
    · rw [e] at hbig
      simp only [Option.some.injEq, Prod.mk.injEq] at hbig
      exact ⟨_, hbig.1 ▸ a, Or.inr ⟨pre, q, dq, post, hbig.2.symm, hL, rfl⟩⟩

theorem pall_cll_delete_track {h : cll_handler α} {L : List (Nat × α)} (hA : Abs h L)
    (fuel : Nat) (data : α) (h2 : cll_handler α) (r : Int)
    (hr : _cll_delete fuel h data = some (h2, r)) : ∃ L2, Abs h2 L2 ∧ L2.Sublist L := by
  unfold _cll_delete at hr
  obtain ⟨⟨h3, r3⟩, hu, hm⟩ := obind_eq_some.1 hr
  obtain ⟨L2, a2, hcase⟩ := unlink_track hA fuel data h3 r3 hu
  refine ⟨L2, ?_, ?_⟩
  · cases r3 <;> simp only [Option.some.injEq, Prod.mk.injEq] at hm <;>
      exact hm.1 ▸ abs_congr a2 rfl rfl rfl rfl rfl rfl
  · rcases hcase with ⟨-, rfl⟩ | ⟨pre, q, dq, post, -, rfl, rfl⟩
    · exact List.Sublist.refl _
    · exact List.Sublist.append_left (List.sublist_cons_self _ _) _

theorem pall_cll_pope_track {h : cll_handler α} {L : List (Nat × α)} (hA : Abs h L)
    (fuel : Nat) (data : α) (h2 : cll_handler α) (r : Option α)
    (hr : _cll_pope fuel h data = some (h2, r)) : ∃ L2, Abs h2 L2 ∧ L2.Sublist L := by
  unfold _cll_pope at hr
  obtain ⟨⟨h3, r3⟩, hu, hm⟩ := obind_eq_some.1 hr
  obtain ⟨L2, a2, hcase⟩ := unlink_track hA fuel data h3 r3 hu
  refine ⟨L2, ?_, ?_⟩
  · cases r3 <;> simp only [Option.some.injEq, Prod.mk.injEq] at hm <;>
      exact hm.1 ▸ abs_congr a2 rfl rfl rfl rfl rfl rfl
  · rcases hcase with ⟨-, rfl⟩ | ⟨pre, q, dq, post, -, rfl, rfl⟩
    · exact List.Sublist.refl _
    · exact List.Sublist.append_left (List.sublist_cons_self _ _) _

/-- A search, whatever it returns, keeps the payloads of the list. -/
theorem pall_cll_search_track {h : cll_handler α} {L : List (Nat × α)} (hA : Abs h L)
    (fuel : Nat) (data : α) (h2 : cll_handler α) (r : Option α)
    (hr : pall_cll_search fuel h data = some (h2, r)) : ∃ L2, Abs h2 L2 ∧ L2.Perm L := by
  unfold pall_cll_search at hr
  cases hsf : h.search <;> simp only [hsf] at hr
  · have hbig := _cll_search_mono fuel L.length h data _ hr
    rcases hc : h.compare with _ | cmp
    · by_cases hz : h.cll = 0
      · unfold _cll_search at hr
        rw [if_pos hz] at hr
        simp only [Option.some.injEq, Prod.mk.injEq] at hr
        exact ⟨L, hr.1 ▸ abs_congr hA rfl rfl rfl rfl rfl rfl, List.Perm.refl _⟩
      · exfalso
        unfold _cll_search at hr
        rw [if_neg hz] at hr
        obtain ⟨s, _, hs⟩ := obind_eq_some.1 hr
        rw [_cll_search_loop_eq] at hs
        have hc1 : s.1.compare = none := by
          rename_i hst
          unfold search_start at hst
          split_ifs at hst
          · simp only [Option.some.injEq] at hst; rw [← hst]; exact hc
          · rw [hc] at hst; simp at hst
          · simp only [Option.some.injEq] at hst; rw [← hst]; exact hc
        rw [walk_find_no_compare hc1] at hs
        simp at hs
    · rcases _cll_search_full hA hc data _ (le_add_fuel _ _) with ⟨_, f1, e⟩ |
        ⟨pre, q, dq, post, m1, c1, hd1, f1, L2, hL, _, e, a, hlru, hnl⟩
      · rw [e] at hbig
        simp only [Option.some.injEq, Prod.mk.injEq] at hbig
        exact ⟨L, hbig.1 ▸ abs_congr hA rfl rfl rfl rfl rfl rfl, List.Perm.refl _⟩
      · rw [e] at hbig
        simp only [Option.some.injEq, Prod.mk.injEq] at hbig
        refine ⟨_, hbig.1 ▸ a, ?_⟩
        by_cases hl : h._config_flags &&& CONFIG_SEARCH_LRU ≠ 0
        · rw [(hlru hl).1, hL]
          exact List.perm_middle.symm
        · rw [(hnl hl).1, hL]
  · unfold _cll_search_nop at hr
    simp only [Option.some.injEq, Prod.mk.injEq] at hr
    exact ⟨L, hr.1 ▸ hA, List.Perm.refl _⟩

/-- `_cll_poph` takes the head out of the list and returns its payload. -/
theorem _cll_poph_track {h : cll_handler α} {L : List (Nat × α)} (hA : Abs h L)
    (h2 : cll_handler α) (r : Option α) (hr : _cll_poph h = some (h2, r)) :
    Abs h2 L.tail ∧ r = (L.map Prod.snd).head? := by
  rcases L with _ | ⟨⟨c, d⟩, _ | ⟨⟨x, dx⟩, R⟩⟩
  · rw [_cll_poph_nil hA] at hr
    simp only [Option.some.injEq, Prod.mk.injEq] at hr
    exact ⟨hr.1 ▸ abs_congr hA rfl rfl rfl rfl rfl rfl, hr.2.symm⟩
  · obtain ⟨e, a⟩ := _cll_poph_one hA
    rw [e] at hr
    simp only [Option.some.injEq, Prod.mk.injEq] at hr
    exact ⟨hr.1 ▸ a, hr.2.symm⟩
  · obtain ⟨m1, e, a⟩ := _cll_poph_cons hA
    rw [e] at hr
    simp only [Option.some.injEq, Prod.mk.injEq] at hr
    exact ⟨hr.1 ▸ a, hr.2.symm⟩

/-! ## HMBT-CLL: the invariant -/

theorem hmbt_at_some {β : Type} {H H2 : hmbt_cll_handler α} {i : Nat}
    {f : cll_handler α → Option (cll_handler α × β)} {r : β}
    (e : hmbt_at H i f = some (H2, r)) :
    ∃ b b2, H.array[i]? = some b ∧ f b = some (b2, r) ∧
      H2 = { H with array := H.array.set i b2 } := by
  unfold hmbt_at at e
  obtain ⟨b, hb, e⟩ := obind_eq_some.1 e
  obtain ⟨x, hx, e⟩ := obind_eq_some.1 e
  simp only [Option.some.injEq, Prod.mk.injEq] at e
  obtain ⟨rfl, rfl⟩ := e
  exact ⟨b, x.1, hb, hx, rfl⟩

theorem hmbt_at_eq {β : Type} {H : hmbt_cll_handler α} {i : Nat}
    {f : cll_handler α → Option (cll_handler α × β)} {b : cll_handler α}
    {x : cll_handler α × β} (hb : H.array[i]? = some b) (hf : f b = some x) :
    hmbt_at H i f = some ({ H with array := H.array.set i x.1 }, x.2) := by
  unfold hmbt_at
  rw [hb, obind_some, hf, obind_some]

theorem bucketOK_congr {H H2 : hmbt_cll_handler α} (e1 : H2.hash = H.hash)
    (e2 : H2.compare = H.compare) (e3 : H2.arr_size = H.arr_size) {i : Nat}
    {b : cll_handler α} (hb : BucketOK H i b) : BucketOK H2 i b := by
  unfold BucketOK at *
  rw [e1, e2, e3]
  exact hb

/-- Replacing a bucket by one that is in order keeps the invariant. -/
theorem hinv_set {H H2 : hmbt_cll_handler α} (hI : HInv H) {i : Nat} {b2 : cll_handler α}
    (e0 : H2.array = H.array.set i b2) (e1 : H2.hash = H.hash)
    (e2 : H2.compare = H.compare) (e3 : H2.arr_size = H.arr_size)
    (hb : BucketOK H i b2) : HInv H2 := by
  obtain ⟨hlen, hpos, hlt, hall⟩ := hI
  refine ⟨by rw [e0, e3, List.length_set, hlen], by rw [e3]; exact hpos, by rw [e3]; exact hlt,
    ?_⟩
  intro j b hj
  rw [e0] at hj
  apply bucketOK_congr e1 e2 e3
  by_cases hij : i = j
  · subst hij
    rw [List.getElem?_set_self'] at hj
    cases hg : H.array[i]? with
    | none => rw [hg] at hj; simp at hj
    | some c =>
      rw [hg] at hj
      simp at hj
      rw [← hj]; exact hb
  · rw [List.getElem?_set_ne hij] at hj
    exact hall j b hj

theorem hinv_congr {H H2 : hmbt_cll_handler α} (hI : HInv H) (e0 : H2.array = H.array)
    (e1 : H2.hash = H.hash) (e2 : H2.compare = H.compare) (e3 : H2.arr_size = H.arr_size) :
    HInv H2 := by
  obtain ⟨hlen, hpos, hlt, hall⟩ := hI
  refine ⟨by rw [e0, e3, hlen], by rw [e3]; exact hpos, by rw [e3]; exact hlt, ?_⟩
  intro j b hj
  rw [e0] at hj
  exact bucketOK_congr e1 e2 e3 (hall j b hj)

/-- The loop over the buckets keeps what its body keeps in every bucket, and changes the
array only. -/
theorem hmbt_for_inv {σ : Type} (step : cll_handler α → σ → Option (cll_handler α × σ))
    (P : Nat → cll_handler α → Prop)
    (hstep : ∀ i b s r, P i b → step b s = some r → P i r.1) :
    ∀ (k i : Nat) (H : hmbt_cll_handler α) (s : σ) (H2 : hmbt_cll_handler α) (s2 : σ),
      (∀ j b, H.array[j]? = some b → P j b) → hmbt_for step k i H s = some (H2, s2) →
      (∀ j b, H2.array[j]? = some b → P j b) ∧ H2.array.length = H.array.length ∧
        H2 = { H with array := H2.array } := by
  intro k
  induction k with
  | zero =>
    intro i H s H2 s2 hP e
    simp only [hmbt_for, Option.some.injEq, Prod.mk.injEq] at e
    obtain ⟨rfl, rfl⟩ := e
    exact ⟨hP, rfl, rfl⟩
  | succ k ih =>
    intro i H s H2 s2 hP e
    rw [hmbt_for] at e
    obtain ⟨⟨H1, s1⟩, e1, e⟩ := obind_eq_some.1 e
    obtain ⟨b, b2, hb, hf, rfl⟩ := hmbt_at_some e1
    have hP1 : ∀ j c, (H.array.set i b2)[j]? = some c → P j c := by
      intro j c hj
      by_cases hij : i = j
      · subst hij
        rw [List.getElem?_set_self', hb] at hj
        simp at hj
        rw [← hj]
        exact hstep i b s (b2, s1) (hP i b hb) hf
      · rw [List.getElem?_set_ne hij] at hj
        exact hP j c hj
    obtain ⟨h1, h2, h3⟩ := ih (i + 1) _ s1 H2 s2 hP1 e
    refine ⟨h1, by rw [h2]; simp, ?_⟩
    rw [h3]

theorem hmbt_index_some {H : hmbt_cll_handler α} {x : α} {i : Nat}
    (e : hmbt_index H x = some i) : H.hash x % 4294967296 % H.arr_size = i := by
  unfold hmbt_index at e
  split_ifs at e
  simpa using e

theorem hmbt_index_eq {H : hmbt_cll_handler α} (hpos : 0 < H.arr_size) (x : α) :
    hmbt_index H x = some (H.hash x % 4294967296 % H.arr_size) := by
  unfold hmbt_index
  rw [if_neg (by omega)]

theorem bucketOK_of_sub {H : hmbt_cll_handler α} {i : Nat} {b b2 : cll_handler α}
    (hb : BucketOK H i b) (hr : Reachable b2) (hc : b2.compare = b.compare)
    (hs : ∀ p ∈ head_to_tail b2, p ∈ head_to_tail b) : BucketOK H i b2 :=
  ⟨hr, hc.trans hb.2.1, fun p hp => hb.2.2 p (hs p hp)⟩

theorem bucketOK_insert {H : hmbt_cll_handler α} {i : Nat} {b b2 : cll_handler α}
    (hb : BucketOK H i b) {x : α} (hidx : hmbt_index H x = some i) {fuel n : Nat}
    (hn : n = 0 ∨ b.mem n = none) {r : Int}
    (e : pall_cll_insert fuel b x n = some (b2, r)) : BucketOK H i b2 := by
  obtain ⟨L, hA⟩ := reachable_abs hb.1
  obtain ⟨L2, hA2, hcase⟩ := pall_cll_insert_track hA fuel x n hn b2 r e
  refine ⟨Reachable.insert fuel b x n b2 r hb.1 hn e, (pall_cll_insert_cb e).1.trans hb.2.1, ?_⟩
  intro p hp
  rw [abs_head_to_tail hA2] at hp
  have hold := hb.2.2
  rw [abs_head_to_tail hA] at hold
  rcases hcase with ⟨-, -, rfl⟩ | ⟨-, -, hperm⟩
  · exact hold p hp
  · have := (hperm.map Prod.snd).mem_iff.1 hp
    rcases List.mem_cons.1 this with rfl | hm
    · exact hmbt_index_some hidx
    · exact hold p hm

theorem bucketOK_delete {H : hmbt_cll_handler α} {i : Nat} {b b2 : cll_handler α}
    (hb : BucketOK H i b) {x : α} {fuel : Nat} {r : Int}
    (e : _cll_delete fuel b x = some (b2, r)) : BucketOK H i b2 := by
  obtain ⟨L, hA⟩ := reachable_abs hb.1
  obtain ⟨L2, hA2, hsub⟩ := pall_cll_delete_track hA fuel x b2 r e
  refine bucketOK_of_sub hb (Reachable.delete fuel b x b2 r hb.1 e) (_cll_delete_cb e).1 ?_
  intro p hp
  rw [abs_head_to_tail hA2] at hp
  rw [abs_head_to_tail hA]
  exact (hsub.map Prod.snd).subset hp

theorem bucketOK_pope {H : hmbt_cll_handler α} {i : Nat} {b b2 : cll_handler α}
    (hb : BucketOK H i b) {x : α} {fuel : Nat} {r : Option α}
    (e : _cll_pope fuel b x = some (b2, r)) : BucketOK H i b2 := by
  obtain ⟨L, hA⟩ := reachable_abs hb.1
  obtain ⟨L2, hA2, hsub⟩ := pall_cll_pope_track hA fuel x b2 r e
  refine bucketOK_of_sub hb (Reachable.pope fuel b x b2 r hb.1 e) (_cll_pope_cb e).1 ?_
  intro p hp
  rw [abs_head_to_tail hA2] at hp
  rw [abs_head_to_tail hA]
  exact (hsub.map Prod.snd).subset hp

theorem bucketOK_search {H : hmbt_cll_handler α} {i : Nat} {b b2 : cll_handler α}
    (hb : BucketOK H i b) {x : α} {fuel : Nat} {r : Option α}
    (e : pall_cll_search fuel b x = some (b2, r)) : BucketOK H i b2 := by
  obtain ⟨L, hA⟩ := reachable_abs hb.1
  obtain ⟨L2, hA2, hperm⟩ := pall_cll_search_track hA fuel x b2 r e
  refine bucketOK_of_sub hb (Reachable.search fuel b x b2 r hb.1 e) (pall_cll_search_cb e).1 ?_
  intro p hp
  rw [abs_head_to_tail hA2] at hp
  rw [abs_head_to_tail hA]
  exact (hperm.map Prod.snd).subset hp

theorem bucketOK_poph {H : hmbt_cll_handler α} {i : Nat} {b b2 : cll_handler α}
    (hb : BucketOK H i b) {r : Option α}
    (e : _cll_poph b = some (b2, r)) : BucketOK H i b2 := by
  obtain ⟨L, hA⟩ := reachable_abs hb.1
  obtain ⟨hA2, -⟩ := _cll_poph_track hA b2 r e
  refine bucketOK_of_sub hb (Reachable.poph b b2 r hb.1 e) (_cll_poph_cb e).1 ?_
  intro p hp
  rw [abs_head_to_tail hA2] at hp
  rw [abs_head_to_tail hA]
  exact ((List.tail_sublist L).map Prod.snd).subset hp

theorem bucketOK_collapse {H : hmbt_cll_handler α} {i : Nat} {b b2 : cll_handler α}
    (hb : BucketOK H i b) {fuel : Nat}
    (e : _cll_collapse fuel b = some b2) : BucketOK H i b2 := by
  obtain ⟨L, hA⟩ := reachable_abs hb.1
  have hA2 := pall_cll_collapse_abs hA fuel b2 e
  refine bucketOK_of_sub hb (Reachable.collapse fuel b b2 hb.1 e) (_cll_collapse_cb e).1 ?_
  intro p hp
  rw [abs_head_to_tail hA2] at hp
  simp at hp

theorem bucketOK_iterate {H : hmbt_cll_handler α} {i : Nat} {b b2 : cll_handler α}
    (hb : BucketOK H i b) {r : Option α}
    (e : _cll_iterate b = some (b2, r)) : BucketOK H i b2 := by
  obtain ⟨L, hA⟩ := reachable_abs hb.1
  obtain ⟨b3, r3, e3, hA3⟩ := _cll_iterate_abs hA
  rw [e] at e3
  simp only [Option.some.injEq, Prod.mk.injEq] at e3
  obtain ⟨rfl, rfl⟩ := e3
  refine bucketOK_of_sub hb (Reachable.iterate b b2 r hb.1 e) (_cll_iterate_cb e).1 ?_
  intro p hp
  rw [abs_head_to_tail hA3] at hp
  rw [abs_head_to_tail hA]
  exact hp

theorem bucketOK_same {H : hmbt_cll_handler α} {i : Nat} {b b2 : cll_handler α}
    (hb : BucketOK H i b) (hr : Reachable b2) (hc : b2.compare = b.compare)
    (hm : b2.mem = b.mem) (hh : b2.cll_head = b.cll_head) (hn : b2._count = b._count) :
    BucketOK H i b2 := by
  refine bucketOK_of_sub hb hr hc ?_
  intro p hp
  unfold head_to_tail at hp ⊢
  rw [hm, hh, hn] at hp
  exact hp

theorem hmbt_init_array_spec (compare : Option (α → α → Int)) (destroy : Bool)
    (ser_data : Option (pall_fd_t → α → pall_fd_t × Int))
    (unser_data : Option (pall_fd_t → pall_fd_t × Option α)) (ok : Bool) :
    ∀ (k : Nat) (arr : List (cll_handler α)),
      hmbt_init_array compare destroy ser_data unser_data ok k = some arr →
      arr.length = k ∧
        ∀ c ∈ arr, pall_cll_init compare destroy ser_data unser_data ok = some c := by
  intro k
  induction k with
  | zero =>
    intro arr e
    simp only [hmbt_init_array, Option.some.injEq] at e
    subst e
    simp
  | succ k ih =>
    intro arr e
    rw [hmbt_init_array] at e
    obtain ⟨c, hc, e⟩ := obind_eq_some.1 e
    obtain ⟨cs, hcs, e⟩ := obind_eq_some.1 e
    simp only [Option.some.injEq] at e
    subst e
    obtain ⟨h1, h2⟩ := ih cs hcs
    refine ⟨by simp [h1], ?_⟩
    intro d hd
    rcases List.mem_cons.1 hd with rfl | hd
    · exact hc
    · exact h2 d hd

theorem init_compare {compare : Option (α → α → Int)} {destroy : Bool}
    {ser_data : Option (pall_fd_t → α → pall_fd_t × Int)}
    {unser_data : Option (pall_fd_t → pall_fd_t × Option α)} {ok : Bool} {c : cll_handler α}
    (e : pall_cll_init compare destroy ser_data unser_data ok = some c) :
    c.compare = compare := by
  unfold pall_cll_init at e
  split_ifs at e <;> cases e <;> rfl

theorem hinv_init {compare : Option (α → α → Int)} {destroy : Bool}
    {hash : Option (α → Nat)} {ser_data : Option (pall_fd_t → α → pall_fd_t × Int)}
    {unser_data : Option (pall_fd_t → pall_fd_t × Option α)} {array_size : Nat} {ok : Bool}
    {H : hmbt_cll_handler α}
    (e : pall_hmbt_cll_init compare destroy hash ser_data unser_data array_size ok = some H) :
    HInv H ∧ H._iterate_arr_pos = 0 ∧ H._iterate_reverse = 0 ∧
      H.arr_size = (if array_size % 4294967296 ≠ 0 then array_size % 4294967296 else 127) := by
  unfold pall_hmbt_cll_init at e
  cases hash with
  | none => simp at e
  | some hf =>
    simp only at e
    split_ifs at e with h1 h2 h3
    · obtain ⟨arr, harr, e⟩ := obind_eq_some.1 e
      cases e
      obtain ⟨hl, hall⟩ := hmbt_init_array_spec _ _ _ _ _ _ _ harr
      refine ⟨⟨hl, ?_, ?_, ?_⟩, rfl, rfl, ?_⟩
      · dsimp only; omega
      · dsimp only; omega
      · intro i b hb
        have hm := List.getElem?_mem hb
        have hi := hall b hm
        refine ⟨Reachable.init _ _ _ _ _ b hi, init_compare hi, ?_⟩
        rw [abs_head_to_tail (abs_init hi)]
        simp
      · dsimp only; rw [if_pos h3]
    · obtain ⟨arr, harr, e⟩ := obind_eq_some.1 e
      cases e
      obtain ⟨hl, hall⟩ := hmbt_init_array_spec _ _ _ _ _ _ _ harr
      refine ⟨⟨hl, ?_, ?_, ?_⟩, rfl, rfl, ?_⟩
      · dsimp only; decide
      · dsimp only; decide
      · intro i b hb
        have hm := List.getElem?_mem hb
        have hi := hall b hm
        refine ⟨Reachable.init _ _ _ _ _ b hi, init_compare hi, ?_⟩
        rw [abs_head_to_tail (abs_init hi)]
        simp
      · dsimp only; rw [if_neg h3]; rfl

/-- A loop over the buckets whose body always returns: it maps the buckets it visits and
folds the local variables over them. -/
theorem hmbt_for_map {σ : Type} (g : cll_handler α → cll_handler α)
    (f : σ → cll_handler α → σ) :
    ∀ (mid pre post : List (cll_handler α)) (H : hmbt_cll_handler α) (s : σ),
      H.array = pre ++ mid ++ post →
      hmbt_for (fun pool s => some (g pool, f s pool)) mid.length pre.length H s =
        some ({ H with array := pre ++ mid.map g ++ post }, mid.foldl f s) := by
  intro mid
  induction mid with
  | nil =>
    intro pre post H s e
    simp only [List.length_nil, hmbt_for, List.map_nil, List.foldl_nil, List.append_nil]
    simp only [List.append_nil] at e
    rw [← e]
  | cons b mid ih =>
    intro pre post H s e
    simp only [List.length_cons, hmbt_for]
    have hb : H.array[pre.length]? = some b := by
      rw [e, List.append_assoc, List.getElem?_append_right (le_refl _)]; simp
    rw [hmbt_at_eq hb rfl, obind_some]
    have e2 : ({ H with array := H.array.set pre.length (g b) } : hmbt_cll_handler α).array =
        (pre ++ [g b]) ++ mid ++ post := by
      show H.array.set pre.length (g b) = _
      rw [e]; simp
    have := ih (pre ++ [g b]) post _ (f s b) e2
    simp only [List.length_append, List.length_singleton] at this
    rw [this]
    simp
    
/-- The whole loop, from the index `0` over `arr_size` buckets. -/
theorem hmbt_for_all {σ : Type} (g : cll_handler α → cll_handler α)
    (f : σ → cll_handler α → σ) (H : hmbt_cll_handler α) (s : σ)
    (hl : H.array.length = H.arr_size) :
    hmbt_for (fun pool s => some (g pool, f s pool)) H.arr_size 0 H s =
      some ({ H with array := H.array.map g }, H.array.foldl f s) := by
  have := hmbt_for_map g f H.array [] [] H s (by simp)
  simpa [hl] using this

theorem hinv_map {H H2 : hmbt_cll_handler α} (hI : HInv H) {g : cll_handler α → cll_handler α}
    (e0 : H2.array = H.array.map g) (e1 : H2.hash = H.hash)
    (e2 : H2.compare = H.compare) (e3 : H2.arr_size = H.arr_size)
    (hg : ∀ i b, BucketOK H i b → BucketOK H i (g b)) : HInv H2 := by
  obtain ⟨hlen, hpos, hlt, hall⟩ := hI
  refine ⟨by rw [e0, e3, List.length_map, hlen], by rw [e3]; exact hpos,
    by rw [e3]; exact hlt, ?_⟩
  intro j b hj
  rw [e0, List.getElem?_map] at hj
  cases hb : H.array[j]? with
  | none => rw [hb] at hj; cases hj
  | some c =>
    rw [hb] at hj
    simp only [Option.map_some', Option.some.injEq] at hj
    subst hj
    exact bucketOK_congr e1 e2 e3 (hg j c (hall j c hb))

theorem hinv_at {β : Type} {H H2 : hmbt_cll_handler α} (hI : HInv H) {i : Nat}
    {f : cll_handler α → Option (cll_handler α × β)} {r : β}
    (e : hmbt_at H i f = some (H2, r))
    (hf : ∀ b b2, BucketOK H i b → f b = some (b2, r) → BucketOK H i b2) : HInv H2 := by
  obtain ⟨b, b2, hb, hfb, rfl⟩ := hmbt_at_some e
  exact hinv_set hI rfl rfl rfl rfl (hf b b2 (hI.2.2.2 i b hb) hfb)

theorem hinv_stat {H : hmbt_cll_handler α} (hI : HInv H) (st : hmbt_cll_stat) :
    HInv { H with _stat := st } :=
  hinv_congr hI rfl rfl rfl rfl

theorem hinv_for {σ : Type} {H H2 : hmbt_cll_handler α} (hI : HInv H)
    {step : cll_handler α → σ → Option (cll_handler α × σ)} {k i : Nat} {s t : σ}
    (hstep : ∀ i b s r, BucketOK H i b → step b s = some r → BucketOK H i r.1)
    (e : hmbt_for step k i H s = some (H2, t)) : HInv H2 := by
  obtain ⟨h1, h2, h3⟩ := hmbt_for_inv step (BucketOK H) hstep k i H s H2 t hI.2.2.2 e
  obtain ⟨hlen, hpos, hlt, -⟩ := hI
  rw [h3]
  refine ⟨by show H2.array.length = H.arr_size; rw [h2, hlen], hpos, hlt, ?_⟩
  intro j b hj
  exact bucketOK_congr rfl rfl rfl (h1 j b hj)

theorem hinv_insert {fuel : Nat} {H H2 : hmbt_cll_handler α} {data : α} {n : Nat} {r : Int}
    (hI : HInv H) (hn : n = 0 ∨ ∀ b ∈ H.array, b.mem n = none)
    (e : pall_hmbt_cll_insert fuel H data n = some (H2, r)) : HInv H2 := by
  unfold pall_hmbt_cll_insert _hmbt_cll_insert at e
  obtain ⟨i, hi, e⟩ := obind_eq_some.1 e
  obtain ⟨b, b2, hb, hfb, rfl⟩ := hmbt_at_some e
  refine hinv_set hI rfl rfl rfl rfl
    (bucketOK_insert (hI.2.2.2 i b hb) hi ?_ hfb)
  rcases hn with h0 | hn
  · exact Or.inl h0
  · exact Or.inr (hn b (List.getElem?_mem hb))

theorem hinv_iterate_loop : ∀ (fuel : Nat) (H H2 : hmbt_cll_handler α) (r : Option α),
    HInv H → _hmbt_cll_iterate_loop fuel H = some (H2, r) → HInv H2 := by
  intro fuel
  induction fuel with
  | zero => intro H H2 r _ e; simp [_hmbt_cll_iterate_loop] at e
  | succ fuel ih =>
    intro H H2 r hI e
    rw [_hmbt_cll_iterate_loop] at e
    obtain ⟨x, hx, e⟩ := obind_eq_some.1 e
    have hI1 : HInv x.1 := hinv_at (r := x.2) hI hx (fun b b2 hb hf => bucketOK_iterate hb hf)
    cases hx2 : x.2 with
    | some d =>
      rw [hx2] at e
      simp only [Option.some.injEq, Prod.mk.injEq] at e
      rw [← e.1]; exact hI1
    | none =>
      rw [hx2] at e
      simp only at e
      split_ifs at e with c1 c2 c3
      · simp only [Option.some.injEq, Prod.mk.injEq] at e
        rw [← e.1]; exact hI1
      · refine ih _ _ _ ?_ e
        exact hinv_congr hI1 rfl rfl rfl rfl
      · simp only [Option.some.injEq, Prod.mk.injEq] at e
        rw [← e.1]; exact hinv_congr hI1 rfl rfl rfl rfl
      · refine ih _ _ _ ?_ e
        exact hinv_congr hI1 rfl rfl rfl rfl

theorem _cll_set_config_frame (h : cll_handler α) (flags : Nat) :
    (_cll_set_config h flags).1.mem = h.mem ∧
      (_cll_set_config h flags).1.cll_head = h.cll_head ∧
      (_cll_set_config h flags).1._count = h._count ∧
      (_cll_set_config h flags).1.cll = h.cll ∧
      (_cll_set_config h flags).1._config_flags = flags % 4294967296 := by
  unfold _cll_set_config
  dsimp only
  split_ifs <;> exact ⟨rfl, rfl, rfl, rfl, rfl⟩

theorem set_append_cons {β : Type} (pre post : List β) (b c : β) :
    (pre ++ b :: post).set pre.length c = pre ++ c :: post := by
  induction pre with
  | nil => rfl
  | cons a pre ih => simp [ih]

theorem getElem?_append_cons {β : Type} (pre post : List β) (b : β) :
    (pre ++ b :: post)[pre.length]? = some b := by
  rw [List.getElem?_append_right (le_refl _)]; simp

/-! ## Statistics after `stat_reset` -/

theorem _cll_stat_st_insert (h : cll_handler α) :
    (_cll_stat h)._stat.insert = h._stat.insert := rfl

theorem _cll_stat_st_insert_err (h : cll_handler α) :
    (_cll_stat h)._stat.insert_err = h._stat.insert_err := rfl

theorem _cll_stat_st_poph (h : cll_handler α) :
    (_cll_stat h)._stat.poph = h._stat.poph := rfl

theorem _cll_stat_st_max (h : cll_handler α) :
    (_cll_stat h)._stat.elem_count_max = h._stat.elem_count_max := rfl

/-! ## HMBT-CLL: the record of `stat` -/

theorem _cll_stat_st_del (h : cll_handler α) :
    (_cll_stat h)._stat.del = h._stat.del := rfl

theorem _cll_stat_st_del_nf (h : cll_handler α) :
    (_cll_stat h)._stat.del_nf = h._stat.del_nf := rfl

theorem _cll_stat_st_search (h : cll_handler α) :
    (_cll_stat h)._stat.search = h._stat.search := rfl

theorem _cll_stat_st_search_nf (h : cll_handler α) :
    (_cll_stat h)._stat.search_nf = h._stat.search_nf := rfl

theorem _cll_stat_st_pope (h : cll_handler α) :
    (_cll_stat h)._stat.pope = h._stat.pope := rfl

theorem _cll_stat_st_pope_nf (h : cll_handler α) :
    (_cll_stat h)._stat.pope_nf = h._stat.pope_nf := rfl

theorem _cll_stat_st_cur (h : cll_handler α) :
    (_cll_stat h)._stat.elem_count_cur = h._count := rfl

theorem _cll_stat_count (h : cll_handler α) : (_cll_stat h)._count = h._count := rfl

theorem _cll_count_snd (h : cll_handler α) : (_cll_count h).2 = h._count := rfl

theorem getD_append_cons {β : Type} (pre post : List β) (b d : β) :
    (pre ++ b :: post).getD pre.length d = b := by
  rw [List.getD_eq_getElem?_getD, getElem?_append_cons]
  rfl

/-- The list handler that the body of the loop of `stat` leaves does not depend on the
record. -/
theorem hmbt_stat_step_fst (i : Nat) (pool : cll_handler α) (st : hmbt_cll_stat) :
    (hmbt_stat_step i pool st).1 = (hmbt_stat_step 0 pool {}).1 := by
  unfold hmbt_stat_step
  rfl

/-- The counters of the record after the body of the loop of `stat` has run for a
bucket. -/
theorem hmbt_stat_step_sums (i : Nat) (pool : cll_handler α) (st : hmbt_cll_stat) :
    (hmbt_stat_step i pool st).2.insert = st.insert + pool._stat.insert ∧
      (hmbt_stat_step i pool st).2.insert_err = st.insert_err + pool._stat.insert_err ∧
      (hmbt_stat_step i pool st).2.del = st.del + pool._stat.del ∧
      (hmbt_stat_step i pool st).2.del_nf = st.del_nf + pool._stat.del_nf ∧
      (hmbt_stat_step i pool st).2.search = st.search + pool._stat.search ∧
      (hmbt_stat_step i pool st).2.search_nf = st.search_nf + pool._stat.search_nf ∧
      (hmbt_stat_step i pool st).2.pope = st.pope + pool._stat.pope ∧
      (hmbt_stat_step i pool st).2.pope_nf = st.pope_nf + pool._stat.pope_nf ∧
      (hmbt_stat_step i pool st).2.elem_count_cur = st.elem_count_cur + pool._count ∧
      (hmbt_stat_step i pool st).2.elem_count_max =
        st.elem_count_max + pool._stat.elem_count_max := by
  unfold hmbt_stat_step
  dsimp only
  refine ⟨rfl, ?_, ?_, ?_, ?_, ?_, ?_, ?_, ?_, ?_⟩
  · repeat rw [_cll_stat_st_insert_err]
  · repeat rw [_cll_stat_st_del]
  · repeat rw [_cll_stat_st_del_nf]
  · repeat rw [_cll_stat_st_search]
  · repeat rw [_cll_stat_st_search_nf]
  · repeat rw [_cll_stat_st_pope]
  · repeat rw [_cll_stat_st_pope_nf]
  · rw [_cll_stat_st_cur]
    repeat rw [_cll_stat_count]
  · repeat rw [_cll_stat_st_max]

/-- The per-bucket counts of the record after the body of the loop of `stat` has run for
the bucket `i`. -/
theorem hmbt_stat_step_counts (pool : cll_handler α) (st : hmbt_cll_stat)
    (pre post : List Nat) (z : Nat) (hn : st.node_elem_count = pre ++ z :: post) :
    (hmbt_stat_step pre.length pool st).2.node_elem_count = pre ++ pool._count :: post ∧
      (hmbt_stat_step pre.length pool st).2.node_elem_count_min =
        min st.node_elem_count_min pool._count ∧
      (hmbt_stat_step pre.length pool st).2.node_elem_count_max =
        max st.node_elem_count_max pool._count := by
  unfold hmbt_stat_step
  dsimp only
  rw [_cll_count_snd]
  repeat rw [_cll_stat_count]
  rw [hn, set_append_cons, getD_append_cons]
  refine ⟨rfl, ?_, ?_⟩
  · split_ifs with h1
    · exact (min_eq_right (le_of_lt h1)).symm
    · exact (min_eq_left (not_lt.1 h1)).symm
  · split_ifs with h2
    · exact (max_eq_right (le_of_lt h2)).symm
    · exact (max_eq_left (not_lt.1 h2)).symm

theorem _cll_stat_frame (h : cll_handler α) :
    (_cll_stat h).compare = h.compare ∧ (_cll_stat h).mem = h.mem ∧
      (_cll_stat h).cll_head = h.cll_head ∧ (_cll_stat h)._count = h._count :=
  ⟨rfl, rfl, rfl, rfl⟩

theorem _cll_count_frame (h : cll_handler α) :
    (_cll_count h).1.compare = h.compare ∧ (_cll_count h).1.mem = h.mem ∧
      (_cll_count h).1.cll_head = h.cll_head ∧ (_cll_count h).1._count = h._count :=
  ⟨rfl, rfl, rfl, rfl⟩

/-- The bucket that the body of the loop of `stat` leaves is the bucket it found, up to
the counters `stat` and `count` and the field `elem_count_cur` of its record. -/
theorem hmbt_stat_step_pool (pool : cll_handler α) (hr : Reachable pool) :
    Reachable (hmbt_stat_step 0 pool {}).1 ∧
      (hmbt_stat_step 0 pool {}).1.compare = pool.compare ∧
      (hmbt_stat_step 0 pool {}).1.mem = pool.mem ∧
      (hmbt_stat_step 0 pool {}).1.cll_head = pool.cll_head ∧
      (hmbt_stat_step 0 pool {}).1._count = pool._count := by
  unfold hmbt_stat_step
  dsimp only
  refine ⟨?_, ?_, ?_, ?_, ?_⟩
  · exact Reachable.count _ (Reachable.stat _ (Reachable.stat _ (Reachable.stat _
      (Reachable.stat _ (Reachable.stat _ (Reachable.stat _ (Reachable.stat _
      (Reachable.stat _ (Reachable.stat _ (Reachable.stat _ hr))))))))))
  · rw [(_cll_count_frame _).1]
    repeat rw [(_cll_stat_frame _).1]
  · rw [(_cll_count_frame _).2.1]
    repeat rw [(_cll_stat_frame _).2.1]
  · rw [(_cll_count_frame _).2.2.1]
    repeat rw [(_cll_stat_frame _).2.2.1]
  · rw [(_cll_count_frame _).2.2.2]
    repeat rw [(_cll_stat_frame _).2.2.2]

theorem hmbt_stat_step_ok {H : hmbt_cll_handler α} {i : Nat} {b : cll_handler α}
    (hb : BucketOK H i b) : BucketOK H i (hmbt_stat_step 0 b {}).1 := by
  obtain ⟨h1, h2, h3, h4, h5⟩ := hmbt_stat_step_pool b hb.1
  exact bucketOK_same hb h1 h2 h3 h4 h5

/-- The loop of `stat` over the buckets `bs`, entered at the index `pre.length` with the
counts `pre` of the buckets already visited. -/
theorem hmbt_stat_fold : ∀ (bs : List (cll_handler α)) (pre : List Nat) (st : hmbt_cll_stat),
    st.node_elem_count = pre ++ List.replicate bs.length 0 →
    (bs.foldl (fun (s : hmbt_cll_stat × Nat) pool =>
        ((hmbt_stat_step s.2 pool s.1).2, s.2 + 1)) (st, pre.length)).1.node_elem_count =
        pre ++ bs.map (fun b => b._count) ∧
      (bs.foldl (fun (s : hmbt_cll_stat × Nat) pool =>
        ((hmbt_stat_step s.2 pool s.1).2, s.2 + 1)) (st, pre.length)).1.node_elem_count_min =
        bs.foldl (fun m b => min m b._count) st.node_elem_count_min ∧
      (bs.foldl (fun (s : hmbt_cll_stat × Nat) pool =>
        ((hmbt_stat_step s.2 pool s.1).2, s.2 + 1)) (st, pre.length)).1.node_elem_count_max =
        bs.foldl (fun m b => max m b._count) st.node_elem_count_max ∧
      (bs.foldl (fun (s : hmbt_cll_stat × Nat) pool =>
        ((hmbt_stat_step s.2 pool s.1).2, s.2 + 1)) (st, pre.length)).1.insert =
        st.insert + (bs.map fun b => b._stat.insert).sum ∧
      (bs.foldl (fun (s : hmbt_cll_stat × Nat) pool =>
        ((hmbt_stat_step s.2 pool s.1).2, s.2 + 1)) (st, pre.length)).1.insert_err =
        st.insert_err + (bs.map fun b => b._stat.insert_err).sum ∧
      (bs.foldl (fun (s : hmbt_cll_stat × Nat) pool =>
        ((hmbt_stat_step s.2 pool s.1).2, s.2 + 1)) (st, pre.length)).1.del =
        st.del + (bs.map fun b => b._stat.del).sum ∧
      (bs.foldl (fun (s : hmbt_cll_stat × Nat) pool =>
        ((hmbt_stat_step s.2 pool s.1).2, s.2 + 1)) (st, pre.length)).1.del_nf =
        st.del_nf + (bs.map fun b => b._stat.del_nf).sum ∧
      (bs.foldl (fun (s : hmbt_cll_stat × Nat) pool =>
        ((hmbt_stat_step s.2 pool s.1).2, s.2 + 1)) (st, pre.length)).1.search =
        st.search + (bs.map fun b => b._stat.search).sum ∧
      (bs.foldl (fun (s : hmbt_cll_stat × Nat) pool =>
        ((hmbt_stat_step s.2 pool s.1).2, s.2 + 1)) (st, pre.length)).1.search_nf =
        st.search_nf + (bs.map fun b => b._stat.search_nf).sum ∧
      (bs.foldl (fun (s : hmbt_cll_stat × Nat) pool =>
        ((hmbt_stat_step s.2 pool s.1).2, s.2 + 1)) (st, pre.length)).1.pope =
        st.pope + (bs.map fun b => b._stat.pope).sum ∧
      (bs.foldl (fun (s : hmbt_cll_stat × Nat) pool =>
        ((hmbt_stat_step s.2 pool s.1).2, s.2 + 1)) (st, pre.length)).1.pope_nf =
        st.pope_nf + (bs.map fun b => b._stat.pope_nf).sum ∧
      (bs.foldl (fun (s : hmbt_cll_stat × Nat) pool =>
        ((hmbt_stat_step s.2 pool s.1).2, s.2 + 1)) (st, pre.length)).1.elem_count_cur =
        st.elem_count_cur + (bs.map fun b => b._count).sum ∧
      (bs.foldl (fun (s : hmbt_cll_stat × Nat) pool =>
        ((hmbt_stat_step s.2 pool s.1).2, s.2 + 1)) (st, pre.length)).1.elem_count_max =
        st.elem_count_max + (bs.map fun b => b._stat.elem_count_max).sum ∧
      (bs.foldl (fun (s : hmbt_cll_stat × Nat) pool =>
        ((hmbt_stat_step s.2 pool s.1).2, s.2 + 1)) (st, pre.length)).1.stat = st.stat := by
  intro bs
  induction bs with
  | nil =>
    intro pre st hn
    simp only [List.length_nil, List.replicate_zero, List.append_nil] at hn
    simp only [List.foldl_nil, List.map_nil, List.append_nil, List.sum_nil, Nat.add_zero, hn,
      and_self]
  | cons b bs ih =>
    intro pre st hn
    have hn1 : st.node_elem_count = pre ++ 0 :: List.replicate bs.length 0 := by
      rw [hn]; rfl
    obtain ⟨c1, c2, c3⟩ := hmbt_stat_step_counts b st pre _ 0 hn1
    obtain ⟨s1, s2, s3, s4, s5, s6, s7, s8, s9, s10⟩ := hmbt_stat_step_sums pre.length b st
    have hst : (hmbt_stat_step pre.length b st).2.stat = st.stat := by
      unfold hmbt_stat_step
      rfl
    have hn2 : (hmbt_stat_step pre.length b st).2.node_elem_count =
        (pre ++ [b._count]) ++ List.replicate bs.length 0 := by
      rw [c1]; simp
    have := ih (pre ++ [b._count]) (hmbt_stat_step pre.length b st).2 hn2
    simp only [List.length_append, List.length_singleton] at this
    simp only [List.foldl_cons, List.map_cons, List.sum_cons]
    obtain ⟨i1, i2, i3, i4, i5, i6, i7, i8, i9, i10, i11, i12, i13, i14⟩ := this
    refine ⟨?_, ?_, ?_, ?_, ?_, ?_, ?_, ?_, ?_, ?_, ?_, ?_, ?_, ?_⟩
    · rw [i1]; simp
    · rw [i2, c2]
    · rw [i3, c3]
    · rw [i4, s1]; omega
    · rw [i5, s2]; omega
    · rw [i6, s3]; omega
    · rw [i7, s4]; omega
    · rw [i8, s5]; omega
    · rw [i9, s6]; omega
    · rw [i10, s7]; omega
    · rw [i11, s8]; omega
    · rw [i12, s9]; omega
    · rw [i13, s10]; omega
    · rw [i14, hst]

theorem foldl_map_fn {β γ : Type} (f : γ → β → γ) (g : α → β) (l : List α) (s : γ) :
    l.foldl (fun m b => f m (g b)) s = (l.map g).foldl f s := by
  induction l generalizing s with
  | nil => rfl
  | cons a l ih => simp only [List.foldl_cons, List.map_cons, ih]

/-- What `stat` returns on a handler whose array holds `arr_size` buckets: the call
returns, and the record holds the count of every bucket, the least and the greatest of
`ULONG_MAX`, respectively `0`, and the counts, and the sums of the counters. -/
theorem pall_hmbt_cll_stat_eq {H : hmbt_cll_handler α} (hl : H.array.length = H.arr_size) :
    ∃ H2, pall_hmbt_cll_stat H = some H2 ∧
      H2.array = H.array.map (fun b => (hmbt_stat_step 0 b {}).1) ∧
      H2.arr_size = H.arr_size ∧ H2.hash = H.hash ∧ H2.compare = H.compare ∧
      H2._stat.node_elem_count = H.array.map (fun b => b._count) ∧
      H2._stat.node_elem_count_min =
        (H.array.map fun b => b._count).foldl (fun m c => min m c) ULONG_MAX ∧
      H2._stat.node_elem_count_max =
        (H.array.map fun b => b._count).foldl (fun m c => max m c) 0 ∧
      H2._stat.insert = (H.array.map fun b => b._stat.insert).sum ∧
      H2._stat.insert_err = (H.array.map fun b => b._stat.insert_err).sum ∧
      H2._stat.del = (H.array.map fun b => b._stat.del).sum ∧
      H2._stat.del_nf = (H.array.map fun b => b._stat.del_nf).sum ∧
      H2._stat.search = (H.array.map fun b => b._stat.search).sum ∧
      H2._stat.search_nf = (H.array.map fun b => b._stat.search_nf).sum ∧
      H2._stat.pope = (H.array.map fun b => b._stat.pope).sum ∧
      H2._stat.pope_nf = (H.array.map fun b => b._stat.pope_nf).sum ∧
      H2._stat.elem_count_cur = (H.array.map fun b => b._count).sum ∧
      H2._stat.elem_count_max = (H.array.map fun b => b._stat.elem_count_max).sum ∧
      H2._stat.stat = H._stat.stat + 1 := by
  unfold pall_hmbt_cll_stat _hmbt_cll_stat
  dsimp only
  have efun : (fun pool (s : hmbt_cll_stat × Nat) =>
      some ((hmbt_stat_step s.2 pool s.1).1, ((hmbt_stat_step s.2 pool s.1).2, s.2 + 1))) =
      (fun (pool : cll_handler α) (s : hmbt_cll_stat × Nat) =>
        some ((fun b => (hmbt_stat_step 0 b {}).1) pool,
          (fun (s : hmbt_cll_stat × Nat) pool =>
            ((hmbt_stat_step s.2 pool s.1).2, s.2 + 1)) s pool)) := by
    funext pool s
    rw [hmbt_stat_step_fst]
  rw [efun, hmbt_for_all _ _ H _ hl, obind_some]
  refine ⟨_, rfl, rfl, rfl, rfl, rfl, ?_⟩
  dsimp only
  obtain ⟨i1, i2, i3, i4, i5, i6, i7, i8, i9, i10, i11, i12, i13, i14⟩ :=
    hmbt_stat_fold H.array [] { H._stat with
      insert := 0
      insert_err := 0
      del := 0
      del_nf := 0
      search := 0
      search_nf := 0
      pope := 0
      pope_nf := 0
      elem_count_cur := 0
      elem_count_max := 0
      node_elem_count_min := ULONG_MAX
      node_elem_count_max := 0
      node_elem_count := List.replicate H.arr_size 0 } (by rw [hl]; rfl)
  simp only [List.length_nil, List.nil_append, Nat.zero_add] at i1 i2 i3 i4 i5 i6 i7 i8 i9 i10 i11 i12 i13 i14
  rw [foldl_map_fn (fun m c => min m c) (fun b : cll_handler α => b._count)] at i2
  rw [foldl_map_fn (fun m c => max m c) (fun b : cll_handler α => b._count)] at i3
  exact ⟨i1, i2, i3, i4, i5, i6, i7, i8, i9, i10, i11, i12, i13, by rw [i14]⟩

theorem hinv_hmbt_stat {H H2 : hmbt_cll_handler α} (hI : HInv H)
    (e : pall_hmbt_cll_stat H = some H2) : HInv H2 := by
  obtain ⟨H3, e3, ha, hs, hh, hc, -⟩ := pall_hmbt_cll_stat_eq hI.1
  rw [e] at e3
  cases e3
  exact hinv_map hI ha hh hc hs (fun i b hb => hmbt_stat_step_ok hb)

theorem pall_hmbt_cll_stat_reset_eq {H : hmbt_cll_handler α}
    (hl : H.array.length = H.arr_size) :
    pall_hmbt_cll_stat_reset H =
      some { H with array := H.array.map _cll_stat_reset,
                    _stat := { node_elem_count := List.replicate H.arr_size 0 } } := by
  unfold pall_hmbt_cll_stat_reset _hmbt_cll_stat_reset
  have e := hmbt_for_all _cll_stat_reset (fun (_ : Unit) _ => ())
    { H with _stat := { node_elem_count := List.replicate H.arr_size 0 } } () hl
  rw [e, obind_some]

theorem hinv_hmbt_stat_reset {H H2 : hmbt_cll_handler α} (hI : HInv H)
    (e : pall_hmbt_cll_stat_reset H = some H2) : HInv H2 := by
  rw [pall_hmbt_cll_stat_reset_eq hI.1] at e
  cases e
  refine hinv_map hI rfl rfl rfl rfl (fun i b hb => ?_)
  exact bucketOK_same hb (Reachable.stat_reset b hb.1) rfl rfl rfl rfl

/-- The invariant of the HMBT-CLL holds in every reachable state. -/
theorem hreach_inv {H : hmbt_cll_handler α} (hr : HReach H) : HInv H := by
  induction hr with
  | init compare destroy hash ser_data unser_data array_size ok H e => exact (hinv_init e).1
  | insert fuel H data n H2 r _ hn e ih => exact hinv_insert ih hn e
  | search fuel H data H2 r _ e ih =>
    unfold pall_hmbt_cll_search _hmbt_cll_search at e
    obtain ⟨i, -, e⟩ := obind_eq_some.1 e
    exact hinv_at ih e (fun b b2 hb hf => bucketOK_search hb hf)
  | delete fuel H data H2 r _ e ih =>
    unfold pall_hmbt_cll_delete _hmbt_cll_delete at e
    obtain ⟨i, -, e⟩ := obind_eq_some.1 e
    exact hinv_at ih e (fun b b2 hb hf => bucketOK_delete hb hf)
  | pope fuel H data H2 r _ e ih =>
    unfold pall_hmbt_cll_pope _hmbt_cll_pope at e
    obtain ⟨i, -, e⟩ := obind_eq_some.1 e
    exact hinv_at ih e (fun b b2 hb hf => bucketOK_pope hb hf)
  | poph_elem H data H2 r _ e ih =>
    unfold pall_hmbt_cll_poph_elem _hmbt_cll_poph_elem at e
    obtain ⟨i, -, e⟩ := obind_eq_some.1 e
    obtain ⟨x, hx, e⟩ := obind_eq_some.1 e
    have hI1 : HInv x.1 := hinv_at (r := x.2) ih hx (fun b b2 hb hf => bucketOK_poph hb hf)
    split at e <;>
    · simp only [Option.some.injEq, Prod.mk.injEq] at e
      rw [← e.1]; exact hinv_stat hI1 _
  | poph_index H index H2 r _ e ih =>
    unfold pall_hmbt_cll_poph_index _hmbt_cll_poph_index at e
    obtain ⟨x, hx, e⟩ := obind_eq_some.1 e
    have hI1 : HInv x.1 := hinv_at (r := x.2) ih hx (fun b b2 hb hf => bucketOK_poph hb hf)
    split at e <;>
    · simp only [Option.some.injEq, Prod.mk.injEq] at e
      rw [← e.1]; exact hinv_stat hI1 _
  | collapse fuel H H2 _ e ih =>
    unfold pall_hmbt_cll_collapse _hmbt_cll_collapse at e
    obtain ⟨x, hx, e⟩ := obind_eq_some.1 e
    have hI1 : HInv x.1 := by
      refine hinv_for (t := x.2) ih ?_ hx
      intro i b s r hb hs
      obtain ⟨c, hc, hs⟩ := obind_eq_some.1 hs
      cases hs
      exact bucketOK_collapse hb hc
    simp only [Option.some.injEq] at e
    rw [← e]; exact hinv_stat hI1 _
  | rewind H to_ H2 _ e ih =>
    unfold pall_hmbt_cll_rewind _hmbt_cll_rewind at e
    obtain ⟨x, hx, e⟩ := obind_eq_some.1 e
    have hI0 : HInv { H with _iterate_reverse := to_ } := hinv_congr ih rfl rfl rfl rfl
    have hI1 : HInv x.1 := by
      refine hinv_for (t := x.2) hI0 ?_ hx
      intro i b s r hb hs
      cases hs
      exact bucketOK_same hb (Reachable.rewind b to_ hb.1) rfl rfl rfl rfl
    simp only [Option.some.injEq] at e
    rw [← e]
    split_ifs <;> exact hinv_congr hI1 rfl rfl rfl rfl
  | iterate fuel H H2 r _ e ih =>
    unfold pall_hmbt_cll_iterate _hmbt_cll_iterate at e
    obtain ⟨x, hx, e⟩ := obind_eq_some.1 e
    have hI1 : HInv x.1 := hinv_iterate_loop fuel H x.1 x.2 ih hx
    split at e <;>
    · simp only [Option.some.injEq, Prod.mk.injEq] at e
      rw [← e.1]
      exact hinv_stat hI1 _
  | set_config H flags H2 r _ e ih =>
    unfold pall_hmbt_cll_set_config _hmbt_cll_set_config at e
    obtain ⟨x, hx, e⟩ := obind_eq_some.1 e
    have hI1 : HInv x.1 := by
      refine hinv_for (t := x.2) ih ?_ hx
      intro i b s r hb hs
      cases hs
      exact bucketOK_same hb (Reachable.set_config b _ hb.1)
        (_cll_set_config_cb b _).1 (_cll_set_config_frame b _).1
        (_cll_set_config_frame b _).2.1 (_cll_set_config_frame b _).2.2.1
    simp only [Option.some.injEq, Prod.mk.injEq] at e
    rw [← e.1]; exact hinv_stat hI1 _
  | get_config H H2 r _ e ih =>
    unfold pall_hmbt_cll_get_config _hmbt_cll_get_config at e
    refine hinv_at (hinv_stat ih _) e ?_
    intro b b2 hb hf
    cases hf
    exact bucketOK_same hb (Reachable.get_config b hb.1) rfl rfl rfl rfl
  | count H H2 r _ e ih =>
    unfold pall_hmbt_cll_count _hmbt_cll_count at e
    obtain ⟨x, hx, e⟩ := obind_eq_some.1 e
    have hI1 : HInv x.1 := by
      refine hinv_for (t := x.2) ih ?_ hx
      intro i b s r hb hs
      cases hs
      exact bucketOK_same hb (Reachable.count b hb.1) rfl rfl rfl rfl
    simp only [Option.some.injEq, Prod.mk.injEq] at e
    rw [← e.1]; exact hinv_stat hI1 _
  | stat H H2 _ e ih => exact hinv_hmbt_stat ih e
  | stat_reset H H2 _ e ih => exact hinv_hmbt_stat_reset ih e

theorem foldl_add_sum {β : Type} (f : β → Nat) (l : List β) (s : Nat) :
    l.foldl (fun c b => c + f b) s = s + (l.map f).sum := by
  induction l generalizing s with
  | nil => simp
  | cons b l ih => simp only [List.foldl_cons, ih, List.map_cons, List.sum_cons]; omega

/-- What `count` returns and leaves when the array holds `arr_size` buckets. -/
theorem pall_hmbt_cll_count_eq {H : hmbt_cll_handler α} (hl : H.array.length = H.arr_size) :
    pall_hmbt_cll_count H =
      some ({ H with array := H.array.map fun b => (_cll_count b).1,
                     _stat := { H._stat with count := H._stat.count + 1 } },
        (H.array.map fun b => (pall_cll_count b).2).sum) := by
  unfold pall_hmbt_cll_count _hmbt_cll_count
  rw [hmbt_for_all (fun b => (_cll_count b).1) (fun c b => c + (_cll_count b).2) H 0 hl,
    obind_some, foldl_add_sum]
  simp only [Nat.zero_add]
  rfl

theorem hreach_run_insert {H : hmbt_cll_handler α} (hr : HReach H) (fuel : Nat) (x : α)
    (n : Nat) (hn : (H.array.all fun b => (b.mem n).isNone) = true)
    (hs : (pall_hmbt_cll_insert fuel H x n).isSome = true) :
    HReach (hrun H (pall_hmbt_cll_insert fuel H x n)) := by
  cases e : pall_hmbt_cll_insert fuel H x n with
  | none => rw [e] at hs; cases hs
  | some r =>
    refine HReach.insert fuel H x n r.1 r.2 hr (Or.inr ?_) e
    intro b hb
    exact Option.isNone_iff_eq_none.1 (List.all_eq_true.1 hn b hb)

theorem ex_hmbt_fresh_reach : HReach ex_hmbt_fresh :=
  HReach.init (some compare_id) true (some fun x => x) none none 11 true ex_hmbt_fresh rfl

theorem ex_hmbt_reach : HReach ex_hmbt := by
  have h1 := hreach_run_insert ex_hmbt_fresh_reach 0 0 1 (by decide) (by decide)
  have h2 := hreach_run_insert h1 1 11 2 (by decide) (by decide)
  have h3 := hreach_run_insert h2 2 22 3 (by decide) (by decide)
  exact hreach_run_insert h3 0 3 4 (by decide) (by decide)

/-- The example of the HMBT-CLL: with `11` buckets and the identifier as hash, after the
insertion of `0`, `11`, `22` and `3` the bucket `0` holds `0`, `22`, `11`, the bucket `3`
holds `3`, `count` returns `4`, and the calls of `iterate` after `rewind(0)` return `0`,
`22`, `11`, `3` and then `NULL`. -/
theorem scenario_hmbt_eq :
    scenario_hmbt = some ([[0, 22, 11], [], [], [3], [], [], [], [], [], [], []], 4,
      [some 0, some 22, some 11, some 3, none]) := by decide

/-- C18. HMBT partition invariant: in every state of an HMBT-CLL reached from
`pall_hmbt_cll_init` by calls of insert, search, delete, pope, poph_elem, poph_index,
collapse, rewind, iterate, set_config, get_config, count, stat and stat_reset, the array
holds `arr_size` buckets, `arr_size` is positive, every payload `p` stored in the bucket
`i` satisfies `hash(p) mod arr_size = i` (the hash being a 32-bit value), and `count`
returns the sum of what `count` returns on each bucket, which is the number of payloads
stored. -/
theorem hmbt_partition {H : hmbt_cll_handler α} (hr : HReach H) :
    H.array.length = H.arr_size ∧ 0 < H.arr_size ∧
      (∀ i b, H.array[i]? = some b → ∀ p ∈ head_to_tail b,
        H.hash p % 4294967296 % H.arr_size = i) ∧
      (∃ H2, pall_hmbt_cll_count H =
        some (H2, (H.array.map fun b => (pall_cll_count b).2).sum)) ∧
      (H.array.map fun b => (pall_cll_count b).2).sum = (hmbt_forward H).length := by
  have hI := hreach_inv hr
  refine ⟨hI.1, hI.2.1, fun i b hb => (hI.2.2.2 i b hb).2.2, ⟨_, pall_hmbt_cll_count_eq hI.1⟩, ?_⟩
  unfold hmbt_forward
  rw [List.length_flatMap]
  congr 1
  apply List.map_congr_left
  intro b hb
  obtain ⟨i, hi⟩ := List.getElem?_of_mem hb
  obtain ⟨L, hA⟩ := reachable_abs (hI.2.2.2 i b hi).1
  show b._count = (head_to_tail b).length
  rw [abs_head_to_tail hA, List.length_map]
  exact hA.count

theorem hmbt_partition_witness :
    HReach ex_hmbt ∧ ex_hmbt.array.map head_to_tail =
        [[0, 22, 11], [], [], [3], [], [], [], [], [], [], []] ∧
      ex_hmbt.array.length = ex_hmbt.arr_size ∧ 0 < ex_hmbt.arr_size ∧
      (∀ i b, ex_hmbt.array[i]? = some b → ∀ p ∈ head_to_tail b,
        ex_hmbt.hash p % 4294967296 % ex_hmbt.arr_size = i) ∧
      (∃ H2, pall_hmbt_cll_count ex_hmbt =
        some (H2, (ex_hmbt.array.map fun b => (pall_cll_count b).2).sum)) ∧
      (ex_hmbt.array.map fun b => (pall_cll_count b).2).sum = (hmbt_forward ex_hmbt).length :=
  ⟨ex_hmbt_reach, by decide, hmbt_partition ex_hmbt_reach⟩

theorem head_to_tail_rewind (b : cll_handler α) (to_ : Int) :
    head_to_tail (_cll_rewind b to_) = head_to_tail b := rfl

theorem scenario_hmbt_reverse_eq :
    scenario_hmbt_reverse = some [some 3, some 11, some 22, some 0, none] := by decide

theorem mem_hmbt_forward {H : hmbt_cll_handler α} {p : α} :
    p ∈ hmbt_forward H ↔ ∃ (i : Nat) (b : cll_handler α), H.array[i]? = some b ∧
      p ∈ head_to_tail b := by
  unfold hmbt_forward
  rw [List.mem_flatMap]
  constructor
  · rintro ⟨b, hb, hp⟩
    obtain ⟨i, hi⟩ := List.getElem?_of_mem hb
    exact ⟨i, b, hi, hp⟩
  · rintro ⟨i, b, hi, hp⟩
    exact ⟨b, List.getElem?_mem hi, hp⟩

/-- What `search` returns in a state that satisfies the invariant, when the hash is
compatible with the compare callback. -/
theorem hmbt_search_spec {H : hmbt_cll_handler α} (hI : HInv H) {cmp : α → α → Int}
    (hc : H.compare = some cmp) (hcompat : ∀ a b, cmp a b = 0 → H.hash a = H.hash b)
    (k : α) (fuel : Nat) (hf : ∀ b ∈ H.array, b._count ≤ fuel) :
    ∃ H2 r, pall_hmbt_cll_search fuel H k = some (H2, r) ∧
      (∀ p, r = some p → p ∈ hmbt_forward H ∧ cmp k p = 0) ∧
      (r = none ↔ ∀ p ∈ hmbt_forward H, cmp k p ≠ 0) := by
  obtain ⟨hlen, hpos, hlt, hall⟩ := hI
  have hilt : H.hash k % 4294967296 % H.arr_size < H.array.length := by
    rw [hlen]; exact Nat.mod_lt _ hpos
  obtain ⟨b, hb⟩ : ∃ b, H.array[H.hash k % 4294967296 % H.arr_size]? = some b :=
    ⟨_, List.getElem?_eq_getElem hilt⟩
  obtain ⟨hbr, hbc, hbh⟩ := hall _ b hb
  obtain ⟨L, hA⟩ := reachable_abs hbr
  have hbc2 : b.compare = some cmp := hbc.trans hc
  have hL : L.length ≤ fuel := by
    rw [← hA.count]; exact hf b (List.getElem?_mem hb)
  have hse : pall_cll_search fuel b k = _cll_search fuel b k :=
    pall_cll_search_eq (reachable_cll_search hbr hbc2) fuel k
  have hht := abs_head_to_tail hA
  unfold pall_hmbt_cll_search _hmbt_cll_search
  rw [hmbt_index_eq hpos, obind_some]
  rcases _cll_search_full hA hbc2 k fuel hL with
    ⟨hno, f1, e⟩ | ⟨pre, q, dq, post, m1, c1, hd1, f1, L2, hLe, hz, e, -, -, -⟩
  · rw [hmbt_at_eq hb (hse.trans e)]
    refine ⟨_, _, rfl, fun p hp => (by cases hp), ?_⟩
    refine ⟨fun _ p hp hz => ?_, fun _ => rfl⟩
    obtain ⟨j, c, hj, hpc⟩ := mem_hmbt_forward.1 hp
    have hjh := (hall j c hj).2.2 p hpc
    rw [← hcompat k p hz] at hjh
    rw [← hjh, hb] at hj
    cases hj
    rw [hht] at hpc
    obtain ⟨y, hy, rfl⟩ := List.mem_map.1 hpc
    exact hno y hy hz
  · rw [hmbt_at_eq hb (hse.trans e)]
    have hmem : dq ∈ hmbt_forward H := by
      refine mem_hmbt_forward.2 ⟨_, b, hb, ?_⟩
      rw [hht, hLe]; simp
    refine ⟨_, _, rfl, fun p hp => ?_, ?_⟩
    · cases hp
      exact ⟨hmem, hz⟩
    · exact ⟨fun hn => (by cases hn), fun hno => absurd hz (hno dq hmem)⟩

/-- A payload inserted with success is stored. -/
theorem hmbt_insert_mem {H H1 : hmbt_cll_handler α} (hI : HInv H) {fuel n : Nat} {x : α}
    (hn : n = 0 ∨ ∀ b ∈ H.array, b.mem n = none)
    (e : pall_hmbt_cll_insert fuel H x n = some (H1, 0)) : x ∈ hmbt_forward H1 := by
  unfold pall_hmbt_cll_insert _hmbt_cll_insert at e
  obtain ⟨i, hi, e⟩ := obind_eq_some.1 e
  obtain ⟨b, b2, hb, hfb, rfl⟩ := hmbt_at_some e
  obtain ⟨L, hA⟩ := reachable_abs (hI.2.2.2 i b hb).1
  have hn2 : n = 0 ∨ b.mem n = none := by
    rcases hn with h0 | hn
    · exact Or.inl h0
    · exact Or.inr (hn b (List.getElem?_mem hb))
  obtain ⟨L2, hA2, hcase⟩ := pall_cll_insert_track hA fuel x n hn2 b2 0 hfb
  have hi2 : i < H.array.length := by
    by_contra hcon
    rw [List.getElem?_eq_none (by omega)] at hb
    cases hb
  refine mem_hmbt_forward.2 ⟨i, b2, ?_, ?_⟩
  · show (H.array.set i b2)[i]? = some b2
    rw [List.getElem?_set_self hi2]
  · rw [abs_head_to_tail hA2]
    rcases hcase with ⟨-, h1, -⟩ | ⟨-, -, hperm⟩
    · cases h1
    · have : x ∈ ((n, x) :: L).map Prod.snd := by simp
      exact (hperm.map Prod.snd).mem_iff.2 this

theorem compare_id_eq {a b : Nat} (h : compare_id a b = 0) : a = b := by
  unfold compare_id at h
  split_ifs at h <;> omega

/-- C20. HMBT lookup by hash dispatch is complete: in every reachable state of an HMBT-CLL
with a compare callback `cmp` such that `cmp a b = 0` implies `hash a = hash b`, `search`
of a key `k` returns within as many turns of the loop as the largest bucket holds nodes; a
payload `p` that it returns is stored and `cmp k p = 0`; it returns `NULL` exactly when no
payload stored in any bucket compares equal to `k`. After an `insert` of `x` that returns
`0`, when `cmp x x = 0`, `search` of `x` returns a payload that compares equal to `x`. -/
theorem hmbt_lookup_complete {H : hmbt_cll_handler α} (hr : HReach H) {cmp : α → α → Int}
    (hc : H.compare = some cmp) (hcompat : ∀ a b, cmp a b = 0 → H.hash a = H.hash b) :
    (∀ k fuel, (∀ b ∈ H.array, b._count ≤ fuel) →
      ∃ H2 r, pall_hmbt_cll_search fuel H k = some (H2, r) ∧
        (∀ p, r = some p → p ∈ hmbt_forward H ∧ cmp k p = 0) ∧
        (r = none ↔ ∀ p ∈ hmbt_forward H, cmp k p ≠ 0)) ∧
    (∀ x n fuel1 H1, (n = 0 ∨ ∀ b ∈ H.array, b.mem n = none) →
      pall_hmbt_cll_insert fuel1 H x n = some (H1, 0) → cmp x x = 0 →
      ∀ fuel, (∀ b ∈ H1.array, b._count ≤ fuel) →
        ∃ H2 p, pall_hmbt_cll_search fuel H1 x = some (H2, some p) ∧ cmp x p = 0) := by
  have hI := hreach_inv hr
  refine ⟨fun k fuel hf => hmbt_search_spec hI hc hcompat k fuel hf, ?_⟩
  intro x n fuel1 H1 hn e hx fuel hf
  have hI1 : HInv H1 := hinv_insert hI hn e
  have hmem := hmbt_insert_mem hI hn e
  have hfr : H1.compare = H.compare ∧ H1.hash = H.hash := by
    unfold pall_hmbt_cll_insert _hmbt_cll_insert at e
    obtain ⟨i, hi, e⟩ := obind_eq_some.1 e
    obtain ⟨b, b2, hb, hfb, rfl⟩ := hmbt_at_some e
    exact ⟨rfl, rfl⟩
  obtain ⟨H2, r, e2, h1, h2⟩ := hmbt_search_spec hI1 (hfr.1.trans hc)
    (by rw [hfr.2]; exact hcompat) x fuel hf
  cases r with
  | none => exact absurd hx (h2.1 rfl x hmem)
  | some p => exact ⟨H2, p, e2, (h1 p rfl).2⟩

theorem hmbt_lookup_complete_witness :
    HReach ex_hmbt ∧ ex_hmbt.compare = some compare_id ∧
    (∀ a b, compare_id a b = 0 → ex_hmbt.hash a = ex_hmbt.hash b) ∧
    (∀ k fuel, (∀ b ∈ ex_hmbt.array, b._count ≤ fuel) →
      ∃ H2 r, pall_hmbt_cll_search fuel ex_hmbt k = some (H2, r) ∧
        (∀ p, r = some p → p ∈ hmbt_forward ex_hmbt ∧ compare_id k p = 0) ∧
        (r = none ↔ ∀ p ∈ hmbt_forward ex_hmbt, compare_id k p ≠ 0)) ∧
    (∀ x n fuel1 H1, (n = 0 ∨ ∀ b ∈ ex_hmbt.array, b.mem n = none) →
      pall_hmbt_cll_insert fuel1 ex_hmbt x n = some (H1, 0) → compare_id x x = 0 →
      ∀ fuel, (∀ b ∈ H1.array, b._count ≤ fuel) →
        ∃ H2 p, pall_hmbt_cll_search fuel H1 x = some (H2, some p) ∧
          compare_id x p = 0) :=
  ⟨ex_hmbt_reach, rfl, fun _ _ h => compare_id_eq h,
    hmbt_lookup_complete ex_hmbt_reach rfl (fun _ _ h => compare_id_eq h)⟩

/-- With a compare callback that never returns `0` every hash is compatible with it, and
on the HMBT-CLL of `11` buckets `insert(5)` returns `0` while the `search(5)` that follows
returns `NULL`. -/
theorem lookup_after_insert_irreflexive :
    (∀ a b : Nat, compare_never a b = 0 → (fun x : Nat => x) a = (fun x : Nat => x) b) ∧
      scenario_hmbt_never = some (0, none) :=
  ⟨fun a b h => by simp [compare_never] at h, by decide⟩

theorem _hmbt_cll_set_config_ret (H : hmbt_cll_handler α) (f : Nat) :
    (pall_hmbt_cll_set_config H f).map Prod.snd =
      (pall_hmbt_cll_set_config H f).map fun _ => f % 4294967296 := by
  unfold pall_hmbt_cll_set_config _hmbt_cll_set_config
  dsimp only
  cases hmbt_for (fun pool (_ : Unit) => some ((_cll_set_config pool (f % 4294967296)).1, ()))
      H.arr_size 0 H () with
  | none => rfl
  | some r => rfl

/-- C11. The value returned by `set_config`: for every list handler and every flag word
`f`, `set_config(f)` returns `f` itself (as a 32-bit value), whatever the flags stored
before, and the `get_config` that follows returns `f`; likewise `set_config(f)` of an
HMBT-CLL returns `f` when it returns. On a fresh handler, of either kind, `get_config`
returns `0x108`, `set_config(0x80)` returns `0x80` and not `0x108`, and `get_config`
returns `0x80` afterwards. -/
theorem set_config_returns_new_flags (h : cll_handler α) (H : hmbt_cll_handler α)
    (f : Nat) :
    (pall_cll_set_config h f).2 = f % 4294967296 ∧
      (pall_cll_get_config (pall_cll_set_config h f).1).2 = f % 4294967296 ∧
      (pall_hmbt_cll_set_config H f).map Prod.snd =
        (pall_hmbt_cll_set_config H f).map (fun _ => f % 4294967296) ∧
      scenario_set_config = some (264, 128, 128) ∧
      scenario_hmbt_set_config = some (264, 128, 128) :=
  ⟨rfl, (_cll_set_config_frame h f).2.2.2.2, _hmbt_cll_set_config_ret H f, by decide,
    by decide⟩

/-- The members of the record of `stat` on a queue that `push` and `pop` feed. -/
theorem _fifo_stat_members (q : fifo_handler α) :
    (_fifo_stat q)._stat.push = q.fifo._stat.insert ∧
      (_fifo_stat q)._stat.push_err = q.fifo._stat.insert_err ∧
      (_fifo_stat q)._stat.pop = q.fifo._stat.poph ∧
      (_fifo_stat q)._stat.pop_nf = q.fifo._stat.poph_nf ∧
      (_fifo_stat q)._stat.elem_count_max = q.fifo._stat.elem_count_max := by
  unfold _fifo_stat
  dsimp only
  simp only [_cll_stat_st_insert, _cll_stat_st_insert_err, _cll_stat_st_poph,
    _cll_stat_poph_nf, _cll_stat_st_max, and_self]

/-- The members of the record of `stat` on a stack that `push` and `pop` feed. -/
theorem _lifo_stat_members (s : lifo_handler α) :
    (_lifo_stat s)._stat.push = s.lifo._stat.insert ∧
      (_lifo_stat s)._stat.push_err = s.lifo._stat.insert_err ∧
      (_lifo_stat s)._stat.pop = s.lifo._stat.poph ∧
      (_lifo_stat s)._stat.pop_nf = s.lifo._stat.poph_nf ∧
      (_lifo_stat s)._stat.elem_count_max = s.lifo._stat.elem_count_max := by
  unfold _lifo_stat
  dsimp only
  simp only [_cll_stat_st_insert, _cll_stat_st_insert_err, _cll_stat_st_poph,
    _cll_stat_poph_nf, _cll_stat_st_max, and_self]

/-- C29. What `stat` reports after `stat_reset` on a queue and on a stack: for every
handler, with no call in between, the members `push`, `push_err`, `pop`, `pop_nf` and
`elem_count_max` of the record are the counters `insert`, `insert_err`, `poph`, `poph_nf`
and `elem_count_max` of the underlying list, which `stat_reset` has not touched; they are
not `0`. After `push(1)`, a `push` whose allocation fails, and two calls of `pop`, the five
members are `1` on a queue and on a stack. -/
theorem stat_reset_keeps_list_counters (q : fifo_handler α) (s : lifo_handler α) :
    ((pall_fifo_stat (pall_fifo_stat_reset q))._stat.push = q.fifo._stat.insert ∧
      (pall_fifo_stat (pall_fifo_stat_reset q))._stat.push_err = q.fifo._stat.insert_err ∧
      (pall_fifo_stat (pall_fifo_stat_reset q))._stat.pop = q.fifo._stat.poph ∧
      (pall_fifo_stat (pall_fifo_stat_reset q))._stat.pop_nf = q.fifo._stat.poph_nf ∧
      (pall_fifo_stat (pall_fifo_stat_reset q))._stat.elem_count_max =
        q.fifo._stat.elem_count_max) ∧
    ((pall_lifo_stat (pall_lifo_stat_reset s))._stat.push = s.lifo._stat.insert ∧
      (pall_lifo_stat (pall_lifo_stat_reset s))._stat.push_err = s.lifo._stat.insert_err ∧
      (pall_lifo_stat (pall_lifo_stat_reset s))._stat.pop = s.lifo._stat.poph ∧
      (pall_lifo_stat (pall_lifo_stat_reset s))._stat.pop_nf = s.lifo._stat.poph_nf ∧
      (pall_lifo_stat (pall_lifo_stat_reset s))._stat.elem_count_max =
        s.lifo._stat.elem_count_max) ∧
    scenario_fifo_stat_reset = some (1, 1, 1, 1, 1) ∧
    scenario_lifo_stat_reset = some (1, 1, 1, 1, 1) := by
  refine ⟨?_, ?_, by decide, by decide⟩
  · exact _fifo_stat_members (_fifo_stat_reset q)
  · exact _lifo_stat_members (_lifo_stat_reset s)

/-- C28. The watermark after `stat_reset`: for every list handler, the record that `stat`
returns right after `stat_reset` has `elem_count_cur = _count` and `elem_count_max = 0`, so
the watermark is below the current count whenever the list is not empty. After `insert(1)`
on a fresh handler the two members are `1` and `0`. -/
theorem stat_reset_hides_watermark (h : cll_handler α) :
    (pall_cll_stat (pall_cll_stat_reset h))._stat.elem_count_cur = h._count ∧
      (pall_cll_stat (pall_cll_stat_reset h))._stat.elem_count_max = 0 ∧
      scenario_watermark = some (1, 0) :=
  ⟨rfl, rfl, by decide⟩

/-! ## The frame that `serialize` writes -/

/-- The example of the frame: the handler that holds `1, 3, 2` (head to tail) writes the
prefix `0, 0, 0, 3` and then its payloads, `1`, `3`, `2`. -/
theorem serialize_frame_example :
    (pall_cll_serialize 3 ex_codec_three { rd := [], wr := [], room := 4 }).map
        (fun r => (r.2.1.wr, r.2.2)) = some ([0, 0, 0, 3, 1, 3, 2], 0) := by decide

/-! ## The counters of the outcomes "not found" -/

/-- A call of `_cll_unlink` that finds nothing changes at most the flag word. -/
theorem unlink_none_frame {h : cll_handler α} {L : List (Nat × α)} (hA : Abs h L)
    (fuel : Nat) (data : α) (h2 : cll_handler α)
    (hr : _cll_unlink fuel h data = some (h2, none)) :
    ∃ f1, h2 = { h with _config_flags := f1 } := by
  have hbig := _cll_unlink_mono fuel L.length h data _ hr
  rcases Option.eq_none_or_eq_some h.compare with hc | ⟨cmp, hc⟩
  · by_cases hz : h.cll = 0
    · unfold _cll_unlink at hr
      rw [if_pos hz] at hr
      simp only [Option.some.injEq, Prod.mk.injEq, and_true] at hr
      exact ⟨h._config_flags, hr ▸ rfl⟩
    · exfalso
      unfold _cll_unlink at hr
      rw [if_neg hz] at hr
      obtain ⟨s, hst, hs⟩ := obind_eq_some.1 hr
      rw [_cll_unlink_loop_eq] at hs
      have hc1 : s.1.compare = none := by
        unfold search_start at hst
        split_ifs at hst
        · simp only [Option.some.injEq] at hst; rw [← hst]; exact hc
        · rw [hc] at hst; simp at hst
        · simp only [Option.some.injEq] at hst; rw [← hst]; exact hc
      rw [walk_find_no_compare hc1] at hs
      simp at hs
  · rcases _cll_unlink_full hA hc data _ (le_add_fuel _ _) with ⟨_, f1, e⟩ |
      ⟨pre, q, dq, post, m1, c1, hd1, ic1, is1, f1, _, _, e, a⟩
    · rw [e] at hbig
      simp only [Option.some.injEq, Prod.mk.injEq, and_true] at hbig
      exact ⟨f1, hbig.symm⟩
    · rw [e] at hbig
      simp at hbig

/-- A call of `_cll_search` that finds nothing changes at most the flag word, apart from
the counter `search_nf`. -/
theorem search_none_frame {h : cll_handler α} {L : List (Nat × α)} (hA : Abs h L)
    {cmp : α → α → Int} (hc : h.compare = some cmp) (fuel : Nat) (data : α)
    (h2 : cll_handler α) (hr : _cll_search fuel h data = some (h2, none)) :
    ∃ f1, h2 = { h with _config_flags := f1,
                        _stat := { h._stat with search_nf := h._stat.search_nf + 1 } } := by
  have hbig := _cll_search_mono fuel L.length h data _ hr
  rcases _cll_search_full hA hc data _ (le_add_fuel _ _) with
    ⟨_, f1, e⟩ | ⟨pre, q, dq, post, m1, c1, hd1, f1, L2, _, _, e, _, _, _⟩
  · rw [e] at hbig
    simp only [Option.some.injEq, Prod.mk.injEq, and_true] at hbig
    exact ⟨f1, hbig.symm⟩
  · rw [e] at hbig
    simp at hbig

/-- C27. The outcomes "not found" and their counters: in every reachable state of a list
handler, a call of `delete` that returns `-1` leaves the statistics record with `del_nf`
raised by one and nothing else changed, a call of `pope` that returns `NULL` does so with
`pope_nf`, a call of `poph` that returns `NULL` does so with `poph_nf`, and, when the
handler has a compare callback, a call of `search` that returns `NULL` does so with
`search_nf`. On a handler without a compare callback `search` returns `NULL` and leaves
the handler, its statistics included, as it is. -/
theorem not_found_is_counted {h : cll_handler α} (hr : Reachable h) (k : α) (fuel : Nat) :
    (∀ h2, h.compare.isSome → pall_cll_search fuel h k = some (h2, none) →
      h2._stat = { h._stat with search_nf := h._stat.search_nf + 1 }) ∧
    (∀ h2, pall_cll_delete fuel h k = some (h2, -1) →
      h2._stat = { h._stat with del_nf := h._stat.del_nf + 1 }) ∧
    (∀ h2, pall_cll_pope fuel h k = some (h2, none) →
      h2._stat = { h._stat with pope_nf := h._stat.pope_nf + 1 }) ∧
    (∀ h2, pall_cll_poph h = some (h2, none) →
      h2._stat = { h._stat with poph_nf := h._stat.poph_nf + 1 }) ∧
    (h.compare = none → pall_cll_search fuel h k = some (h, none)) := by
  obtain ⟨L, hA⟩ := reachable_abs hr
  refine ⟨?_, ?_, ?_, ?_, ?_⟩
  · intro h2 hc e
    obtain ⟨cmp, hcmp⟩ := Option.isSome_iff_exists.1 hc
    rw [pall_cll_search_eq (reachable_cll_search hr hcmp)] at e
    obtain ⟨f1, rfl⟩ := search_none_frame hA hcmp fuel k h2 e
    rfl
  · intro h2 e
    unfold pall_cll_delete _cll_delete at e
    obtain ⟨⟨h3, r3⟩, hu, hm⟩ := obind_eq_some.1 e
    cases r3 with
    | some d => simp at hm
    | none =>
      obtain ⟨f1, rfl⟩ := unlink_none_frame hA fuel k h3 hu
      simp only [Option.some.injEq, Prod.mk.injEq, and_true] at hm
      rw [← hm]
  · intro h2 e
    unfold pall_cll_pope _cll_pope at e
    obtain ⟨⟨h3, r3⟩, hu, hm⟩ := obind_eq_some.1 e
    cases r3 with
    | some d => simp at hm
    | none =>
      obtain ⟨f1, rfl⟩ := unlink_none_frame hA fuel k h3 hu
      simp only [Option.some.injEq, Prod.mk.injEq, and_true] at hm
      rw [← hm]
  · intro h2 e
    unfold pall_cll_poph _cll_poph at e
    split_ifs at e
    · simp only [Option.some.injEq, Prod.mk.injEq, and_true] at e
      rw [← e]
    · obtain ⟨hn, -, e⟩ := obind_eq_some.1 e
      obtain ⟨r1, -, e⟩ := obind_eq_some.1 e
      simp at e
  · intro hc
    unfold pall_cll_search
    rw [reachable_cll_search_nop hr hc]
    rfl

theorem not_found_is_counted_witness :
    Reachable ex_three ∧
    (∀ h2, ex_three.compare.isSome → pall_cll_search 3 ex_three 99 = some (h2, none) →
      h2._stat = { ex_three._stat with search_nf := ex_three._stat.search_nf + 1 }) ∧
    (∀ h2, pall_cll_delete 3 ex_three 99 = some (h2, -1) →
      h2._stat = { ex_three._stat with del_nf := ex_three._stat.del_nf + 1 }) ∧
    (∀ h2, pall_cll_pope 3 ex_three 99 = some (h2, none) →
      h2._stat = { ex_three._stat with pope_nf := ex_three._stat.pope_nf + 1 }) ∧
    (∀ h2, pall_cll_poph ex_three = some (h2, none) →
      h2._stat = { ex_three._stat with poph_nf := ex_three._stat.poph_nf + 1 }) ∧
    (ex_three.compare = none → pall_cll_search 3 ex_three 99 = some (ex_three, none)) :=
  ⟨ex_three_reachable, not_found_is_counted ex_three_reachable 99 3⟩

/-- The example of the outcomes "not found": on the handler that holds `10`, `20`, `30`,
`search(99)`, `delete(99)` and `pope(99)` return `NULL`, `-1` and `NULL` and raise
`search_nf`, `del_nf` and `pope_nf` from `0` to `1`. -/
theorem not_found_example :
    (pall_cll_search 3 ex_three 99).map (fun r => (r.2, r.1._stat.search_nf)) =
        some (none, 1) ∧
      (pall_cll_delete 3 ex_three 99).map (fun r => (r.2, r.1._stat.del_nf)) =
        some (-1, 1) ∧
      (pall_cll_pope 3 ex_three 99).map (fun r => (r.2, r.1._stat.pope_nf)) =
        some (none, 1) := by decide

/-- On a handler initialised without a compare callback that holds `1`, `search(1)`
returns `NULL`, and the statistics record is the one from before the call: `search_nf` is
still `0`. -/
theorem silent_search_without_compare :
    scenario_search_nop = some (none, 0, 0, true) := by decide

/-! ## A successful insertion, whatever the insert function -/

theorem insert_account_stat (h : cll_handler α) :
    (insert_account h)._stat =
      { h._stat with insert := h._stat.insert + 1,
                     elem_count_max := max h._stat.elem_count_max (h._count + 1) } := by
  unfold insert_account
  simp only
  split_ifs with hlt
  · rw [max_eq_right (le_of_lt hlt)]
  · rw [max_eq_left (not_lt.1 hlt)]

/-- What an insertion leaves of the handler `h`, apart from the list itself: the counters
with `insert` raised by one and the watermark brought up to the new count, the function
pointers, the flag word and the callbacks. -/
theorem ins_facts (h X : cll_handler α) (h1 : X._stat = h._stat) (h2 : X._count = h._count)
    (h3 : X.insert = h.insert) (h4 : X._config_flags = h._config_flags) (h5 : cb_eq h X) :
    (insert_account X)._stat =
        { h._stat with insert := h._stat.insert + 1,
                       elem_count_max := max h._stat.elem_count_max (h._count + 1) } ∧
      (insert_account X).insert = h.insert ∧
      (insert_account X)._config_flags = h._config_flags ∧ cb_eq h (insert_account X) := by
  refine ⟨?_, ?_, ?_, cb_eq_trans h5 (insert_account_cb X)⟩
  · rw [insert_account_stat, h1, h2]
  · rw [insert_account_insert, h3]
  · rw [insert_account_flags, h4]

/-- An insertion whose allocation succeeds returns `0`: the new node joins the list, the
counter `insert` goes up by one, the watermark follows the count, and the configuration is
kept. The sorted insertion needs the compare callback when the list is not empty. -/
theorem pall_cll_insert_total {h : cll_handler α} {L : List (Nat × α)} (hA : Abs h L)
    (fuel : Nat) (data : α) (n : Nat) (hn0 : n ≠ 0) (hfr : h.mem n = none)
    (hs : h.insert = insert_fn.cll_insert_sorted → h.compare.isSome ∧ L.length ≤ fuel) :
    ∃ h2 L2, pall_cll_insert fuel h data n = some (h2, 0) ∧ Abs h2 L2 ∧
      L2.Perm ((n, data) :: L) ∧
      h2._stat = { h._stat with insert := h._stat.insert + 1,
                                elem_count_max := max h._stat.elem_count_max (h._count + 1) } ∧
      h2.insert = h.insert ∧ h2._config_flags = h._config_flags ∧ cb_eq h h2 := by
  have hsplit : L = [] ∨ ∃ pre d post, L = pre ++ (h.cll, d) :: post := by
    rcases hA.cur with ⟨e, _⟩ | hcur
    · exact Or.inl e
    · exact Or.inr (split_of_mem_fst hcur)
  have cb0 : cb_eq h h := cb_eq_refl h
  have hcases : h.insert = insert_fn.cll_insert ∨ h.insert = insert_fn.cll_insert_head ∨
      h.insert = insert_fn.cll_insert_tail ∨ h.insert = insert_fn.cll_insert_sorted := by
    cases h.insert <;> simp
  rcases hcases with hi | hi | hi | hi
  · have e0 : pall_cll_insert fuel h data n = _cll_insert h data n := by
      unfold pall_cll_insert; simp only [hi]
    rw [e0]
    rcases hsplit with e | ⟨pre, d, post, e⟩
    · subst e
      obtain ⟨m1, e1, a1⟩ := _cll_insert_spec_nil hA data n hn0
      exact ⟨_, _, e1, a1, List.Perm.refl _,
        ins_facts h _ (by rfl) (by rfl) (by rfl) (by rfl) (by exact ⟨rfl, rfl, rfl, rfl⟩)⟩
    · subst e
      by_cases hfl : h._config_flags &&& CONFIG_INSERT_NEXT ≠ 0
      · obtain ⟨m1, e1, a1⟩ := _cll_insert_spec_next hA data n hn0 hfr hfl
        refine ⟨_, _, e1, a1, ?_, ins_facts h _ (by rfl) (by rfl) (by rfl) (by rfl) (by exact ⟨rfl, rfl, rfl, rfl⟩)⟩
        have e : pre ++ (h.cll, d) :: (n, data) :: post =
            (pre ++ [(h.cll, d)]) ++ (n, data) :: post := by simp
        have e2 : pre ++ (h.cll, d) :: post = (pre ++ [(h.cll, d)]) ++ post := by simp
        rw [e, e2]
        exact List.perm_middle
      · rcases pre with _ | ⟨p, pre⟩
        · obtain ⟨m1, e1, a1⟩ := _cll_insert_spec_prev_head (by simpa using hA) data n hn0
            hfr hfl
          refine ⟨_, _, e1, a1, ?_, ins_facts h _ (by rfl) (by rfl) (by rfl) (by rfl) (by exact ⟨rfl, rfl, rfl, rfl⟩)⟩
          simpa using @List.perm_middle _ (n, data) ((h.cll, d) :: post) []
        · obtain ⟨m1, e1, a1⟩ := _cll_insert_spec_prev (by simpa using hA) data n hn0
            hfr hfl
          refine ⟨_, _, e1, a1, ?_, ins_facts h _ (by rfl) (by rfl) (by rfl) (by rfl) (by exact ⟨rfl, rfl, rfl, rfl⟩)⟩
          exact @List.perm_middle _ (n, data) (p :: pre) ((h.cll, d) :: post)
  · have e0 : pall_cll_insert fuel h data n = _cll_insert_head h data n := by
      unfold pall_cll_insert; simp only [hi]
    rw [e0]
    obtain ⟨m1, e1, a1⟩ := _cll_insert_head_spec hA data n hn0 hfr
    exact ⟨_, _, e1, a1, List.Perm.refl _,
      ins_facts h _ (by rfl) (by rfl) (by rfl) (by rfl) (by exact ⟨rfl, rfl, rfl, rfl⟩)⟩
  · have e0 : pall_cll_insert fuel h data n = _cll_insert_tail h data n := by
      unfold pall_cll_insert; simp only [hi]
    rw [e0]
    obtain ⟨m1, e1, a1⟩ := _cll_insert_tail_spec hA data n hn0 hfr
    have hf := ins_facts h { h with mem := m1, cll := if h.cll = 0 then n else h.cll,
                                    cll_head := n } rfl rfl rfl rfl ⟨rfl, rfl, rfl, rfl⟩
    refine ⟨_, _, e1, a1, ?_, hf.1, hf.2.1, hf.2.2.1, ?_⟩
    · simp
    · exact ⟨hf.2.2.2.1, hf.2.2.2.2.1, hf.2.2.2.2.2.1, hf.2.2.2.2.2.2⟩
  · have e0 : pall_cll_insert fuel h data n = _cll_insert_sorted fuel h data n := by
      unfold pall_cll_insert; simp only [hi]
    rw [e0]
    obtain ⟨hcs, hfu⟩ := hs hi
    rcases hsplit with e | ⟨pre, d, post, e⟩
    · subst e
      obtain ⟨m1, e1, a1⟩ := _cll_insert_sorted_nil hA data n hn0 fuel
      exact ⟨_, _, e1, a1, List.Perm.refl _,
        ins_facts h _ (by rfl) (by rfl) (by rfl) (by rfl) (by exact ⟨rfl, rfl, rfl, rfl⟩)⟩
    · subst e
      obtain ⟨cmp, hc⟩ := Option.isSome_iff_exists.1 hcs
      obtain ⟨m1, hd2, L2, e1, a1, hS⟩ := _cll_insert_sorted_spec pre post hA hc data n
        hn0 hfr fuel hfu
      exact ⟨_, _, e1, a1, sortedIns_perm hS,
        ins_facts h _ (by rfl) (by rfl) (by rfl) (by rfl) (by exact ⟨rfl, rfl, rfl, rfl⟩)⟩

/-! ## What `unserialize` does, payload by payload -/

theorem _cll_unserialize_loop_succ (unser : pall_fd_t → pall_fd_t × Option α)
    (fuel count : Nat) (h : cll_handler α) (fd : pall_fd_t) (a : Nat) :
    _cll_unserialize_loop unser fuel (count + 1) h fd a =
      match (unser fd).2 with
      | none =>
        some ({ h with _stat := { h._stat with
                  unserialize_err := h._stat.unserialize_err + 1 } }, (unser fd).1, -1)
      | some data =>
        obind (pall_cll_insert fuel h data a) fun ri =>
        if ri.2 < 0 then
          some ({ ri.1 with _stat := { ri.1._stat with
                    unserialize_err := ri.1._stat.unserialize_err + 1 } }, (unser fd).1, -1)
        else _cll_unserialize_loop unser fuel count ri.1 (unser fd).1 (a + 1) := by
  rw [_cll_unserialize_loop]
  rfl

/-- The loop of `unserialize` when every allocation succeeds: the payloads that the
callback returns before its first `NULL` are inserted, and the loop ends with `0` when the
callback has returned `count` payloads, with `-1` otherwise. -/
theorem _cll_unserialize_loop_run (unser : pall_fd_t → pall_fd_t × Option α) (fuel : Nat) :
    ∀ (count : Nat) (h : cll_handler α) (L : List (Nat × α)) (fd : pall_fd_t) (a : Nat),
      Abs h L → a ≠ 0 → (∀ i, h.mem (a + i) = none) →
      (h.insert = insert_fn.cll_insert_sorted → h.compare.isSome) →
      L.length + count ≤ fuel →
      ∃ h2 L2, _cll_unserialize_loop unser fuel count h fd a =
          some (h2, (unser_take unser count fd).2,
            if (unser_take unser count fd).1.length = count then 0 else -1) ∧
        Abs h2 L2 ∧ (L2.map Prod.snd).Perm ((unser_take unser count fd).1 ++ L.map Prod.snd) ∧
        h2._stat.unserialize = h._stat.unserialize +
          (if (unser_take unser count fd).1.length = count then 1 else 0) ∧
        h2._stat.unserialize_err = h._stat.unserialize_err +
          (if (unser_take unser count fd).1.length = count then 0 else 1) ∧
        h2._stat.insert = h._stat.insert + (unser_take unser count fd).1.length := by
  intro count
  induction count with
  | zero =>
    intro h L fd a hA _ _ _ _
    refine ⟨_, L, rfl, abs_congr hA rfl rfl rfl rfl rfl rfl, ?_, rfl, rfl, rfl⟩
    simp [unser_take]
  | succ count ih =>
    intro h L fd a hA ha hfresh hs hfuel
    rw [_cll_unserialize_loop_succ]
    rcases Option.eq_none_or_eq_some (unser fd).2 with hu | ⟨data, hu⟩
    · have ht : unser_take unser (count + 1) fd = ([], (unser fd).1) := by
        rw [unser_take, hu]
      rw [ht]
      simp only [hu, List.length_nil]
      refine ⟨{ h with _stat := { h._stat with
                  unserialize_err := h._stat.unserialize_err + 1 } }, L, ?_,
        abs_congr hA rfl rfl rfl rfl rfl rfl, by simp, ?_, ?_, rfl⟩
      · rw [if_neg (by omega)]
      · rw [if_neg (by omega)]; rfl
      · rw [if_neg (by omega)]
    · have ht : unser_take unser (count + 1) fd =
          (data :: (unser_take unser count (unser fd).1).1,
            (unser_take unser count (unser fd).1).2) := by
        rw [unser_take, hu]
      rw [ht]
      simp only [hu]
      obtain ⟨hi, Li, ei, hAi, hperm, hst, hins, hfl, hcb⟩ :=
        pall_cll_insert_total hA fuel data a ha (hfresh 0)
          (fun e => ⟨hs e, by omega⟩)
      rw [ei, obind_some]
      simp only
      rw [if_neg (by decide)]
      have hlen : Li.length = L.length + 1 := by
        simpa using hperm.length_eq
      obtain ⟨h2, L2, e2, hA2, hp2, hu2, hue2, hin2⟩ :=
        ih hi Li (unser fd).1 (a + 1) hAi (by omega)
          (fresh_after_insert hA hAi (Or.inr hperm) hfresh)
          (fun e => by rw [hcb.1]; exact hs (hins ▸ e)) (by omega)
      refine ⟨h2, L2, ?_, hA2, ?_, ?_, ?_, ?_⟩
      · rw [e2]
        simp only [List.length_cons, Nat.add_right_cancel_iff]
      · refine hp2.trans ?_
        have := (hperm.map Prod.snd)
        simp only [List.map_cons] at this
        refine (List.Perm.append_left _ this).trans ?_
        simp only [List.cons_append]
        exact List.perm_middle
      · rw [hu2, hst]
        simp only [List.length_cons, Nat.add_right_cancel_iff]
      · rw [hue2, hst]
        simp only [List.length_cons, Nat.add_right_cancel_iff]
      · rw [hin2, hst]
        simp only [List.length_cons]
        omega

/-- C26. What `unserialize` does when a call fails: in every reachable state of a list
handler with an unserialize callback `unser`, the allocations of the new nodes succeeding
(and the sorted insertion having its compare callback),
* when fewer than four bytes are there to be read, `pall_cll_unserialize` returns `-1`,
  `unserialize_err` goes up by one and nothing else of the handler changes;
* when the prefix `bs` decodes to `n`, the payloads `ys` that the successive calls of
  `unser` return before its first `NULL`, at most `n` of them, are inserted: the count
  grows by their number, the payloads stored are those of before and `ys`, and `insert`
  goes up by their number; with `n` payloads returned, `unserialize` returns `0`, the
  counter `unserialize` goes up by one and `unserialize_err` is unchanged; with fewer, the
  callback having returned `NULL`, it returns `-1`, `unserialize_err` goes up by one and
  `unserialize` is unchanged. -/
theorem unserialize_aborts_on_first_failure {h : cll_handler α} (hr : Reachable h)
    {unser : pall_fd_t → pall_fd_t × Option α} (hu : h.unser_data = some unser)
    (hs : h.insert = insert_fn.cll_insert_sorted → h.compare.isSome)
    (fd : pall_fd_t) (a : Nat) (ha : a ≠ 0) (hfresh : ∀ i, h.mem (a + i) = none)
    (fuel : Nat) :
    (fd.rd.length < 4 →
      pall_cll_unserialize fuel h fd a =
        some ({ h with _stat := { h._stat with
                  unserialize_err := h._stat.unserialize_err + 1 } },
          (pall_read fd 4).1, -1)) ∧
    (∀ bs rest, fd.rd = bs ++ rest → bs.length = 4 → h._count + ntohl bs ≤ fuel →
      ∃ h2, pall_cll_unserialize fuel h fd a =
          some (h2, (unser_take unser (ntohl bs) (pall_read fd 4).1).2,
            if (unser_take unser (ntohl bs) (pall_read fd 4).1).1.length = ntohl bs then 0
            else -1) ∧
        h2._count = h._count + (unser_take unser (ntohl bs) (pall_read fd 4).1).1.length ∧
        (head_to_tail h2).Perm
          ((unser_take unser (ntohl bs) (pall_read fd 4).1).1 ++ head_to_tail h) ∧
        h2._stat.unserialize = h._stat.unserialize +
          (if (unser_take unser (ntohl bs) (pall_read fd 4).1).1.length = ntohl bs then 1
           else 0) ∧
        h2._stat.unserialize_err = h._stat.unserialize_err +
          (if (unser_take unser (ntohl bs) (pall_read fd 4).1).1.length = ntohl bs then 0
           else 1) ∧
        h2._stat.insert = h._stat.insert +
          (unser_take unser (ntohl bs) (pall_read fd 4).1).1.length) := by
  obtain ⟨L, hA⟩ := reachable_abs hr
  have hun : pall_cll_unserialize fuel h fd a =
      if (pall_read fd 4).2.length ≠ 4 then
        some ({ h with _stat := { h._stat with
                  unserialize_err := h._stat.unserialize_err + 1 } }, (pall_read fd 4).1, -1)
      else _cll_unserialize_loop unser fuel (ntohl (pall_read fd 4).2) h (pall_read fd 4).1 a := by
    unfold pall_cll_unserialize _cll_unserialize
    simp only [hu]
  refine ⟨?_, ?_⟩
  · intro hlt
    rw [hun, if_pos]
    unfold pall_read
    simp only [List.length_take]
    omega
  · intro bs rest hrd hb hfuel
    have hrf := pall_read_four fd bs rest hb hrd
    rw [hun, if_neg (by rw [hrf.1, hb]; simp), hrf.1]
    obtain ⟨h2, L2, e2, hA2, hp2, hu2, hue2, hin2⟩ :=
      _cll_unserialize_loop_run unser fuel (ntohl bs) h L (pall_read fd 4).1 a hA ha hfresh hs
        (by rw [← hA.count]; exact hfuel)
    refine ⟨h2, e2, ?_, ?_, hu2, hue2, hin2⟩
    · rw [hA2.count, hA.count]
      have := hp2.length_eq
      simp only [List.length_map, List.length_append] at this
      omega
    · rw [abs_head_to_tail hA2, abs_head_to_tail hA]
      exact hp2

theorem unserialize_aborts_on_first_failure_witness :
    Reachable ex_codec_fresh ∧ ex_codec_fresh.unser_data = some ex_unser ∧
    (ex_codec_fresh.insert = insert_fn.cll_insert_sorted → ex_codec_fresh.compare.isSome) ∧
    (1 : Nat) ≠ 0 ∧ (∀ i, ex_codec_fresh.mem (1 + i) = none) ∧
    ((({ rd := [0, 0, 0, 3, 7, 8], wr := [], room := 0 } : pall_fd_t).rd.length < 4 →
      pall_cll_unserialize 3 ex_codec_fresh { rd := [0, 0, 0, 3, 7, 8], wr := [], room := 0 } 1 =
        some ({ ex_codec_fresh with _stat := { ex_codec_fresh._stat with
                  unserialize_err := ex_codec_fresh._stat.unserialize_err + 1 } },
          (pall_read { rd := [0, 0, 0, 3, 7, 8], wr := [], room := 0 } 4).1, -1)) ∧
    (∀ bs rest, ({ rd := [0, 0, 0, 3, 7, 8], wr := [], room := 0 } : pall_fd_t).rd = bs ++ rest →
      bs.length = 4 → ex_codec_fresh._count + ntohl bs ≤ 3 →
      ∃ h2, pall_cll_unserialize 3 ex_codec_fresh
            { rd := [0, 0, 0, 3, 7, 8], wr := [], room := 0 } 1 =
          some (h2, (unser_take ex_unser (ntohl bs)
              (pall_read { rd := [0, 0, 0, 3, 7, 8], wr := [], room := 0 } 4).1).2,
            if (unser_take ex_unser (ntohl bs)
              (pall_read { rd := [0, 0, 0, 3, 7, 8], wr := [], room := 0 } 4).1).1.length =
                ntohl bs then 0
            else -1) ∧
        h2._count = ex_codec_fresh._count + (unser_take ex_unser (ntohl bs)
          (pall_read { rd := [0, 0, 0, 3, 7, 8], wr := [], room := 0 } 4).1).1.length ∧
        (head_to_tail h2).Perm
          ((unser_take ex_unser (ntohl bs)
            (pall_read { rd := [0, 0, 0, 3, 7, 8], wr := [], room := 0 } 4).1).1 ++
              head_to_tail ex_codec_fresh) ∧
        h2._stat.unserialize = ex_codec_fresh._stat.unserialize +
          (if (unser_take ex_unser (ntohl bs)
            (pall_read { rd := [0, 0, 0, 3, 7, 8], wr := [], room := 0 } 4).1).1.length =
              ntohl bs then 1
           else 0) ∧
        h2._stat.unserialize_err = ex_codec_fresh._stat.unserialize_err +
          (if (unser_take ex_unser (ntohl bs)
            (pall_read { rd := [0, 0, 0, 3, 7, 8], wr := [], room := 0 } 4).1).1.length =
              ntohl bs then 0
           else 1) ∧
        h2._stat.insert = ex_codec_fresh._stat.insert +
          (unser_take ex_unser (ntohl bs)
            (pall_read { rd := [0, 0, 0, 3, 7, 8], wr := [], room := 0 } 4).1).1.length)) :=
  ⟨Reachable.init (some compare_id) true (some ex_ser) (some ex_unser) true ex_codec_fresh rfl,
    rfl, (by decide), (by decide), (fun _ => rfl),
    unserialize_aborts_on_first_failure
      (Reachable.init (some compare_id) true (some ex_ser) (some ex_unser) true
        ex_codec_fresh rfl) rfl (by decide) _ 1 (by decide) (fun _ => rfl) 3⟩

/-- The example of the abort: on a fresh handler, of a stream that announces three
payloads and holds `7` and `8`, `unserialize` returns `-1` after it has inserted `7` and
`8`; the count is `2`, `unserialize` is `0` and `unserialize_err` is `1`. -/
theorem scenario_unserialize_abort_eq :
    scenario_unserialize_abort = some (-1, [7, 8], 2, 0, 1) := by decide

/-- The example of the spec: after the insertion of `0`, `11`, `22` and `3` in `11`
buckets, `stat` reports `3` payloads in the bucket `0`, `1` in the bucket `3`, `4` in
all, the least count `0` and the greatest `3`. -/
theorem scenario_hmbt_stat_eq :
    scenario_hmbt_stat = some ([3, 0, 0, 1, 0, 0, 0, 0, 0, 0, 0], 4, 0, 3) := by decide

theorem hmbt_init_array_some {compare : Option (α → α → Int)} {destroy : Bool}
    {ser_data : Option (pall_fd_t → α → pall_fd_t × Int)}
    {unser_data : Option (pall_fd_t → pall_fd_t × Option α)} {ok : Bool} {c : cll_handler α}
    (hc : pall_cll_init compare destroy ser_data unser_data ok = some c) (k : Nat) :
    hmbt_init_array compare destroy ser_data unser_data ok k = some (List.replicate k c) := by
  induction k with
  | zero => rfl
  | succ k ih => rw [hmbt_init_array, hc, obind_some, ih, obind_some]; rfl

/-- `pall_hmbt_cll_init` returns a handler when the callbacks `hash` and `destroy` are
supplied and the allocations succeed: `arr_size` is `array_size`, or `127` when
`array_size` is `0`, and the array holds as many fresh lists. -/
theorem pall_hmbt_cll_init_some {compare : Option (α → α → Int)} {f : α → Nat}
    {ser_data : Option (pall_fd_t → α → pall_fd_t × Int)}
    {unser_data : Option (pall_fd_t → pall_fd_t × Option α)} {c : cll_handler α}
    (hc : pall_cll_init compare true ser_data unser_data true = some c) (array_size : Nat) :
    ∃ H, pall_hmbt_cll_init compare true (some f) ser_data unser_data array_size true =
        some H ∧
      H.arr_size =
        (if array_size % 4294967296 ≠ 0 then array_size % 4294967296 else 127) ∧
      H.array = List.replicate H.arr_size c := by
  unfold pall_hmbt_cll_init
  simp only [Bool.not_true, Bool.false_eq_true, if_false]
  rw [hmbt_init_array_some hc, obind_some]
  exact ⟨_, rfl, rfl, rfl⟩

/-- C30. HMBT watermark: on an HMBT-CLL of `11` buckets, after `insert(0)`, `delete(0)` and
`insert(1)` the container has held `1`, `0` and `1` payloads, never more than `1`, and
`stat` reports `elem_count_cur = 1` and `elem_count_max = 2`: the member is the sum of
the watermarks of the buckets `0` and `1`, not the watermark of the container. -/
theorem hmbt_watermark_sums_bucket_maxima :
    scenario_hmbt_watermark = some ([1, 0, 1], 1, 2) := by decide

/-- C22. The bucket count after `unserialize`: `pall_hmbt_cll_init` with `array_size = 2`
yields the handler `ex_hmbt_codec` of `2` buckets, and with `array_size = 0` a handler of
`127` buckets. On `ex_hmbt_codec`, `unserialize` of a stream that declares `1` bucket
returns `0` and leaves `arr_size = 1`; of a stream that declares `2` buckets it leaves
`arr_size = 2`; of a stream that declares `3` buckets it reads `array[2]`, past the end
of the array; of a stream that declares `0` buckets it returns `0` and leaves
`arr_size = 0`, and the index of the `insert` that follows is not defined; of a stream
of the single byte `5` it returns `-1` and leaves `arr_size = 5` on a little-endian host;
of the empty stream it returns `-1` and leaves `arr_size = 2`. -/
theorem hmbt_unserialize_overwrites_arr_size :
    pall_hmbt_cll_init (some compare_id) true (some fun x => x) (some ex_ser) (some ex_unser)
        2 true = some ex_hmbt_codec ∧
      ex_hmbt_codec.arr_size = 2 ∧ ex_hmbt_codec.array.length = 2 ∧
      (pall_hmbt_cll_init (some compare_id) true (some fun x => x) (some ex_ser)
        (some ex_unser) 0 true).map (fun H => H.arr_size) = some 127 ∧
      scenario_hmbt_unserialize [0, 0, 0, 1, 0, 0, 0, 0] = (some (0, 1), true) ∧
      scenario_hmbt_unserialize [0, 0, 0, 2, 0, 0, 0, 1, 7, 0, 0, 0, 0] = (some (0, 2), true) ∧
      scenario_hmbt_unserialize [0, 0, 0, 3, 0, 0, 0, 0, 0, 0, 0, 0, 0, 0, 0, 0] =
        (none, false) ∧
      scenario_hmbt_unserialize [0, 0, 0, 0] = (some (0, 0), false) ∧
      scenario_hmbt_unserialize [5] = (some (-1, 5), true) ∧
      scenario_hmbt_unserialize [] = (some (-1, 2), true) := by
  refine ⟨rfl, rfl, rfl, ?_, ?_, ?_, ?_, ?_, ?_, ?_⟩
  · obtain ⟨H, e, hs, -⟩ := pall_hmbt_cll_init_some (c := ex_codec_fresh) (f := fun x => x)
      (show pall_cll_init (some compare_id) true (some ex_ser) (some ex_unser) true = _
        from rfl) 0
    rw [e]
    exact congrArg some hs
  all_goals decide

/-! ## The configuration across the operations of a list -/

theorem cfg_eq_refl (h : cll_handler α) : cfg_eq h h := ⟨rfl, rfl⟩

theorem cfg_eq_trans {h h2 h3 : cll_handler α} (a : cfg_eq h h2) (b : cfg_eq h2 h3) : cfg_eq h h3 :=
  ⟨b.1.trans a.1, b.2.trans a.2⟩

theorem cfg_eq_ite {h a b : cll_handler α} (c : Prop) [Decidable c] (ha : cfg_eq h a)
    (hb : cfg_eq h b) : cfg_eq h (if c then a else b) := by
  split_ifs
  · exact ha
  · exact hb

/-- The repair of a bookmark keeps the configuration. -/
theorem cfg_eq_ite_obind {h h2 : cll_handler α} {c : Prop} [Decidable c] {x : Option Nat}
    {f : Nat → cll_handler α}
    (e : (if c then obind x fun a => some (f a) else some h) = some h2)
    (hf : ∀ a, cfg_eq h (f a)) : cfg_eq h h2 := by
  split_ifs at e
  · obtain ⟨a, -, e⟩ := obind_eq_some.1 e
    cases e
    exact hf a
  · cases e
    exact cfg_eq_refl h

theorem insert_account_cfg (h : cll_handler α) : cfg_eq h (insert_account h) := by
  unfold insert_account
  simp only
  split_ifs <;> exact ⟨rfl, rfl⟩

theorem _cll_insert_head_cfg {h : cll_handler α} {data : α} {n : Nat} {r : cll_handler α × Int}
    (e : _cll_insert_head h data n = some r) : cfg_eq h r.1 := by
  unfold _cll_insert_head at e
  split_ifs at e
  · cases e; exact ⟨rfl, rfl⟩
  · simp only [obind_eq_some] at e
    obtain ⟨h1, ⟨m, -, e1⟩, e⟩ := e
    cases e1; cases e
    exact cfg_eq_trans ⟨rfl, rfl⟩ (insert_account_cfg _)
  · simp only [obind_eq_some] at e
    obtain ⟨h1, ⟨m, -, e1⟩, e⟩ := e
    cases e1; cases e
    exact cfg_eq_trans ⟨rfl, rfl⟩ (insert_account_cfg _)

theorem _cll_insert_tail_cfg {h : cll_handler α} {data : α} {n : Nat} {r : cll_handler α × Int}
    (e : _cll_insert_tail h data n = some r) : cfg_eq h r.1 := by
  unfold _cll_insert_tail at e
  obtain ⟨r1, e1, e⟩ := obind_eq_some.1 e
  have c1 := _cll_insert_head_cfg e1
  split_ifs at e
  · cases e; exact c1
  · obtain ⟨hn, -, e⟩ := obind_eq_some.1 e
    cases e
    exact cfg_eq_trans c1 ⟨rfl, rfl⟩

theorem _cll_insert_cfg {h : cll_handler α} {data : α} {n : Nat} {r : cll_handler α × Int}
    (e : _cll_insert h data n = some r) : cfg_eq h r.1 := by
  unfold _cll_insert at e
  simp only at e
  split_ifs at e
  · cases e; exact ⟨rfl, rfl⟩
  all_goals
    simp only [obind_eq_some] at e
    obtain ⟨h1, ⟨m, -, e1⟩, e⟩ := e
    cases e1; cases e
    exact cfg_eq_trans ⟨rfl, rfl⟩ (insert_account_cfg _)

theorem _cll_insert_sorted_cfg {fuel : Nat} {h : cll_handler α} {data : α} {n : Nat}
    {r : cll_handler α × Int} (e : _cll_insert_sorted fuel h data n = some r) :
    cfg_eq h r.1 := by
  unfold _cll_insert_sorted at e
  simp only at e
  split_ifs at e
  · cases e; exact ⟨rfl, rfl⟩
  · simp only [obind_eq_some] at e
    obtain ⟨h1, ⟨m, -, e1⟩, e⟩ := e
    cases e1; cases e
    exact cfg_eq_trans ⟨rfl, rfl⟩ (insert_account_cfg _)
  · obtain ⟨h1, e1, e⟩ := obind_eq_some.1 e
    cases e
    refine cfg_eq_trans ?_ (insert_account_cfg _)
    obtain ⟨cmp, -, e1⟩ := obind_eq_some.1 e1
    obtain ⟨pd, -, e1⟩ := obind_eq_some.1 e1
    split_ifs at e1
    · obtain ⟨p, -, e1⟩ := obind_eq_some.1 e1
      obtain ⟨m4, -, e1⟩ := obind_eq_some.1 e1
      obtain ⟨nn, -, e1⟩ := obind_eq_some.1 e1
      cases e1
      exact ⟨rfl, rfl⟩
    · obtain ⟨p, -, e1⟩ := obind_eq_some.1 e1
      obtain ⟨m4, -, e1⟩ := obind_eq_some.1 e1
      cases e1
      exact ⟨rfl, rfl⟩

theorem pall_cll_insert_cfg {fuel : Nat} {h : cll_handler α} {data : α} {n : Nat}
    {r : cll_handler α × Int} (e : pall_cll_insert fuel h data n = some r) :
    cfg_eq h r.1 := by
  unfold pall_cll_insert at e
  split at e
  · exact _cll_insert_cfg e
  · exact _cll_insert_head_cfg e
  · exact _cll_insert_tail_cfg e
  · exact _cll_insert_sorted_cfg e

theorem cfg_auto_of_eq {h h2 : cll_handler α} (a : cfg_eq h h2) : cfg_auto h h2 :=
  ⟨a.2, Or.inl a.1⟩

theorem cfg_auto_eq {h h2 h3 : cll_handler α} (a : cfg_auto h h2) (b : cfg_eq h2 h3) :
    cfg_auto h h3 := by
  obtain ⟨a1, a2⟩ := a
  refine ⟨b.2.trans a1, ?_⟩
  rw [b.1]
  exact a2

theorem search_start_cfg {h : cll_handler α} {data : α} {r : cll_handler α × Nat}
    (e : search_start h data = some r) : cfg_auto h r.1 := by
  unfold search_start at e
  simp only at e
  split_ifs at e with h1 h2 h3
  · cases e; exact cfg_auto_of_eq (cfg_eq_refl h)
  · obtain ⟨cmp, -, e⟩ := obind_eq_some.1 e
    obtain ⟨pd, -, e⟩ := obind_eq_some.1 e
    split_ifs at e <;> cases e
    · exact ⟨rfl, Or.inr ⟨h2, h1, Or.inl rfl⟩⟩
    · exact ⟨rfl, Or.inr ⟨h2, h1, Or.inr rfl⟩⟩
  · cases e; exact cfg_auto_of_eq (cfg_eq_refl h)

theorem unlink_hit_cfg {h : cll_handler α} {pool : Nat} {r : cll_handler α × Option α}
    (e : unlink_hit h pool = some r) : cfg_eq h r.1 := by
  unfold unlink_hit at e
  obtain ⟨d, -, e⟩ := obind_eq_some.1 e
  obtain ⟨pn, -, e⟩ := obind_eq_some.1 e
  by_cases hp : pool = pn
  · rw [if_pos hp] at e
    cases e; exact ⟨rfl, rfl⟩
  · rw [if_neg hp] at e
    simp only at e
    obtain ⟨m2, -, e⟩ := obind_eq_some.1 e
    obtain ⟨pn2, -, e⟩ := obind_eq_some.1 e
    obtain ⟨h4, e4, e⟩ := obind_eq_some.1 e
    obtain ⟨h5, e5, e⟩ := obind_eq_some.1 e
    obtain ⟨ed, -, e⟩ := obind_eq_some.1 e
    cases e
    have c5 := cfg_eq_ite_obind e5 (fun a => ⟨rfl, rfl⟩)
    have c4 := cfg_eq_ite_obind e4 (fun a => ⟨rfl, rfl⟩)
    refine cfg_eq_trans ?_ (cfg_eq_trans c4 (cfg_eq_trans c5 ⟨rfl, rfl⟩))
    split_ifs <;> exact ⟨rfl, rfl⟩

theorem _cll_unlink_cfg {fuel : Nat} {h : cll_handler α} {data : α}
    {r : cll_handler α × Option α} (e : _cll_unlink fuel h data = some r) :
    cfg_auto h r.1 := by
  unfold _cll_unlink at e
  split_ifs at e
  · cases e; exact cfg_auto_of_eq (cfg_eq_refl h)
  · obtain ⟨s, es, e⟩ := obind_eq_some.1 e
    refine cfg_auto_eq (search_start_cfg es) ?_
    rw [_cll_unlink_loop_eq] at e
    obtain ⟨w, -, e⟩ := obind_eq_some.1 e
    cases w with
    | none => cases e; exact cfg_eq_refl _
    | some p => exact unlink_hit_cfg e

theorem _cll_delete_cfg {fuel : Nat} {h : cll_handler α} {data : α}
    {r : cll_handler α × Int} (e : _cll_delete fuel h data = some r) : cfg_auto h r.1 := by
  unfold _cll_delete at e
  obtain ⟨u, eu, e⟩ := obind_eq_some.1 e
  refine cfg_auto_eq (_cll_unlink_cfg eu) ?_
  split at e <;> cases e <;> exact ⟨rfl, rfl⟩

theorem _cll_pope_cfg {fuel : Nat} {h : cll_handler α} {data : α}
    {r : cll_handler α × Option α} (e : _cll_pope fuel h data = some r) :
    cfg_auto h r.1 := by
  unfold _cll_pope at e
  obtain ⟨u, eu, e⟩ := obind_eq_some.1 e
  refine cfg_auto_eq (_cll_unlink_cfg eu) ?_
  split at e <;> cases e <;> exact ⟨rfl, rfl⟩

theorem _cll_move_to_head_cfg {h h2 : cll_handler α} {p : Nat}
    (e : _cll_move_to_head h p = some h2) : cfg_eq h h2 := by
  unfold _cll_move_to_head at e
  simp only at e
  split_ifs at e
  · obtain ⟨m2, -, e⟩ := obind_eq_some.1 e
    obtain ⟨m6, -, e⟩ := obind_eq_some.1 e
    cases e
    exact ⟨rfl, rfl⟩
  · cases e; exact cfg_eq_refl h

theorem search_hit_cfg {h : cll_handler α} {pool : Nat} {r : cll_handler α × Option α}
    (e : search_hit h pool = some r) : cfg_eq h r.1 := by
  unfold search_hit at e
  obtain ⟨h1, e1, e⟩ := obind_eq_some.1 e
  simp only at e
  obtain ⟨d, -, e⟩ := obind_eq_some.1 e
  cases e
  refine @cfg_eq_trans _ h h1 _ ?_ ⟨rfl, rfl⟩
  split_ifs at e1
  · exact _cll_move_to_head_cfg e1
  · cases e1; exact ⟨rfl, rfl⟩

theorem _cll_search_cfg {fuel : Nat} {h : cll_handler α} {data : α}
    {r : cll_handler α × Option α} (e : _cll_search fuel h data = some r) :
    cfg_auto h r.1 := by
  unfold _cll_search at e
  split_ifs at e
  · cases e; exact cfg_auto_of_eq ⟨rfl, rfl⟩
  · obtain ⟨s, es, e⟩ := obind_eq_some.1 e
    refine cfg_auto_eq (search_start_cfg es) ?_
    rw [_cll_search_loop_eq] at e
    obtain ⟨w, -, e⟩ := obind_eq_some.1 e
    cases w with
    | none => cases e; exact ⟨rfl, rfl⟩
    | some p => exact search_hit_cfg e

theorem pall_cll_search_cfg {fuel : Nat} {h : cll_handler α} {data : α}
    {r : cll_handler α × Option α} (e : pall_cll_search fuel h data = some r) :
    cfg_auto h r.1 := by
  unfold pall_cll_search at e
  split at e
  · exact _cll_search_cfg e
  · cases e; exact cfg_auto_of_eq (cfg_eq_refl h)

theorem _cll_poph_cfg {h : cll_handler α} {r : cll_handler α × Option α}
    (e : _cll_poph h = some r) : cfg_eq h r.1 := by
  unfold _cll_poph at e
  split_ifs at e
  · cases e; exact ⟨rfl, rfl⟩
  · obtain ⟨hn, -, e⟩ := obind_eq_some.1 e
    obtain ⟨r1, e1, e⟩ := obind_eq_some.1 e
    cases e
    refine cfg_eq_trans ?_ ⟨rfl, rfl⟩
    split_ifs at e1
    · obtain ⟨d, -, e1⟩ := obind_eq_some.1 e1
      cases e1
      exact ⟨rfl, rfl⟩
    · simp only at e1
      obtain ⟨m2, -, e1⟩ := obind_eq_some.1 e1
      obtain ⟨hn2, -, e1⟩ := obind_eq_some.1 e1
      obtain ⟨h3, e3, e1⟩ := obind_eq_some.1 e1
      obtain ⟨h4, e4, e1⟩ := obind_eq_some.1 e1
      obtain ⟨d, -, e1⟩ := obind_eq_some.1 e1
      cases e1
      have c3 := cfg_eq_ite_obind e3 (fun a => ⟨rfl, rfl⟩)
      have c4 := cfg_eq_ite_obind e4 (fun a => ⟨rfl, rfl⟩)
      exact cfg_eq_trans (cfg_eq_trans (cfg_eq_trans ⟨rfl, rfl⟩ c3) c4)
        ⟨rfl, rfl⟩

theorem _cll_collapse_loop_cfg : ∀ (fuel : Nat) (h : cll_handler α) (pool : Nat)
    (h2 : cll_handler α), _cll_collapse_loop fuel h pool = some h2 → cfg_eq h h2 := by
  intro fuel
  induction fuel with
  | zero => intro h pool h2 e; simp [_cll_collapse_loop] at e
  | succ k ih =>
    intro h pool h2 e
    rw [_cll_collapse_loop] at e
    split_ifs at e
    · cases e; exact cfg_eq_refl h
    · obtain ⟨pn, -, e⟩ := obind_eq_some.1 e
      split_ifs at e
      · obtain ⟨d, -, e⟩ := obind_eq_some.1 e
        cases e
        exact ⟨rfl, rfl⟩
      · simp only at e
        obtain ⟨pp, -, e⟩ := obind_eq_some.1 e
        obtain ⟨m1, -, e⟩ := obind_eq_some.1 e
        obtain ⟨pp2, -, e⟩ := obind_eq_some.1 e
        obtain ⟨pn2, -, e⟩ := obind_eq_some.1 e
        obtain ⟨m2, -, e⟩ := obind_eq_some.1 e
        obtain ⟨pn3, -, e⟩ := obind_eq_some.1 e
        obtain ⟨d, -, e⟩ := obind_eq_some.1 e
        have c := ih _ _ _ e
        exact cfg_eq_trans ⟨rfl, rfl⟩ c

theorem _cll_collapse_cfg {fuel : Nat} {h h2 : cll_handler α}
    (e : _cll_collapse fuel h = some h2) : cfg_eq h h2 := by
  unfold _cll_collapse at e
  obtain ⟨h1, e1, e⟩ := obind_eq_some.1 e
  cases e
  exact cfg_eq_trans (_cll_collapse_loop_cfg _ _ _ _ e1) ⟨rfl, rfl⟩

theorem _cll_iterate_cfg {h : cll_handler α} {r : cll_handler α × Option α}
    (e : _cll_iterate h = some r) : cfg_eq h r.1 := by
  unfold _cll_iterate at e
  split_ifs at e
  · cases e; exact ⟨rfl, rfl⟩
  · obtain ⟨h1, e1, e⟩ := obind_eq_some.1 e
    obtain ⟨d, -, e⟩ := obind_eq_some.1 e
    cases e
    obtain ⟨hp, -, e1⟩ := obind_eq_some.1 e1
    obtain ⟨hpp, -, e1⟩ := obind_eq_some.1 e1
    cases e1
    exact ⟨rfl, rfl⟩
  · obtain ⟨h1, e1, e⟩ := obind_eq_some.1 e
    obtain ⟨d, -, e⟩ := obind_eq_some.1 e
    cases e
    obtain ⟨hp, -, e1⟩ := obind_eq_some.1 e1
    cases e1
    exact ⟨rfl, rfl⟩
  · cases e; exact ⟨rfl, rfl⟩
  · simp only at e
    obtain ⟨c, -, e⟩ := obind_eq_some.1 e
    obtain ⟨d, -, e⟩ := obind_eq_some.1 e
    cases e
    exact ⟨rfl, rfl⟩
  · simp only at e
    obtain ⟨c, -, e⟩ := obind_eq_some.1 e
    obtain ⟨d, -, e⟩ := obind_eq_some.1 e
    cases e
    exact ⟨rfl, rfl⟩

/-! ## HMBT-CLL: the flag words of the buckets -/

theorem or_backward_mask (f : Nat) :
    (f ||| CONFIG_SEARCH_BACKWARD) &&& NOT_CONFIG_SEARCH_BACKWARD =
      f &&& NOT_CONFIG_SEARCH_BACKWARD := by
  rw [Nat.and_distrib_right]
  have : CONFIG_SEARCH_BACKWARD &&& NOT_CONFIG_SEARCH_BACKWARD = 0 := by decide
  rw [this, Nat.or_zero]

theorem and_backward_mask (f : Nat) :
    (f &&& NOT_CONFIG_SEARCH_BACKWARD) &&& NOT_CONFIG_SEARCH_BACKWARD =
      f &&& NOT_CONFIG_SEARCH_BACKWARD := by
  rw [Nat.and_assoc, Nat.and_self]

theorem mask_auto {f g : Nat}
    (e : f &&& NOT_CONFIG_SEARCH_BACKWARD = g &&& NOT_CONFIG_SEARCH_BACKWARD) :
    f &&& CONFIG_SEARCH_AUTO = g &&& CONFIG_SEARCH_AUTO ∧
      f &&& CONFIG_SEARCH_LRU = g &&& CONFIG_SEARCH_LRU := by
  have h4 : NOT_CONFIG_SEARCH_BACKWARD &&& CONFIG_SEARCH_AUTO = CONFIG_SEARCH_AUTO := by decide
  have h8 : NOT_CONFIG_SEARCH_BACKWARD &&& CONFIG_SEARCH_LRU = CONFIG_SEARCH_LRU := by decide
  constructor
  · have := congrArg (fun x => x &&& CONFIG_SEARCH_AUTO) e
    simp only [Nat.and_assoc, h4] at this
    exact this
  · have := congrArg (fun x => x &&& CONFIG_SEARCH_LRU) e
    simp only [Nat.and_assoc, h8] at this
    exact this

theorem or_backward_lt {f : Nat} (h : f < 4294967296) :
    f ||| CONFIG_SEARCH_BACKWARD < 4294967296 :=
  @Nat.or_lt_two_pow f CONFIG_SEARCH_BACKWARD 32 h (by decide)

/-- A call that may set or clear `CONFIG_SEARCH_BACKWARD` under `CONFIG_SEARCH_AUTO` leaves
a bucket that follows `g` following `g`. -/
theorem flagsOK_auto {g : Nat} {b b2 : cll_handler α} (hb : FlagsOK g b)
    (hs : cfg_auto b b2) : FlagsOK g b2 := by
  obtain ⟨h1, h2, h3⟩ := hb
  obtain ⟨-, hs | ⟨ha, hl, hs | hs⟩⟩ := hs
  · exact ⟨by rw [hs]; exact h1, by rw [hs]; exact h2, fun hg => by rw [hs]; exact h3 hg⟩
  · obtain ⟨m4, m8⟩ := mask_auto h2
    refine ⟨by rw [hs]; exact or_backward_lt h1, by rw [hs, or_backward_mask]; exact h2, ?_⟩
    rintro (hg | hg)
    · exact absurd (m4.trans hg) ha
    · exact absurd (by rw [m8]; exact hg) hl
  · obtain ⟨m4, m8⟩ := mask_auto h2
    refine ⟨by rw [hs]; exact lt_of_le_of_lt Nat.and_le_left h1,
      by rw [hs, and_backward_mask]; exact h2, ?_⟩
    rintro (hg | hg)
    · exact absurd (m4.trans hg) ha
    · exact absurd (by rw [m8]; exact hg) hl

theorem flagsOK_eq {g : Nat} {b b2 : cll_handler α} (hb : FlagsOK g b)
    (hs : b2._config_flags = b._config_flags) : FlagsOK g b2 := by
  unfold FlagsOK
  rw [hs]
  exact hb

/-- Two buckets that follow the same word agree but for the bit
`CONFIG_SEARCH_BACKWARD`, and agree when one of them has `CONFIG_SEARCH_AUTO` clear or
`CONFIG_SEARCH_LRU` set. -/
theorem flagsOK_pair {g : Nat} {b c : cll_handler α} (hb : FlagsOK g b) (hc : FlagsOK g c) :
    b._config_flags &&& NOT_CONFIG_SEARCH_BACKWARD =
        c._config_flags &&& NOT_CONFIG_SEARCH_BACKWARD ∧
      ((b._config_flags &&& CONFIG_SEARCH_AUTO = 0 ∨
          b._config_flags &&& CONFIG_SEARCH_LRU ≠ 0) → b._config_flags = c._config_flags) := by
  obtain ⟨m4, m8⟩ := mask_auto hb.2.1
  refine ⟨hb.2.1.trans hc.2.1.symm, ?_⟩
  intro hg
  have hg2 : g &&& CONFIG_SEARCH_AUTO = 0 ∨ g &&& CONFIG_SEARCH_LRU ≠ 0 := by
    rcases hg with hg | hg
    · left; rw [← m4]; exact hg
    · right; rw [← m8]; exact hg
  rw [hb.2.2 hg2, hc.2.2 hg2]

/-- Every bucket of `H` follows the flag word `g`. -/
theorem hfl_at {β : Type} {g : Nat} {H H2 : hmbt_cll_handler α}
    (hF : ∀ (j : Nat) (b : cll_handler α), H.array[j]? = some b → FlagsOK g b) {i : Nat}
    {f : cll_handler α → Option (cll_handler α × β)} {r : β}
    (e : hmbt_at H i f = some (H2, r))
    (hf : ∀ b b2, f b = some (b2, r) → cfg_auto b b2) :
    ∀ (j : Nat) (b : cll_handler α), H2.array[j]? = some b → FlagsOK g b := by
  obtain ⟨b, b2, hb, hfb, rfl⟩ := hmbt_at_some e
  intro j c hj
  by_cases hij : i = j
  · subst hij
    rw [show ({ H with array := H.array.set i b2 } : hmbt_cll_handler α).array =
      H.array.set i b2 from rfl, List.getElem?_set_self', hb] at hj
    simp at hj
    rw [← hj]
    exact flagsOK_auto (hF i b hb) (hf b b2 hfb)
  · rw [show ({ H with array := H.array.set i b2 } : hmbt_cll_handler α).array =
      H.array.set i b2 from rfl, List.getElem?_set_ne hij] at hj
    exact hF j c hj

theorem hfl_for {σ : Type} {g : Nat} {H H2 : hmbt_cll_handler α}
    (hF : ∀ (j : Nat) (b : cll_handler α), H.array[j]? = some b → FlagsOK g b)
    {step : cll_handler α → σ → Option (cll_handler α × σ)} {k i : Nat} {s t : σ}
    (hstep : ∀ b s r, step b s = some r → cfg_eq b r.1)
    (e : hmbt_for step k i H s = some (H2, t)) :
    ∀ (j : Nat) (b : cll_handler α), H2.array[j]? = some b → FlagsOK g b :=
  (hmbt_for_inv step (fun _ b => FlagsOK g b)
    (fun _ b s r hb hs => flagsOK_eq hb (hstep b s r hs).1) k i H s H2 t hF e).1

theorem init_flags {compare : Option (α → α → Int)} {destroy : Bool}
    {ser_data : Option (pall_fd_t → α → pall_fd_t × Int)}
    {unser_data : Option (pall_fd_t → pall_fd_t × Option α)} {ok : Bool} {c : cll_handler α}
    (e : pall_cll_init compare destroy ser_data unser_data ok = some c) :
    c._config_flags = CONFIG_SEARCH_LRU ||| CONFIG_INSERT_HEAD := by
  unfold pall_cll_init at e
  split_ifs at e <;> cases e <;> rfl

theorem flagsOK_self {b : cll_handler α} (h : b._config_flags < 4294967296) :
    FlagsOK b._config_flags b :=
  ⟨h, rfl, fun _ => rfl⟩

theorem hmbt_stat_step_cfg (pool : cll_handler α) :
    cfg_eq pool (hmbt_stat_step 0 pool {}).1 := by
  have h1 : ∀ h : cll_handler α, (_cll_stat h)._config_flags = h._config_flags :=
    fun _ => rfl
  have h2 : ∀ h : cll_handler α, (_cll_stat h).insert = h.insert := fun _ => rfl
  have h3 : ∀ h : cll_handler α, (_cll_count h).1._config_flags = h._config_flags :=
    fun _ => rfl
  have h4 : ∀ h : cll_handler α, (_cll_count h).1.insert = h.insert := fun _ => rfl
  unfold hmbt_stat_step cfg_eq
  dsimp only
  constructor
  · rw [h3]
    repeat rw [h1]
  · rw [h4]
    repeat rw [h2]

theorem hfl_iterate_loop {g : Nat} : ∀ (fuel : Nat) (H H2 : hmbt_cll_handler α)
    (r : Option α), (∀ (j : Nat) (b : cll_handler α), H.array[j]? = some b → FlagsOK g b) →
    _hmbt_cll_iterate_loop fuel H = some (H2, r) →
    ∀ (j : Nat) (b : cll_handler α), H2.array[j]? = some b → FlagsOK g b := by
  intro fuel
  induction fuel with
  | zero => intro H H2 r _ e; simp [_hmbt_cll_iterate_loop] at e
  | succ fuel ih =>
    intro H H2 r hF e
    rw [_hmbt_cll_iterate_loop] at e
    obtain ⟨x, hx, e⟩ := obind_eq_some.1 e
    have hF1 := hfl_at (r := x.2) hF hx
      (fun b b2 hf => cfg_auto_of_eq (_cll_iterate_cfg hf))
    cases hx2 : x.2 with
    | some d =>
      rw [hx2] at e
      simp only [Option.some.injEq, Prod.mk.injEq] at e
      rw [← e.1]; exact hF1
    | none =>
      rw [hx2] at e
      simp only at e
      split_ifs at e with c1 c2 c3
      · simp only [Option.some.injEq, Prod.mk.injEq] at e
        rw [← e.1]; exact hF1
      · refine ih _ _ _ ?_ e
        exact hF1
      · simp only [Option.some.injEq, Prod.mk.injEq] at e
        rw [← e.1]; exact hF1
      · refine ih _ _ _ ?_ e
        exact hF1

/-- In every reachable state of an HMBT-CLL there is a flag word that every bucket
follows. -/
theorem hreach_flags {H : hmbt_cll_handler α} (hr : HReach H) :
    ∃ g, ∀ (j : Nat) (b : cll_handler α), H.array[j]? = some b → FlagsOK g b := by
  induction hr with
  | init compare destroy hash ser_data unser_data array_size ok H e =>
    refine ⟨CONFIG_SEARCH_LRU ||| CONFIG_INSERT_HEAD, ?_⟩
    intro j b hb
    unfold pall_hmbt_cll_init at e
    cases hash with
    | none => simp at e
    | some hf =>
      simp only at e
      split_ifs at e
      all_goals
        obtain ⟨arr, harr, e⟩ := obind_eq_some.1 e
        cases e
        obtain ⟨-, hall⟩ := hmbt_init_array_spec _ _ _ _ _ _ _ harr
        have hfl := init_flags (hall b (List.getElem?_mem hb))
        rw [← hfl]
        exact flagsOK_self (by rw [hfl]; decide)
  | insert fuel H data n H2 r _ hn e ih =>
    obtain ⟨g, hF⟩ := ih
    unfold pall_hmbt_cll_insert _hmbt_cll_insert at e
    obtain ⟨i, -, e⟩ := obind_eq_some.1 e
    exact ⟨g, hfl_at hF e (fun b b2 hf => cfg_auto_of_eq (pall_cll_insert_cfg hf))⟩
  | search fuel H data H2 r _ e ih =>
    obtain ⟨g, hF⟩ := ih
    unfold pall_hmbt_cll_search _hmbt_cll_search at e
    obtain ⟨i, -, e⟩ := obind_eq_some.1 e
    exact ⟨g, hfl_at hF e (fun b b2 hf => pall_cll_search_cfg hf)⟩
  | delete fuel H data H2 r _ e ih =>
    obtain ⟨g, hF⟩ := ih
    unfold pall_hmbt_cll_delete _hmbt_cll_delete at e
    obtain ⟨i, -, e⟩ := obind_eq_some.1 e
    exact ⟨g, hfl_at hF e (fun b b2 hf => _cll_delete_cfg hf)⟩
  | pope fuel H data H2 r _ e ih =>
    obtain ⟨g, hF⟩ := ih
    unfold pall_hmbt_cll_pope _hmbt_cll_pope at e
    obtain ⟨i, -, e⟩ := obind_eq_some.1 e
    exact ⟨g, hfl_at hF e (fun b b2 hf => _cll_pope_cfg hf)⟩
  | poph_elem H data H2 r _ e ih =>
    obtain ⟨g, hF⟩ := ih
    unfold pall_hmbt_cll_poph_elem _hmbt_cll_poph_elem at e
    obtain ⟨i, -, e⟩ := obind_eq_some.1 e
    obtain ⟨x, hx, e⟩ := obind_eq_some.1 e
    have hF1 := hfl_at (r := x.2) hF hx (fun b b2 hf => cfg_auto_of_eq (_cll_poph_cfg hf))
    refine ⟨g, ?_⟩
    split at e <;>
    · simp only [Option.some.injEq, Prod.mk.injEq] at e
      rw [← e.1]; exact hF1
  | poph_index H index H2 r _ e ih =>
    obtain ⟨g, hF⟩ := ih
    unfold pall_hmbt_cll_poph_index _hmbt_cll_poph_index at e
    obtain ⟨x, hx, e⟩ := obind_eq_some.1 e
    have hF1 := hfl_at (r := x.2) hF hx (fun b b2 hf => cfg_auto_of_eq (_cll_poph_cfg hf))
    refine ⟨g, ?_⟩
    split at e <;>
    · simp only [Option.some.injEq, Prod.mk.injEq] at e
      rw [← e.1]; exact hF1
  | collapse fuel H H2 _ e ih =>
    obtain ⟨g, hF⟩ := ih
    unfold pall_hmbt_cll_collapse _hmbt_cll_collapse at e
    obtain ⟨x, hx, e⟩ := obind_eq_some.1 e
    have hF1 := hfl_for (t := x.2) hF (by
      intro b s r hs
      obtain ⟨c, hc, hs⟩ := obind_eq_some.1 hs
      cases hs
      exact _cll_collapse_cfg hc) hx
    simp only [Option.some.injEq] at e
    rw [← e]; exact ⟨g, hF1⟩
  | rewind H to_ H2 _ e ih =>
    obtain ⟨g, hF⟩ := ih
    unfold pall_hmbt_cll_rewind _hmbt_cll_rewind at e
    obtain ⟨x, hx, e⟩ := obind_eq_some.1 e
    have hF0 : ∀ (j : Nat) (b : cll_handler α),
        ({ H with _iterate_reverse := to_ } : hmbt_cll_handler α).array[j]? = some b →
        FlagsOK g b := hF
    have hF1 := hfl_for (t := x.2) hF0 (by
      intro b s r hs
      cases hs
      exact ⟨rfl, rfl⟩) hx
    simp only [Option.some.injEq] at e
    rw [← e]
    refine ⟨g, ?_⟩
    split_ifs <;> exact hF1
  | iterate fuel H H2 r _ e ih =>
    obtain ⟨g, hF⟩ := ih
    unfold pall_hmbt_cll_iterate _hmbt_cll_iterate at e
    obtain ⟨x, hx, e⟩ := obind_eq_some.1 e
    have hF1 := hfl_iterate_loop fuel H x.1 x.2 hF hx
    refine ⟨g, ?_⟩
    split at e <;>
    · simp only [Option.some.injEq, Prod.mk.injEq] at e
      rw [← e.1]
      exact hF1
  | set_config H flags H2 r hr e _ =>
    have hI := hreach_inv hr
    unfold pall_hmbt_cll_set_config _hmbt_cll_set_config at e
    have e1 := hmbt_for_all (fun b => (_cll_set_config b (flags % 4294967296)).1)
      (fun (_ : Unit) _ => ()) H () hI.1
    dsimp only at e
    rw [e1, obind_some] at e
    simp only [Option.some.injEq, Prod.mk.injEq] at e
    rw [← e.1]
    refine ⟨flags % 4294967296, ?_⟩
    intro j b hb
    have hb2 : (H.array.map fun b => (_cll_set_config b (flags % 4294967296)).1)[j]? =
        some b := hb
    rw [List.getElem?_map] at hb2
    cases hc : H.array[j]? with
    | none => rw [hc] at hb2; cases hb2
    | some c =>
      rw [hc] at hb2
      simp only [Option.map_some', Option.some.injEq] at hb2
      have hfl := (_cll_set_config_frame c (flags % 4294967296)).2.2.2.2
      rw [hb2, Nat.mod_mod] at hfl
      rw [← hfl]
      exact flagsOK_self (by rw [hfl]; exact Nat.mod_lt _ (by decide))
  | get_config H H2 r _ e ih =>
    obtain ⟨g, hF⟩ := ih
    unfold pall_hmbt_cll_get_config _hmbt_cll_get_config at e
    refine ⟨g, hfl_at (H := { H with _stat := { H._stat with
      get_config := H._stat.get_config + 1 } }) hF e ?_⟩
    intro b b2 hf
    cases hf
    exact ⟨rfl, Or.inl rfl⟩
  | count H H2 r _ e ih =>
    obtain ⟨g, hF⟩ := ih
    unfold pall_hmbt_cll_count _hmbt_cll_count at e
    obtain ⟨x, hx, e⟩ := obind_eq_some.1 e
    have hF1 := hfl_for (t := x.2) hF (by
      intro b s r hs
      cases hs
      exact ⟨rfl, rfl⟩) hx
    simp only [Option.some.injEq, Prod.mk.injEq] at e
    rw [← e.1]; exact ⟨g, hF1⟩
  | stat H H2 hr e ih =>
    obtain ⟨g, hF⟩ := ih
    have hI := hreach_inv hr
    obtain ⟨H3, e3, ha, -⟩ := pall_hmbt_cll_stat_eq hI.1
    rw [e] at e3
    cases e3
    refine ⟨g, ?_⟩
    intro j b hb
    rw [ha, List.getElem?_map] at hb
    cases hc : H.array[j]? with
    | none => rw [hc] at hb; cases hb
    | some c =>
      rw [hc] at hb
      simp only [Option.map_some', Option.some.injEq] at hb
      rw [← hb]
      exact flagsOK_eq (hF j c hc) (hmbt_stat_step_cfg c).1
  | stat_reset H H2 hr e ih =>
    obtain ⟨g, hF⟩ := ih
    have hI := hreach_inv hr
    rw [pall_hmbt_cll_stat_reset_eq hI.1] at e
    cases e
    refine ⟨g, ?_⟩
    intro j b hb
    have hb2 : (H.array.map _cll_stat_reset)[j]? = some b := hb
    rw [List.getElem?_map] at hb2
    cases hc : H.array[j]? with
    | none => rw [hc] at hb2; cases hb2
    | some c =>
      rw [hc] at hb2
      simp only [Option.map_some', Option.some.injEq] at hb2
      rw [← hb2]
      exact flagsOK_eq (hF j c hc) rfl

theorem hreach_run_search {H : hmbt_cll_handler α} (hr : HReach H) (fuel : Nat) (x : α)
    (hs : (pall_hmbt_cll_search fuel H x).isSome = true) :
    HReach (hrun H (pall_hmbt_cll_search fuel H x)) := by
  cases e : pall_hmbt_cll_search fuel H x with
  | none => rw [e] at hs; cases hs
  | some r => exact HReach.search fuel H x r.1 r.2 hr e

theorem hreach_run_set_config {H : hmbt_cll_handler α} (hr : HReach H) (flags : Nat)
    (hs : (pall_hmbt_cll_set_config H flags).isSome = true) :
    HReach (hrun H (pall_hmbt_cll_set_config H flags)) := by
  cases e : pall_hmbt_cll_set_config H flags with
  | none => rw [e] at hs; cases hs
  | some r => exact HReach.set_config H flags r.1 r.2 hr e

theorem ex_hmbt_auto_reach : HReach ex_hmbt_auto := by
  have h1 := hreach_run_set_config ex_hmbt_fresh_reach CONFIG_SEARCH_AUTO (by decide)
  have h2 := hreach_run_insert h1 0 11 1 (by decide) (by decide)
  exact hreach_run_search h2 1 0 (by decide)

/-- What `get_config` returns when the array holds a bucket `0`. -/
theorem pall_hmbt_cll_get_config_eq {H : hmbt_cll_handler α} {b0 : cll_handler α}
    (hb : H.array[0]? = some b0) :
    ∃ H2, pall_hmbt_cll_get_config H = some (H2, b0._config_flags) := by
  unfold pall_hmbt_cll_get_config _hmbt_cll_get_config
  have e := hmbt_at_eq (H := { H with _stat := { H._stat with
    get_config := H._stat.get_config + 1 } }) (b := b0) (x := _cll_get_config b0)
    (f := fun pool => some (_cll_get_config pool)) hb rfl
  exact ⟨_, e⟩

/-- C23. HMBT buckets in lockstep but for the search direction: in every state of an
HMBT-CLL reached from init by the calls of the interface, set_config with any flag word
included, the flag words of any two buckets are 32-bit values that agree in every bit but
`CONFIG_SEARCH_BACKWARD`, which a search under `CONFIG_SEARCH_AUTO` sets or clears in the
one bucket it visits; they are the same word when `CONFIG_SEARCH_AUTO` is clear or
`CONFIG_SEARCH_LRU` is set in it. `get_config` returns the flag word of the bucket `0`. -/
theorem hmbt_lockstep_up_to_backward {H : hmbt_cll_handler α} (hr : HReach H) :
    (∀ (i j : Nat) (b c : cll_handler α), H.array[i]? = some b → H.array[j]? = some c →
      b._config_flags < 4294967296 ∧
        b._config_flags &&& NOT_CONFIG_SEARCH_BACKWARD =
          c._config_flags &&& NOT_CONFIG_SEARCH_BACKWARD ∧
        ((b._config_flags &&& CONFIG_SEARCH_AUTO = 0 ∨
            b._config_flags &&& CONFIG_SEARCH_LRU ≠ 0) →
          b._config_flags = c._config_flags)) ∧
      ∃ H2 b0, H.array[0]? = some b0 ∧
        pall_hmbt_cll_get_config H = some (H2, b0._config_flags) := by
  obtain ⟨g, hF⟩ := hreach_flags hr
  have hI := hreach_inv hr
  constructor
  · intro i j b c hb hc
    exact ⟨(hF i b hb).1, flagsOK_pair (hF i b hb) (hF j c hc)⟩
  · have h0 : 0 < H.array.length := by rw [hI.1]; exact hI.2.1
    obtain ⟨H2, e⟩ := pall_hmbt_cll_get_config_eq (List.getElem?_eq_getElem h0)
    exact ⟨H2, _, List.getElem?_eq_getElem h0, e⟩

theorem hmbt_lockstep_up_to_backward_witness :
    HReach ex_hmbt_auto ∧
      (∀ (i j : Nat) (b c : cll_handler Nat), ex_hmbt_auto.array[i]? = some b →
        ex_hmbt_auto.array[j]? = some c →
        b._config_flags < 4294967296 ∧
          b._config_flags &&& NOT_CONFIG_SEARCH_BACKWARD =
            c._config_flags &&& NOT_CONFIG_SEARCH_BACKWARD ∧
          ((b._config_flags &&& CONFIG_SEARCH_AUTO = 0 ∨
              b._config_flags &&& CONFIG_SEARCH_LRU ≠ 0) →
            b._config_flags = c._config_flags)) ∧
      ∃ H2 b0, ex_hmbt_auto.array[0]? = some b0 ∧
        pall_hmbt_cll_get_config ex_hmbt_auto = some (H2, b0._config_flags) :=
  ⟨ex_hmbt_auto_reach, hmbt_lockstep_up_to_backward ex_hmbt_auto_reach⟩

/-- With `11` buckets, after `set_config(CONFIG_SEARCH_AUTO)`, `insert(11)` and
`search(0)`, the bucket `0` holds the flag word `6`, with `CONFIG_SEARCH_BACKWARD` set,
the ten other buckets hold the flag word `4`, and `get_config` returns `6`. -/
theorem search_auto_splits_the_buckets :
    scenario_hmbt_auto = some ([6, 4, 4, 4, 4, 4, 4, 4, 4, 4, 4], 6) := by decide

/-- The flag words of the handler `ex_hmbt_auto`. -/
theorem ex_hmbt_auto_flags :
    (ex_hmbt_auto.array.map fun b => b._config_flags) = [6, 4, 4, 4, 4, 4, 4, 4, 4, 4, 4] := by
  decide

/-! ## Sorted order across the operations of a list -/

theorem cfg_auto_lru {h h2 : cll_handler α} (hs : cfg_auto h h2) :
    h2._config_flags &&& CONFIG_SEARCH_LRU = h._config_flags &&& CONFIG_SEARCH_LRU := by
  obtain ⟨-, hs | ⟨-, -, hs | hs⟩⟩ := hs
  · rw [hs]
  · rw [hs]
    exact (mask_auto (or_backward_mask _)).2
  · rw [hs]
    exact (mask_auto (and_backward_mask _)).2

/-- The function pointer `insert` that `set_config` installs for a flag word that holds
`CONFIG_INSERT_SORTED` and neither `CONFIG_INSERT_TAIL` nor `CONFIG_INSERT_HEAD`. -/
theorem _cll_set_config_sorted (h : cll_handler α) (flags : Nat)
    (h1 : flags % 4294967296 &&& CONFIG_INSERT_SORTED ≠ 0)
    (h2 : flags % 4294967296 &&& CONFIG_INSERT_TAIL = 0)
    (h3 : flags % 4294967296 &&& CONFIG_INSERT_HEAD = 0) :
    (_cll_set_config h flags).1.insert = insert_fn.cll_insert_sorted := by
  unfold _cll_set_config
  dsimp only
  rw [if_neg (not_not.2 h2), if_neg (not_not.2 h3), if_pos h1]

/-- Without `CONFIG_SEARCH_LRU` a search leaves the list as it is. -/
theorem pall_cll_search_keeps {h : cll_handler α} {L : List (Nat × α)} (hA : Abs h L)
    (hl : ¬ h._config_flags &&& CONFIG_SEARCH_LRU ≠ 0)
    (fuel : Nat) (data : α) (h2 : cll_handler α) (r : Option α)
    (hr : pall_cll_search fuel h data = some (h2, r)) : Abs h2 L := by
  unfold pall_cll_search at hr
  cases hsf : h.search <;> simp only [hsf] at hr
  · have hbig := _cll_search_mono fuel L.length h data _ hr
    rcases Option.eq_none_or_eq_some h.compare with hc | ⟨cmp, hc⟩
    · by_cases hz : h.cll = 0
      · unfold _cll_search at hr
        rw [if_pos hz] at hr
        simp only [Option.some.injEq, Prod.mk.injEq] at hr
        exact hr.1 ▸ abs_congr hA rfl rfl rfl rfl rfl rfl
      · exfalso
        unfold _cll_search at hr
        rw [if_neg hz] at hr
        obtain ⟨s, hst, hs⟩ := obind_eq_some.1 hr
        rw [_cll_search_loop_eq] at hs
        have hc1 : s.1.compare = none := by
          unfold search_start at hst
          split_ifs at hst
          · rw [hc] at hst; simp at hst
          · simp only [Option.some.injEq] at hst; rw [← hst]; exact hc
        rw [walk_find_no_compare hc1] at hs
        simp at hs
    · rcases _cll_search_full hA hc data _ (le_add_fuel _ _) with ⟨_, f1, e⟩ |
        ⟨pre, q, dq, post, m1, c1, hd1, f1, L2, hL, _, e, a, -, hnl⟩
      · rw [e] at hbig
        simp only [Option.some.injEq, Prod.mk.injEq] at hbig
        exact hbig.1 ▸ abs_congr hA rfl rfl rfl rfl rfl rfl
      · rw [e] at hbig
        simp only [Option.some.injEq, Prod.mk.injEq] at hbig
        rw [(hnl hl).1, ← hL] at a
        exact hbig.1 ▸ a
  · unfold _cll_search_nop at hr
    simp only [Option.some.injEq, Prod.mk.injEq] at hr
    exact hr.1 ▸ hA

/-- Sorted insertion into a sorted list leaves a sorted list. -/
theorem pall_cll_insert_keeps_sorted {h : cll_handler α} {L : List (Nat × α)} (hA : Abs h L)
    (hi : h.insert = insert_fn.cll_insert_sorted) {cmp : α → α → Int}
    (hc : h.compare = some cmp) (hsym : ∀ a b, 0 < cmp a b ↔ cmp b a < 0)
    (htr : ∀ a b c, cmp a b ≤ 0 → cmp b c ≤ 0 → cmp a c ≤ 0)
    (hP : L.Pairwise (fun a b => cmp a.2 b.2 ≤ 0))
    (fuel : Nat) (data : α) (n : Nat) (hn : n = 0 ∨ h.mem n = none) (h2 : cll_handler α)
    (r : Int) (hr : pall_cll_insert fuel h data n = some (h2, r)) :
    ∃ L2, Abs h2 L2 ∧ L2.Pairwise (fun a b => cmp a.2 b.2 ≤ 0) := by
  by_cases hn0 : n = 0
  · obtain ⟨L2, a, h | h⟩ := pall_cll_insert_track hA fuel data n hn h2 r hr
    · exact ⟨L2, a, by rw [h.2.2]; exact hP⟩
    · exact absurd hn0 h.1
  · have hfr : h.mem n = none := by
      rcases hn with e | e
      · exact absurd e hn0
      · exact e
    have hbig := pall_cll_insert_mono fuel L.length h data n _ hr
    have e0 : pall_cll_insert (fuel + L.length) h data n =
        _cll_insert_sorted (fuel + L.length) h data n := by
      unfold pall_cll_insert
      simp only [hi]
    rw [e0] at hbig
    rcases hA.cur with ⟨e, _⟩ | hcur
    · subst e
      obtain ⟨m1, e1, a1⟩ := _cll_insert_sorted_nil hA data n hn0
        (fuel + ([] : List (Nat × α)).length)
      rw [e1] at hbig
      simp only [Option.some.injEq, Prod.mk.injEq] at hbig
      exact ⟨_, hbig.1 ▸ a1, List.pairwise_singleton _ _⟩
    · obtain ⟨pre, d, post, rfl⟩ := split_of_mem_fst hcur
      obtain ⟨m1, hd2, L2, e1, a1, hS⟩ := _cll_insert_sorted_spec pre post hA hc data n
        hn0 hfr _ (le_add_fuel _ fuel)
      rw [e1] at hbig
      simp only [Option.some.injEq, Prod.mk.injEq] at hbig
      exact ⟨L2, hbig.1 ▸ a1, (sortedIns_pairwise hsym htr hS hP).1⟩

/-- In every state of a list kept under sorted insertion the function pointer `insert`
is `_cll_insert_sorted`, the compare callback is `cmp`, `CONFIG_SEARCH_LRU` is clear, and
the nodes are in non-decreasing order from head to tail. -/
theorem sorted_reach_inv {cmp : α → α → Int} {h : cll_handler α} (hr : SortedReach cmp h)
    (hsym : ∀ a b, 0 < cmp a b ↔ cmp b a < 0)
    (htr : ∀ a b c, cmp a b ≤ 0 → cmp b c ≤ 0 → cmp a c ≤ 0) :
    h.insert = insert_fn.cll_insert_sorted ∧ h.compare = some cmp ∧
      ¬ h._config_flags &&& CONFIG_SEARCH_LRU ≠ 0 ∧
      ∃ L, Abs h L ∧ L.Pairwise (fun a b => cmp a.2 b.2 ≤ 0) := by
  induction hr with
  | start h flags hr h0 hc h1 h2 h3 h4 =>
    obtain ⟨L, hA⟩ := reachable_abs (Reachable.set_config h flags hr)
    have hfr := _cll_set_config_frame h flags
    have hL : L = [] := by
      have := hA.count
      rw [show (pall_cll_set_config h flags).1._count = h._count from hfr.2.2.1, h0] at this
      exact List.length_eq_zero.1 this.symm
    refine ⟨_cll_set_config_sorted h flags h1 h2 h3,
      ((_cll_set_config_cb h flags).1).trans hc, ?_, L, hA, by rw [hL]; exact List.Pairwise.nil⟩
    rw [show (pall_cll_set_config h flags).1._config_flags = flags % 4294967296
      from hfr.2.2.2.2]
    exact not_not.2 h4
  | insert fuel h data n h2 r _ hn e ih =>
    obtain ⟨hi, hc, hl, L, hA, hP⟩ := ih
    obtain ⟨L2, a2, p2⟩ := pall_cll_insert_keeps_sorted hA hi hc hsym htr hP fuel data n hn
      h2 r e
    have c1 := pall_cll_insert_cfg e
    exact ⟨c1.2.trans hi, ((pall_cll_insert_cb e).1).trans hc, by rw [c1.1]; exact hl,
      L2, a2, p2⟩
  | search fuel h data h2 r _ e ih =>
    obtain ⟨hi, hc, hl, L, hA, hP⟩ := ih
    have c1 := pall_cll_search_cfg e
    exact ⟨c1.1.trans hi, ((pall_cll_search_cb e).1).trans hc,
      by rw [cfg_auto_lru c1]; exact hl, L, pall_cll_search_keeps hA hl fuel data h2 r e, hP⟩
  | delete fuel h data h2 r _ e ih =>
    obtain ⟨hi, hc, hl, L, hA, hP⟩ := ih
    have c1 := _cll_delete_cfg e
    obtain ⟨L2, a2, s2⟩ := pall_cll_delete_track hA fuel data h2 r e
    exact ⟨c1.1.trans hi, ((_cll_delete_cb e).1).trans hc,
      by rw [cfg_auto_lru c1]; exact hl, L2, a2, hP.sublist s2⟩
  | pope fuel h data h2 r _ e ih =>
    obtain ⟨hi, hc, hl, L, hA, hP⟩ := ih
    have c1 := _cll_pope_cfg e
    obtain ⟨L2, a2, s2⟩ := pall_cll_pope_track hA fuel data h2 r e
    exact ⟨c1.1.trans hi, ((_cll_pope_cb e).1).trans hc,
      by rw [cfg_auto_lru c1]; exact hl, L2, a2, hP.sublist s2⟩
  | poph h h2 r _ e ih =>
    obtain ⟨hi, hc, hl, L, hA, hP⟩ := ih
    have c1 := _cll_poph_cfg e
    exact ⟨c1.2.trans hi, ((_cll_poph_cb e).1).trans hc, by rw [c1.1]; exact hl,
      L.tail, (_cll_poph_track hA h2 r e).1, hP.sublist (List.tail_sublist L)⟩
  | rewind h to_ _ ih =>
    obtain ⟨hi, hc, hl, L, hA, hP⟩ := ih
    exact ⟨hi, hc, hl, L, _cll_rewind_abs hA to_, hP⟩
  | iterate h h2 r _ e ih =>
    obtain ⟨hi, hc, hl, L, hA, hP⟩ := ih
    have c1 := _cll_iterate_cfg e
    exact ⟨c1.2.trans hi, ((_cll_iterate_cb e).1).trans hc, by rw [c1.1]; exact hl,
      L, pall_cll_iterate_abs hA h2 r e, hP⟩

theorem sreach_run1_insert {cmp : α → α → Int} {h : cll_handler α}
    (hr : SortedReach cmp h) (fuel : Nat) (x : α) (n : Nat)
    (hn : (h.mem n).isNone = true) (hs : (pall_cll_insert fuel h x n).isSome = true) :
    SortedReach cmp (run1 h (pall_cll_insert fuel h x n)) := by
  cases e : pall_cll_insert fuel h x n with
  | none => rw [e] at hs; cases hs
  | some r =>
    exact SortedReach.insert fuel h x n r.1 r.2 hr
      (Or.inr (Option.isNone_iff_eq_none.1 hn)) e

theorem sreach_run1_search {cmp : α → α → Int} {h : cll_handler α}
    (hr : SortedReach cmp h) (fuel : Nat) (x : α)
    (hs : (pall_cll_search fuel h x).isSome = true) :
    SortedReach cmp (run1 h (pall_cll_search fuel h x)) := by
  cases e : pall_cll_search fuel h x with
  | none => rw [e] at hs; cases hs
  | some r => exact SortedReach.search fuel h x r.1 r.2 hr e

theorem sreach_run1_delete {cmp : α → α → Int} {h : cll_handler α}
    (hr : SortedReach cmp h) (fuel : Nat) (x : α)
    (hs : (pall_cll_delete fuel h x).isSome = true) :
    SortedReach cmp (run1 h (pall_cll_delete fuel h x)) := by
  cases e : pall_cll_delete fuel h x with
  | none => rw [e] at hs; cases hs
  | some r => exact SortedReach.delete fuel h x r.1 r.2 hr e

theorem sreach_run1_poph {cmp : α → α → Int} {h : cll_handler α}
    (hr : SortedReach cmp h) (hs : (pall_cll_poph h).isSome = true) :
    SortedReach cmp (run1 h (pall_cll_poph h)) := by
  cases e : pall_cll_poph h with
  | none => rw [e] at hs; cases hs
  | some r => exact SortedReach.poph h r.1 r.2 hr e

theorem ex_sorted_sreach : SortedReach compare_id ex_sorted := by
  have h0 : SortedReach compare_id (pall_cll_set_config ex_fresh CONFIG_INSERT_SORTED).1 :=
    SortedReach.start ex_fresh CONFIG_INSERT_SORTED ex_fresh_reachable rfl rfl (by decide)
      (by decide) (by decide) (by decide)
  have h1 := sreach_run1_insert h0 4 5 1 (by decide) (by decide)
  have h2 := sreach_run1_insert h1 4 1 2 (by decide) (by decide)
  have h3 := sreach_run1_insert h2 4 3 3 (by decide) (by decide)
  exact sreach_run1_insert h3 4 2 4 (by decide) (by decide)

theorem ex_sorted_used_sreach : SortedReach compare_id ex_sorted_used := by
  have h1 := sreach_run1_search ex_sorted_sreach 4 3 (by decide)
  have h2 := sreach_run1_delete h1 4 1 (by decide)
  exact sreach_run1_poph h2 (by decide)

/-- C24. Sorted order is an invariant: for every list on which `set_config` has installed,
while the list was empty, a flag word that holds `CONFIG_INSERT_SORTED` and none of
`CONFIG_INSERT_TAIL`, `CONFIG_INSERT_HEAD` and `CONFIG_SEARCH_LRU`, with a compare
callback `cmp` that is a three-way comparison of a total preorder, after every sequence of
insert, search, delete, pope, poph, rewind and iterate calls that follows, the head-to-tail
walk satisfies `cmp a b ≤ 0` for every adjacent pair `a`, `b`, and for every pair `a`, `b`
with `a` before `b`. -/
theorem sorted_order_invariant {cmp : α → α → Int} {h : cll_handler α}
    (hr : SortedReach cmp h) (hsym : ∀ a b, 0 < cmp a b ↔ cmp b a < 0)
    (htr : ∀ a b c, cmp a b ≤ 0 → cmp b c ≤ 0 → cmp a c ≤ 0) :
    List.Chain' (fun a b => cmp a b ≤ 0) (head_to_tail h) ∧
      List.Pairwise (fun a b => cmp a b ≤ 0) (head_to_tail h) := by
  obtain ⟨-, -, -, L, hA, hP⟩ := sorted_reach_inv hr hsym htr
  rw [abs_head_to_tail hA]
  have hP2 : List.Pairwise (fun a b => cmp a b ≤ 0) (L.map Prod.snd) :=
    List.pairwise_map.2 hP
  exact ⟨hP2.chain', hP2⟩

theorem sorted_order_invariant_witness :
    SortedReach compare_id ex_sorted_used ∧
      (∀ a b, 0 < compare_id a b ↔ compare_id b a < 0) ∧
      (∀ a b c, compare_id a b ≤ 0 → compare_id b c ≤ 0 → compare_id a c ≤ 0) ∧
      List.Chain' (fun a b => compare_id a b ≤ 0) (head_to_tail ex_sorted_used) ∧
      List.Pairwise (fun a b => compare_id a b ≤ 0) (head_to_tail ex_sorted_used) :=
  ⟨ex_sorted_used_sreach, compare_id_sym, compare_id_trans,
    sorted_order_invariant ex_sorted_used_sreach compare_id_sym compare_id_trans⟩

/-- The handler `ex_sorted` holds `1, 2, 3, 5`; after `search(3)`, `delete(1)` and
`poph()` it holds `3, 5`. -/
theorem ex_sorted_used_eq :
    head_to_tail ex_sorted = [1, 2, 3, 5] ∧ head_to_tail ex_sorted_used = [3, 5] := by
  decide

/-- Sorted order is lost under `CONFIG_SEARCH_LRU` and under `CONFIG_INSERT_TAIL`: after
`set_config(CONFIG_INSERT_SORTED | CONFIG_SEARCH_LRU)` on an empty list and the insertion
of `1`, `2`, `3`, the list holds `1, 2, 3`, and `search(3)` leaves `3, 1, 2`, where `3`
comes before `1`; after `set_config(CONFIG_INSERT_SORTED | CONFIG_INSERT_TAIL)` on an
empty list, the insertion of `2` and `1` leaves `2, 1`. -/
theorem sorted_order_lost_under_lru :
    scenario_sorted_lru = some ([1, 2, 3], some 3, [3, 1, 2]) ∧ 0 < compare_id 3 1 ∧
      scenario_sorted_tail = some [2, 1] ∧ 0 < compare_id 2 1 ∧
      (CONFIG_INSERT_SORTED ||| CONFIG_SEARCH_LRU) &&& CONFIG_INSERT_SORTED ≠ 0 ∧
      (CONFIG_INSERT_SORTED ||| CONFIG_INSERT_TAIL) &&& CONFIG_INSERT_SORTED ≠ 0 := by
  decide

/-! ## The cursor: `iterate`, `insert` at the head or at the tail, and the LRU search -/

/-- C31. What `iterate` does to the calls that follow: on the list `1, 3, 2` that
`insert` of `1`, `2`, `3` leaves on a fresh handler, `insert(4)` returns `0` and leaves
`1, 4, 3, 2`; after `rewind(0)` and three calls of `iterate` on the same list,
`insert(4)` returns `0` and leaves `1, 3, 4, 2`: `iterate` has moved the cursor. -/
theorem iterate_moves_the_cursor :
    scenario_iterate_then_insert = some ((0, [1, 4, 3, 2]), (0, [1, 3, 4, 2])) := by decide

/-- C33. The cursor after an insertion at the head or at the tail: on a fresh handler set
to `CONFIG_INSERT_HEAD`, after `insert(1)` and `insert(2)`, both returning `0`, the list
is `2, 1` and the cursor designates the node of `1`, not the new node; set to
`CONFIG_INSERT_TAIL`, the list is `1, 2` and the cursor designates the node of `1`. Set
to `CONFIG_INSERT_SORTED`, `CONFIG_INSERT_NEXT` or `CONFIG_INSERT_PREV`, the cursor
designates the node of `2`. -/
theorem cursor_stays_on_head_tail_insert :
    scenario_insert_cursor CONFIG_INSERT_HEAD = some (0, [2, 1], some 1) ∧
      scenario_insert_cursor CONFIG_INSERT_TAIL = some (0, [1, 2], some 1) ∧
      scenario_insert_cursor CONFIG_INSERT_SORTED = some (0, [1, 2], some 2) ∧
      scenario_insert_cursor CONFIG_INSERT_NEXT = some (0, [1, 2], some 2) ∧
      scenario_insert_cursor CONFIG_INSERT_PREV = some (0, [1, 2], some 2) := by
  refine ⟨?_, ?_, ?_, ?_, ?_⟩ <;> decide

/-- C34. The cursor after a search under `CONFIG_SEARCH_LRU`: on a fresh handler, after
`insert` of `1`, `2`, `3`, `search(2)` returns `2` and leaves the list `2, 1, 3` with the
node of `2` at the head, and the cursor still designates the node of `3`. -/
theorem lru_search_leaves_the_cursor :
    scenario_lru_cursor = some (some 2, [2, 1, 3], some 2, some 3) := by decide

/-- C37. The removal of the node that `_iterate_cur` designates in a reverse iteration:
on the list `1, 2, 3, 4`, after `rewind(1)` and one call of `iterate`, which returns
`4`, the bookmark designates the node of `3`; after `delete(3)` the calls of `iterate`
return `NULL`, and `2` and `1` are never returned. After two calls, which return `4` and
`3`, and `delete(2)`, the calls return `3` again, then `1`, then `NULL`. On the list
`1, 2, 3`, after two calls, which return `3` and `2`, and `poph()`, which returns `1`,
the next call returns `2` again. In a forward iteration the same removals leave the
calls returning the payloads not yet returned, once each. -/
theorem reverse_iteration_breaks_on_removal :
    scenario_reverse_delete 1 3 = some ([some 4], some 3, 0, [none, none, none, none]) ∧
      scenario_reverse_delete 2 2 =
        some ([some 4, some 3], some 2, 0, [some 3, some 1, none, none]) ∧
      scenario_reverse_poph = some ([some 3, some 2], some 1, some 1, [some 2, none, none]) ∧
      scenario_forward_delete 1 2 = some ([some 1], some 2, 0, [some 3, some 4, none, none]) ∧
      scenario_forward_delete 2 3 =
        some ([some 1, some 2], some 3, 0, [some 4, none, none, none]) := by
  refine ⟨?_, ?_, ?_, ?_, ?_⟩ <;> decide

/-- C39. The index of the HMBT iteration after its end: on the handler `ex_hmbt`, of `11`
buckets, after `rewind(0)` the five calls of `iterate` return `0`, `22`, `11`, `3` and
`NULL`, and leave `_iterate_arr_pos = 11 = arr_size`; the bucket `array[11]` that one
more call reads does not exist. After `rewind(1)` the five calls return `3`, `11`, `22`,
`0` and `NULL` and leave `_iterate_arr_pos = 0`, and one more call returns `NULL`. -/
theorem hmbt_iterate_index_past_end :
    scenario_hmbt_iterate_past_end =
        some ([some 0, some 22, some 11, some 3, none], 11, 11, false, false) ∧
      scenario_hmbt_iterate_reverse_end =
        some ([some 3, some 11, some 22, some 0, none], 0, some none) := by decide

/-- C40. The round trip of a stack: after `push` of `1`, `2`, `3`, `serialize` writes the
prefix and `3`, `2`, `1` and returns `0`; `unserialize` of this stream into a fresh stack
returns `0` and leaves `3` payloads; the calls of `pop` return `3`, `2`, `1` on the first
stack and `1`, `2`, `3` on the second. On a queue the calls of `pop` return `1`, `2`, `3`
on both. -/
theorem lifo_round_trip_reverses :
    scenario_lifo_round_trip =
        some ([0, 0, 0, 3, 3, 2, 1], [0, 0, 3, 3], [some 3, some 2, some 1],
          [some 1, some 2, some 3]) ∧
      scenario_fifo_round_trip =
        some ([0, 0, 0, 3, 1, 2, 3], [0, 0, 3, 3], [some 1, some 2, some 3],
          [some 1, some 2, some 3]) := by
  refine ⟨?_, ?_⟩ <;> decide

/-- C32. The count of a tree after the insertion of a payload that compares equal to a
stored one: on a fresh tree compared by key, `insert(50)` and `insert(51)` both return
`0` and `count` returns `2`, but the iteration after `rewind(0)`, and after `rewind(1)`,
returns `50` and then `NULL`: `51` is not stored. With the same payload twice, `5` and
`5`, `count` returns `2` and the iteration returns `5` once. After `delete(50)`, which
returns `0`, `count` returns `1` and the iteration returns `NULL` at once. With the
payloads `7` and `5`, which do not compare equal, `count` returns `2` and the iteration
returns `5` and `7`. -/
theorem bst_counts_dropped_duplicates :
    scenario_bst compare_tens 50 51 0 = some ((0, 0), 2, [some 50, none, none]) ∧
      scenario_bst compare_tens 50 51 1 = some ((0, 0), 2, [some 50, none, none]) ∧
      scenario_bst compare_id 5 5 0 = some ((0, 0), 2, [some 5, none, none]) ∧
      scenario_bst_delete = some (0, 1, [none, none]) ∧
      scenario_bst compare_id 7 5 0 = some ((0, 0), 2, [some 5, some 7, none]) := by
  refine ⟨?_, ?_, ?_, ?_, ?_⟩ <;> decide

/-! ## The iteration bookmarks -/

/-- A node of the list is reached from the head by fewer than `_count` steps along
`next`. -/
theorem abs_linked {h : cll_handler α} {L : List (Nat × α)} (hA : Abs h L) {a : Nat}
    (ha : a ∈ L.map Prod.fst) :
    a ≠ 0 ∧ live h.mem a ∧ ∃ k, k < h._count ∧ iter_next h.mem k h.cll_head = some a := by
  have hL : L ≠ [] := by
    intro e
    rw [e] at ha
    simp at ha
  refine ⟨fun e => hA.heap.nonnull (e ▸ ha), ?_, ?_⟩
  · obtain ⟨p, hp, rfl⟩ := List.mem_map.1 ha
    unfold live
    have := hA.heap.data p hp
    unfold ld_data at this
    cases hm : h.mem p.1 with
    | none => rw [hm] at this; cases this
    | some e => rfl
  · obtain ⟨i, hi, hget⟩ := List.getElem_of_mem ha
    have hlen : (L.map Prod.fst).length = h._count := by rw [List.length_map, hA.count]
    have h0 : 0 < (L.map Prod.fst).length := by omega
    have hhd : h.cll_head = (L.map Prod.fst).get ⟨0, h0⟩ := by
      rw [hA.head]
      cases L with
      | nil => exact absurd rfl hL
      | cons x T => rfl
    have := iter_opt_ring (ld_next h.mem) (L.map Prod.fst) hA.heap.nodup
      (fun a ha => hA.heap.ring.next ha) i 0 h0
    refine ⟨i, by omega, ?_⟩
    unfold iter_next
    rw [hhd, this]
    congr 1
    rw [← hget]
    simp only [List.get_eq_getElem, Nat.zero_add]
    congr 1
    exact Nat.mod_eq_of_lt hi

theorem reachable_run1_iterate {h : cll_handler α} (hr : Reachable h)
    (hs : (pall_cll_iterate h).isSome = true) : Reachable (run1 h (pall_cll_iterate h)) := by
  cases e : pall_cll_iterate h with
  | none => rw [e] at hs; cases hs
  | some r => exact Reachable.iterate h r.1 r.2 hr e

theorem ex_three_iter_reachable : Reachable ex_three_iter := by
  have h0 : Reachable (pall_cll_rewind ex_three 0) := Reachable.rewind _ _ ex_three_reachable
  have h1 := reachable_run1_iterate h0 (by decide)
  exact reachable_run1_iterate h1 (by decide)

/-- C38. Iteration bookmarks never dangle: in every reachable state `_iterate_start` and
`_iterate_cur` are both `NULL`, or both are allocated nodes, not `NULL`, that are reached
from the head by fewer than `_count` steps along `next`; and both are `NULL` when the
list is empty, that is when `_count` is `0`, when the cursor is `NULL` or when the head is
`NULL`. -/
theorem bookmarks_never_dangle {h : cll_handler α} (hr : Reachable h) :
    ((h._iterate_start = 0 ∧ h._iterate_cur = 0) ∨
      ((h._iterate_start ≠ 0 ∧ live h.mem h._iterate_start ∧
          ∃ k, k < h._count ∧ iter_next h.mem k h.cll_head = some h._iterate_start) ∧
        (h._iterate_cur ≠ 0 ∧ live h.mem h._iterate_cur ∧
          ∃ k, k < h._count ∧ iter_next h.mem k h.cll_head = some h._iterate_cur))) ∧
      ((h._count = 0 ∨ h.cll = 0 ∨ h.cll_head = 0) →
        h._iterate_start = 0 ∧ h._iterate_cur = 0) := by
  obtain ⟨L, hA⟩ := reachable_abs hr
  constructor
  · rcases hA.marks with hm | ⟨h1, h2⟩
    · exact Or.inl hm
    · exact Or.inr ⟨abs_linked hA h1, abs_linked hA h2⟩
  · intro he
    have hL : L = [] := by
      rcases he with he | he | he
      · rw [hA.count] at he
        exact List.length_eq_zero.1 he
      · exact hA.cll_eq_zero_iff.1 he
      · exact hA.head_eq_zero_iff.1 he
    rcases hA.marks with hm | ⟨h1, _⟩
    · exact hm
    · rw [hL] at h1
      simp at h1

theorem bookmarks_never_dangle_witness :
    Reachable ex_three_iter ∧
      ((ex_three_iter._iterate_start = 0 ∧ ex_three_iter._iterate_cur = 0) ∨
        ((ex_three_iter._iterate_start ≠ 0 ∧ live ex_three_iter.mem ex_three_iter._iterate_start ∧
            ∃ k, k < ex_three_iter._count ∧
              iter_next ex_three_iter.mem k ex_three_iter.cll_head =
                some ex_three_iter._iterate_start) ∧
          (ex_three_iter._iterate_cur ≠ 0 ∧ live ex_three_iter.mem ex_three_iter._iterate_cur ∧
            ∃ k, k < ex_three_iter._count ∧
              iter_next ex_three_iter.mem k ex_three_iter.cll_head =
                some ex_three_iter._iterate_cur))) ∧
      ((ex_three_iter._count = 0 ∨ ex_three_iter.cll = 0 ∨ ex_three_iter.cll_head = 0) →
        ex_three_iter._iterate_start = 0 ∧ ex_three_iter._iterate_cur = 0) :=
  ⟨ex_three_iter_reachable, bookmarks_never_dangle ex_three_iter_reachable⟩

/-- The bookmarks of the handler `ex_three_iter`: the iteration has started at the node
`1` and will return the node `2` next. -/
theorem ex_three_iter_marks :
    ex_three_iter._iterate_start = 1 ∧ ex_three_iter._iterate_cur = 2 ∧
      head_to_tail ex_three_iter = [10, 30, 20] := by decide

/-! ## Insertion next to the cursor -/

/-- The node at the position `pre.length` of the list is reached from the head by
`pre.length` steps along `next`. -/
theorem abs_iter_next_split {h : cll_handler α} {pre post : List (Nat × α)} {c : Nat} {d : α}
    (hA : Abs h (pre ++ (c, d) :: post)) :
    iter_next h.mem pre.length h.cll_head = some c := by
  have hlen : pre.length < ((pre ++ (c, d) :: post).map Prod.fst).length := by simp
  have h0 : 0 < ((pre ++ (c, d) :: post).map Prod.fst).length := by omega
  have hhd : h.cll_head = ((pre ++ (c, d) :: post).map Prod.fst).get ⟨0, h0⟩ := by
    rw [hA.head]
    cases pre <;> rfl
  have := iter_opt_ring (ld_next h.mem) ((pre ++ (c, d) :: post).map Prod.fst) hA.heap.nodup
    (fun a ha => hA.heap.ring.next ha) pre.length 0 h0
  unfold iter_next
  rw [hhd, this]
  congr 1
  rw [List.get_eq_getElem, List.getElem_eq_iff]
  show ((pre ++ (c, d) :: post).map Prod.fst)[(0 + pre.length) %
    ((pre ++ (c, d) :: post).map Prod.fst).length]? = some c
  rw [Nat.zero_add, Nat.mod_eq_of_lt hlen, List.map_append, List.map_cons]
  have := getElem?_append_cons (pre.map Prod.fst) (post.map Prod.fst) c
  rw [List.length_map] at this
  exact this

/-- Two lists that the same heap holds, with the same head, have the same payloads at
every other address than `n` when one is the other with the node `n` added. -/
theorem heapabs_data_frame {m w : Heap α} {L L2 : List (Nat × α)} (hA : HeapAbs m L)
    (hA2 : HeapAbs w L2) {n : Nat} {x : α} (hp : L2.Perm ((n, x) :: L)) (a : Nat)
    (ha : a ≠ n) : ld_data w a = ld_data m a := by
  by_cases hm : a ∈ L.map Prod.fst
  · obtain ⟨p, hp1, rfl⟩ := List.mem_map.1 hm
    rw [hA.data p hp1, hA2.data p (hp.mem_iff.2 (List.mem_cons_of_mem _ hp1))]
  · have h1 : m a = none := hA.exact a hm
    have h2 : w a = none := by
      apply hA2.exact a
      intro hc
      obtain ⟨p, hp1, rfl⟩ := List.mem_map.1 hc
      rcases List.mem_cons.1 (hp.mem_iff.1 hp1) with e | e
      · exact ha (by rw [e])
      · exact hm (List.mem_map_of_mem _ e)
    unfold ld_data
    rw [h1, h2]

/-- The function pointer `insert` that `set_config` installs for a flag word that holds
none of `CONFIG_INSERT_TAIL`, `CONFIG_INSERT_HEAD` and `CONFIG_INSERT_SORTED`. -/
theorem _cll_set_config_plain (h : cll_handler α) (flags : Nat)
    (h1 : flags % 4294967296 &&& CONFIG_INSERT_TAIL = 0)
    (h2 : flags % 4294967296 &&& CONFIG_INSERT_HEAD = 0)
    (h3 : flags % 4294967296 &&& CONFIG_INSERT_SORTED = 0) :
    (pall_cll_set_config h flags).1.insert = insert_fn.cll_insert ∧
      (pall_cll_set_config h flags).1._config_flags = flags % 4294967296 := by
  unfold pall_cll_set_config _cll_set_config
  dsimp only
  rw [if_neg (not_not.2 h1), if_neg (not_not.2 h2), if_neg (not_not.2 h3)]
  exact ⟨rfl, rfl⟩

/-- C35. Cursor-relative insertion: in a reachable state of a non-empty list whose
function pointer `insert` is `_cll_insert` (the one that `set_config` installs for flags
with none of `CONFIG_INSERT_TAIL`, `CONFIG_INSERT_HEAD`, `CONFIG_INSERT_SORTED`), with the
cursor at the node `c` of payload `d`, which stands after the payloads `pre` and before
the payloads `post` in the head-to-tail sequence, an `insert(x)` whose allocation returns
the free block `n` returns `0`. The new node `n` holds `x`; under `CONFIG_INSERT_NEXT`
`n.prev = c`, `n.next` is the former `c.next` and the sequence is `pre, d, x, post`;
otherwise `n.next = c`, `n.prev` is the former `c.prev` and the sequence is
`pre, x, d, post`, or `d, post, x` when `c` is the head. The cursor is `n`, the head is
unchanged, `_count` goes up by one and the payload of every other node is unchanged. -/
theorem cursor_relative_insert {h : cll_handler α} (hr : Reachable h)
    (hi : h.insert = insert_fn.cll_insert) (hne : h.cll ≠ 0) (x : α) (n : Nat) (hn : n ≠ 0)
    (hf : h.mem n = none) (fuel : Nat) :
    ∃ h2 d pre post, pall_cll_insert fuel h x n = some (h2, 0) ∧
      head_to_tail h = pre ++ d :: post ∧ ld_data h.mem h.cll = some d ∧
      iter_next h.mem pre.length h.cll_head = some h.cll ∧
      h2.cll = n ∧ ld_data h2.mem n = some x ∧ h2.cll_head = h.cll_head ∧
      h2._count = h._count + 1 ∧ (∀ a, a ≠ n → ld_data h2.mem a = ld_data h.mem a) ∧
      (h._config_flags &&& CONFIG_INSERT_NEXT ≠ 0 →
        ld_prev h2.mem n = some h.cll ∧ ld_next h2.mem n = ld_next h.mem h.cll ∧
        head_to_tail h2 = pre ++ d :: x :: post) ∧
      (h._config_flags &&& CONFIG_INSERT_NEXT = 0 →
        ld_next h2.mem n = some h.cll ∧ ld_prev h2.mem n = ld_prev h.mem h.cll ∧
        (pre ≠ [] → head_to_tail h2 = pre ++ x :: d :: post) ∧
        (pre = [] → head_to_tail h2 = d :: post ++ [x])) := by
  obtain ⟨L, hA⟩ := reachable_abs hr
  have e0 : pall_cll_insert fuel h x n = _cll_insert h x n := by
    unfold pall_cll_insert
    simp only [hi]
  rw [e0]
  have hL : L ≠ [] := fun e => hne (hA.cll_eq_zero_iff.2 e)
  have hcur : h.cll ∈ L.map Prod.fst := by
    rcases hA.cur with ⟨e, _⟩ | hm
    · exact absurd e hL
    · exact hm
  obtain ⟨pre, d, post, rfl⟩ := split_of_mem_fst hcur
  have hcnt : ∀ g : cll_handler α, (insert_account g)._count = g._count + 1 := by
    intro g
    unfold insert_account
    dsimp only
    split_ifs <;> rfl
  have hmem : ∀ g : cll_handler α, (insert_account g).mem = g.mem ∧
      (insert_account g).cll = g.cll ∧ (insert_account g).cll_head = g.cll_head := by
    intro g
    unfold insert_account
    dsimp only
    split_ifs <;> exact ⟨rfl, rfl, rfl⟩
  have hd0 : ld_data h.mem h.cll = some d := hA.heap.dat pre post
  have hpos := abs_iter_next_split hA
  have hn0 := hA.heap.hnext pre post
  have hp0 := hA.heap.hprev pre post
  by_cases hfl : h._config_flags &&& CONFIG_INSERT_NEXT ≠ 0
  · obtain ⟨m1, e1, a1⟩ := _cll_insert_spec_next hA x n hn hf hfl
    have a1h : HeapAbs m1 ((pre ++ [(h.cll, d)]) ++ (n, x) :: post) := by
      have := a1.heap
      rw [(hmem _).1] at this
      simpa using this
    refine ⟨_, d, pre.map Prod.snd, post.map Prod.snd, e1, ?_, hd0, ?_, (hmem _).2.1, ?_,
      (hmem _).2.2, hcnt _, ?_, ?_, fun hc => absurd hc hfl⟩
    · rw [abs_head_to_tail hA]; simp
    · simpa using hpos
    · rw [(hmem _).1]; exact a1h.dat _ _
    · intro a ha
      rw [(hmem _).1]
      refine heapabs_data_frame (x := x) hA.heap (w := m1) (by simpa using a1h) ?_ a ha
      simpa using (@List.perm_middle _ (n, x) (pre ++ [(h.cll, d)]) post)
    · intro _
      refine ⟨?_, ?_, ?_⟩
      · rw [(hmem _).1, a1h.hprev]
        simp
      · rw [(hmem _).1, a1h.hnext, hn0]
        rcases post with _ | ⟨q, post⟩
        · rcases pre with _ | ⟨p, pre⟩ <;> simp
        · simp
      · rw [abs_head_to_tail a1]; simp
  · have hfl0 : h._config_flags &&& CONFIG_INSERT_NEXT = 0 := not_not.1 hfl
    rcases pre with _ | ⟨p, pre⟩
    · obtain ⟨m1, e1, a1⟩ := _cll_insert_spec_prev_head (by simpa using hA) x n hn hf hfl
      have a1h : HeapAbs m1 (((h.cll, d) :: post) ++ (n, x) :: []) := by
        have := a1.heap
        rw [(hmem _).1] at this
        simpa using this
      refine ⟨_, d, [], post.map Prod.snd, e1, ?_, hd0, ?_, (hmem _).2.1, ?_,
        (hmem _).2.2, hcnt _, ?_, fun hc => absurd hc hfl, ?_⟩
      · rw [abs_head_to_tail hA]; simp
      · simpa using hpos
      · rw [(hmem _).1]; exact a1h.dat _ _
      · intro a ha
        rw [(hmem _).1]
        refine heapabs_data_frame (x := x) hA.heap (w := m1) (by simpa using a1h) ?_ a ha
        simpa using (@List.perm_middle _ (n, x) ((h.cll, d) :: post) []).symm.symm
      · intro _
        refine ⟨?_, ?_, fun hc => absurd rfl hc, fun _ => ?_⟩
        · rw [(hmem _).1, a1h.hnext]
          simp
        · rw [(hmem _).1, a1h.hprev, hp0]
          rcases post with _ | ⟨q, post⟩ <;> simp
        · rw [abs_head_to_tail a1]; simp
    · obtain ⟨m1, e1, a1⟩ := _cll_insert_spec_prev (by simpa using hA) x n hn hf hfl
      have a1h : HeapAbs m1 ((p :: pre) ++ (n, x) :: ((h.cll, d) :: post)) := by
        have := a1.heap
        rw [(hmem _).1] at this
        simpa using this
      refine ⟨_, d, (p :: pre).map Prod.snd, post.map Prod.snd, e1, ?_, hd0, ?_, (hmem _).2.1,
        ?_, (hmem _).2.2, hcnt _, ?_, fun hc => absurd hc hfl, ?_⟩
      · rw [abs_head_to_tail hA]; simp
      · simpa using hpos
      · rw [(hmem _).1]; exact a1h.dat _ _
      · intro a ha
        rw [(hmem _).1]
        refine heapabs_data_frame (x := x) hA.heap (w := m1) (by simpa using a1h) ?_ a ha
        simpa using (@List.perm_middle _ (n, x) (p :: pre) ((h.cll, d) :: post))
      · intro _
        refine ⟨?_, ?_, fun _ => ?_, fun hc => by simp at hc⟩
        · rw [(hmem _).1, a1h.hnext]
          simp
        · rw [(hmem _).1, a1h.hprev, hp0]
          simp
        · rw [abs_head_to_tail a1]; simp

theorem cursor_relative_insert_witness :
    Reachable ex_three ∧ ex_three.insert = insert_fn.cll_insert ∧ ex_three.cll ≠ 0 ∧
      (4 : Nat) ≠ 0 ∧ ex_three.mem 4 = none ∧
      ∃ h2 d pre post, pall_cll_insert 0 ex_three 40 4 = some (h2, 0) ∧
        head_to_tail ex_three = pre ++ d :: post ∧
        ld_data ex_three.mem ex_three.cll = some d ∧
        iter_next ex_three.mem pre.length ex_three.cll_head = some ex_three.cll ∧
        h2.cll = 4 ∧ ld_data h2.mem 4 = some 40 ∧ h2.cll_head = ex_three.cll_head ∧
        h2._count = ex_three._count + 1 ∧
        (∀ a, a ≠ 4 → ld_data h2.mem a = ld_data ex_three.mem a) ∧
        (ex_three._config_flags &&& CONFIG_INSERT_NEXT ≠ 0 →
          ld_prev h2.mem 4 = some ex_three.cll ∧
          ld_next h2.mem 4 = ld_next ex_three.mem ex_three.cll ∧
          head_to_tail h2 = pre ++ d :: 40 :: post) ∧
        (ex_three._config_flags &&& CONFIG_INSERT_NEXT = 0 →
          ld_next h2.mem 4 = some ex_three.cll ∧
          ld_prev h2.mem 4 = ld_prev ex_three.mem ex_three.cll ∧
          (pre ≠ [] → head_to_tail h2 = pre ++ 40 :: d :: post) ∧
          (pre = [] → head_to_tail h2 = d :: post ++ [40])) :=
  ⟨ex_three_reachable, rfl, by decide, by decide, rfl,
    cursor_relative_insert ex_three_reachable rfl (by decide) 40 4 (by decide) rfl 0⟩

/-! ## The search under `CONFIG_SEARCH_LRU` -/

/-- `_cll_search` under `CONFIG_SEARCH_LRU`: the walk starts at the head; either no payload
compares equal to the key and nothing but the counter `search_nf` changes, or the first
node of the visit whose payload compares equal to the key is moved to the head. Without
`CONFIG_SEARCH_BACKWARD` the visit goes from head to tail. -/
theorem _cll_search_lru {h : cll_handler α} {L : List (Nat × α)} (hA : Abs h L)
    (hl : h._config_flags &&& CONFIG_SEARCH_LRU ≠ 0) {cmp : α → α → Int}
    (hc : h.compare = some cmp) (data : α) (fuel : Nat) (hf : L.length ≤ fuel) :
    ((∀ p ∈ L, cmp data p.2 ≠ 0) ∧ _cll_search fuel h data = some (search_miss h)) ∨
      (∃ pre q dq post m2, L = pre ++ (q, dq) :: post ∧ cmp data dq = 0 ∧
        (h._config_flags &&& CONFIG_SEARCH_BACKWARD = 0 → ∀ p ∈ pre, cmp data p.2 ≠ 0) ∧
        _cll_search fuel h data = some
          ({ h with mem := m2, cll_head := q,
                    _stat := { h._stat with search := h._stat.search + 1 } }, some dq) ∧
        Abs ({ h with mem := m2, cll_head := q,
                      _stat := { h._stat with search := h._stat.search + 1 } })
          ((q, dq) :: pre ++ post)) := by
  rcases L with _ | ⟨⟨hd, d0⟩, rest⟩
  · left
    refine ⟨by simp, ?_⟩
    unfold _cll_search
    rw [if_pos hA.cll_zero]
    rfl
  · have hz : h.cll ≠ 0 := hA.cll_ne_zero (by simp)
    have hhd : h.cll_head = hd := by simpa using hA.head
    have e1 : search_start h data = some (h, hd) := by
      unfold search_start
      simp [hl, hhd]
    have key : _cll_search fuel h data = _cll_search_loop data hd fuel h hd := by
      unfold _cll_search
      simp [hz, e1]
    have hw := walk_spec [] rest (hd, d0) (by simpa using hA.heap) hc data fuel
      (by simpa using hf)
    rw [key, _cll_search_loop_eq]
    have hperm := search_order_perm h [] (hd, d0) rest
    rcases hfind : (search_order h [] (hd, d0) rest).find?
      (fun p => decide (cmp data p.2 = 0)) with _ | ⟨q, dq⟩
    · rw [hfind] at hw
      rw [hw]
      left
      refine ⟨?_, rfl⟩
      intro p hp
      have := List.find?_eq_none.1 hfind p (hperm.mem_iff.2 (by simpa using hp))
      simpa using this
    · rw [hfind] at hw
      rw [hw]
      right
      have hz0 : cmp data dq = 0 := by
        have := List.find?_some hfind
        simpa using this
      have hsplit : ∃ pre post, (hd, d0) :: rest = pre ++ (q, dq) :: post ∧
          (h._config_flags &&& CONFIG_SEARCH_BACKWARD = 0 → ∀ p ∈ pre, cmp data p.2 ≠ 0) := by
        by_cases hb : h._config_flags &&& CONFIG_SEARCH_BACKWARD = 0
        · obtain ⟨-, as, bs, hab, hnot⟩ := List.find?_eq_some.1 hfind
          have ho : search_order h [] (hd, d0) rest = (hd, d0) :: rest := by
            simp [search_order, hb]
          rw [ho] at hab
          refine ⟨as, bs, hab, fun _ p hp => ?_⟩
          have := hnot p hp
          simpa using this
        · have hm : (q, dq) ∈ (hd, d0) :: rest := by
            have := hperm.mem_iff.1 (List.mem_of_find?_eq_some hfind)
            simpa using this
          obtain ⟨pre, post, e⟩ := List.append_of_mem hm
          exact ⟨pre, post, e, fun hc => absurd hc hb⟩
      obtain ⟨pre, post, hL, hfirst⟩ := hsplit
      rw [hL] at hA
      obtain ⟨m2, e2, a2⟩ := search_hit_lru pre post hA hl
      exact ⟨pre, q, dq, post, m2, hL, hz0, hfirst, e2, a2⟩

/-- C36. An LRU search moves only the matched node: in every reachable state with
`CONFIG_SEARCH_LRU` set and a compare callback `cmp`, `pall_cll_search` returns within
`_count` turns; `_count`, both iteration bookmarks and the cursor are unchanged and the
head-to-tail sequence is a permutation of the former one. When it returns `NULL`, no
stored payload compares equal to `k` and the sequence and the head are unchanged. When it
returns `p`, the former sequence is `pre, p, post`, `p` compares equal to `k`, the
sequence is `p, pre, post` afterwards with `p` at the head, and, `CONFIG_SEARCH_BACKWARD`
being clear, no payload of `pre` compares equal to `k`: `p` is the first one from the
head. Without a compare callback the search returns `NULL` and changes nothing. -/
theorem lru_search_moves_only_match {h : cll_handler α} (hr : Reachable h)
    (hl : h._config_flags &&& CONFIG_SEARCH_LRU ≠ 0) (k : α) :
    (∀ cmp, h.compare = some cmp →
      ∃ h2 r, pall_cll_search h._count h k = some (h2, r) ∧
        h2._count = h._count ∧ h2._iterate_start = h._iterate_start ∧
        h2._iterate_cur = h._iterate_cur ∧ h2.cll = h.cll ∧
        (head_to_tail h2).Perm (head_to_tail h) ∧
        (r = none → (∀ p ∈ head_to_tail h, cmp k p ≠ 0) ∧
          head_to_tail h2 = head_to_tail h ∧ h2.cll_head = h.cll_head) ∧
        (∀ p, r = some p → ∃ pre post, head_to_tail h = pre ++ p :: post ∧ cmp k p = 0 ∧
          head_to_tail h2 = p :: pre ++ post ∧ head_data h2 = some p ∧
          (h._config_flags &&& CONFIG_SEARCH_BACKWARD = 0 → ∀ y ∈ pre, cmp k y ≠ 0))) ∧
      (h.compare = none → ∀ fuel, pall_cll_search fuel h k = some (h, none)) := by
  obtain ⟨L, hA⟩ := reachable_abs hr
  have hsf := reachable_search hr
  constructor
  · intro cmp hc
    have hs : h.search = search_fn.cll_search := by
      rw [hsf, hc]; rfl
    have e0 : pall_cll_search h._count h k = _cll_search h._count h k := by
      unfold pall_cll_search
      simp only [hs]
    rw [e0, abs_head_to_tail hA]
    rcases _cll_search_lru hA hl hc k h._count (le_of_eq hA.count.symm) with
      ⟨hall, e⟩ | ⟨pre, q, dq, post, m2, hL, hz, hfirst, e, a2⟩
    · rw [e]
      have a1 : Abs (search_miss h).1 L := abs_congr hA rfl rfl rfl rfl rfl rfl
      have h1t : head_to_tail (search_miss h).1 = L.map Prod.snd := abs_head_to_tail a1
      refine ⟨_, _, rfl, rfl, rfl, rfl, rfl, ?_, ?_, fun p hp => by cases hp⟩
      · show (head_to_tail (search_miss h).1).Perm _
        rw [h1t]
      · intro _
        refine ⟨?_, h1t, rfl⟩
        intro p hp
        obtain ⟨x, hx, rfl⟩ := List.mem_map.1 hp
        exact hall x hx
    · rw [e]
      have h2t := abs_head_to_tail a2
      refine ⟨_, _, rfl, rfl, rfl, rfl, rfl, ?_, (fun hc => by cases hc), ?_⟩
      · rw [h2t, hL]
        exact (List.perm_middle.symm).map _
      · intro p hp
        simp only [Option.some.injEq] at hp
        subst hp
        refine ⟨pre.map Prod.snd, post.map Prod.snd, by rw [hL]; simp, hz,
          by rw [h2t]; simp, abs_head_data a2, ?_⟩
        intro hb y hy
        obtain ⟨x, hx, rfl⟩ := List.mem_map.1 hy
        exact hfirst hb x hx
  · intro hc fuel
    have hs : h.search = search_fn.cll_search_nop := by
      rw [hsf, hc]; rfl
    unfold pall_cll_search
    simp only [hs]
    rfl

theorem lru_search_moves_only_match_witness :
    Reachable ex_three ∧ ex_three._config_flags &&& CONFIG_SEARCH_LRU ≠ 0 ∧
      (∀ cmp, ex_three.compare = some cmp →
        ∃ h2 r, pall_cll_search ex_three._count ex_three 20 = some (h2, r) ∧
          h2._count = ex_three._count ∧ h2._iterate_start = ex_three._iterate_start ∧
          h2._iterate_cur = ex_three._iterate_cur ∧ h2.cll = ex_three.cll ∧
          (head_to_tail h2).Perm (head_to_tail ex_three) ∧
          (r = none → (∀ p ∈ head_to_tail ex_three, cmp 20 p ≠ 0) ∧
            head_to_tail h2 = head_to_tail ex_three ∧ h2.cll_head = ex_three.cll_head) ∧
          (∀ p, r = some p → ∃ pre post, head_to_tail ex_three = pre ++ p :: post ∧
            cmp 20 p = 0 ∧ head_to_tail h2 = p :: pre ++ post ∧ head_data h2 = some p ∧
            (ex_three._config_flags &&& CONFIG_SEARCH_BACKWARD = 0 →
              ∀ y ∈ pre, cmp 20 y ≠ 0))) ∧
      (ex_three.compare = none → ∀ fuel, pall_cll_search fuel ex_three 20 =
        some (ex_three, none)) :=
  ⟨ex_three_reachable, by decide, lru_search_moves_only_match ex_three_reachable (by decide) 20⟩

/-- With `CONFIG_SEARCH_BACKWARD` set next to `CONFIG_SEARCH_LRU` the payload found is not
the first one from the head: on the list `10, 20, 21` compared by key, `search(20)`
returns `21`, the last payload that compares equal to `20`, and leaves `21, 10, 20`.
Without `CONFIG_SEARCH_BACKWARD` it returns `20` and leaves `20, 10, 21`. -/
theorem lru_backward_finds_last_match :
    scenario_lru_order CONFIG_SEARCH_BACKWARD = some ([10, 20, 21], some 21, [21, 10, 20]) ∧
      scenario_lru_order 0 = some ([10, 20, 21], some 20, [20, 10, 21]) ∧
      compare_tens 20 20 = 0 ∧ compare_tens 20 21 = 0 := by
  refine ⟨?_, ?_, ?_, ?_⟩ <;> decide

end Pall
